import Mathlib

/-! Icecream_sim: the event loop of `main.cpp`.

A shallow embedding of the discrete-event simulation in `src/main.cpp`; line numbers in
the comments refer to that file.

Modelling conventions.

* `Clock = double` values are rationals `ℚ`.  The loop is given twice: with exact
  arithmetic (`loopIter`, `Exec`), and, under the names ending in `D` (`loopIterD`,
  `ExecD`), with the result of every floating-point operation passed through a rounding
  function `rd`; `roundDouble` is IEEE 754 binary64 round to nearest, ties to even
  (infinities and NaN are not modelled), and `rd = id` gives the exact loop back
  (`loopIterD_id`).  Statements that depend on the value of a rounded sum are proved on
  the second form.
* `int` values (customer ids, server ids, counters) are modelled by `Int`; no run
  considered here comes near the 32-bit range.
* The three distributions share the engine `rng`; a draw maps an engine state to a
  value and the next engine state (`Config.interarrival_dist` and its siblings).
* `priority_queue<Event>` orders events by `time` only, so `top()` may return any
  pending event of least time.  The queue is a list of pending events and one loop
  iteration is indexed by the position of the event that `top()` returns
  (`isTop`).  Nothing depends on the order of the list.
* Indexing a vector outside its bounds is undefined behaviour: the handlers return
  `none` there.  The theorem `progress` shows that no run gets there.
-/

namespace IcecreamSim

/-! ## Data model (lines 5-24) -/

/-- The `enum class EventType`. -/
inductive EventType where
  | ARRIVAL
  | DEPARTURE
deriving DecidableEq, Repr

/-- The `struct Event`; `serverId` is `-1` for arrivals. -/
structure Event where
  time : ℚ
  type : EventType
  customerId : Int
  serverId : Int
deriving DecidableEq

/-- The `struct Customer`, with its default member initialisers. -/
structure Customer where
  id : Int
  arrivalTime : ℚ
  serviceStart : ℚ := -1
  departureTime : ℚ := -1
  scoops : Int := 1
deriving DecidableEq

/-- The run parameters of `main` (lines 31-44).  `arrivalRatePerMin` and
`avgServiceMin` only parametrise the distributions, which are given here as draw
functions on the engine state `R`; `scoops_dist` returns the index drawn by the
`discrete_distribution` (the code adds one). -/
structure Config (R : Type) where
  numServers : Nat
  pricePerScoop : ℚ
  SIM_MINUTES : ℚ
  seed : R
  interarrival_dist : R → ℚ × R
  service_dist : R → ℚ × R
  scoops_dist : R → Int × R

/-- The local variables of `main` that the loop reads and writes (lines 46-68),
with `stopped` recording that the loop was left through `break` (line 73). -/
structure State (R : Type) where
  events : List Event
  waitingQueue : List Int
  customers : List Customer
  serverBusy : List Bool
  serverServingCustomer : List Int
  t : ℚ
  nextCustId : Int
  totalWaitingTime : ℚ
  totalServiceTime : ℚ
  servedCount : Int
  totalRevenue : ℚ
  idleTimeAcc : ℚ
  serverLastFreeTime : List ℚ
  rng : R
  stopped : Bool
deriving DecidableEq

/-! ## Vector access with an `int` index -/

/-- Reading `xs[i]` for an `int` index; `none` outside the bounds. -/
def getAt {α : Type} (xs : List α) (i : Int) : Option α :=
  if 0 ≤ i then xs[i.toNat]? else none

/-- Writing `xs[i] = v` for an `int` index; `none` outside the bounds. -/
def setAt {α : Type} (xs : List α) (i : Int) (v : α) : Option (List α) :=
  if 0 ≤ i ∧ i.toNat < xs.length then some (xs.set i.toNat v) else none

/-! ## Initialisation (lines 46-68) -/

/-- The state on entry to the `while` loop: the first customer is created and its
arrival is scheduled at `t = 0`. -/
def initState {R : Type} (cfg : Config R) : State R where
  events := [{ time := 0, type := EventType.ARRIVAL, customerId := 0, serverId := -1 }]
  waitingQueue := []
  customers := [{ id := 0, arrivalTime := 0 }]
  serverBusy := List.replicate cfg.numServers false
  serverServingCustomer := List.replicate cfg.numServers (-1)
  t := 0
  nextCustId := 1
  totalWaitingTime := 0
  totalServiceTime := 0
  servedCount := 0
  totalRevenue := 0
  idleTimeAcc := 0
  serverLastFreeTime := List.replicate cfg.numServers 0
  rng := cfg.seed
  stopped := false

/-! ## The loop body (lines 70-154) -/

/-- The scan of lines 86-89, resumed at index `i` with `k` indices left:
the first `i` with `!serverBusy[i]`, or `-1`. -/
def scanFree (serverBusy : List Bool) : Nat → Nat → Int
  | _, 0 => -1
  | i, k + 1 => if serverBusy[i]? = some false then (i : Int) else scanFree serverBusy (i + 1) k

/-- Lines 86-89: `freeServer`, the lowest index below `numServers` that is not busy,
or `-1`. -/
def findFreeServer (numServers : Nat) (serverBusy : List Bool) : Int :=
  scanFree serverBusy 0 numServers

/-- Lines 93-104 and, with `nextCid`/`sid` for `cid`/`freeServer`, lines 139-149:
mark the server busy, record the occupant and the service start, draw the scoop
count and then the base duration, add the scaled duration to `totalServiceTime` and
push the departure. -/
def startService {R : Type} (cfg : Config R) (s : State R) (cid sid : Int) :
    Option (State R) :=
  match setAt s.serverBusy sid true, setAt s.serverServingCustomer sid cid,
      getAt s.customers cid with
  | some busy, some serving, some c =>
    let scoops := (cfg.scoops_dist s.rng).1 + 1
    let rng1 := (cfg.scoops_dist s.rng).2
    let serviceTime := (cfg.service_dist rng1).1 * (scoops : ℚ)
    let rng2 := (cfg.service_dist rng1).2
    let departureT := s.t + serviceTime
    some { s with
      serverBusy := busy
      serverServingCustomer := serving
      customers := s.customers.set cid.toNat { c with serviceStart := s.t, scoops := scoops }
      totalServiceTime := s.totalServiceTime + serviceTime
      events := s.events ++
        [{ time := departureT, type := EventType.DEPARTURE, customerId := cid, serverId := sid }]
      rng := rng2 }
  | _, _, _ => none

/-- Lines 77-83: record the arrival time of customer `cid` (the `push_back` branch is
the safeguard of line 80). -/
def recordArrival {R : Type} (s : State R) (cid : Int) : Option (State R) :=
  if (s.customers.length : Int) ≤ cid then
    some { s with customers := s.customers ++ [{ id := cid, arrivalTime := s.t }] }
  else
    match getAt s.customers cid with
    | some c => some { s with customers := s.customers.set cid.toNat { c with arrivalTime := s.t } }
    | none => none

/-- Lines 113-120: draw the next gap and, when `t + ia <= SIM_MINUTES`, create the
next customer and schedule its arrival. -/
def scheduleNext {R : Type} (cfg : Config R) (s : State R) : State R :=
  let ia := (cfg.interarrival_dist s.rng).1
  let rng1 := (cfg.interarrival_dist s.rng).2
  let nextT := s.t + ia
  if nextT ≤ cfg.SIM_MINUTES then
    { s with
      rng := rng1
      nextCustId := s.nextCustId + 1
      customers := s.customers ++ [{ id := s.nextCustId, arrivalTime := nextT }]
      events := s.events ++
        [{ time := nextT, type := EventType.ARRIVAL, customerId := s.nextCustId, serverId := -1 }] }
  else
    { s with rng := rng1 }

/-- Lines 76-120: the `ARRIVAL` branch, entered with the event already popped and
`t` set to its time. -/
def handleArrival {R : Type} (cfg : Config R) (s : State R) (ev : Event) :
    Option (State R) :=
  match recordArrival s ev.customerId with
  | none => none
  | some s1 =>
    let freeServer := findFreeServer cfg.numServers s1.serverBusy
    if 0 ≤ freeServer then
      match startService cfg s1 ev.customerId freeServer,
          getAt s1.serverLastFreeTime freeServer with
      | some s2, some lastFree =>
        some (scheduleNext cfg
          { s2 with idleTimeAcc := s2.idleTimeAcc + max 0 (s1.t - lastFree) })
      | _, _ => none
    else
      some (scheduleNext cfg { s1 with waitingQueue := s1.waitingQueue ++ [ev.customerId] })

/-- Lines 123-134: record the departure time, free the server and update the
totals. -/
def recordDeparture {R : Type} (cfg : Config R) (s : State R) (ev : Event) :
    Option (State R) :=
  match getAt s.customers ev.customerId, setAt s.serverBusy ev.serverId false,
      setAt s.serverServingCustomer ev.serverId (-1),
      setAt s.serverLastFreeTime ev.serverId s.t with
  | some c, some busy, some serving, some lastFree =>
    let wait := c.serviceStart - c.arrivalTime
    some { s with
      customers := s.customers.set ev.customerId.toNat { c with departureTime := s.t }
      serverBusy := busy
      serverServingCustomer := serving
      serverLastFreeTime := lastFree
      totalWaitingTime := s.totalWaitingTime + max 0 wait
      servedCount := s.servedCount + 1
      totalRevenue := s.totalRevenue + (c.scoops : ℚ) * cfg.pricePerScoop }
  | _, _, _, _ => none

/-- Lines 123-152: the `DEPARTURE` branch, entered with the event already popped and
`t` set to its time. -/
def handleDeparture {R : Type} (cfg : Config R) (s : State R) (ev : Event) :
    Option (State R) :=
  match recordDeparture cfg s ev with
  | none => none
  | some s1 =>
    match s1.waitingQueue with
    | [] => some s1
    | nextCid :: rest => startService cfg { s1 with waitingQueue := rest } nextCid ev.serverId

/-- The event at position `i` is one that `events.top()` may return: no pending
event has a smaller time (lines 12-15). -/
def isTop (evs : List Event) (i : Nat) : Prop :=
  ∃ ev, evs[i]? = some ev ∧ ∀ e ∈ evs, ev.time ≤ e.time

/-- Lines 71-72: `ev` (at position `i`) is popped and the clock is set to its time. -/
def popEvent {R : Type} (s : State R) (i : Nat) (ev : Event) : State R :=
  { s with events := s.events.eraseIdx i, t := ev.time }

/-- Lines 71-153: one iteration of the loop in which `top()` returns the event at
position `i` of the queue. -/
def loopIter {R : Type} (cfg : Config R) (s : State R) (i : Nat) : Option (State R) :=
  match s.events[i]? with
  | none => none
  | some ev =>
    if ev.time > cfg.SIM_MINUTES then some { popEvent s i ev with stopped := true }
    else
      match ev.type with
      | EventType.ARRIVAL => handleArrival cfg (popEvent s i ev) ev
      | EventType.DEPARTURE => handleDeparture cfg (popEvent s i ev) ev

/-- The loop is over: it was left by `break`, or the queue is empty (line 70). -/
def finished {R : Type} (s : State R) : Prop :=
  s.stopped = true ∨ s.events = []

instance {R : Type} (s : State R) : Decidable (finished s) := by
  unfold finished; infer_instance

/-! ## Finalisation (lines 156-159) -/

/-- Line 157. -/
def avgWait {R : Type} (s : State R) : ℚ :=
  if s.servedCount > 0 then s.totalWaitingTime / (s.servedCount : ℚ) else 0

/-- Line 158. -/
def avgService {R : Type} (s : State R) : ℚ :=
  if s.servedCount > 0 then s.totalServiceTime / (s.servedCount : ℚ) else 0

/-- Line 159. -/
def throughputPerMin {R : Type} (cfg : Config R) (s : State R) : ℚ :=
  if cfg.SIM_MINUTES > 0 then (s.servedCount : ℚ) / cfg.SIM_MINUTES else 0

/-- A division of lines 157-159 with the zero divisor made visible: `none` there. -/
def checkedDiv (a b : ℚ) : Option ℚ :=
  if b = 0 then none else some (a / b)

/-- Lines 157-159 with every division checked: the average wait, the average service
time and the throughput, or `none` when a division by zero is evaluated. -/
def finalize {R : Type} (cfg : Config R) (s : State R) : Option (ℚ × ℚ × ℚ) :=
  match (if s.servedCount > 0 then checkedDiv s.totalWaitingTime (s.servedCount : ℚ) else some 0),
      (if s.servedCount > 0 then checkedDiv s.totalServiceTime (s.servedCount : ℚ) else some 0),
      (if cfg.SIM_MINUTES > 0 then checkedDiv (s.servedCount : ℚ) cfg.SIM_MINUTES else some 0) with
  | some w, some v, some th => some (w, v, th)
  | _, _, _ => none

/-! ## Runs -/

/-- A handled iteration: the state at the head of the loop and the event popped. -/
abbrev Trace (R : Type) := List (State R × Event)

/-- The runs of the loop: `Exec cfg tr s` says that `s` is reached from the initial state,
`tr` listing, oldest first, the iterations that handled their event (each with the
state it started from).  The iteration that meets the cutoff of line 73 is not
listed. -/
inductive Exec {R : Type} (cfg : Config R) : Trace R → State R → Prop where
  | start : Exec cfg [] (initState cfg)
  | handle {tr : Trace R} {s s' : State R} {i : Nat} {ev : Event} :
      Exec cfg tr s → ¬ finished s → isTop s.events i → s.events[i]? = some ev →
      ev.time ≤ cfg.SIM_MINUTES → loopIter cfg s i = some s' →
      Exec cfg (tr ++ [(s, ev)]) s'
  | cutoff {tr : Trace R} {s s' : State R} {i : Nat} {ev : Event} :
      Exec cfg tr s → ¬ finished s → isTop s.events i → s.events[i]? = some ev →
      cfg.SIM_MINUTES < ev.time → loopIter cfg s i = some s' →
      Exec cfg tr s'

/-- The positions of the pending events of least time. -/
def topChoices (evs : List Event) : List Nat :=
  (List.range evs.length).filter fun i =>
    match evs[i]? with
    | some ev => evs.all fun e => decide (ev.time ≤ e.time)
    | none => false

/-- Run `n` iterations of the loop (fewer when it ends before), ties between
events of equal time being resolved by `sched`: iteration number `k` pops the
candidate number `sched k` (modulo the number of candidates).  `none` when an
iteration is undefined. -/
def iterate {R : Type} (cfg : Config R) (sched : Nat → Nat) :
    Nat → Nat → Trace R × State R → Option (Trace R × State R)
  | 0, _, x => some x
  | n + 1, k, (tr, s) =>
    if finished s then some (tr, s)
    else
      match (topChoices s.events)[sched k % (topChoices s.events).length]? with
      | none => none
      | some i =>
        match s.events[i]?, loopIter cfg s i with
        | some ev, some s' =>
          if ev.time ≤ cfg.SIM_MINUTES then iterate cfg sched n (k + 1) (tr ++ [(s, ev)], s')
          else iterate cfg sched n (k + 1) (tr, s')
        | _, _ => none

/-- The whole of `main` up to the report: run the loop from the initial state with at
most `fuel` iterations; `none` when the loop has not ended by then. -/
def runSched {R : Type} (cfg : Config R) (sched : Nat → Nat) (fuel : Nat) :
    Option (Trace R × State R) :=
  match iterate cfg sched fuel 0 ([], initState cfg) with
  | some (tr, s) => if finished s then some (tr, s) else none
  | none => none

/-- Scenario 1 of the specification: one server, every gap 1, every base duration 1,
one scoop, five minutes. -/
def scenario1 : Config Unit where
  numServers := 1
  pricePerScoop := 3
  SIM_MINUTES := 5
  seed := ()
  interarrival_dist := fun r => (1, r)
  service_dist := fun r => (1, r)
  scoops_dist := fun r => (0, r)

/-- Check `P` on the outcome of `n` iterations for every way of resolving ties, and
`G` on every event popped on the way. -/
def checkAll {R : Type} (cfg : Config R) (G : Event → Bool) (P : Trace R × State R → Bool) :
    Nat → Trace R × State R → Bool
  | 0, x => P x
  | n + 1, (tr, s) =>
    if finished s then P (tr, s)
    else
      (topChoices s.events).all fun i =>
        match s.events[i]?, loopIter cfg s i with
        | some ev, some s' =>
          G ev && checkAll cfg G P n
            (if ev.time ≤ cfg.SIM_MINUTES then (tr ++ [(s, ev)], s') else (tr, s'))
        | _, _ => false

/-- Scenario 2 of the specification: two servers, every gap 1/2, every base duration 3,
one scoop, horizon `H`. -/
def scenario2 (H : ℚ) : Config Unit where
  numServers := 2
  pricePerScoop := 3
  SIM_MINUTES := H
  seed := ()
  interarrival_dist := fun r => (1 / 2, r)
  service_dist := fun r => (3, r)
  scoops_dist := fun r => (0, r)

/-- Scenario 1 with the horizon set to 0. -/
def scenario0 : Config Unit :=
  { scenario1 with SIM_MINUTES := 0 }

/-! ## Definitions used to state and prove the properties -/

variable {R : Type}

/-- The state after `startService` for a customer whose record is `c`. -/
def startedState (cfg : Config R) (s : State R) (cid sid : Int) (c : Customer) : State R :=
  { s with
    serverBusy := s.serverBusy.set sid.toNat true
    serverServingCustomer := s.serverServingCustomer.set sid.toNat cid
    customers := s.customers.set cid.toNat
      { c with serviceStart := s.t, scoops := (cfg.scoops_dist s.rng).1 + 1 }
    totalServiceTime := s.totalServiceTime +
      (cfg.service_dist (cfg.scoops_dist s.rng).2).1 * (((cfg.scoops_dist s.rng).1 + 1 : Int) : ℚ)
    events := s.events ++
      [{ time := s.t +
          (cfg.service_dist (cfg.scoops_dist s.rng).2).1 * (((cfg.scoops_dist s.rng).1 + 1 : Int) : ℚ)
         type := EventType.DEPARTURE, customerId := cid, serverId := sid }]
    rng := (cfg.service_dist (cfg.scoops_dist s.rng).2).2 }

/-- The state after `recordDeparture` for a customer whose record is `c`. -/
def departedState (cfg : Config R) (s : State R) (ev : Event) (c : Customer) : State R :=
  { s with
    customers := s.customers.set ev.customerId.toNat { c with departureTime := s.t }
    serverBusy := s.serverBusy.set ev.serverId.toNat false
    serverServingCustomer := s.serverServingCustomer.set ev.serverId.toNat (-1)
    serverLastFreeTime := s.serverLastFreeTime.set ev.serverId.toNat s.t
    totalWaitingTime := s.totalWaitingTime + max 0 (c.serviceStart - c.arrivalTime)
    servedCount := s.servedCount + 1
    totalRevenue := s.totalRevenue + (c.scoops : ℚ) * cfg.pricePerScoop }

/-- The customer ids named by the pending events. -/
def pendingIds (s : State R) : List Int :=
  s.events.map fun e => e.customerId

/-- The departure events that have been handled, oldest first. -/
def departedEvents (tr : Trace R) : List Event :=
  (tr.map fun p => p.2).filter fun e => e.type = EventType.DEPARTURE

/-- The ids of the customers whose departure has been handled, oldest first. -/
def departedIds (tr : Trace R) : List Int :=
  (departedEvents tr).map fun e => e.customerId

/-- Where the customers are: in flight inside an iteration (`fl`), named by a pending
event, in the waiting line, or departed (`dep`). -/
def occ (fl dep : List Int) (s : State R) : List Int :=
  fl ++ (pendingIds s ++ (s.waitingQueue ++ dep))

/-- The structural invariant of the loop, stated for the points inside an iteration
as well: `fl` lists the customers taken out of the queue or the waiting line and not
yet put back, `dep` the departed customers. -/
structure Inv (cfg : Config R) (fl dep : List Int) (s : State R) : Prop where
  busyLen : s.serverBusy.length = cfg.numServers
  servingLen : s.serverServingCustomer.length = cfg.numServers
  lastFreeLen : s.serverLastFreeTime.length = cfg.numServers
  nextId : s.nextCustId = s.customers.length
  nodup : (occ fl dep s).Nodup
  range : ∀ x ∈ occ fl dep s, 0 ≤ x ∧ x < s.customers.length
  depServer : ∀ e ∈ s.events, e.type = EventType.DEPARTURE →
    0 ≤ e.serverId ∧ e.serverId < cfg.numServers

/-- The revenue that the ledger `cs` attributes to customer `x`: the recorded scoop
count times the price. -/
def revenueOf (cfg : Config R) (cs : List Customer) (x : Int) : ℚ :=
  match getAt cs x with
  | some c => (c.scoops : ℚ) * cfg.pricePerScoop
  | none => 0

/-- The wait that the ledger `cs` attributes to customer `x`, as lines 131-132
compute it. -/
def waitOf (cs : List Customer) (x : Int) : ℚ :=
  match getAt cs x with
  | some c => max 0 (c.serviceStart - c.arrivalTime)
  | none => 0

/-- The handled arrivals that found a free server: the ids of their customers. -/
def immediateIds (cfg : Config R) (tr : Trace R) : List Int :=
  (tr.filter fun p =>
    decide (p.2.type = EventType.ARRIVAL ∧ 0 ≤ findFreeServer cfg.numServers p.1.serverBusy)).map
    fun p => p.2.customerId

/-- The accounting invariant: the totals and the ledger entries of the departed
customers (`dep`, their departure events) and of the customers served at their own
arrival (`imm`).  `fl` is as in `Inv`. -/
structure Acct (cfg : Config R) (fl : List Int) (dep : List Event) (imm : List Int)
    (s : State R) : Prop where
  served : s.servedCount = dep.length
  revenue : s.totalRevenue = (dep.map fun e => revenueOf cfg s.customers e.customerId).sum
  waitTotal : s.totalWaitingTime = (dep.map fun e => waitOf s.customers e.customerId).sum
  depRecord : ∀ e ∈ dep, e.type = EventType.DEPARTURE ∧
    ∃ c, getAt s.customers e.customerId = some c ∧ c.departureTime = e.time
  immRecord : ∀ x ∈ imm, x ∉ fl ∧ (∀ e ∈ s.events, e.type = EventType.ARRIVAL → e.customerId ≠ x) ∧
    x ∉ s.waitingQueue ∧ ∃ c, getAt s.customers x = some c ∧ c.serviceStart = c.arrivalTime

/-- The invariants that hold at the head of the loop after the iterations `tr`. -/
def Good (cfg : Config R) (tr : Trace R) (s : State R) : Prop :=
  Inv cfg [] (departedIds tr) s ∧ Acct cfg [] (departedEvents tr) (immediateIds cfg tr) s

/-- The draws the specification allows: gaps and base durations are positive and the
scoop count (the drawn index plus one) is 1, 2 or 3. -/
def ValidDraws (cfg : Config R) : Prop :=
  (∀ r, 0 < (cfg.interarrival_dist r).1) ∧ (∀ r, 0 < (cfg.service_dist r).1) ∧
    ∀ r, 0 ≤ (cfg.scoops_dist r).1 ∧ (cfg.scoops_dist r).1 ≤ 2

/-- The timing invariant: no pending event lies before the clock, and the ledger
entries of the customers in service, waiting, in flight and departed (`dep`, their
departure events) are ordered in time. -/
structure Timing (fl : List Int) (dep : List Event) (s : State R) : Prop where
  clock : ∀ e ∈ s.events, s.t ≤ e.time
  srv : ∀ e ∈ s.events, e.type = EventType.DEPARTURE →
    ∃ c, getAt s.customers e.customerId = some c ∧
      c.arrivalTime ≤ c.serviceStart ∧ c.serviceStart ≤ e.time
  wait : ∀ x ∈ s.waitingQueue, ∃ c, getAt s.customers x = some c ∧ c.arrivalTime ≤ s.t
  flight : ∀ x ∈ fl, ∃ c, getAt s.customers x = some c ∧ c.arrivalTime ≤ s.t
  done : ∀ e ∈ dep, ∃ c, getAt s.customers e.customerId = some c ∧
    c.arrivalTime ≤ c.serviceStart ∧ c.serviceStart ≤ c.departureTime

/-- Every time in the ledger `cs` is unset or at most `H`: an arrival time is at most
`H` or is the `0` given to the first customer before the loop; a service start or a
departure time is the unset value `-1` or at most `H`. -/
def BoundedLedger (H : ℚ) (cs : List Customer) : Prop :=
  ∀ c ∈ cs, (c.arrivalTime ≤ H ∨ c.arrivalTime = 0) ∧
    (c.serviceStart = -1 ∨ c.serviceStart ≤ H) ∧ (c.departureTime = -1 ∨ c.departureTime ≤ H)

/-- The property `Q` holds of the outcome of `n` iterations from `x` (fewer when the loop ends
before), every iteration being defined, whichever least-time event each iteration
pops. -/
def AllRuns (cfg : Config R) (Q : Trace R × State R → Prop) : Nat → Trace R × State R → Prop
  | 0, x => Q x
  | n + 1, (tr, s) =>
    (finished s → Q (tr, s)) ∧
    (¬ finished s → ∀ i ev, isTop s.events i → s.events[i]? = some ev →
      ∃ s', loopIter cfg s i = some s' ∧
        AllRuns cfg Q n (if ev.time ≤ cfg.SIM_MINUTES then (tr ++ [(s, ev)], s') else (tr, s')))

/-- On the events accepted by `G`, `cfg2` runs an iteration exactly as `cfg1` does. -/
def SameUnder (G : Event → Bool) (cfg1 cfg2 : Config R) : Prop :=
  ∀ (s : State R) (i : Nat) (ev : Event), s.events[i]? = some ev → G ev = true →
    loopIter cfg2 s i = loopIter cfg1 s i ∧
      (ev.time ≤ cfg2.SIM_MINUTES ↔ ev.time ≤ cfg1.SIM_MINUTES)

/-- The arrivals handled along `tr`: customer id and time, oldest first. -/
def handledArrivals (tr : Trace R) : List (Int × ℚ) :=
  ((tr.map fun p => p.2).filter fun e => e.type = EventType.ARRIVAL).map
    fun e => (e.customerId, e.time)

/-! ## Concrete runs used as witnesses and checks -/

/-- The run of scenario 1 in which every tie is resolved in favour of the event that
comes first in the queue list. -/
def scenario1Run : Trace Unit × State Unit :=
  match runSched scenario1 (fun _ => 0) 13 with
  | some x => x
  | none => ([], initState scenario1)

/-- The second handled iteration of `scenario1Run`: the departure of customer 0. -/
def scenario1Departure : State Unit × Event :=
  scenario1Run.1.getD 1
    (initState scenario1, { time := 0, type := EventType.DEPARTURE, customerId := 0, serverId := 0 })

/-- The run `scenario1Run` stopped after eleven iterations, with the departure at
`t = 6` still queued. -/
def scenario1BeforeCutoff : Trace Unit × State Unit :=
  match iterate scenario1 (fun _ => 0) 11 0 ([], initState scenario1) with
  | some x => x
  | none => ([], initState scenario1)

/-- The departure event of customer 5 in scenario 1, scheduled at `t = 6`. -/
def scenario1LastDeparture : Event :=
  { time := 6, type := EventType.DEPARTURE, customerId := 5, serverId := 0 }

/-- The first handled iteration of `scenario1Run`: the arrival of customer 0. -/
def scenario1Arrival : State Unit × Event :=
  scenario1Run.1.getD 0
    (initState scenario1, { time := 0, type := EventType.DEPARTURE, customerId := 0, serverId := 0 })

/-- The state of `scenario1Run` after the departure of customer 0 has been handled. -/
def scenario1AfterDeparture : State Unit :=
  (scenario1Run.1.getD 2
    (initState scenario1,
      { time := 0, type := EventType.DEPARTURE, customerId := 0, serverId := 0 })).1

/-- The departure of customer 0 from server 0 at `t = 3` in scenario 2. -/
def scenario2Departure : Event :=
  { time := 3, type := EventType.DEPARTURE, customerId := 0, serverId := 0 }

/-- The facts of scenario 2 about the outcome `y` of the first eight iterations, in a
form that can be evaluated. -/
def scenario2Check (y : Trace Unit × State Unit) : Bool :=
  decide ((y.1.take 3).map (fun p =>
      (p.2.type, p.2.customerId, p.2.time, findFreeServer 2 p.1.serverBusy)) =
      [(EventType.ARRIVAL, 0, 0, 0), (EventType.ARRIVAL, 1, 1 / 2, 1),
        (EventType.ARRIVAL, 2, 1, -1)]) &&
  decide ((y.1.drop 3).head?.map (fun p => (p.1.serverServingCustomer, p.1.waitingQueue)) =
      some ([0, 1], [2])) &&
  decide ((y.2.customers.take 3).map (fun c => (c.id, c.arrivalTime, c.serviceStart)) =
      [(0, 0, 0), (1, 1 / 2, 1 / 2), (2, 1, 3)]) &&
  y.1.all (fun p => (getAt p.1.customers 2).all fun c =>
      decide (c.serviceStart = -1 ∨ (c.serviceStart = 3 ∧ p.1.t = 3))) &&
  y.1.any (fun p => decide (p.2 = scenario2Departure ∧ p.1.waitingQueue.head? = some 2 ∧
      (getAt p.1.customers 2).map (fun c => c.serviceStart) = some (-1))) &&
  decide (getAt y.2.serverServingCustomer 0 = some 2)

/-! ## Further definitions: draws, closed forms of an iteration, what a trace records -/

/-- The scoop count drawn at a service start that finds the engine in state `r`
(lines 98 and 143). -/
def scoopsAt (cfg : Config R) (r : R) : Int :=
  (cfg.scoops_dist r).1 + 1

/-- The base duration drawn right after that scoop count (lines 101 and 146). -/
def baseAt (cfg : Config R) (r : R) : ℚ :=
  (cfg.service_dist (cfg.scoops_dist r).2).1

/-- The engine state after the two draws of a service start. -/
def rngAfterService (cfg : Config R) (r : R) : R :=
  (cfg.service_dist (cfg.scoops_dist r).2).2

/-- The departure event pushed by a service start at time `t` with the engine in state
`r`. -/
def departureOf (cfg : Config R) (r : R) (t : ℚ) (cid sid : Int) : Event :=
  { time := t + baseAt cfg r * (scoopsAt cfg r : ℚ), type := EventType.DEPARTURE,
    customerId := cid, serverId := sid }

/-- The state before line 113 when the arrival `ev` (at position `i`) of the customer with
record `c` found server `k` free, last freed at `lf`. -/
def servedAtArrival (cfg : Config R) (s : State R) (i : Nat) (ev : Event) (c : Customer)
    (k : Int) (lf : ℚ) : State R :=
  { s with
    events := s.events.eraseIdx i ++ [departureOf cfg s.rng ev.time ev.customerId k]
    customers := s.customers.set ev.customerId.toNat
      { c with arrivalTime := ev.time, serviceStart := ev.time, scoops := scoopsAt cfg s.rng }
    serverBusy := s.serverBusy.set k.toNat true
    serverServingCustomer := s.serverServingCustomer.set k.toNat ev.customerId
    t := ev.time
    totalServiceTime := s.totalServiceTime + baseAt cfg s.rng * (scoopsAt cfg s.rng : ℚ)
    idleTimeAcc := s.idleTimeAcc + max 0 (ev.time - lf)
    rng := rngAfterService cfg s.rng }

/-- The state before line 113 when the arrival `ev` found no free server. -/
def queuedAtArrival (s : State R) (i : Nat) (ev : Event) (c : Customer) : State R :=
  { s with
    events := s.events.eraseIdx i
    waitingQueue := s.waitingQueue ++ [ev.customerId]
    customers := s.customers.set ev.customerId.toNat { c with arrivalTime := ev.time }
    t := ev.time }

/-- The state after the departure `ev` of the customer with record `c` when nobody
waits. -/
def departedIdle (cfg : Config R) (s : State R) (i : Nat) (ev : Event) (c : Customer) :
    State R :=
  { s with
    events := s.events.eraseIdx i
    customers := s.customers.set ev.customerId.toNat { c with departureTime := ev.time }
    serverBusy := s.serverBusy.set ev.serverId.toNat false
    serverServingCustomer := s.serverServingCustomer.set ev.serverId.toNat (-1)
    serverLastFreeTime := s.serverLastFreeTime.set ev.serverId.toNat ev.time
    t := ev.time
    totalWaitingTime := s.totalWaitingTime + max 0 (c.serviceStart - c.arrivalTime)
    servedCount := s.servedCount + 1
    totalRevenue := s.totalRevenue + (c.scoops : ℚ) * cfg.pricePerScoop }

/-- The state after the departure `ev` of the customer with record `c` when customer `x`,
with record `cx`, heads the waiting line `x :: rest`. -/
def departedNext (cfg : Config R) (s : State R) (i : Nat) (ev : Event) (c : Customer)
    (x : Int) (rest : List Int) (cx : Customer) : State R :=
  { s with
    events := s.events.eraseIdx i ++ [departureOf cfg s.rng ev.time x ev.serverId]
    waitingQueue := rest
    customers := (s.customers.set ev.customerId.toNat { c with departureTime := ev.time }).set
      x.toNat { cx with serviceStart := ev.time, scoops := scoopsAt cfg s.rng }
    serverBusy := s.serverBusy.set ev.serverId.toNat true
    serverServingCustomer := s.serverServingCustomer.set ev.serverId.toNat x
    serverLastFreeTime := s.serverLastFreeTime.set ev.serverId.toNat ev.time
    t := ev.time
    totalWaitingTime := s.totalWaitingTime + max 0 (c.serviceStart - c.arrivalTime)
    totalServiceTime := s.totalServiceTime + baseAt cfg s.rng * (scoopsAt cfg s.rng : ℚ)
    servedCount := s.servedCount + 1
    totalRevenue := s.totalRevenue + (c.scoops : ℚ) * cfg.pricePerScoop
    rng := rngAfterService cfg s.rng }

/-- One service start, as an iteration performs it: who is served, on which server,
from when, and the two draws (scoop count, base duration). -/
structure ServiceStart where
  customerId : Int
  serverId : Int
  time : ℚ
  scoops : Int
  base : ℚ
deriving DecidableEq

/-- The service start performed by the handled iteration `p`, if any: an arrival
that finds a free server starts the arriving customer on it (lines 91-104); a departure
handled while the waiting line is not empty starts the head of the line on the released
server (lines 137-149).  The draws are made from the engine state at the head of the
iteration. -/
def startOf (cfg : Config R) (p : State R × Event) : Option ServiceStart :=
  match p.2.type with
  | EventType.ARRIVAL =>
    if 0 ≤ findFreeServer cfg.numServers p.1.serverBusy then
      some { customerId := p.2.customerId
             serverId := findFreeServer cfg.numServers p.1.serverBusy
             time := p.2.time
             scoops := scoopsAt cfg p.1.rng
             base := baseAt cfg p.1.rng }
    else none
  | EventType.DEPARTURE =>
    match p.1.waitingQueue with
    | [] => none
    | x :: _ =>
      some { customerId := x, serverId := p.2.serverId, time := p.2.time
             scoops := scoopsAt cfg p.1.rng, base := baseAt cfg p.1.rng }

/-- The service starts performed along `tr`, oldest first. -/
def serviceStarts (cfg : Config R) (tr : Trace R) : List ServiceStart :=
  tr.filterMap (startOf cfg)

/-- The customers whose service has started along `tr`. -/
def startedIds (cfg : Config R) (tr : Trace R) : List Int :=
  (serviceStarts cfg tr).map fun σ => σ.customerId

/-- The customers whose arrival has been handled along `tr`, oldest first. -/
def arrivedIds (tr : Trace R) : List Int :=
  ((tr.map fun p => p.2).filter fun e => e.type = EventType.ARRIVAL).map fun e => e.customerId

/-- The customers appended to the waiting line along `tr` (their arrival found no free
server), oldest first. -/
def waitedIds (cfg : Config R) (tr : Trace R) : List Int :=
  (tr.filter fun p => decide (p.2.type = EventType.ARRIVAL ∧
    findFreeServer cfg.numServers p.1.serverBusy < 0)).map fun p => p.2.customerId

/-- The service starts performed by departures along `tr`, oldest first: each takes
the head of the waiting line. -/
def queueStarts (cfg : Config R) (tr : Trace R) : List ServiceStart :=
  serviceStarts cfg (tr.filter fun p => p.2.type = EventType.DEPARTURE)

/-- The customers taken from the head of the waiting line along `tr`, oldest first. -/
def dequeuedIds (cfg : Config R) (tr : Trace R) : List Int :=
  (queueStarts cfg tr).map fun σ => σ.customerId

/-- The engine state in which line 114 draws the gap when an arrival is handled from
`s`: after the two draws of the service start if a server was free. -/
def gapRng (cfg : Config R) (s : State R) : R :=
  if 0 ≤ findFreeServer cfg.numServers s.serverBusy then rngAfterService cfg s.rng else s.rng

/-- The pending arrival events. -/
def pendingArrivals (s : State R) : List Event :=
  s.events.filter fun e => e.type = EventType.ARRIVAL

/-- The pending departure events. -/
def pendingDepartures (s : State R) : List Event :=
  s.events.filter fun e => e.type = EventType.DEPARTURE

/-- What the service starts `sts` performed so far have left in the state: the ledger
entry of a started customer carries the start time and the scoop draw; a started customer
is neither waiting nor about to arrive; every departure event, pending or handled
(`dep`), is the one scheduled by a start; an entry nobody started has its service start
unset; and `totalServiceTime` is the sum of the scaled durations of the starts. -/
structure Started (cfg : Config R) (sts : List ServiceStart) (dep : List Event)
    (s : State R) : Prop where
  ledger : ∀ σ ∈ sts, ∃ c, getAt s.customers σ.customerId = some c ∧
    c.serviceStart = σ.time ∧ c.scoops = σ.scoops
  away : ∀ σ ∈ sts, σ.customerId ∉ s.waitingQueue ∧
    ∀ e ∈ s.events, e.type = EventType.ARRIVAL → e.customerId ≠ σ.customerId
  evSt : ∀ e ∈ s.events, e.type = EventType.DEPARTURE → ∃ σ ∈ sts,
    σ.customerId = e.customerId ∧ σ.serverId = e.serverId ∧
      e.time = σ.time + σ.base * (σ.scoops : ℚ)
  depSt : ∀ e ∈ dep, ∃ σ ∈ sts, σ.customerId = e.customerId ∧ σ.serverId = e.serverId ∧
    e.time = σ.time + σ.base * (σ.scoops : ℚ)
  unset : ∀ x c, getAt s.customers x = some c → (∀ σ ∈ sts, σ.customerId ≠ x) →
    c.serviceStart = -1
  total : s.totalServiceTime = (sts.map fun σ => σ.base * (σ.scoops : ℚ)).sum
  draws : ∀ σ ∈ sts, ∃ r, σ.scoops = scoopsAt cfg r ∧ σ.base = baseAt cfg r
  once : (sts.map fun σ => σ.customerId).Nodup
  nonneg : ValidDraws cfg → 0 ≤ s.t ∧ (∀ e ∈ s.events, 0 ≤ e.time) ∧ ∀ σ ∈ sts, 0 ≤ σ.time

/-- The run of scenario 1 after its first iteration, the arrival of customer 0: the
departure of customer 0 heads the queue. -/
def scenario1AfterArrival : Trace Unit × State Unit :=
  match iterate scenario1 (fun _ => 0) 1 0 ([], initState scenario1) with
  | some x => x
  | none => ([], initState scenario1)

/-- The departure event of customer 0 in scenario 1, scheduled at `t = 1`. -/
def scenario1FirstDeparture : Event :=
  { time := 1, type := EventType.DEPARTURE, customerId := 0, serverId := 0 }

/-- The arrival event of customer 0, scheduled at `t = 0` before the loop. -/
def firstArrival : Event :=
  { time := 0, type := EventType.ARRIVAL, customerId := 0, serverId := -1 }

/-- The server records against the pending departures: every pending departure names a
busy server occupied by its customer, every busy server has a pending departure, and an
idle server has no occupant. -/
structure Servers (s : State R) : Prop where
  evBusy : ∀ e ∈ s.events, e.type = EventType.DEPARTURE →
    getAt s.serverBusy e.serverId = some true ∧
      getAt s.serverServingCustomer e.serverId = some e.customerId
  busyEv : ∀ j : Int, getAt s.serverBusy j = some true →
    ∃ e ∈ s.events, e.type = EventType.DEPARTURE ∧ e.serverId = j
  idle : ∀ j : Int, getAt s.serverBusy j = some false →
    getAt s.serverServingCustomer j = some (-1)

/-- The arrival stream against the ledger: entry number `x` carries id `x`; a pending
arrival names the last entry of the ledger, whose arrival time is the time of the event;
the arrivals handled so far (`arr`, oldest first) are in increasing order of id, below
any pending arrival; and, for positive gaps, the arrival times in the ledger increase
with the id. -/
structure Arrivals (cfg : Config R) (arr : List Int) (s : State R) : Prop where
  ids : ∀ x c, getAt s.customers x = some c → c.id = x
  pendArr : ∀ e ∈ s.events, e.type = EventType.ARRIVAL →
    e.customerId + 1 = s.customers.length ∧
      ∃ c, getAt s.customers e.customerId = some c ∧ c.arrivalTime = e.time
  arrSorted : arr.Pairwise (· < ·)
  arrBelow : ∀ x ∈ arr, ∀ e ∈ s.events, e.type = EventType.ARRIVAL → x < e.customerId
  arrRange : ∀ x ∈ arr, 0 ≤ x ∧ x < s.customers.length
  times : (∀ r, 0 < (cfg.interarrival_dist r).1) →
    (s.customers.map fun c => c.arrivalTime).Pairwise (· < ·)

/-- The waiting line against the trace: a customer waits exactly when its arrival has
been handled, no service start has been performed for it and its departure has not been
handled; the customers that joined the line are those taken from its head, in the same
order, followed by those still in it; and they joined in the order of the handled
arrivals. -/
structure Queue (cfg : Config R) (tr : Trace R) (s : State R) : Prop where
  wl : ∀ x, x ∈ s.waitingQueue ↔
    x ∈ arrivedIds tr ∧ x ∉ startedIds cfg tr ∧ x ∉ departedIds tr
  fifo : waitedIds cfg tr = dequeuedIds cfg tr ++ s.waitingQueue
  waitedSub : List.Sublist (waitedIds cfg tr) (arrivedIds tr)

/-- The run of scenario 2 (horizon 4) after its first three iterations, the arrivals
of customers 0, 1 and 2: customer 2 waits. -/
def scenario2Waiting : Trace Unit × State Unit :=
  match iterate (scenario2 4) (fun _ => 0) 3 0 ([], initState (scenario2 4)) with
  | some x => x
  | none => ([], initState (scenario2 4))

/-! ## The loop in double arithmetic

`Clock = double`: every sum, difference, product and quotient of lines 70-159 is
rounded to a `double`.  The definitions above compute with exact rationals; the
definitions of this section, named with a final `D`, repeat them with the result of
every floating-point operation passed through a rounding function `rd`.  For the program
`rd` is `roundDouble` (IEEE 754 binary64, round to nearest, ties to even); with
`rd = id` the definitions are those of the exact model.  The conversions of `scoops` and
`servedCount` from `int` to `double` are exact, `max(0.0, x)` does not round, and
comparisons are exact.  Infinities and NaN are outside the model. -/

/-- The number of binary digits of `n`, counted by halving at most `fuel` times. -/
def bitLength : Nat → Nat → Nat
  | 0, _ => 0
  | fuel + 1, n => if n = 0 then 0 else bitLength fuel (n / 2) + 1

/-- The integer `k` with `2^k <= n/d < 2^(k+1)`, for positive `n` and `d`: the binary
exponent of `n/d`. -/
def floorLog2 (n d : Nat) : Int :=
  let l : Int := (bitLength n n : Int) - (bitLength d d : Int)
  if 0 ≤ l then (if d * 2 ^ l.toNat ≤ n then l else l - 1)
  else (if d ≤ n * 2 ^ (-l).toNat then l else l - 1)

/-- The integer nearest to `num / den`, the even one of the two when `num / den` lies
half-way between two integers. -/
def roundHalfEven (num den : Nat) : Nat :=
  let q0 := num / den
  let r := num % den
  if 2 * r < den then q0 else if den < 2 * r then q0 + 1
  else if q0 % 2 = 0 then q0 else q0 + 1

/-- The `double` nearest to `n / d`, for positive `n` and `d`: `m * 2^e` with
`e = max (floorLog2 n d - 52) (-1074)` (53 significant bits, least exponent of a
subnormal) and `m` the integer nearest to `(n / d) / 2^e`, the even one at a tie. -/
def roundMagnitude (n d : Nat) : ℚ :=
  let e : Int := max (floorLog2 n d - 52) (-1074)
  if 0 ≤ e then ((roundHalfEven n (d * 2 ^ e.toNat) * 2 ^ e.toNat : Nat) : ℚ)
  else mkRat (roundHalfEven (n * 2 ^ (-e).toNat) d : Int) (2 ^ (-e).toNat)

/-- IEEE 754 binary64 rounding of a rational to nearest, ties to even.  Overflow to
infinity is not modelled. -/
def roundDouble (q : ℚ) : ℚ :=
  if q.num = 0 then 0
  else if q.num < 0 then -roundMagnitude q.num.natAbs q.den
  else roundMagnitude q.num.natAbs q.den

/-- The properties of rounding to nearest that the order of the events relies on:
rounding is monotone, leaves a rounded value unchanged and leaves 0 unchanged. -/
structure Rounding (rd : ℚ → ℚ) : Prop where
  mono : ∀ a b, a ≤ b → rd a ≤ rd b
  idem : ∀ q, rd (rd q) = rd q
  zero : rd 0 = 0

/-- The integer `m` is nearest to `x`, and even when `x` lies half-way between two
integers. -/
def NearestEven (x : ℚ) (m : Int) : Prop :=
  |x - (m : ℚ)| ≤ 1 / 2 ∧ (|x - (m : ℚ)| = 1 / 2 → m % 2 = 0)

/-- Lines 93-104 and 139-149 in double arithmetic: `startService` with the product of
line 101 and the sums of lines 102 and 103 rounded. -/
def startServiceD {R : Type} (rd : ℚ → ℚ) (cfg : Config R) (s : State R) (cid sid : Int) :
    Option (State R) :=
  match setAt s.serverBusy sid true, setAt s.serverServingCustomer sid cid,
      getAt s.customers cid with
  | some busy, some serving, some c =>
    let scoops := (cfg.scoops_dist s.rng).1 + 1
    let rng1 := (cfg.scoops_dist s.rng).2
    let serviceTime := rd ((cfg.service_dist rng1).1 * (scoops : ℚ))
    let rng2 := (cfg.service_dist rng1).2
    let departureT := rd (s.t + serviceTime)
    some { s with
      serverBusy := busy
      serverServingCustomer := serving
      customers := s.customers.set cid.toNat { c with serviceStart := s.t, scoops := scoops }
      totalServiceTime := rd (s.totalServiceTime + serviceTime)
      events := s.events ++
        [{ time := departureT, type := EventType.DEPARTURE, customerId := cid, serverId := sid }]
      rng := rng2 }
  | _, _, _ => none

/-- Lines 113-120 in double arithmetic: `scheduleNext` with the sum of line 115
rounded; the test of line 116 compares the rounded sum with `SIM_MINUTES`. -/
def scheduleNextD {R : Type} (rd : ℚ → ℚ) (cfg : Config R) (s : State R) : State R :=
  let ia := (cfg.interarrival_dist s.rng).1
  let rng1 := (cfg.interarrival_dist s.rng).2
  let nextT := rd (s.t + ia)
  if nextT ≤ cfg.SIM_MINUTES then
    { s with
      rng := rng1
      nextCustId := s.nextCustId + 1
      customers := s.customers ++ [{ id := s.nextCustId, arrivalTime := nextT }]
      events := s.events ++
        [{ time := nextT, type := EventType.ARRIVAL, customerId := s.nextCustId, serverId := -1 }] }
  else
    { s with rng := rng1 }

/-- Lines 76-120 in double arithmetic: `handleArrival` with the difference and the sum
of line 107 rounded. -/
def handleArrivalD {R : Type} (rd : ℚ → ℚ) (cfg : Config R) (s : State R) (ev : Event) :
    Option (State R) :=
  match recordArrival s ev.customerId with
  | none => none
  | some s1 =>
    let freeServer := findFreeServer cfg.numServers s1.serverBusy
    if 0 ≤ freeServer then
      match startServiceD rd cfg s1 ev.customerId freeServer,
          getAt s1.serverLastFreeTime freeServer with
      | some s2, some lastFree =>
        some (scheduleNextD rd cfg
          { s2 with idleTimeAcc := rd (s2.idleTimeAcc + max 0 (rd (s1.t - lastFree))) })
      | _, _ => none
    else
      some (scheduleNextD rd cfg { s1 with waitingQueue := s1.waitingQueue ++ [ev.customerId] })

/-- Lines 123-134 in double arithmetic: `recordDeparture` with the difference of line
130, the sum of line 131 and the product and the sum of line 133 rounded. -/
def recordDepartureD {R : Type} (rd : ℚ → ℚ) (cfg : Config R) (s : State R) (ev : Event) :
    Option (State R) :=
  match getAt s.customers ev.customerId, setAt s.serverBusy ev.serverId false,
      setAt s.serverServingCustomer ev.serverId (-1),
      setAt s.serverLastFreeTime ev.serverId s.t with
  | some c, some busy, some serving, some lastFree =>
    let wait := rd (c.serviceStart - c.arrivalTime)
    some { s with
      customers := s.customers.set ev.customerId.toNat { c with departureTime := s.t }
      serverBusy := busy
      serverServingCustomer := serving
      serverLastFreeTime := lastFree
      totalWaitingTime := rd (s.totalWaitingTime + max 0 wait)
      servedCount := s.servedCount + 1
      totalRevenue := rd (s.totalRevenue + rd ((c.scoops : ℚ) * cfg.pricePerScoop)) }
  | _, _, _, _ => none

/-- Lines 123-152 in double arithmetic. -/
def handleDepartureD {R : Type} (rd : ℚ → ℚ) (cfg : Config R) (s : State R) (ev : Event) :
    Option (State R) :=
  match recordDepartureD rd cfg s ev with
  | none => none
  | some s1 =>
    match s1.waitingQueue with
    | [] => some s1
    | nextCid :: rest =>
      startServiceD rd cfg { s1 with waitingQueue := rest } nextCid ev.serverId

/-- Lines 71-153 in double arithmetic: one iteration of the loop in which `top()`
returns the event at position `i` of the queue. -/
def loopIterD {R : Type} (rd : ℚ → ℚ) (cfg : Config R) (s : State R) (i : Nat) :
    Option (State R) :=
  match s.events[i]? with
  | none => none
  | some ev =>
    if ev.time > cfg.SIM_MINUTES then some { popEvent s i ev with stopped := true }
    else
      match ev.type with
      | EventType.ARRIVAL => handleArrivalD rd cfg (popEvent s i ev) ev
      | EventType.DEPARTURE => handleDepartureD rd cfg (popEvent s i ev) ev

/-- The runs of the loop in double arithmetic (see `Exec`). -/
inductive ExecD {R : Type} (rd : ℚ → ℚ) (cfg : Config R) : Trace R → State R → Prop where
  | start : ExecD rd cfg [] (initState cfg)
  | handle {tr : Trace R} {s s' : State R} {i : Nat} {ev : Event} :
      ExecD rd cfg tr s → ¬ finished s → isTop s.events i → s.events[i]? = some ev →
      ev.time ≤ cfg.SIM_MINUTES → loopIterD rd cfg s i = some s' →
      ExecD rd cfg (tr ++ [(s, ev)]) s'
  | cutoff {tr : Trace R} {s s' : State R} {i : Nat} {ev : Event} :
      ExecD rd cfg tr s → ¬ finished s → isTop s.events i → s.events[i]? = some ev →
      cfg.SIM_MINUTES < ev.time → loopIterD rd cfg s i = some s' →
      ExecD rd cfg tr s'

/-- Run `n` iterations of the loop in double arithmetic (see `iterate`). -/
def iterateD {R : Type} (rd : ℚ → ℚ) (cfg : Config R) (sched : Nat → Nat) :
    Nat → Nat → Trace R × State R → Option (Trace R × State R)
  | 0, _, x => some x
  | n + 1, k, (tr, s) =>
    if finished s then some (tr, s)
    else
      match (topChoices s.events)[sched k % (topChoices s.events).length]? with
      | none => none
      | some i =>
        match s.events[i]?, loopIterD rd cfg s i with
        | some ev, some s' =>
          if ev.time ≤ cfg.SIM_MINUTES then
            iterateD rd cfg sched n (k + 1) (tr ++ [(s, ev)], s')
          else iterateD rd cfg sched n (k + 1) (tr, s')
        | _, _ => none

/-- The state after `startServiceD` for a customer whose record is `c`. -/
def startedStateD {R : Type} (rd : ℚ → ℚ) (cfg : Config R) (s : State R) (cid sid : Int)
    (c : Customer) : State R :=
  { s with
    serverBusy := s.serverBusy.set sid.toNat true
    serverServingCustomer := s.serverServingCustomer.set sid.toNat cid
    customers := s.customers.set cid.toNat
      { c with serviceStart := s.t, scoops := (cfg.scoops_dist s.rng).1 + 1 }
    totalServiceTime := rd (s.totalServiceTime +
      rd ((cfg.service_dist (cfg.scoops_dist s.rng).2).1 *
        (((cfg.scoops_dist s.rng).1 + 1 : Int) : ℚ)))
    events := s.events ++
      [{ time := rd (s.t +
          rd ((cfg.service_dist (cfg.scoops_dist s.rng).2).1 *
            (((cfg.scoops_dist s.rng).1 + 1 : Int) : ℚ)))
         type := EventType.DEPARTURE, customerId := cid, serverId := sid }]
    rng := (cfg.service_dist (cfg.scoops_dist s.rng).2).2 }

/-- The state after `recordDepartureD` for a customer whose record is `c`. -/
def departedStateD {R : Type} (rd : ℚ → ℚ) (cfg : Config R) (s : State R) (ev : Event)
    (c : Customer) : State R :=
  { s with
    customers := s.customers.set ev.customerId.toNat { c with departureTime := s.t }
    serverBusy := s.serverBusy.set ev.serverId.toNat false
    serverServingCustomer := s.serverServingCustomer.set ev.serverId.toNat (-1)
    serverLastFreeTime := s.serverLastFreeTime.set ev.serverId.toNat s.t
    totalWaitingTime := rd (s.totalWaitingTime + max 0 (rd (c.serviceStart - c.arrivalTime)))
    servedCount := s.servedCount + 1
    totalRevenue := rd (s.totalRevenue + rd ((c.scoops : ℚ) * cfg.pricePerScoop)) }

/-- The scaled duration of a service start that draws from the engine state `r`, as
line 101 computes it. -/
def serviceTimeD {R : Type} (rd : ℚ → ℚ) (cfg : Config R) (r : R) : ℚ :=
  rd (baseAt cfg r * (scoopsAt cfg r : ℚ))

/-- The departure event pushed by a service start at time `t` with the engine in state
`r`, in double arithmetic. -/
def departureOfD {R : Type} (rd : ℚ → ℚ) (cfg : Config R) (r : R) (t : ℚ) (cid sid : Int) :
    Event :=
  { time := rd (t + serviceTimeD rd cfg r), type := EventType.DEPARTURE,
    customerId := cid, serverId := sid }

/-- The state before line 113, in double arithmetic, when the arrival `ev` (at position
`i`) of the customer with record `c` found server `k` free, last freed at `lf`. -/
def servedAtArrivalD {R : Type} (rd : ℚ → ℚ) (cfg : Config R) (s : State R) (i : Nat)
    (ev : Event) (c : Customer) (k : Int) (lf : ℚ) : State R :=
  { s with
    events := s.events.eraseIdx i ++ [departureOfD rd cfg s.rng ev.time ev.customerId k]
    customers := s.customers.set ev.customerId.toNat
      { c with arrivalTime := ev.time, serviceStart := ev.time, scoops := scoopsAt cfg s.rng }
    serverBusy := s.serverBusy.set k.toNat true
    serverServingCustomer := s.serverServingCustomer.set k.toNat ev.customerId
    t := ev.time
    totalServiceTime := rd (s.totalServiceTime + serviceTimeD rd cfg s.rng)
    idleTimeAcc := rd (s.idleTimeAcc + max 0 (rd (ev.time - lf)))
    rng := rngAfterService cfg s.rng }

/-- The state after the departure `ev` of the customer with record `c`, in double
arithmetic, when nobody waits. -/
def departedIdleD {R : Type} (rd : ℚ → ℚ) (cfg : Config R) (s : State R) (i : Nat)
    (ev : Event) (c : Customer) : State R :=
  { s with
    events := s.events.eraseIdx i
    customers := s.customers.set ev.customerId.toNat { c with departureTime := ev.time }
    serverBusy := s.serverBusy.set ev.serverId.toNat false
    serverServingCustomer := s.serverServingCustomer.set ev.serverId.toNat (-1)
    serverLastFreeTime := s.serverLastFreeTime.set ev.serverId.toNat ev.time
    t := ev.time
    totalWaitingTime := rd (s.totalWaitingTime + max 0 (rd (c.serviceStart - c.arrivalTime)))
    servedCount := s.servedCount + 1
    totalRevenue := rd (s.totalRevenue + rd ((c.scoops : ℚ) * cfg.pricePerScoop)) }

/-- The state after the departure `ev` of the customer with record `c`, in double
arithmetic, when customer `x`, with record `cx`, heads the waiting line `x :: rest`. -/
def departedNextD {R : Type} (rd : ℚ → ℚ) (cfg : Config R) (s : State R) (i : Nat)
    (ev : Event) (c : Customer) (x : Int) (rest : List Int) (cx : Customer) : State R :=
  { s with
    events := s.events.eraseIdx i ++ [departureOfD rd cfg s.rng ev.time x ev.serverId]
    waitingQueue := rest
    customers := (s.customers.set ev.customerId.toNat { c with departureTime := ev.time }).set
      x.toNat { cx with serviceStart := ev.time, scoops := scoopsAt cfg s.rng }
    serverBusy := s.serverBusy.set ev.serverId.toNat true
    serverServingCustomer := s.serverServingCustomer.set ev.serverId.toNat x
    serverLastFreeTime := s.serverLastFreeTime.set ev.serverId.toNat ev.time
    t := ev.time
    totalWaitingTime := rd (s.totalWaitingTime + max 0 (rd (c.serviceStart - c.arrivalTime)))
    totalServiceTime := rd (s.totalServiceTime + serviceTimeD rd cfg s.rng)
    servedCount := s.servedCount + 1
    totalRevenue := rd (s.totalRevenue + rd ((c.scoops : ℚ) * cfg.pricePerScoop))
    rng := rngAfterService cfg s.rng }

/-- What the service starts `sts` performed so far have left in the state, in double
arithmetic (see `Started`): every departure event, pending or handled (`dep`), is
scheduled at the rounded sum of the start time and the rounded scaled duration of a
start; `totalServiceTime` is the sum of the rounded scaled durations, accumulated in
the order of the starts and rounded at each addition; and the entry of a departed
customer carries the time of its departure event. -/
structure StartedD {R : Type} (rd : ℚ → ℚ) (cfg : Config R) (sts : List ServiceStart)
    (dep : List Event) (s : State R) : Prop where
  ledger : ∀ σ ∈ sts, ∃ c, getAt s.customers σ.customerId = some c ∧
    c.serviceStart = σ.time ∧ c.scoops = σ.scoops
  away : ∀ σ ∈ sts, σ.customerId ∉ s.waitingQueue ∧
    ∀ e ∈ s.events, e.type = EventType.ARRIVAL → e.customerId ≠ σ.customerId
  evSt : ∀ e ∈ s.events, e.type = EventType.DEPARTURE → ∃ σ ∈ sts,
    σ.customerId = e.customerId ∧ σ.serverId = e.serverId ∧
      e.time = rd (σ.time + rd (σ.base * (σ.scoops : ℚ)))
  depSt : ∀ e ∈ dep, ∃ σ ∈ sts, σ.customerId = e.customerId ∧ σ.serverId = e.serverId ∧
    e.time = rd (σ.time + rd (σ.base * (σ.scoops : ℚ)))
  unset : ∀ x c, getAt s.customers x = some c → (∀ σ ∈ sts, σ.customerId ≠ x) →
    c.serviceStart = -1
  total : s.totalServiceTime =
    sts.foldl (fun T σ => rd (T + rd (σ.base * (σ.scoops : ℚ)))) 0
  draws : ∀ σ ∈ sts, ∃ r, σ.scoops = scoopsAt cfg r ∧ σ.base = baseAt cfg r
  once : (sts.map fun σ => σ.customerId).Nodup
  nonneg : ValidDraws cfg → (∀ q, 0 ≤ q → 0 ≤ rd q) →
    0 ≤ s.t ∧ (∀ e ∈ s.events, 0 ≤ e.time) ∧ ∀ σ ∈ sts, 0 ≤ σ.time
  depLedger : ∀ e ∈ dep, ∃ c, getAt s.customers e.customerId = some c ∧
    c.departureTime = e.time

/-- A pending arrival names the last entry of the ledger. -/
def PendingArrival {R : Type} (s : State R) : Prop :=
  ∀ e ∈ s.events, e.type = EventType.ARRIVAL → e.customerId + 1 = s.customers.length

/-- The clock against the pending events in double arithmetic: no pending event is
earlier than the clock, and the clock and the times of the pending events are values of
the rounding function. -/
structure ClockD {R : Type} (rd : ℚ → ℚ) (s : State R) : Prop where
  clock : ∀ e ∈ s.events, s.t ≤ e.time
  fixT : rd s.t = s.t
  fixEv : ∀ e ∈ s.events, rd e.time = e.time

/-- The arrival stream against the ledger in double arithmetic (see `Arrivals`): the
arrival times in the ledger are values of the rounding function and, for positive gaps
and a monotone rounding, they do not decrease with the id (a gap can be absorbed by the
rounded sum, so two customers can carry the same arrival time). -/
structure ArrivalsD {R : Type} (rd : ℚ → ℚ) (cfg : Config R) (arr : List Int) (s : State R) :
    Prop where
  ids : ∀ x c, getAt s.customers x = some c → c.id = x
  pendArr : ∀ e ∈ s.events, e.type = EventType.ARRIVAL →
    e.customerId + 1 = s.customers.length ∧
      ∃ c, getAt s.customers e.customerId = some c ∧ c.arrivalTime = e.time
  arrSorted : arr.Pairwise (· < ·)
  arrBelow : ∀ x ∈ arr, ∀ e ∈ s.events, e.type = EventType.ARRIVAL → x < e.customerId
  arrRange : ∀ x ∈ arr, 0 ≤ x ∧ x < s.customers.length
  fixed : Rounding rd → ∀ c ∈ s.customers, rd c.arrivalTime = c.arrivalTime
  times : Rounding rd → (∀ r, 0 < (cfg.interarrival_dist r).1) →
    (s.customers.map fun c => c.arrivalTime).Pairwise (· ≤ ·)

/-! ## Concrete runs in double arithmetic -/

/-- One server, horizon 1; the first gap is 1 and the later gaps are `2^-60`, which
`1.0 + gap` absorbs; every base duration is 1/2, one scoop.  The engine state counts
the draws. -/
def absorbedGap : Config Nat where
  numServers := 1
  pricePerScoop := 3
  SIM_MINUTES := 1
  seed := 0
  interarrival_dist := fun n => (if n < 3 then 1 else 1 / 2 ^ 60, n + 1)
  service_dist := fun n => (1 / 2, n + 1)
  scoops_dist := fun n => (0, n + 1)

/-- The run of `absorbedGap` in double arithmetic after two iterations (the arrival and
the departure of customer 0): the arrival of customer 1 at `t = 1` heads the queue. -/
def absorbedGapBefore : Trace Nat × State Nat :=
  match iterateD roundDouble absorbedGap (fun _ => 0) 2 0 ([], initState absorbedGap) with
  | some x => x
  | none => ([], initState absorbedGap)

/-- The run of `absorbedGap` in double arithmetic after three iterations. -/
def absorbedGapAfter : Trace Nat × State Nat :=
  match iterateD roundDouble absorbedGap (fun _ => 0) 3 0 ([], initState absorbedGap) with
  | some x => x
  | none => ([], initState absorbedGap)

/-- The arrival event of customer 1 at `t = 1`. -/
def secondArrival : Event :=
  { time := 1, type := EventType.ARRIVAL, customerId := 1, serverId := -1 }

/-- One server, every gap 1, every base duration the `double` nearest to 0.1, one
scoop, horizon 1.5: customers 0 and 1 are served and nobody else arrives. -/
def tenthService : Config Unit where
  numServers := 1
  pricePerScoop := 3
  SIM_MINUTES := 3 / 2
  seed := ()
  interarrival_dist := fun r => (1, r)
  service_dist := fun r => (roundDouble (1 / 10), r)
  scoops_dist := fun r => (0, r)

/-- The run of `tenthService` in double arithmetic, ended by the empty queue after
four iterations. -/
def tenthServiceRun : Trace Unit × State Unit :=
  match iterateD roundDouble tenthService (fun _ => 0) 5 0 ([], initState tenthService) with
  | some x => x
  | none => ([], initState tenthService)

/-- The fourth handled iteration of `tenthServiceRun`: the departure of customer 1,
scheduled at `1.0 + 0.1 = 1.100000000000000088...`. -/
def tenthServiceDeparture : State Unit × Event :=
  tenthServiceRun.1.getD 3
    (initState tenthService,
      { time := 0, type := EventType.DEPARTURE, customerId := 0, serverId := 0 })

/-- One server, horizon 7, every base duration 2, one scoop; the gaps are 1, `2^-60`
(absorbed by `1.0 + gap`), 1/2 and then 10.  Customers 1, 2 and 3 arrive at 1, 1 and 1.5
while customer 0 is in service, wait, and are served in turn at 2, 4 and 6.  The engine
state counts the draws. -/
def absorbedQueue : Config Nat where
  numServers := 1
  pricePerScoop := 3
  SIM_MINUTES := 7
  seed := 0
  interarrival_dist := fun n =>
    (if n = 2 then 1 else if n = 3 then 1 / 2 ^ 60 else if n = 4 then 1 / 2 else 10, n + 1)
  service_dist := fun n => (2, n + 1)
  scoops_dist := fun n => (0, n + 1)

/-- The run of `absorbedQueue` in double arithmetic after seven iterations: customer 3
is in service and nobody waits. -/
def absorbedQueueRun : Trace Nat × State Nat :=
  match iterateD roundDouble absorbedQueue (fun _ => 0) 7 0 ([], initState absorbedQueue) with
  | some x => x
  | none => ([], initState absorbedQueue)


/-! ## Vector access lemmas -/

theorem getAt_eq_some {α : Type} {xs : List α} {i : Int} {v : α} :
    getAt xs i = some v ↔ 0 ≤ i ∧ xs[i.toNat]? = some v := by
  unfold getAt
  split <;> simp [*]

theorem getAt_some_range {α : Type} {xs : List α} {i : Int} {v : α}
    (h : getAt xs i = some v) : 0 ≤ i ∧ i < xs.length := by
  obtain ⟨h0, h1⟩ := getAt_eq_some.mp h
  have := (List.getElem?_eq_some.mp h1).1
  omega

theorem getAt_isSome_of_range {α : Type} {xs : List α} {i : Int}
    (h0 : 0 ≤ i) (h1 : i < xs.length) : ∃ v, getAt xs i = some v := by
  have hlt : i.toNat < xs.length := by omega
  exact ⟨xs[i.toNat], getAt_eq_some.mpr ⟨h0, List.getElem?_eq_getElem hlt⟩⟩

theorem setAt_eq_some {α : Type} {xs ys : List α} {i : Int} {v : α} :
    setAt xs i v = some ys ↔ (0 ≤ i ∧ i.toNat < xs.length) ∧ ys = xs.set i.toNat v := by
  unfold setAt
  split
  · simp [*, eq_comm]
  · simp [*]

theorem getAt_set_self {α : Type} {xs : List α} {i : Int} {v : α}
    (h0 : 0 ≤ i) (h1 : i < xs.length) : getAt (xs.set i.toNat v) i = some v := by
  have hlt : i.toNat < xs.length := by omega
  rw [getAt_eq_some]
  exact ⟨h0, by simp [List.getElem?_set, hlt]⟩

theorem getAt_set_ne {α : Type} {xs : List α} {i j : Int} {v : α}
    (h0 : 0 ≤ i) (hij : i ≠ j) : getAt (xs.set i.toNat v) j = getAt xs j := by
  unfold getAt
  split
  · have : i.toNat ≠ j.toNat := by omega
    simp [List.getElem?_set, this]
  · rfl

theorem getAt_append_some {α : Type} {xs ys : List α} {i : Int} {v : α}
    (h : getAt xs i = some v) : getAt (xs ++ ys) i = some v := by
  obtain ⟨h0, h1⟩ := getAt_eq_some.mp h
  have hlt := (List.getElem?_eq_some.mp h1).1
  rw [getAt_eq_some]
  refine ⟨h0, ?_⟩
  rw [List.getElem?_append_left hlt]
  exact h1

/-! ## What a defined operation returns -/

theorem startService_eq_some {cfg : Config R} {s s' : State R} {cid sid : Int}
    (h : startService cfg s cid sid = some s') :
    ∃ c, getAt s.customers cid = some c ∧ 0 ≤ sid ∧ sid.toNat < s.serverBusy.length ∧
      sid.toNat < s.serverServingCustomer.length ∧ s' = startedState cfg s cid sid c := by
  unfold startService at h
  split at h
  · rename_i busy serving c hb hv hc
    obtain ⟨⟨h0, h1⟩, rfl⟩ := setAt_eq_some.mp hb
    obtain ⟨⟨_, h2⟩, rfl⟩ := setAt_eq_some.mp hv
    refine ⟨c, hc, h0, h1, h2, ?_⟩
    simp only [Option.some.injEq] at h
    rw [← h]
    rfl
  · simp at h

theorem recordDeparture_eq_some {cfg : Config R} {s s' : State R} {ev : Event}
    (h : recordDeparture cfg s ev = some s') :
    ∃ c, getAt s.customers ev.customerId = some c ∧ 0 ≤ ev.serverId ∧
      ev.serverId.toNat < s.serverBusy.length ∧ s' = departedState cfg s ev c := by
  unfold recordDeparture at h
  split at h
  · rename_i c busy serving lastFree hc hb hv hl
    obtain ⟨⟨h0, h1⟩, rfl⟩ := setAt_eq_some.mp hb
    obtain ⟨_, rfl⟩ := setAt_eq_some.mp hv
    obtain ⟨_, rfl⟩ := setAt_eq_some.mp hl
    refine ⟨c, hc, h0, h1, ?_⟩
    simp only [Option.some.injEq] at h
    rw [← h]
    rfl
  · simp at h

theorem recordArrival_eq_some {s s' : State R} {cid : Int}
    (h : recordArrival s cid = some s') (hlt : cid < s.customers.length) :
    ∃ c, getAt s.customers cid = some c ∧
      s' = { s with customers := s.customers.set cid.toNat { c with arrivalTime := s.t } } := by
  unfold recordArrival at h
  rw [if_neg (by omega)] at h
  split at h
  · rename_i c hc
    exact ⟨c, hc, by simpa [eq_comm] using h⟩
  · simp at h

theorem scanFree_range (busy : List Bool) (k i : Nat) (h : 0 ≤ scanFree busy i k) :
    (i : Int) ≤ scanFree busy i k ∧ scanFree busy i k < (i + k : Nat) ∧
      busy[(scanFree busy i k).toNat]? = some false := by
  induction k generalizing i with
  | zero => simp [scanFree] at h
  | succ k ih =>
    unfold scanFree at h ⊢
    split
    · rename_i hb
      refine ⟨le_refl _, by omega, by simpa using hb⟩
    · rename_i hb
      rw [if_neg hb] at h
      have := ih (i + 1) h
      refine ⟨by omega, by omega, this.2.2⟩

theorem findFreeServer_range {n : Nat} {busy : List Bool} (h : 0 ≤ findFreeServer n busy) :
    findFreeServer n busy < n ∧ busy[(findFreeServer n busy).toNat]? = some false := by
  have := scanFree_range busy n 0 h
  unfold findFreeServer
  exact ⟨by simpa using this.2.1, this.2.2⟩

/-! ## The structural invariant -/

theorem perm_eraseIdx {α : Type} {l : List α} {i : Nat} {a : α} (h : l[i]? = some a) :
    List.Perm l (a :: l.eraseIdx i) := by
  induction l generalizing i with
  | nil => simp at h
  | cons b l ih =>
    cases i with
    | zero =>
      simp only [List.getElem?_cons_zero, Option.some.injEq] at h
      subst h
      simp
    | succ i =>
      simp only [List.getElem?_cons_succ] at h
      simp only [List.eraseIdx_cons_succ]
      exact ((ih h).cons b).trans (List.Perm.swap a b _)

theorem mem_of_getElem? {α : Type} {l : List α} {i : Nat} {a : α} (h : l[i]? = some a) :
    a ∈ l := by
  obtain ⟨hlt, rfl⟩ := List.getElem?_eq_some.mp h
  exact List.getElem_mem hlt

theorem mem_eraseIdx {α : Type} {l : List α} {i : Nat} {a : α} (h : a ∈ l.eraseIdx i) :
    a ∈ l := (List.eraseIdx_sublist l i).subset h

theorem inv_init (cfg : Config R) : Inv cfg [] [] (initState cfg) where
  busyLen := by simp [initState]
  servingLen := by simp [initState]
  lastFreeLen := by simp [initState]
  nextId := by simp [initState]
  nodup := by simp [occ, pendingIds, initState]
  range := by simp [occ, pendingIds, initState]
  depServer := by simp [initState]

theorem inv_pop {cfg : Config R} {dep : List Int} {s : State R} {i : Nat} {ev : Event}
    (h : Inv cfg [] dep s) (hev : s.events[i]? = some ev) :
    Inv cfg [ev.customerId] dep (popEvent s i ev) := by
  have hp : List.Perm (occ [] dep s) (occ [ev.customerId] dep (popEvent s i ev)) := by
    simp only [occ, pendingIds, popEvent, List.nil_append, List.singleton_append]
    have := (perm_eraseIdx hev).map (fun e : Event => e.customerId)
    simpa using this.append_right _
  exact {
    busyLen := h.busyLen
    servingLen := h.servingLen
    lastFreeLen := h.lastFreeLen
    nextId := h.nextId
    nodup := hp.nodup_iff.mp h.nodup
    range := fun x hx => h.range x (hp.mem_iff.mpr hx)
    depServer := fun e he => h.depServer e (mem_eraseIdx he) }

theorem inv_drop {cfg : Config R} {fl dep : List Int} {s : State R} {x : Int}
    (h : Inv cfg (x :: fl) dep s) : Inv cfg fl dep s :=
  { h with
    nodup := (List.nodup_cons.mp h.nodup).2
    range := fun y hy => h.range y (List.mem_cons_of_mem _ hy) }

theorem inv_startService {cfg : Config R} {fl dep : List Int} {s s' : State R} {cid sid : Int}
    (h : Inv cfg (cid :: fl) dep s) (hsid : sid < cfg.numServers)
    (hs : startService cfg s cid sid = some s') : Inv cfg fl dep s' := by
  obtain ⟨c, hc, h0, h1, h2, rfl⟩ := startService_eq_some hs
  have hp : List.Perm (occ (cid :: fl) dep s) (occ fl dep (startedState cfg s cid sid c)) := by
    simp only [occ, pendingIds, startedState, List.map_append, List.map_cons, List.map_nil,
      List.append_assoc, List.singleton_append, List.cons_append]
    refine List.Perm.trans ?_ (List.perm_middle.symm.append_left fl)
    exact List.perm_middle.symm
  exact {
    busyLen := by simpa [startedState] using h.busyLen
    servingLen := by simpa [startedState] using h.servingLen
    lastFreeLen := h.lastFreeLen
    nextId := by simpa [startedState] using h.nextId
    nodup := hp.nodup_iff.mp h.nodup
    range := fun x hx => by
      simpa [startedState] using h.range x (hp.mem_iff.mpr hx)
    depServer := fun e he => by
      simp only [startedState, List.mem_append, List.mem_singleton] at he
      rcases he with he | rfl
      · exact h.depServer e he
      · exact fun _ => ⟨h0, hsid⟩ }

theorem inv_recordArrival {cfg : Config R} {fl dep : List Int} {s s' : State R} {cid : Int}
    (h : Inv cfg (cid :: fl) dep s) (hs : recordArrival s cid = some s') :
    Inv cfg (cid :: fl) dep s' ∧ ∃ c, getAt s.customers cid = some c ∧
      s' = { s with customers := s.customers.set cid.toNat { c with arrivalTime := s.t } } := by
  have hr := h.range cid (by simp [occ])
  obtain ⟨c, hc, rfl⟩ := recordArrival_eq_some hs hr.2
  refine ⟨?_, c, hc, rfl⟩
  exact {
    busyLen := h.busyLen
    servingLen := h.servingLen
    lastFreeLen := h.lastFreeLen
    nextId := by simpa using h.nextId
    nodup := h.nodup
    range := fun x hx => by simpa using h.range x hx
    depServer := h.depServer }

theorem inv_enqueue {cfg : Config R} {fl dep : List Int} {s : State R} {cid : Int}
    (h : Inv cfg (cid :: fl) dep s) :
    Inv cfg fl dep { s with waitingQueue := s.waitingQueue ++ [cid] } := by
  have hp : List.Perm (occ (cid :: fl) dep s)
      (occ fl dep { s with waitingQueue := s.waitingQueue ++ [cid] }) := by
    refine List.perm_iff_count.mpr fun a => ?_
    simp only [occ, pendingIds, List.count_append, List.count_cons, List.count_nil]
    omega
  exact {
    busyLen := h.busyLen
    servingLen := h.servingLen
    lastFreeLen := h.lastFreeLen
    nextId := h.nextId
    nodup := hp.nodup_iff.mp h.nodup
    range := fun x hx => h.range x (hp.mem_iff.mpr hx)
    depServer := h.depServer }

theorem inv_idle {cfg : Config R} {fl dep : List Int} {s : State R} (q : ℚ)
    (h : Inv cfg fl dep s) : Inv cfg fl dep { s with idleTimeAcc := q } :=
  { busyLen := h.busyLen, servingLen := h.servingLen, lastFreeLen := h.lastFreeLen,
    nextId := h.nextId, nodup := h.nodup, range := h.range, depServer := h.depServer }

theorem inv_stopped {cfg : Config R} {fl dep : List Int} {s : State R} (b : Bool)
    (h : Inv cfg fl dep s) : Inv cfg fl dep { s with stopped := b } :=
  { busyLen := h.busyLen, servingLen := h.servingLen, lastFreeLen := h.lastFreeLen,
    nextId := h.nextId, nodup := h.nodup, range := h.range, depServer := h.depServer }

theorem inv_scheduleNext {cfg : Config R} {fl dep : List Int} {s : State R}
    (h : Inv cfg fl dep s) : Inv cfg fl dep (scheduleNext cfg s) := by
  unfold scheduleNext
  simp only []
  split
  · have hp : List.Perm (s.nextCustId :: occ fl dep s)
        (occ fl dep { s with
          rng := (cfg.interarrival_dist s.rng).2
          nextCustId := s.nextCustId + 1
          customers := s.customers ++
            [{ id := s.nextCustId, arrivalTime := s.t + (cfg.interarrival_dist s.rng).1 }]
          events := s.events ++
            [{ time := s.t + (cfg.interarrival_dist s.rng).1, type := EventType.ARRIVAL,
               customerId := s.nextCustId, serverId := -1 }] }) := by
      refine List.perm_iff_count.mpr fun a => ?_
      simp only [occ, pendingIds, List.map_append, List.map_cons, List.map_nil,
        List.count_append, List.count_cons, List.count_nil]
      omega
    have hfresh : s.nextCustId ∉ occ fl dep s := fun hm => by
      have := (h.range _ hm).2
      have := h.nextId
      omega
    exact {
      busyLen := h.busyLen
      servingLen := h.servingLen
      lastFreeLen := h.lastFreeLen
      nextId := by simp [h.nextId]
      nodup := hp.nodup_iff.mp (List.nodup_cons.mpr ⟨hfresh, h.nodup⟩)
      range := fun x hx => by
        have hx' := hp.mem_iff.mpr hx
        simp only [List.length_append, List.length_singleton]
        rcases List.mem_cons.mp hx' with rfl | hx'
        · have := h.nextId
          push_cast
          omega
        · have := h.range x hx'
          push_cast
          omega
      depServer := fun e he => by
        simp only [List.mem_append, List.mem_singleton] at he
        rcases he with he | rfl
        · exact h.depServer e he
        · intro hty; cases hty }
  · exact {
      busyLen := h.busyLen, servingLen := h.servingLen, lastFreeLen := h.lastFreeLen,
      nextId := h.nextId, nodup := h.nodup, range := h.range, depServer := h.depServer }

theorem inv_recordDeparture {cfg : Config R} {dep : List Int} {s s' : State R} {ev : Event}
    (h : Inv cfg [ev.customerId] dep s) (hs : recordDeparture cfg s ev = some s') :
    Inv cfg [] (dep ++ [ev.customerId]) s' := by
  obtain ⟨c, hc, h0, h1, rfl⟩ := recordDeparture_eq_some hs
  have hp : List.Perm (occ [ev.customerId] dep s)
      (occ [] (dep ++ [ev.customerId]) (departedState cfg s ev c)) := by
    refine List.perm_iff_count.mpr fun a => ?_
    simp only [occ, pendingIds, departedState, List.count_append, List.count_cons,
      List.count_nil]
    omega
  exact {
    busyLen := by simpa [departedState] using h.busyLen
    servingLen := by simpa [departedState] using h.servingLen
    lastFreeLen := by simpa [departedState] using h.lastFreeLen
    nextId := by simpa [departedState] using h.nextId
    nodup := hp.nodup_iff.mp h.nodup
    range := fun x hx => by
      simpa [departedState] using h.range x (hp.mem_iff.mpr hx)
    depServer := h.depServer }

theorem inv_dequeue {cfg : Config R} {dep : List Int} {s : State R} {x : Int} {rest : List Int}
    (h : Inv cfg [] dep s) (hq : s.waitingQueue = x :: rest) :
    Inv cfg [x] dep { s with waitingQueue := rest } := by
  have hp : List.Perm (occ [] dep s) (occ [x] dep { s with waitingQueue := rest }) := by
    simp only [occ, pendingIds, hq, List.nil_append, List.singleton_append, List.cons_append]
    exact List.perm_middle
  exact {
    busyLen := h.busyLen
    servingLen := h.servingLen
    lastFreeLen := h.lastFreeLen
    nextId := h.nextId
    nodup := hp.nodup_iff.mp h.nodup
    range := fun y hy => h.range y (hp.mem_iff.mpr hy)
    depServer := h.depServer }
/-! ## Ledger frames -/

theorem rec_set {cs : List Customer} {x cid : Int} {c0 v : Customer} {P : Customer → Prop}
    (h : ∃ c, getAt cs x = some c ∧ P c) (hc : getAt cs cid = some c0)
    (hv : x = cid → P c0 → P v) : ∃ c, getAt (cs.set cid.toNat v) x = some c ∧ P c := by
  obtain ⟨c, hx, hP⟩ := h
  have hr := getAt_some_range hc
  by_cases hxc : x = cid
  · subst hxc
    rw [hc] at hx
    cases hx
    exact ⟨v, getAt_set_self hr.1 hr.2, hv rfl hP⟩
  · exact ⟨c, by rw [getAt_set_ne hr.1 (Ne.symm hxc)]; exact hx, hP⟩

theorem rec_append {cs ys : List Customer} {x : Int} {P : Customer → Prop}
    (h : ∃ c, getAt cs x = some c ∧ P c) : ∃ c, getAt (cs ++ ys) x = some c ∧ P c := by
  obtain ⟨c, hx, hP⟩ := h
  exact ⟨c, getAt_append_some hx, hP⟩

theorem getAt_append_range {α : Type} {xs ys : List α} {i : Int}
    (h0 : 0 ≤ i) (h1 : i < xs.length) : getAt (xs ++ ys) i = getAt xs i := by
  obtain ⟨v, hv⟩ := getAt_isSome_of_range h0 h1
  rw [hv, getAt_append_some hv]

theorem sum_map_congr {α : Type} {l : List α} {f g : α → ℚ} (h : ∀ a ∈ l, f a = g a) :
    (l.map f).sum = (l.map g).sum := by
  rw [List.map_congr_left h]

theorem revenueOf_congr {cfg : Config R} {cs cs' : List Customer} {x : Int}
    (h : getAt cs' x = getAt cs x) : revenueOf cfg cs' x = revenueOf cfg cs x := by
  unfold revenueOf; rw [h]

theorem waitOf_congr {cs cs' : List Customer} {x : Int}
    (h : getAt cs' x = getAt cs x) : waitOf cs' x = waitOf cs x := by
  unfold waitOf; rw [h]

/-- The accounting facts only read the ledger at the departed customers and at the
customers served at their arrival: a state that agrees there, and has the same totals,
pending arrivals and waiting line, inherits them. -/
theorem acct_frame {cfg : Config R} {fl fl' : List Int} {dep : List Event} {imm : List Int}
    {s s' : State R} (h : Acct cfg fl dep imm s)
    (hserved : s'.servedCount = s.servedCount) (hrev : s'.totalRevenue = s.totalRevenue)
    (hwait : s'.totalWaitingTime = s.totalWaitingTime)
    (hdep : ∀ e ∈ dep, getAt s'.customers e.customerId = getAt s.customers e.customerId)
    (himm : ∀ x ∈ imm, x ∉ fl → (∀ e ∈ s.events, e.type = EventType.ARRIVAL → e.customerId ≠ x) →
      x ∉ s.waitingQueue → (∃ c, getAt s.customers x = some c) → x ∉ fl' ∧
      (∀ e ∈ s'.events, e.type = EventType.ARRIVAL → e.customerId ≠ x) ∧ x ∉ s'.waitingQueue ∧
      getAt s'.customers x = getAt s.customers x) :
    Acct cfg fl' dep imm s' where
  served := by rw [hserved, h.served]
  revenue := by
    rw [hrev, h.revenue]
    exact sum_map_congr fun e he => (revenueOf_congr (hdep e he)).symm
  waitTotal := by
    rw [hwait, h.waitTotal]
    exact sum_map_congr fun e he => (waitOf_congr (hdep e he)).symm
  depRecord := fun e he => by
    rw [hdep e he]
    exact h.depRecord e he
  immRecord := fun x hx => by
    obtain ⟨h1, h2, h3, h4⟩ := h.immRecord x hx
    obtain ⟨g1, g2, g3, g4⟩ := himm x hx h1 h2 h3 ⟨h4.choose, h4.choose_spec.1⟩
    rw [g4]
    exact ⟨g1, g2, g3, h4⟩

/-! ## The accounting invariant -/

theorem acct_init (cfg : Config R) : Acct cfg [] [] [] (initState cfg) where
  served := by simp [initState]
  revenue := by simp [initState]
  waitTotal := by simp [initState]
  depRecord := by simp
  immRecord := by simp

theorem inv_flight_ne {cfg : Config R} {fl dep : List Int} {s : State R} {cid x : Int}
    (h : Inv cfg (cid :: fl) dep s) (hx : x ∈ occ fl dep s) : cid ≠ x := by
  intro hxc
  subst hxc
  exact (List.nodup_cons.mp h.nodup).1 hx

theorem mem_occ_dep {fl : List Int} {dep : List Event} {s : State R} {e : Event}
    (he : e ∈ dep) : e.customerId ∈ occ fl (dep.map fun e => e.customerId) s := by
  simp only [occ, List.mem_append, List.mem_map]
  exact Or.inr (Or.inr (Or.inr ⟨e, he, rfl⟩))

theorem mem_occ_wait {fl dep : List Int} {s : State R} {x : Int}
    (hx : x ∈ s.waitingQueue) : x ∈ occ fl dep s := by
  simp only [occ, List.mem_append]
  exact Or.inr (Or.inr (Or.inl hx))

theorem mem_occ_pending {fl dep : List Int} {s : State R} {e : Event}
    (he : e ∈ s.events) : e.customerId ∈ occ fl dep s := by
  simp only [occ, pendingIds, List.mem_append, List.mem_map]
  exact Or.inr (Or.inl ⟨e, he, rfl⟩)

theorem acct_arrive {cfg : Config R} {dep : List Event} {imm : List Int} {s s1 : State R}
    {i : Nat} {ev : Event} (hI : Inv cfg [] (dep.map fun e => e.customerId) s)
    (hA : Acct cfg [] dep imm s) (hev : s.events[i]? = some ev)
    (hty : ev.type = EventType.ARRIVAL)
    (hr : recordArrival (popEvent s i ev) ev.customerId = some s1) :
    Acct cfg [ev.customerId] dep imm s1 ∧
      ∃ c, getAt s1.customers ev.customerId = some c ∧ c.arrivalTime = s1.t := by
  have hI1 := inv_pop hI hev
  obtain ⟨_, c, hc, rfl⟩ := inv_recordArrival hI1 hr
  have hr := getAt_some_range hc
  refine ⟨?_, _, getAt_set_self hr.1 hr.2, rfl⟩
  refine acct_frame hA rfl rfl rfl (fun e he => ?_) (fun x hx _ h2 h3 _ => ?_)
  · exact getAt_set_ne hr.1 (inv_flight_ne hI1 (mem_occ_dep he))
  · have hne : ev.customerId ≠ x := h2 ev (mem_of_getElem? hev) hty
    refine ⟨by simpa using Ne.symm hne, fun e he => h2 e (mem_eraseIdx he), h3, ?_⟩
    exact getAt_set_ne hr.1 hne

theorem acct_startService {cfg : Config R} {fl : List Int} {dep : List Event} {imm : List Int}
    {s s' : State R} {cid sid : Int} (hI : Inv cfg (cid :: fl) (dep.map fun e => e.customerId) s)
    (hA : Acct cfg (cid :: fl) dep imm s) (hs : startService cfg s cid sid = some s') :
    Acct cfg fl dep imm s' := by
  obtain ⟨c, hc, h0, h1, h2, rfl⟩ := startService_eq_some hs
  have hr := getAt_some_range hc
  refine acct_frame hA rfl rfl rfl (fun e he => ?_) (fun x hx hfl h2 h3 _ => ?_)
  · exact getAt_set_ne hr.1 (inv_flight_ne hI (mem_occ_dep he))
  · have hne : cid ≠ x := fun hxc => hfl (by simp [hxc])
    refine ⟨fun hm => hfl (List.mem_cons_of_mem _ hm), fun e he => ?_, h3,
      getAt_set_ne hr.1 hne⟩
    simp only [startedState, List.mem_append, List.mem_singleton] at he
    rcases he with he | rfl
    · exact h2 e he
    · intro hty; cases hty

theorem acct_imm_snoc {cfg : Config R} {fl : List Int} {dep : List Event} {imm : List Int}
    {s : State R} {x : Int} (hA : Acct cfg fl dep imm s)
    (hx : x ∉ fl ∧ (∀ e ∈ s.events, e.type = EventType.ARRIVAL → e.customerId ≠ x) ∧
      x ∉ s.waitingQueue ∧ ∃ c, getAt s.customers x = some c ∧ c.serviceStart = c.arrivalTime) :
    Acct cfg fl dep (imm ++ [x]) s :=
  { served := hA.served, revenue := hA.revenue, waitTotal := hA.waitTotal
    depRecord := hA.depRecord
    immRecord := fun y hy => by
      rcases List.mem_append.mp hy with hy | hy
      · exact hA.immRecord y hy
      · rw [List.mem_singleton.mp hy]; exact hx }

theorem acct_enqueue {cfg : Config R} {fl : List Int} {dep : List Event} {imm : List Int}
    {s : State R} {cid : Int} (hA : Acct cfg (cid :: fl) dep imm s) :
    Acct cfg fl dep imm { s with waitingQueue := s.waitingQueue ++ [cid] } := by
  refine acct_frame hA rfl rfl rfl (fun e he => rfl) (fun x hx hfl h2 h3 _ => ?_)
  have hne : x ≠ cid := fun hxc => hfl (by simp [hxc])
  exact ⟨fun hm => hfl (List.mem_cons_of_mem _ hm), h2, by simp [h3, hne], rfl⟩

theorem acct_dequeue {cfg : Config R} {dep : List Event} {imm : List Int}
    {s : State R} {x : Int} {rest : List Int} (hA : Acct cfg [] dep imm s)
    (hq : s.waitingQueue = x :: rest) :
    Acct cfg [x] dep imm { s with waitingQueue := rest } := by
  refine acct_frame hA rfl rfl rfl (fun e he => rfl) (fun y hy _ h2 h3 _ => ?_)
  rw [hq] at h3
  simp only [List.mem_cons, not_or] at h3
  exact ⟨by simpa using h3.1, h2, h3.2, rfl⟩

theorem acct_idle {cfg : Config R} {fl : List Int} {dep : List Event} {imm : List Int}
    {s : State R} (q : ℚ) (hA : Acct cfg fl dep imm s) :
    Acct cfg fl dep imm { s with idleTimeAcc := q } :=
  acct_frame hA rfl rfl rfl (fun _ _ => rfl) (fun _ _ hfl h2 h3 _ => ⟨hfl, h2, h3, rfl⟩)

theorem acct_cutoff {cfg : Config R} {dep : List Event} {imm : List Int}
    {s : State R} (i : Nat) (ev : Event) (hA : Acct cfg [] dep imm s) :
    Acct cfg [] dep imm { popEvent s i ev with stopped := true } :=
  acct_frame hA rfl rfl rfl (fun _ _ => rfl)
    (fun _ _ hfl h2 h3 _ => ⟨hfl, fun e he => h2 e (mem_eraseIdx he), h3, rfl⟩)

theorem acct_scheduleNext {cfg : Config R} {fl : List Int} {dep : List Event} {imm : List Int}
    {s : State R} (hI : Inv cfg fl (dep.map fun e => e.customerId) s)
    (hA : Acct cfg fl dep imm s) : Acct cfg fl dep imm (scheduleNext cfg s) := by
  unfold scheduleNext
  simp only []
  split
  · refine acct_frame hA rfl rfl rfl (fun e he => ?_) (fun x hx hfl h2 h3 h4 => ?_)
    · obtain ⟨_, c, hc, _⟩ := hA.depRecord e he
      have hr := getAt_some_range hc
      exact getAt_append_range hr.1 hr.2
    · obtain ⟨c, hc⟩ := h4
      have hr := getAt_some_range hc
      refine ⟨hfl, fun e he => ?_, h3, getAt_append_range hr.1 hr.2⟩
      simp only [List.mem_append, List.mem_singleton] at he
      rcases he with he | rfl
      · exact h2 e he
      · intro _
        have := hI.nextId
        simp only
        omega
  · exact acct_frame hA rfl rfl rfl (fun _ _ => rfl) (fun _ _ hfl h2 h3 _ => ⟨hfl, h2, h3, rfl⟩)

theorem acct_depart {cfg : Config R} {dep : List Event} {imm : List Int} {s s1 : State R}
    {i : Nat} {ev : Event} (hI : Inv cfg [] (dep.map fun e => e.customerId) s)
    (hA : Acct cfg [] dep imm s) (hev : s.events[i]? = some ev)
    (hty : ev.type = EventType.DEPARTURE)
    (hr : recordDeparture cfg (popEvent s i ev) ev = some s1) :
    Acct cfg [] (dep ++ [ev]) imm s1 := by
  have hI1 := inv_pop hI hev
  obtain ⟨c, hc, h0, h1, rfl⟩ := recordDeparture_eq_some hr
  have hc' : getAt s.customers ev.customerId = some c := hc
  have hr := getAt_some_range hc'
  have hdep : ∀ e ∈ dep, getAt (departedState cfg (popEvent s i ev) ev c).customers e.customerId
      = getAt s.customers e.customerId := fun e he =>
    getAt_set_ne hr.1 (inv_flight_ne hI1 (mem_occ_dep he))
  have hself : getAt (departedState cfg (popEvent s i ev) ev c).customers ev.customerId
      = some { c with departureTime := ev.time } := getAt_set_self hr.1 hr.2
  exact {
    served := by
      simp only [departedState, popEvent, List.length_append, List.length_singleton]
      rw [hA.served]
      push_cast
      rfl
    revenue := by
      rw [List.map_append, List.sum_append, sum_map_congr fun e he => revenueOf_congr (hdep e he)]
      simp only [List.map_cons, List.map_nil, List.sum_cons, List.sum_nil, add_zero]
      rw [revenueOf, hself, ← hA.revenue]
      rfl
    waitTotal := by
      rw [List.map_append, List.sum_append, sum_map_congr fun e he => waitOf_congr (hdep e he)]
      simp only [List.map_cons, List.map_nil, List.sum_cons, List.sum_nil, add_zero]
      rw [waitOf, hself, ← hA.waitTotal]
      rfl
    depRecord := fun e he => by
      rcases List.mem_append.mp he with he | he
      · rw [hdep e he]
        exact hA.depRecord e he
      · rw [List.mem_singleton.mp he]
        exact ⟨hty, _, hself, rfl⟩
    immRecord := fun x hx => by
      obtain ⟨h1, h2, h3, h4⟩ := hA.immRecord x hx
      refine ⟨h1, fun e he => h2 e (mem_eraseIdx he), h3, ?_⟩
      exact rec_set h4 hc' (fun _ h => h) }

/-! ## The cases of one iteration -/

theorem loopIter_cases {cfg : Config R} {s s' : State R} {i : Nat} {ev : Event}
    (hev : s.events[i]? = some ev) (h : loopIter cfg s i = some s') :
    (cfg.SIM_MINUTES < ev.time ∧ s' = { popEvent s i ev with stopped := true }) ∨
    (ev.time ≤ cfg.SIM_MINUTES ∧ ev.type = EventType.ARRIVAL ∧
      handleArrival cfg (popEvent s i ev) ev = some s') ∨
    (ev.time ≤ cfg.SIM_MINUTES ∧ ev.type = EventType.DEPARTURE ∧
      handleDeparture cfg (popEvent s i ev) ev = some s') := by
  unfold loopIter at h
  rw [hev] at h
  simp only [gt_iff_lt] at h
  by_cases hcut : cfg.SIM_MINUTES < ev.time
  · rw [if_pos hcut] at h
    exact Or.inl ⟨hcut, by simpa [eq_comm] using h⟩
  · rw [if_neg hcut] at h
    have hle : ev.time ≤ cfg.SIM_MINUTES := not_lt.mp hcut
    cases hty : ev.type with
    | ARRIVAL =>
      rw [hty] at h
      exact Or.inr (Or.inl ⟨hle, rfl, h⟩)
    | DEPARTURE =>
      rw [hty] at h
      exact Or.inr (Or.inr ⟨hle, rfl, h⟩)

theorem handleArrival_cases {cfg : Config R} {s s' : State R} {ev : Event}
    (h : handleArrival cfg s ev = some s') :
    ∃ s1, recordArrival s ev.customerId = some s1 ∧
      ((0 ≤ findFreeServer cfg.numServers s1.serverBusy ∧ ∃ s2 lastFree,
          startService cfg s1 ev.customerId (findFreeServer cfg.numServers s1.serverBusy) = some s2 ∧
          getAt s1.serverLastFreeTime (findFreeServer cfg.numServers s1.serverBusy) = some lastFree ∧
          s' = scheduleNext cfg { s2 with idleTimeAcc := s2.idleTimeAcc + max 0 (s1.t - lastFree) }) ∨
       (findFreeServer cfg.numServers s1.serverBusy < 0 ∧
          s' = scheduleNext cfg { s1 with waitingQueue := s1.waitingQueue ++ [ev.customerId] })) := by
  unfold handleArrival at h
  split at h
  · simp at h
  · rename_i s1 hs1
    refine ⟨s1, hs1, ?_⟩
    simp only [] at h
    by_cases hfree : 0 ≤ findFreeServer cfg.numServers s1.serverBusy
    · rw [if_pos hfree] at h
      left
      refine ⟨hfree, ?_⟩
      split at h
      · rename_i s2 lastFree h2 hl
        exact ⟨s2, lastFree, h2, hl, by simpa [eq_comm] using h⟩
      · simp at h
    · rw [if_neg hfree] at h
      right
      exact ⟨not_le.mp hfree, by simpa [eq_comm] using h⟩

theorem handleDeparture_cases {cfg : Config R} {s s' : State R} {ev : Event}
    (h : handleDeparture cfg s ev = some s') :
    ∃ s1, recordDeparture cfg s ev = some s1 ∧
      ((s1.waitingQueue = [] ∧ s' = s1) ∨
       (∃ x rest, s1.waitingQueue = x :: rest ∧
          startService cfg { s1 with waitingQueue := rest } x ev.serverId = some s')) := by
  unfold handleDeparture at h
  split at h
  · simp at h
  · rename_i s1 hs1
    refine ⟨s1, hs1, ?_⟩
    split at h
    · rename_i hq
      exact Or.inl ⟨hq, by simpa [eq_comm] using h⟩
    · rename_i x rest hq
      exact Or.inr ⟨x, rest, hq, h⟩

/-! ## Traces -/

theorem departedEvents_snoc (tr : Trace R) (s : State R) (ev : Event) :
    departedEvents (tr ++ [(s, ev)]) =
      if ev.type = EventType.DEPARTURE then departedEvents tr ++ [ev] else departedEvents tr := by
  unfold departedEvents
  by_cases h : ev.type = EventType.DEPARTURE <;> simp [List.filter_cons, h]

theorem immediateIds_snoc (cfg : Config R) (tr : Trace R) (s : State R) (ev : Event) :
    immediateIds cfg (tr ++ [(s, ev)]) =
      if ev.type = EventType.ARRIVAL ∧ 0 ≤ findFreeServer cfg.numServers s.serverBusy then
        immediateIds cfg tr ++ [ev.customerId]
      else immediateIds cfg tr := by
  unfold immediateIds
  by_cases h : ev.type = EventType.ARRIVAL ∧ 0 ≤ findFreeServer cfg.numServers s.serverBusy
  · simp [List.filter_cons, h]
  · rw [if_neg h]
    simp [List.filter_cons, h]

/-! ## The invariants hold along every run -/

theorem acct_startService_imm {cfg : Config R} {fl : List Int} {dep : List Event}
    {imm : List Int} {s s' : State R} {cid sid : Int}
    (hI : Inv cfg (cid :: fl) (dep.map fun e => e.customerId) s)
    (hA : Acct cfg (cid :: fl) dep imm s) (hs : startService cfg s cid sid = some s')
    (hat : ∃ c, getAt s.customers cid = some c ∧ c.arrivalTime = s.t) :
    Acct cfg fl dep (imm ++ [cid]) s' := by
  refine acct_imm_snoc (acct_startService hI hA hs) ?_
  obtain ⟨c, hc, h0, h1, h2, rfl⟩ := startService_eq_some hs
  obtain ⟨c', hc', hat⟩ := hat
  rw [hc] at hc'
  cases hc'
  have hr := getAt_some_range hc
  have hnd := List.nodup_cons.mp hI.nodup
  refine ⟨fun hm => hnd.1 (by simp [occ, hm]), fun e he _ => ?_, fun hm => ?_, ?_⟩
  · simp only [startedState, List.mem_append, List.mem_singleton] at he
    rcases he with he | rfl
    · exact fun hxc => hnd.1 (hxc ▸ mem_occ_pending he)
    · cases ‹_ = EventType.ARRIVAL›
  · exact hnd.1 (mem_occ_wait hm)
  · exact ⟨_, getAt_set_self hr.1 hr.2, hat.symm⟩

theorem good_init (cfg : Config R) : Good cfg [] (initState cfg) :=
  ⟨inv_init cfg, acct_init cfg⟩

theorem good_step {cfg : Config R} {tr : Trace R} {s s' : State R} {i : Nat} {ev : Event}
    (hg : Good cfg tr s) (hev : s.events[i]? = some ev) (h : loopIter cfg s i = some s') :
    (cfg.SIM_MINUTES < ev.time → Good cfg tr s') ∧
    (ev.time ≤ cfg.SIM_MINUTES → Good cfg (tr ++ [(s, ev)]) s') := by
  obtain ⟨hI, hA⟩ := hg
  have hIp := inv_pop hI hev
  rcases loopIter_cases hev h with ⟨hcut, rfl⟩ | ⟨hle, hty, ha⟩ | ⟨hle, hty, hd⟩
  · exact ⟨fun _ => ⟨inv_stopped true (inv_drop hIp), acct_cutoff i ev hA⟩,
      fun hle => absurd hcut (not_lt.mpr hle)⟩
  · refine ⟨fun hcut => absurd hcut (not_lt.mpr hle), fun _ => ?_⟩
    obtain ⟨s1, hs1, hcase⟩ := handleArrival_cases ha
    obtain ⟨hI1, c, hc, hs1eq⟩ := inv_recordArrival hIp hs1
    obtain ⟨hA1, hat⟩ := acct_arrive hI hA hev hty hs1
    have hbusy : s1.serverBusy = s.serverBusy := by rw [hs1eq]; rfl
    have hdep : departedEvents (tr ++ [(s, ev)]) = departedEvents tr := by
      rw [departedEvents_snoc, if_neg (by simp [hty])]
    unfold Good departedIds
    rw [hdep, immediateIds_snoc]
    rcases hcase with ⟨hfree, s2, lastFree, hs2, _, rfl⟩ | ⟨hfree, rfl⟩
    · rw [if_pos ⟨hty, hbusy ▸ hfree⟩]
      have hI2 := inv_startService hI1 (findFreeServer_range hfree).1 hs2
      have hA2 := acct_startService_imm hI1 hA1 hs2 hat
      exact ⟨inv_scheduleNext (inv_idle _ hI2),
        acct_scheduleNext (inv_idle _ hI2) (acct_idle _ hA2)⟩
    · rw [if_neg (fun hc => absurd (hbusy ▸ hc.2) (not_le.mpr hfree))]
      exact ⟨inv_scheduleNext (inv_enqueue hI1),
        acct_scheduleNext (inv_enqueue hI1) (acct_enqueue hA1)⟩
  · refine ⟨fun hcut => absurd hcut (not_lt.mpr hle), fun _ => ?_⟩
    obtain ⟨s1, hs1, hcase⟩ := handleDeparture_cases hd
    have hI1 := inv_recordDeparture hIp hs1
    have hA1 := acct_depart hI hA hev hty hs1
    have hsid := (hI.depServer ev (mem_of_getElem? hev) hty).2
    have hdep : departedEvents (tr ++ [(s, ev)]) = departedEvents tr ++ [ev] := by
      rw [departedEvents_snoc, if_pos hty]
    have himm : immediateIds cfg (tr ++ [(s, ev)]) = immediateIds cfg tr := by
      rw [immediateIds_snoc, if_neg (by simp [hty])]
    have hI1' : Inv cfg [] ((departedEvents tr ++ [ev]).map fun e => e.customerId) s1 := by
      simpa [departedIds] using hI1
    unfold Good departedIds
    rw [hdep, himm]
    rcases hcase with ⟨_, rfl⟩ | ⟨x, rest, hq, hs'⟩
    · exact ⟨hI1', hA1⟩
    · exact ⟨inv_startService (inv_dequeue hI1' hq) hsid hs',
        acct_startService (inv_dequeue hI1' hq) (acct_dequeue hA1 hq) hs'⟩

theorem exec_good {cfg : Config R} {tr : Trace R} {s : State R} (h : Exec cfg tr s) :
    Good cfg tr s := by
  induction h with
  | start => exact good_init cfg
  | handle _ _ _ hev hle hstep ih => exact (good_step ih hev hstep).2 hle
  | cutoff _ _ _ hev hcut hstep ih => exact (good_step ih hev hstep).1 hcut

/-- Every listed iteration started from a state that is itself reached by the
iterations listed before it, popped a least-time event of that state, and was
defined. -/
theorem exec_trace {cfg : Config R} {tr : Trace R} {s : State R} (h : Exec cfg tr s) :
    ∀ tr0 p tr1, tr = tr0 ++ p :: tr1 →
      Exec cfg tr0 p.1 ∧ ¬ finished p.1 ∧ p.2.time ≤ cfg.SIM_MINUTES ∧
      ∃ i s', isTop p.1.events i ∧ p.1.events[i]? = some p.2 ∧ loopIter cfg p.1 i = some s' ∧
        Exec cfg (tr0 ++ [p]) s' := by
  induction h with
  | start => intro tr0 p tr1 h; simp at h
  | @handle tr s s' i ev hex hnf htop hev hle hstep ih =>
    intro tr0 p tr1 heq
    rcases List.eq_nil_or_concat tr1 with rfl | ⟨tr1', q, rfl⟩
    · have h1 : tr ++ [(s, ev)] = tr0 ++ [p] := heq
      obtain ⟨rfl, hp⟩ := List.append_inj' h1 rfl
      simp only [List.cons.injEq, and_true] at hp
      subst hp
      exact ⟨hex, hnf, hle, i, s', htop, hev, hstep, Exec.handle hex hnf htop hev hle hstep⟩
    · have h1 : tr ++ [(s, ev)] = (tr0 ++ p :: tr1') ++ [q] := by
        rw [heq]; simp
      obtain ⟨h2, _⟩ := List.append_inj' h1 rfl
      exact ih tr0 p tr1' h2
  | cutoff _ _ _ _ _ _ ih => exact ih

theorem nodup_int_length_le {l : List Int} {n : Nat} (hnd : l.Nodup)
    (hr : ∀ x ∈ l, 0 ≤ x ∧ x < n) : l.length ≤ n := by
  have hinj : ∀ x ∈ l, ∀ y ∈ l, Int.toNat x = Int.toNat y → x = y := fun x hx y hy hxy => by
    have := (hr x hx).1
    have := (hr y hy).1
    omega
  have hnd' : (l.map Int.toNat).Nodup := List.Nodup.map_on hinj hnd
  have hsub : l.map Int.toNat ⊆ List.range n := fun y hy => by
    obtain ⟨x, hx, rfl⟩ := List.mem_map.mp hy
    have := hr x hx
    exact List.mem_range.mpr (by omega)
  have := (hnd'.subperm hsub).length_le
  simpa using this

/-! ## Scheduled runs are runs -/

theorem topChoices_isTop {evs : List Event} {i : Nat} (h : i ∈ topChoices evs) : isTop evs i := by
  unfold topChoices at h
  obtain ⟨_, hf⟩ := List.mem_filter.mp h
  split at hf
  · rename_i ev hev
    refine ⟨ev, hev, fun e he => ?_⟩
    have := List.all_eq_true.mp hf e he
    simpa using this
  · simp at hf

theorem iterate_exec {cfg : Config R} {sched : Nat → Nat} (n : Nat) :
    ∀ (k : Nat) (tr tr' : Trace R) (s s' : State R), Exec cfg tr s →
      iterate cfg sched n k (tr, s) = some (tr', s') → Exec cfg tr' s' := by
  induction n with
  | zero =>
    intro k tr tr' s s' hex h
    simp only [iterate, Option.some.injEq, Prod.mk.injEq] at h
    obtain ⟨rfl, rfl⟩ := h
    exact hex
  | succ n ih =>
    intro k tr tr' s s' hex h
    unfold iterate at h
    by_cases hf : finished s
    · rw [if_pos hf] at h
      simp only [Option.some.injEq, Prod.mk.injEq] at h
      obtain ⟨rfl, rfl⟩ := h
      exact hex
    · rw [if_neg hf] at h
      split at h
      · simp at h
      · rename_i i hi
        have htop : isTop s.events i := topChoices_isTop (mem_of_getElem? hi)
        split at h
        · rename_i ev s1 hev hs1
          by_cases hle : ev.time ≤ cfg.SIM_MINUTES
          · rw [if_pos hle] at h
            exact ih _ _ _ _ _ (Exec.handle hex hf htop hev hle hs1) h
          · rw [if_neg hle] at h
            exact ih _ _ _ _ _ (Exec.cutoff hex hf htop hev (not_le.mp hle) hs1) h
        · simp at h

theorem runSched_exec {cfg : Config R} {sched : Nat → Nat} {fuel : Nat} {tr : Trace R}
    {s : State R} (h : runSched cfg sched fuel = some (tr, s)) : Exec cfg tr s ∧ finished s := by
  unfold runSched at h
  split at h
  · rename_i tr1 s1 hit
    by_cases hf : finished s1
    · rw [if_pos hf] at h
      simp only [Option.some.injEq, Prod.mk.injEq] at h
      obtain ⟨rfl, rfl⟩ := h
      exact ⟨iterate_exec fuel 0 [] _ _ _ Exec.start hit, hf⟩
    · rw [if_neg hf] at h
      simp at h
  · simp at h

/-! ## Concrete runs -/

theorem scenario1Run_eq : runSched scenario1 (fun _ => 0) 13 = some scenario1Run := by
  with_unfolding_all rfl

theorem scenario1Run_exec : Exec scenario1 scenario1Run.1 scenario1Run.2 :=
  (runSched_exec scenario1Run_eq).1

/-! ## The timing invariant -/

theorem serviceTime_pos {cfg : Config R} (hv : ValidDraws cfg) (r : R) :
    0 < (cfg.service_dist (cfg.scoops_dist r).2).1 * (((cfg.scoops_dist r).1 + 1 : Int) : ℚ) := by
  have h1 := hv.2.1 (cfg.scoops_dist r).2
  have h2 := (hv.2.2 r).1
  have h3 : (0 : ℚ) < (((cfg.scoops_dist r).1 + 1 : Int) : ℚ) := by
    exact_mod_cast (by omega : 0 < (cfg.scoops_dist r).1 + 1)
  exact mul_pos h1 h3

theorem timing_init (cfg : Config R) : Timing [] [] (initState cfg) where
  clock := by simp [initState]
  srv := by simp [initState]
  wait := by simp [initState]
  flight := by simp
  done := by simp

theorem timing_arrive {cfg : Config R} {dep : List Event} {s s1 : State R}
    {i : Nat} {ev : Event} (hI : Inv cfg [] (dep.map fun e => e.customerId) s)
    (hT : Timing [] dep s) (htop : isTop s.events i) (hev : s.events[i]? = some ev)
    (hr : recordArrival (popEvent s i ev) ev.customerId = some s1) :
    Timing [ev.customerId] dep s1 := by
  have hI1 := inv_pop hI hev
  obtain ⟨_, c, hc, rfl⟩ := inv_recordArrival hI1 hr
  have hr := getAt_some_range hc
  obtain ⟨ev', hev', hmin⟩ := htop
  rw [hev] at hev'
  cases hev'
  exact {
    clock := fun e he => hmin e (mem_eraseIdx he)
    srv := fun e he hty => by
      have hne := inv_flight_ne hI1 (mem_occ_pending he)
      obtain ⟨c', hc', h⟩ := hT.srv e (mem_eraseIdx he) hty
      exact ⟨c', by rw [← hc']; exact getAt_set_ne hr.1 hne, h⟩
    wait := fun x hx => by
      have hne := inv_flight_ne hI1 (mem_occ_wait hx)
      obtain ⟨c', hc', h⟩ := hT.wait x hx
      exact ⟨c', by rw [← hc']; exact getAt_set_ne hr.1 hne,
        le_trans h (hT.clock ev (mem_of_getElem? hev))⟩
    flight := fun x hx => by
      rw [List.mem_singleton.mp hx]
      exact ⟨_, getAt_set_self hr.1 hr.2, le_refl _⟩
    done := fun e he => by
      have hne := inv_flight_ne hI1 (mem_occ_dep he)
      obtain ⟨c', hc', h⟩ := hT.done e he
      exact ⟨c', by rw [← hc']; exact getAt_set_ne hr.1 hne, h⟩ }

theorem timing_startService {cfg : Config R} {fl : List Int} {dep : List Event}
    {s s' : State R} {cid sid : Int} (hv : ValidDraws cfg)
    (hI : Inv cfg (cid :: fl) (dep.map fun e => e.customerId) s)
    (hT : Timing (cid :: fl) dep s) (hs : startService cfg s cid sid = some s') :
    Timing fl dep s' := by
  obtain ⟨c, hc, h0, h1, h2, rfl⟩ := startService_eq_some hs
  have hr := getAt_some_range hc
  have hpos := serviceTime_pos hv s.rng
  obtain ⟨c0, hc0, hat⟩ := hT.flight cid (List.mem_cons_self _ _)
  rw [hc] at hc0
  cases hc0
  exact {
    clock := fun e he => by
      simp only [startedState, List.mem_append, List.mem_singleton] at he
      rcases he with he | rfl
      · exact hT.clock e he
      · simp only [startedState]
        linarith
    srv := fun e he hty => by
      simp only [startedState, List.mem_append, List.mem_singleton] at he
      rcases he with he | rfl
      · have hne := inv_flight_ne hI (mem_occ_pending he)
        obtain ⟨c', hc', h⟩ := hT.srv e he hty
        exact ⟨c', by rw [← hc']; exact getAt_set_ne hr.1 hne, h⟩
      · refine ⟨_, getAt_set_self hr.1 hr.2, hat, ?_⟩
        simp only
        linarith
    wait := fun x hx => by
      have hne := inv_flight_ne hI (mem_occ_wait hx)
      obtain ⟨c', hc', h⟩ := hT.wait x hx
      exact ⟨c', by rw [← hc']; exact getAt_set_ne hr.1 hne, h⟩
    flight := fun x hx => by
      have hne : cid ≠ x := inv_flight_ne hI (by simp [occ, hx])
      obtain ⟨c', hc', h⟩ := hT.flight x (List.mem_cons_of_mem _ hx)
      exact ⟨c', by rw [← hc']; exact getAt_set_ne hr.1 hne, h⟩
    done := fun e he => by
      have hne := inv_flight_ne hI (mem_occ_dep he)
      obtain ⟨c', hc', h⟩ := hT.done e he
      exact ⟨c', by rw [← hc']; exact getAt_set_ne hr.1 hne, h⟩ }

theorem timing_enqueue {fl : List Int} {dep : List Event} {s : State R} {cid : Int}
    (hT : Timing (cid :: fl) dep s) :
    Timing fl dep { s with waitingQueue := s.waitingQueue ++ [cid] } where
  clock := hT.clock
  srv := hT.srv
  wait := fun x hx => by
    rcases List.mem_append.mp hx with hx | hx
    · exact hT.wait x hx
    · rw [List.mem_singleton.mp hx]
      exact hT.flight cid (List.mem_cons_self _ _)
  flight := fun x hx => hT.flight x (List.mem_cons_of_mem _ hx)
  done := hT.done

theorem timing_dequeue {dep : List Event} {s : State R} {x : Int} {rest : List Int}
    (hT : Timing [] dep s) (hq : s.waitingQueue = x :: rest) :
    Timing [x] dep { s with waitingQueue := rest } where
  clock := hT.clock
  srv := hT.srv
  wait := fun y hy => hT.wait y (by rw [hq]; exact List.mem_cons_of_mem _ hy)
  flight := fun y hy => by
    rw [List.mem_singleton.mp hy]
    exact hT.wait x (by rw [hq]; exact List.mem_cons_self _ _)
  done := hT.done

theorem timing_idle {fl : List Int} {dep : List Event} {s : State R} (q : ℚ)
    (hT : Timing fl dep s) : Timing fl dep { s with idleTimeAcc := q } :=
  { clock := hT.clock, srv := hT.srv, wait := hT.wait, flight := hT.flight, done := hT.done }

theorem timing_cutoff {dep : List Event} {s : State R} {i : Nat} {ev : Event}
    (hT : Timing [] dep s) (htop : isTop s.events i) (hev : s.events[i]? = some ev) :
    Timing [] dep { popEvent s i ev with stopped := true } := by
  obtain ⟨ev', hev', hmin⟩ := htop
  rw [hev] at hev'
  cases hev'
  exact {
    clock := fun e he => hmin e (mem_eraseIdx he)
    srv := fun e he hty => hT.srv e (mem_eraseIdx he) hty
    wait := fun x hx => by
      obtain ⟨c', hc', h⟩ := hT.wait x hx
      exact ⟨c', hc', le_trans h (hT.clock ev (mem_of_getElem? hev))⟩
    flight := by simp
    done := hT.done }

theorem timing_scheduleNext {cfg : Config R} {fl : List Int} {dep : List Event}
    {s : State R} (hv : ValidDraws cfg) (hT : Timing fl dep s) :
    Timing fl dep (scheduleNext cfg s) := by
  have hpos := hv.1 s.rng
  unfold scheduleNext
  simp only []
  split
  · exact {
      clock := fun e he => by
        simp only [List.mem_append, List.mem_singleton] at he
        rcases he with he | rfl
        · exact hT.clock e he
        · simp only
          linarith
      srv := fun e he hty => by
        simp only [List.mem_append, List.mem_singleton] at he
        rcases he with he | rfl
        · exact rec_append (hT.srv e he hty)
        · cases hty
      wait := fun x hx => rec_append (hT.wait x hx)
      flight := fun x hx => rec_append (hT.flight x hx)
      done := fun e he => rec_append (hT.done e he) }
  · exact { clock := hT.clock, srv := hT.srv, wait := hT.wait, flight := hT.flight,
            done := hT.done }

theorem timing_depart {cfg : Config R} {dep : List Event} {s s1 : State R}
    {i : Nat} {ev : Event} (hI : Inv cfg [] (dep.map fun e => e.customerId) s)
    (hT : Timing [] dep s) (htop : isTop s.events i) (hev : s.events[i]? = some ev)
    (hty : ev.type = EventType.DEPARTURE)
    (hr : recordDeparture cfg (popEvent s i ev) ev = some s1) :
    Timing [] (dep ++ [ev]) s1 := by
  have hI1 := inv_pop hI hev
  obtain ⟨c, hc, h0, h1, rfl⟩ := recordDeparture_eq_some hr
  have hc' : getAt s.customers ev.customerId = some c := hc
  have hr := getAt_some_range hc'
  obtain ⟨ev', hev', hmin⟩ := htop
  rw [hev] at hev'
  cases hev'
  have hself : getAt (departedState cfg (popEvent s i ev) ev c).customers ev.customerId
      = some { c with departureTime := ev.time } := getAt_set_self hr.1 hr.2
  have hframe : ∀ x, ev.customerId ≠ x →
      getAt (departedState cfg (popEvent s i ev) ev c).customers x = getAt s.customers x :=
    fun x hne => getAt_set_ne hr.1 hne
  exact {
    clock := fun e he => hmin e (mem_eraseIdx he)
    srv := fun e he hty' => by
      have hne := inv_flight_ne hI1 (mem_occ_pending he)
      rw [hframe _ hne]
      exact hT.srv e (mem_eraseIdx he) hty'
    wait := fun x hx => by
      have hne := inv_flight_ne hI1 (mem_occ_wait hx)
      rw [hframe _ hne]
      obtain ⟨c', hc', h⟩ := hT.wait x hx
      exact ⟨c', hc', le_trans h (hT.clock ev (mem_of_getElem? hev))⟩
    flight := by simp
    done := fun e he => by
      rcases List.mem_append.mp he with he | he
      · have hne := inv_flight_ne hI1 (mem_occ_dep he)
        rw [hframe _ hne]
        exact hT.done e he
      · rw [List.mem_singleton.mp he]
        obtain ⟨c0, hc0, h1, h2⟩ := hT.srv ev (mem_of_getElem? hev) hty
        rw [hc'] at hc0
        cases hc0
        exact ⟨_, hself, h1, h2⟩ }

theorem timing_step {cfg : Config R} {tr : Trace R} {s s' : State R} {i : Nat} {ev : Event}
    (hv : ValidDraws cfg) (hg : Good cfg tr s) (hT : Timing [] (departedEvents tr) s)
    (htop : isTop s.events i) (hev : s.events[i]? = some ev)
    (h : loopIter cfg s i = some s') :
    (cfg.SIM_MINUTES < ev.time → Timing [] (departedEvents tr) s') ∧
    (ev.time ≤ cfg.SIM_MINUTES → Timing [] (departedEvents (tr ++ [(s, ev)])) s') := by
  obtain ⟨hI, hA⟩ := hg
  have hIp := inv_pop hI hev
  rcases loopIter_cases hev h with ⟨hcut, rfl⟩ | ⟨hle, hty, ha⟩ | ⟨hle, hty, hd⟩
  · exact ⟨fun _ => timing_cutoff hT htop hev, fun hle => absurd hcut (not_lt.mpr hle)⟩
  · refine ⟨fun hcut => absurd hcut (not_lt.mpr hle), fun _ => ?_⟩
    obtain ⟨s1, hs1, hcase⟩ := handleArrival_cases ha
    obtain ⟨hI1, _⟩ := inv_recordArrival hIp hs1
    have hT1 := timing_arrive hI hT htop hev hs1
    rw [departedEvents_snoc, if_neg (by simp [hty])]
    rcases hcase with ⟨hfree, s2, lastFree, hs2, _, rfl⟩ | ⟨hfree, rfl⟩
    · exact timing_scheduleNext hv (timing_idle _ (timing_startService hv hI1 hT1 hs2))
    · exact timing_scheduleNext hv (timing_enqueue hT1)
  · refine ⟨fun hcut => absurd hcut (not_lt.mpr hle), fun _ => ?_⟩
    obtain ⟨s1, hs1, hcase⟩ := handleDeparture_cases hd
    have hI1 : Inv cfg [] ((departedEvents tr ++ [ev]).map fun e => e.customerId) s1 := by
      simpa [departedIds] using inv_recordDeparture hIp hs1
    have hT1 := timing_depart hI hT htop hev hty hs1
    rw [departedEvents_snoc, if_pos hty]
    rcases hcase with ⟨_, rfl⟩ | ⟨x, rest, hq, hs'⟩
    · exact hT1
    · exact timing_startService hv (inv_dequeue hI1 hq) (timing_dequeue hT1 hq) hs'

theorem exec_timing {cfg : Config R} {tr : Trace R} {s : State R} (hv : ValidDraws cfg)
    (h : Exec cfg tr s) : Timing [] (departedEvents tr) s := by
  induction h with
  | start => exact timing_init cfg
  | handle hex _ htop hev hle hstep ih =>
    exact (timing_step hv (exec_good hex) ih htop hev hstep).2 hle
  | cutoff hex _ htop hev hcut hstep ih =>
    exact (timing_step hv (exec_good hex) ih htop hev hstep).1 hcut

theorem mem_departedEvents {tr : Trace R} {p : State R × Event} (hp : p ∈ tr)
    (hty : p.2.type = EventType.DEPARTURE) : p.2 ∈ departedEvents tr := by
  unfold departedEvents
  exact List.mem_filter.mpr ⟨List.mem_map.mpr ⟨p, hp, rfl⟩, by simpa using hty⟩

theorem scenario1_valid : ValidDraws scenario1 := by
  refine ⟨fun _ => ?_, fun _ => ?_, fun _ => ?_⟩ <;> simp [scenario1]

/-! ## Fields that an operation leaves alone -/

theorem recordArrival_fields {s s1 : State R} {cid : Int} (h : recordArrival s cid = some s1) :
    s1.events = s.events ∧ s1.waitingQueue = s.waitingQueue ∧ s1.serverBusy = s.serverBusy ∧
    s1.t = s.t ∧ s1.stopped = s.stopped := by
  unfold recordArrival at h
  split at h
  · simp only [Option.some.injEq] at h
    subst h
    exact ⟨rfl, rfl, rfl, rfl, rfl⟩
  · split at h
    · simp only [Option.some.injEq] at h
      subst h
      exact ⟨rfl, rfl, rfl, rfl, rfl⟩
    · simp at h

theorem scheduleNext_fields (cfg : Config R) (s : State R) :
    (scheduleNext cfg s).waitingQueue = s.waitingQueue ∧ (scheduleNext cfg s).t = s.t ∧
    (scheduleNext cfg s).stopped = s.stopped ∧
    (scheduleNext cfg s).totalWaitingTime = s.totalWaitingTime ∧
    (scheduleNext cfg s).servedCount = s.servedCount ∧
    ∀ e ∈ (scheduleNext cfg s).events, e ∈ s.events ∨
      (e.type = EventType.ARRIVAL ∧ e.time ≤ cfg.SIM_MINUTES) := by
  unfold scheduleNext
  simp only []
  split
  · rename_i hle
    refine ⟨rfl, rfl, rfl, rfl, rfl, fun e he => ?_⟩
    simp only [List.mem_append, List.mem_singleton] at he
    rcases he with he | rfl
    · exact Or.inl he
    · exact Or.inr ⟨rfl, hle⟩
  · exact ⟨rfl, rfl, rfl, rfl, rfl, fun e he => Or.inl he⟩

theorem startService_fields {cfg : Config R} {s s' : State R} {cid sid : Int}
    (h : startService cfg s cid sid = some s') :
    s'.waitingQueue = s.waitingQueue ∧ s'.t = s.t ∧ s'.stopped = s.stopped ∧
    s'.totalWaitingTime = s.totalWaitingTime ∧ s'.servedCount = s.servedCount := by
  obtain ⟨c, _, _, _, _, rfl⟩ := startService_eq_some h
  exact ⟨rfl, rfl, rfl, rfl, rfl⟩

/-- The clock and the `break` flag after one iteration. -/
theorem loopIter_clock {cfg : Config R} {s s' : State R} {i : Nat} {ev : Event}
    (hev : s.events[i]? = some ev) (h : loopIter cfg s i = some s') :
    s'.t = ev.time ∧
    (cfg.SIM_MINUTES < ev.time → s'.stopped = true) ∧
    (ev.time ≤ cfg.SIM_MINUTES → s'.stopped = s.stopped) := by
  rcases loopIter_cases hev h with ⟨hcut, rfl⟩ | ⟨hle, hty, ha⟩ | ⟨hle, hty, hd⟩
  · exact ⟨rfl, fun _ => rfl, fun hle => absurd hcut (not_lt.mpr hle)⟩
  · obtain ⟨s1, hs1, hcase⟩ := handleArrival_cases ha
    obtain ⟨_, _, _, ht1, hst1⟩ := recordArrival_fields hs1
    refine ⟨?_, fun hcut => absurd hcut (not_lt.mpr hle), fun _ => ?_⟩
    · rcases hcase with ⟨_, s2, lastFree, hs2, _, rfl⟩ | ⟨_, rfl⟩
      · rw [(scheduleNext_fields cfg _).2.1]
        show s2.t = ev.time
        rw [(startService_fields hs2).2.1, ht1]
        rfl
      · rw [(scheduleNext_fields cfg _).2.1]
        show s1.t = ev.time
        rw [ht1]
        rfl
    · rcases hcase with ⟨_, s2, lastFree, hs2, _, rfl⟩ | ⟨_, rfl⟩
      · rw [(scheduleNext_fields cfg _).2.2.1]
        show s2.stopped = s.stopped
        rw [(startService_fields hs2).2.2.1, hst1]
        rfl
      · rw [(scheduleNext_fields cfg _).2.2.1]
        show s1.stopped = s.stopped
        rw [hst1]
        rfl
  · obtain ⟨s1, hs1, hcase⟩ := handleDeparture_cases hd
    obtain ⟨c, _, _, _, rfl⟩ := recordDeparture_eq_some hs1
    refine ⟨?_, fun hcut => absurd hcut (not_lt.mpr hle), fun _ => ?_⟩
    · rcases hcase with ⟨_, rfl⟩ | ⟨x, rest, _, hs'⟩
      · rfl
      · rw [(startService_fields hs').2.1]
        rfl
    · rcases hcase with ⟨_, rfl⟩ | ⟨x, rest, _, hs'⟩
      · rfl
      · rw [(startService_fields hs').2.2.1]
        rfl

/-- Where the clock stands: at or before the horizon while the loop has not met the
cutoff, beyond it afterwards. -/
theorem exec_clock {cfg : Config R} {tr : Trace R} {s : State R} (h0 : 0 ≤ cfg.SIM_MINUTES)
    (h : Exec cfg tr s) :
    (s.stopped = false → s.t ≤ cfg.SIM_MINUTES) ∧ (s.stopped = true → cfg.SIM_MINUTES < s.t) := by
  induction h with
  | start => exact ⟨fun _ => h0, fun h => by simp [initState] at h⟩
  | @handle tr s s' i ev hex hnf _ hev hle hstep ih =>
    obtain ⟨ht, _, hst⟩ := loopIter_clock hev hstep
    have hns : s.stopped = false := by
      cases hs : s.stopped
      · rfl
      · exact absurd (Or.inl hs) hnf
    rw [ht, hst hle, hns]
    exact ⟨fun _ => hle, fun h => by simp at h⟩
  | @cutoff tr s s' i ev hex hnf _ hev hcut hstep ih =>
    obtain ⟨ht, hst, _⟩ := loopIter_clock hev hstep
    rw [ht, hst hcut]
    exact ⟨fun h => by simp at h, fun _ => hcut⟩

/-! ## Recorded times and the horizon -/

theorem getAt_mem {α : Type} {xs : List α} {i : Int} {v : α} (h : getAt xs i = some v) :
    v ∈ xs :=
  mem_of_getElem? (getAt_eq_some.mp h).2

theorem bounded_set {H : ℚ} {cs : List Customer} {k : Nat} {v : Customer}
    (h : BoundedLedger H cs)
    (hv : (v.arrivalTime ≤ H ∨ v.arrivalTime = 0) ∧ (v.serviceStart = -1 ∨ v.serviceStart ≤ H) ∧
      (v.departureTime = -1 ∨ v.departureTime ≤ H)) :
    BoundedLedger H (cs.set k v) := fun c hc => by
  rcases List.mem_or_eq_of_mem_set hc with hc | rfl
  · exact h c hc
  · exact hv

theorem bounded_append {H : ℚ} {cs : List Customer} {v : Customer}
    (h : BoundedLedger H cs)
    (hv : (v.arrivalTime ≤ H ∨ v.arrivalTime = 0) ∧ (v.serviceStart = -1 ∨ v.serviceStart ≤ H) ∧
      (v.departureTime = -1 ∨ v.departureTime ≤ H)) :
    BoundedLedger H (cs ++ [v]) := fun c hc => by
  rcases List.mem_append.mp hc with hc | hc
  · exact h c hc
  · rw [List.mem_singleton.mp hc]; exact hv

theorem bounded_recordArrival {H : ℚ} {s s1 : State R} {cid : Int}
    (h : BoundedLedger H s.customers) (ht : s.t ≤ H) (hr : recordArrival s cid = some s1) :
    BoundedLedger H s1.customers := by
  unfold recordArrival at hr
  split at hr
  · simp only [Option.some.injEq] at hr
    subst hr
    exact bounded_append h ⟨Or.inl ht, Or.inl rfl, Or.inl rfl⟩
  · split at hr
    · rename_i c hc
      simp only [Option.some.injEq] at hr
      subst hr
      have := h c (getAt_mem hc)
      exact bounded_set h ⟨Or.inl ht, this.2⟩
    · simp at hr

theorem bounded_startService {cfg : Config R} {s s' : State R} {cid sid : Int}
    (h : BoundedLedger cfg.SIM_MINUTES s.customers) (ht : s.t ≤ cfg.SIM_MINUTES)
    (hs : startService cfg s cid sid = some s') : BoundedLedger cfg.SIM_MINUTES s'.customers := by
  obtain ⟨c, hc, _, _, _, rfl⟩ := startService_eq_some hs
  have := h c (getAt_mem hc)
  exact bounded_set h ⟨this.1, Or.inr ht, this.2.2⟩

theorem bounded_recordDeparture {cfg : Config R} {s s' : State R} {ev : Event}
    (h : BoundedLedger cfg.SIM_MINUTES s.customers) (ht : s.t ≤ cfg.SIM_MINUTES)
    (hs : recordDeparture cfg s ev = some s') : BoundedLedger cfg.SIM_MINUTES s'.customers := by
  obtain ⟨c, hc, _, _, rfl⟩ := recordDeparture_eq_some hs
  have := h c (getAt_mem hc)
  exact bounded_set h ⟨this.1, this.2.1, Or.inr ht⟩

theorem bounded_scheduleNext {cfg : Config R} {s : State R}
    (h : BoundedLedger cfg.SIM_MINUTES s.customers) :
    BoundedLedger cfg.SIM_MINUTES (scheduleNext cfg s).customers := by
  unfold scheduleNext
  simp only []
  split
  · rename_i hle
    exact bounded_append h ⟨Or.inl hle, Or.inl rfl, Or.inl rfl⟩
  · exact h

theorem bounded_step {cfg : Config R} {s s' : State R} {i : Nat} {ev : Event}
    (hb : BoundedLedger cfg.SIM_MINUTES s.customers) (hev : s.events[i]? = some ev)
    (h : loopIter cfg s i = some s') : BoundedLedger cfg.SIM_MINUTES s'.customers := by
  rcases loopIter_cases hev h with ⟨hcut, rfl⟩ | ⟨hle, hty, ha⟩ | ⟨hle, hty, hd⟩
  · exact hb
  · obtain ⟨s1, hs1, hcase⟩ := handleArrival_cases ha
    have hb1 := bounded_recordArrival (s := popEvent s i ev) hb hle hs1
    have ht1 : s1.t ≤ cfg.SIM_MINUTES := by
      rw [(recordArrival_fields hs1).2.2.2.1]; exact hle
    rcases hcase with ⟨_, s2, lastFree, hs2, _, rfl⟩ | ⟨_, rfl⟩
    · have hb2 := bounded_startService hb1 ht1 hs2
      exact bounded_scheduleNext (s := { s2 with idleTimeAcc := _ }) hb2
    · exact bounded_scheduleNext (s := { s1 with waitingQueue := _ }) hb1
  · obtain ⟨s1, hs1, hcase⟩ := handleDeparture_cases hd
    have hb1 := bounded_recordDeparture (s := popEvent s i ev) hb hle hs1
    have ht1 : s1.t ≤ cfg.SIM_MINUTES := by
      obtain ⟨c, _, _, _, rfl⟩ := recordDeparture_eq_some hs1
      exact hle
    rcases hcase with ⟨_, rfl⟩ | ⟨x, rest, _, hs'⟩
    · exact hb1
    · exact bounded_startService (s := { s1 with waitingQueue := rest }) hb1 ht1 hs'

theorem exec_bounded {cfg : Config R} {tr : Trace R} {s : State R} (h : Exec cfg tr s) :
    BoundedLedger cfg.SIM_MINUTES s.customers := by
  induction h with
  | start =>
    intro c hc
    simp only [initState, List.mem_singleton] at hc
    subst hc
    exact ⟨Or.inr rfl, Or.inl rfl, Or.inl rfl⟩
  | handle _ _ _ hev _ hstep ih => exact bounded_step ih hev hstep
  | cutoff _ _ _ hev _ hstep ih => exact bounded_step ih hev hstep

/-- Before any event is handled the loop is at its initial state or has met the
cutoff. -/
theorem exec_nil {cfg : Config R} {tr : Trace R} {s : State R} (h : Exec cfg tr s)
    (htr : tr = []) : s = initState cfg ∨ s.stopped = true := by
  induction h with
  | start => exact Or.inl rfl
  | handle _ _ _ _ _ _ _ => simp at htr
  | cutoff _ _ _ hev hcut hstep _ => exact Or.inr ((loopIter_clock hev hstep).2.1 hcut)

/-- Once an event has been handled the horizon is not negative. -/
theorem horizon_nonneg_of_handled {cfg : Config R} {tr : Trace R} {s : State R}
    (h : Exec cfg tr s) (htr : tr ≠ []) : 0 ≤ cfg.SIM_MINUTES := by
  obtain ⟨p, tr1, rfl⟩ := List.exists_cons_of_ne_nil htr
  obtain ⟨hex0, hnf, hle, i, s', _, hev, _, _⟩ := exec_trace h [] p tr1 rfl
  rcases exec_nil hex0 rfl with h0 | h0
  · rw [h0] at hev
    have hmem := mem_of_getElem? hev
    simp only [initState, List.mem_singleton] at hmem
    rw [hmem] at hle
    exact hle
  · exact absurd (Or.inl h0) hnf

theorem scenario1BeforeCutoff_eq :
    iterate scenario1 (fun _ => 0) 11 0 ([], initState scenario1) = some scenario1BeforeCutoff := by
  with_unfolding_all rfl

theorem scenario1BeforeCutoff_exec : Exec scenario1 scenario1BeforeCutoff.1 scenario1BeforeCutoff.2 :=
  iterate_exec 11 0 [] _ _ _ Exec.start scenario1BeforeCutoff_eq

/-! ## Customers served at their own arrival -/

theorem mem_immediateIds {cfg : Config R} {tr : Trace R} {x : Int} :
    x ∈ immediateIds cfg tr ↔ ∃ p ∈ tr, p.2.type = EventType.ARRIVAL ∧
      0 ≤ findFreeServer cfg.numServers p.1.serverBusy ∧ p.2.customerId = x := by
  unfold immediateIds
  simp only [List.mem_map, List.mem_filter, decide_eq_true_eq]
  constructor
  · rintro ⟨p, ⟨hp, hty, hfree⟩, rfl⟩
    exact ⟨p, hp, hty, hfree, rfl⟩
  · rintro ⟨p, hp, hty, hfree, rfl⟩
    exact ⟨p, ⟨hp, hty, hfree⟩, rfl⟩

/-- The arrival of a customer is handled before its departure. -/
theorem imm_before_departure {cfg : Config R} {tr : Trace R} {s : State R}
    (h : Exec cfg tr s) {tr0 tr1 : Trace R} {q : State R × Event} (heq : tr = tr0 ++ q :: tr1)
    (hty : q.2.type = EventType.DEPARTURE) (hx : q.2.customerId ∈ immediateIds cfg tr) :
    q.2.customerId ∈ immediateIds cfg tr0 := by
  obtain ⟨p, hp, hpty, hfree, hpx⟩ := mem_immediateIds.mp hx
  rw [heq] at hp
  rcases List.mem_append.mp hp with hp | hp
  · exact mem_immediateIds.mpr ⟨p, hp, hpty, hfree, hpx⟩
  · rcases List.mem_cons.mp hp with rfl | hp
    · rw [hty] at hpty; cases hpty
    · exfalso
      obtain ⟨tr1a, tr1b, rfl⟩ := List.append_of_mem hp
      have heq' : tr = (tr0 ++ q :: tr1a) ++ p :: tr1b := by rw [heq]; simp
      obtain ⟨hex, _, _, i, s', _, hev, _, _⟩ := exec_trace h _ p tr1b heq'
      have hnd := (exec_good hex).1.nodup
      simp only [occ, List.nil_append] at hnd
      have hdis := (List.nodup_append.mp hnd).2.2
      have h1 : p.2.customerId ∈ pendingIds p.1 :=
        List.mem_map.mpr ⟨p.2, mem_of_getElem? hev, rfl⟩
      have h2 : p.2.customerId ∈ departedIds (tr0 ++ q :: tr1a) := by
        rw [hpx]
        exact List.mem_map.mpr ⟨q.2, mem_departedEvents (by simp) hty, rfl⟩
      exact hdis h1 (List.mem_append_right _ h2)

/-- What a handled departure adds to `totalWaitingTime` (lines 131-132). -/
theorem loopIter_departure_wait {cfg : Config R} {s s' : State R} {i : Nat} {ev : Event}
    (hev : s.events[i]? = some ev) (hty : ev.type = EventType.DEPARTURE)
    (hle : ev.time ≤ cfg.SIM_MINUTES) (h : loopIter cfg s i = some s') :
    ∃ c, getAt s.customers ev.customerId = some c ∧
      s'.totalWaitingTime = s.totalWaitingTime + max 0 (c.serviceStart - c.arrivalTime) := by
  rcases loopIter_cases hev h with ⟨hcut, _⟩ | ⟨_, hty', _⟩ | ⟨_, _, hd⟩
  · exact absurd hcut (not_lt.mpr hle)
  · rw [hty] at hty'; cases hty'
  · obtain ⟨s1, hs1, hcase⟩ := handleDeparture_cases hd
    obtain ⟨c, hc, _, _, rfl⟩ := recordDeparture_eq_some hs1
    refine ⟨c, hc, ?_⟩
    rcases hcase with ⟨_, rfl⟩ | ⟨x, rest, _, hs'⟩
    · rfl
    · rw [(startService_fields hs').2.2.2.1]
      rfl

/-- In a run in which every handled arrival found a free server the waiting line
stays empty and every customer in service or departed was served at its arrival. -/
theorem nowait_inv {cfg : Config R} {tr : Trace R} {s : State R} (h : Exec cfg tr s)
    (hnw : ∀ p ∈ tr, p.2.type = EventType.ARRIVAL →
      0 ≤ findFreeServer cfg.numServers p.1.serverBusy) :
    s.waitingQueue = [] ∧
    (∀ e ∈ s.events, e.type = EventType.DEPARTURE → e.customerId ∈ immediateIds cfg tr) ∧
    ∀ e ∈ departedEvents tr, e.customerId ∈ immediateIds cfg tr := by
  induction h with
  | start => simp [initState, departedEvents]
  | @handle tr s s' i ev hex hnf _ hev hle hstep ih =>
    obtain ⟨hq, hsrv, hdone⟩ := ih fun p hp => hnw p (List.mem_append_left _ hp)
    have hsub : ∀ x, x ∈ immediateIds cfg tr → x ∈ immediateIds cfg (tr ++ [(s, ev)]) :=
      fun x hx => by
        obtain ⟨p, hp, hrest⟩ := mem_immediateIds.mp hx
        exact mem_immediateIds.mpr ⟨p, List.mem_append_left _ hp, hrest⟩
    rcases loopIter_cases hev hstep with ⟨hcut, _⟩ | ⟨_, hty, ha⟩ | ⟨_, hty, hd⟩
    · exact absurd hcut (not_lt.mpr hle)
    · have hfree := hnw (s, ev) (by simp) hty
      have hnew : ev.customerId ∈ immediateIds cfg (tr ++ [(s, ev)]) :=
        mem_immediateIds.mpr ⟨(s, ev), by simp, hty, hfree, rfl⟩
      obtain ⟨s1, hs1, hcase⟩ := handleArrival_cases ha
      obtain ⟨hev1, hq1, hb1, _, _⟩ := recordArrival_fields hs1
      rw [departedEvents_snoc, if_neg (by simp [hty])]
      rcases hcase with ⟨_, s2, lastFree, hs2, _, rfl⟩ | ⟨hno, _⟩
      · obtain ⟨c, _, _, _, _, rfl⟩ := startService_eq_some hs2
        refine ⟨?_, fun e he hety => ?_, fun e he => hsub _ (hdone e he)⟩
        · rw [(scheduleNext_fields cfg _).1]
          show s1.waitingQueue = []
          rw [hq1]; exact hq
        · rcases (scheduleNext_fields cfg _).2.2.2.2.2 e he with he | ⟨hety', _⟩
          · simp only [startedState, List.mem_append, List.mem_singleton] at he
            rcases he with he | rfl
            · rw [hev1] at he
              exact hsub _ (hsrv e (mem_eraseIdx he) hety)
            · exact hnew
          · rw [hety] at hety'; cases hety'
      · rw [hb1] at hno
        exact absurd hfree (not_le.mpr hno)
    · obtain ⟨s1, hs1, hcase⟩ := handleDeparture_cases hd
      obtain ⟨c, _, _, _, rfl⟩ := recordDeparture_eq_some hs1
      rw [departedEvents_snoc, if_pos hty]
      rcases hcase with ⟨_, rfl⟩ | ⟨x, rest, hq', _⟩
      · refine ⟨hq, fun e he hety => hsub _ (hsrv e (mem_eraseIdx he) hety), fun e he => ?_⟩
        rcases List.mem_append.mp he with he | he
        · exact hsub _ (hdone e he)
        · rw [List.mem_singleton.mp he]
          exact hsub _ (hsrv ev (mem_of_getElem? hev) hty)
      · have : s.waitingQueue = x :: rest := hq'
        rw [hq] at this
        cases this
  | @cutoff tr s s' i ev hex hnf _ hev hcut hstep ih =>
    obtain ⟨hq, hsrv, hdone⟩ := ih hnw
    rcases loopIter_cases hev hstep with ⟨_, rfl⟩ | ⟨hle, _, _⟩ | ⟨hle, _, _⟩
    · exact ⟨hq, fun e he hety => hsrv e (mem_eraseIdx he) hety, hdone⟩
    · exact absurd hcut (not_lt.mpr hle)
    · exact absurd hcut (not_lt.mpr hle)

/-! ## Every iteration of a run is defined -/

theorem setAt_of_range {α : Type} {xs : List α} {i : Int} (v : α) (h0 : 0 ≤ i)
    (h1 : i < xs.length) : setAt xs i v = some (xs.set i.toNat v) := by
  unfold setAt
  rw [if_pos ⟨h0, by omega⟩]

theorem startService_of_range (cfg : Config R) {s : State R} {cid sid : Int} {c : Customer}
    (hc : getAt s.customers cid = some c) (h0 : 0 ≤ sid) (h1 : sid < s.serverBusy.length)
    (h2 : sid < s.serverServingCustomer.length) :
    startService cfg s cid sid = some (startedState cfg s cid sid c) := by
  unfold startService
  rw [setAt_of_range _ h0 h1, setAt_of_range _ h0 h2, hc]
  rfl

theorem recordDeparture_of_range {cfg : Config R} {s : State R} {ev : Event} {c : Customer}
    (hc : getAt s.customers ev.customerId = some c) (h0 : 0 ≤ ev.serverId)
    (h1 : ev.serverId < s.serverBusy.length) (h2 : ev.serverId < s.serverServingCustomer.length)
    (h3 : ev.serverId < s.serverLastFreeTime.length) :
    recordDeparture cfg s ev = some (departedState cfg s ev c) := by
  unfold recordDeparture
  rw [setAt_of_range _ h0 h1, setAt_of_range _ h0 h2, setAt_of_range _ h0 h3, hc]
  rfl

theorem recordArrival_of_range {s : State R} {cid : Int} {c : Customer}
    (hc : getAt s.customers cid = some c) :
    recordArrival s cid =
      some { s with customers := s.customers.set cid.toNat { c with arrivalTime := s.t } } := by
  have hr := getAt_some_range hc
  unfold recordArrival
  rw [if_neg (by omega), hc]

theorem loopIter_of_cut (cfg : Config R) {s : State R} {i : Nat} {ev : Event}
    (hev : s.events[i]? = some ev) (hcut : cfg.SIM_MINUTES < ev.time) :
    loopIter cfg s i = some { popEvent s i ev with stopped := true } := by
  unfold loopIter
  rw [hev]
  simp only [gt_iff_lt]
  rw [if_pos hcut]

theorem loopIter_of_arrival (cfg : Config R) {s : State R} {i : Nat} {ev : Event}
    (hev : s.events[i]? = some ev) (hle : ev.time ≤ cfg.SIM_MINUTES)
    (hty : ev.type = EventType.ARRIVAL) :
    loopIter cfg s i = handleArrival cfg (popEvent s i ev) ev := by
  unfold loopIter
  rw [hev]
  simp only [gt_iff_lt]
  rw [if_neg (not_lt.mpr hle), hty]

theorem loopIter_of_departure (cfg : Config R) {s : State R} {i : Nat} {ev : Event}
    (hev : s.events[i]? = some ev) (hle : ev.time ≤ cfg.SIM_MINUTES)
    (hty : ev.type = EventType.DEPARTURE) :
    loopIter cfg s i = handleDeparture cfg (popEvent s i ev) ev := by
  unfold loopIter
  rw [hev]
  simp only [gt_iff_lt]
  rw [if_neg (not_lt.mpr hle), hty]

theorem handleArrival_of_free {cfg : Config R} {s s1 s2 : State R} {ev : Event} {lastFree : ℚ}
    (hs1 : recordArrival s ev.customerId = some s1)
    (hfree : 0 ≤ findFreeServer cfg.numServers s1.serverBusy)
    (hs2 : startService cfg s1 ev.customerId (findFreeServer cfg.numServers s1.serverBusy)
      = some s2)
    (hl : getAt s1.serverLastFreeTime (findFreeServer cfg.numServers s1.serverBusy)
      = some lastFree) :
    handleArrival cfg s ev = some (scheduleNext cfg
      { s2 with idleTimeAcc := s2.idleTimeAcc + max 0 (s1.t - lastFree) }) := by
  unfold handleArrival
  rw [hs1]
  simp only
  rw [if_pos hfree, hs2, hl]

theorem handleArrival_of_busy {cfg : Config R} {s s1 : State R} {ev : Event}
    (hs1 : recordArrival s ev.customerId = some s1)
    (hno : findFreeServer cfg.numServers s1.serverBusy < 0) :
    handleArrival cfg s ev = some (scheduleNext cfg
      { s1 with waitingQueue := s1.waitingQueue ++ [ev.customerId] }) := by
  unfold handleArrival
  rw [hs1]
  simp only
  rw [if_neg (not_le.mpr hno)]

theorem handleDeparture_of_empty {cfg : Config R} {s s1 : State R} {ev : Event}
    (hs1 : recordDeparture cfg s ev = some s1) (hq : s1.waitingQueue = []) :
    handleDeparture cfg s ev = some s1 := by
  unfold handleDeparture
  rw [hs1]
  simp only
  rw [hq]

theorem handleDeparture_of_waiting {cfg : Config R} {s s1 : State R} {ev : Event} {x : Int}
    {rest : List Int} (hs1 : recordDeparture cfg s ev = some s1)
    (hq : s1.waitingQueue = x :: rest) :
    handleDeparture cfg s ev = startService cfg { s1 with waitingQueue := rest } x ev.serverId := by
  unfold handleDeparture
  rw [hs1]
  simp only
  rw [hq]

/-- No iteration of a run indexes a vector outside its bounds: from a state reached by
a run, popping any pending event gives a defined iteration. -/
theorem progress {cfg : Config R} {tr : Trace R} {s : State R} {i : Nat} {ev : Event}
    (hg : Good cfg tr s) (hev : s.events[i]? = some ev) : ∃ s', loopIter cfg s i = some s' := by
  obtain ⟨hI, _⟩ := hg
  have hIp := inv_pop hI hev
  have hr := hIp.range ev.customerId (by simp [occ])
  obtain ⟨c, hc⟩ := getAt_isSome_of_range hr.1 hr.2
  by_cases hcut : cfg.SIM_MINUTES < ev.time
  · exact ⟨_, loopIter_of_cut cfg hev hcut⟩
  · have hle := not_lt.mp hcut
    cases hty : ev.type with
    | ARRIVAL =>
      rw [loopIter_of_arrival cfg hev hle hty]
      obtain ⟨s1, hs1⟩ : ∃ s1, recordArrival (popEvent s i ev) ev.customerId = some s1 :=
        ⟨_, recordArrival_of_range hc⟩
      obtain ⟨hI1, _⟩ := inv_recordArrival hIp hs1
      by_cases hfree : 0 ≤ findFreeServer cfg.numServers s1.serverBusy
      · have hlt := (findFreeServer_range hfree).1
        have hr1 := hI1.range ev.customerId (by simp [occ])
        obtain ⟨c1, hc1⟩ := getAt_isSome_of_range hr1.1 hr1.2
        have hb := hI1.busyLen
        have hsv := hI1.servingLen
        have hlf := hI1.lastFreeLen
        have hs2 := startService_of_range cfg hc1 hfree (by omega) (by omega)
        obtain ⟨lf, hlf'⟩ : ∃ v, getAt s1.serverLastFreeTime
            (findFreeServer cfg.numServers s1.serverBusy) = some v :=
          getAt_isSome_of_range hfree (by omega)
        exact ⟨_, handleArrival_of_free hs1 hfree hs2 hlf'⟩
      · exact ⟨_, handleArrival_of_busy hs1 (not_le.mp hfree)⟩
    | DEPARTURE =>
      rw [loopIter_of_departure cfg hev hle hty]
      obtain ⟨h0, h1⟩ := hI.depServer ev (mem_of_getElem? hev) hty
      have hb := hIp.busyLen
      have hsv := hIp.servingLen
      have hlf := hIp.lastFreeLen
      obtain ⟨s1, hs1⟩ : ∃ s1, recordDeparture cfg (popEvent s i ev) ev = some s1 :=
        ⟨_, recordDeparture_of_range hc h0 (by omega) (by omega) (by omega)⟩
      have hI1 := inv_recordDeparture hIp hs1
      cases hq : s1.waitingQueue with
      | nil => exact ⟨_, handleDeparture_of_empty hs1 hq⟩
      | cons x rest =>
        rw [handleDeparture_of_waiting hs1 hq]
        have hI2 := inv_dequeue hI1 hq
        have hr2 := hI2.range x (by simp [occ])
        obtain ⟨c2, hc2⟩ := getAt_isSome_of_range hr2.1 hr2.2
        have hb2 := hI2.busyLen
        have hsv2 := hI2.servingLen
        exact ⟨_, startService_of_range cfg hc2 h0 (by omega) (by omega)⟩

/-- Under valid draws every event pushed by a handled iteration lies strictly after
the time of the event handled. -/
theorem loopIter_pushes_later {cfg : Config R} {s s' : State R} {i : Nat} {ev : Event}
    (hv : ValidDraws cfg) (hev : s.events[i]? = some ev) (h : loopIter cfg s i = some s') :
    ∀ e ∈ s'.events, e ∈ s.events.eraseIdx i ∨ ev.time < e.time := by
  intro e he
  rcases loopIter_cases hev h with ⟨hcut, rfl⟩ | ⟨hle, hty, ha⟩ | ⟨hle, hty, hd⟩
  · exact Or.inl he
  · obtain ⟨s1, hs1, hcase⟩ := handleArrival_cases ha
    obtain ⟨hev1, _, _, ht1, _⟩ := recordArrival_fields hs1
    have hgap := hv.1
    rcases hcase with ⟨_, s2, lastFree, hs2, _, rfl⟩ | ⟨_, rfl⟩
    · obtain ⟨c, _, _, _, _, rfl⟩ := startService_eq_some hs2
      have hpos := serviceTime_pos hv s1.rng
      unfold scheduleNext at he
      simp only [] at he
      split at he
      · simp only [startedState, List.mem_append, List.mem_singleton] at he
        rcases he with (he | rfl) | rfl
        · rw [hev1] at he; exact Or.inl he
        · right; simp only; rw [ht1]; show ev.time < ev.time + _; linarith
        · right; simp only; rw [ht1]; show ev.time < ev.time + _; linarith [hgap (cfg.service_dist (cfg.scoops_dist s1.rng).2).2]
      · simp only [startedState, List.mem_append, List.mem_singleton] at he
        rcases he with he | rfl
        · rw [hev1] at he; exact Or.inl he
        · right; simp only; rw [ht1]; show ev.time < ev.time + _; linarith
    · unfold scheduleNext at he
      simp only [] at he
      split at he
      · simp only [List.mem_append, List.mem_singleton] at he
        rcases he with he | rfl
        · rw [hev1] at he; exact Or.inl he
        · right; simp only; rw [ht1]; show ev.time < ev.time + _; linarith [hgap s1.rng]
      · rw [hev1] at he; exact Or.inl he
  · obtain ⟨s1, hs1, hcase⟩ := handleDeparture_cases hd
    obtain ⟨c, _, _, _, rfl⟩ := recordDeparture_eq_some hs1
    rcases hcase with ⟨_, rfl⟩ | ⟨x, rest, _, hs'⟩
    · exact Or.inl he
    · obtain ⟨c2, _, _, _, _, rfl⟩ := startService_eq_some hs'
      have hpos := serviceTime_pos hv (popEvent s i ev).rng
      simp only [startedState, List.mem_append, List.mem_singleton] at he
      rcases he with he | rfl
      · exact Or.inl he
      · right
        exact lt_add_of_pos_right _ (serviceTime_pos hv _)

/-! ## All the ways of resolving ties -/

theorem isTop_topChoices {evs : List Event} {i : Nat} (h : isTop evs i) : i ∈ topChoices evs := by
  obtain ⟨ev, hev, hmin⟩ := h
  unfold topChoices
  refine List.mem_filter.mpr ⟨List.mem_range.mpr (List.getElem?_eq_some.mp hev).1, ?_⟩
  rw [hev]
  simp only [List.all_eq_true, decide_eq_true_eq]
  exact hmin

theorem topChoices_ne_nil {evs : List Event} (h : evs ≠ []) : topChoices evs ≠ [] := by
  have hne : evs.toFinset.Nonempty := by
    obtain ⟨e, he⟩ := List.exists_mem_of_ne_nil evs h
    exact ⟨e, List.mem_toFinset.mpr he⟩
  obtain ⟨e, he, hmin⟩ := Finset.exists_min_image evs.toFinset (fun e => e.time) hne
  obtain ⟨i, hi, rfl⟩ := List.getElem_of_mem (List.mem_toFinset.mp he)
  have : i ∈ topChoices evs :=
    isTop_topChoices ⟨evs[i], List.getElem?_eq_getElem hi,
      fun e' he' => hmin e' (List.mem_toFinset.mpr he')⟩
  exact List.ne_nil_of_mem this

theorem allRuns_iterate {cfg : Config R} {Q : Trace R × State R → Prop} (sched : Nat → Nat)
    (n : Nat) : ∀ (k : Nat) (x : Trace R × State R), AllRuns cfg Q n x →
      ∃ y, iterate cfg sched n k x = some y ∧ Q y := by
  induction n with
  | zero => exact fun k x h => ⟨x, rfl, h⟩
  | succ n ih =>
    rintro k ⟨tr, s⟩ ⟨hfin, hrun⟩
    unfold iterate
    by_cases hf : finished s
    · rw [if_pos hf]
      exact ⟨_, rfl, hfin hf⟩
    · rw [if_neg hf]
      have hne : s.events ≠ [] := fun h => hf (Or.inr h)
      have hcs := topChoices_ne_nil hne
      have hlt : sched k % (topChoices s.events).length < (topChoices s.events).length :=
        Nat.mod_lt _ (List.length_pos.mpr hcs)
      rw [List.getElem?_eq_getElem hlt]
      simp only
      have htop := topChoices_isTop (List.getElem_mem hlt)
      obtain ⟨ev, hev, _⟩ := id htop
      obtain ⟨s', hs', hrest⟩ := hrun hf _ ev htop hev
      rw [hev, hs']
      simp only
      by_cases hle : ev.time ≤ cfg.SIM_MINUTES
      · rw [if_pos hle] at hrest ⊢
        exact ih _ _ hrest
      · rw [if_neg hle] at hrest ⊢
        exact ih _ _ hrest

theorem checkAll_allRuns {cfg1 cfg2 : Config R} {G : Event → Bool}
    {P : Trace R × State R → Bool} (hsame : SameUnder G cfg1 cfg2) (n : Nat) :
    ∀ x : Trace R × State R, checkAll cfg1 G P n x = true →
      AllRuns cfg2 (fun y => P y = true) n x := by
  induction n with
  | zero => exact fun x h => h
  | succ n ih =>
    rintro ⟨tr, s⟩ h
    unfold checkAll at h
    refine ⟨fun hf => by rwa [if_pos hf] at h, fun hf i ev htop hev => ?_⟩
    rw [if_neg hf] at h
    have hi := List.all_eq_true.mp h i (isTop_topChoices htop)
    rw [hev] at hi
    split at hi
    · rename_i ev' s' hev' hs'
      cases hev'
      simp only [Bool.and_eq_true] at hi
      obtain ⟨hG, hrest⟩ := hi
      obtain ⟨hloop, hle⟩ := hsame s i ev hev hG
      refine ⟨s', by rw [hloop, hs'], ?_⟩
      have := ih _ hrest
      by_cases hc : ev.time ≤ cfg1.SIM_MINUTES
      · rw [if_pos hc] at this
        rw [if_pos (hle.mpr hc)]
        exact this
      · rw [if_neg hc] at this
        rw [if_neg (fun h2 => hc (hle.mp h2))]
        exact this
    · simp at hi

theorem sameUnder_refl (cfg : Config R) (G : Event → Bool) : SameUnder G cfg cfg :=
  fun _ _ _ _ _ => ⟨rfl, Iff.rfl⟩

/-- The outcome of a whole run, for every way of resolving ties, from a check of all
the ways. -/
theorem runSched_of_checkAll {cfg : Config R} {P : Trace R × State R → Bool} {fuel : Nat}
    (h : checkAll cfg (fun _ => true) (fun y => decide (finished y.2) && P y) fuel
      ([], initState cfg) = true) (sched : Nat → Nat) :
    ∃ y, runSched cfg sched fuel = some y ∧ P y = true := by
  obtain ⟨y, hy, hP⟩ := allRuns_iterate sched fuel 0 _
    (checkAll_allRuns (sameUnder_refl cfg _) fuel _ h)
  simp only [Bool.and_eq_true, decide_eq_true_eq] at hP
  refine ⟨y, ?_, hP.2⟩
  unfold runSched
  rw [hy]
  simp only
  rw [if_pos hP.1]

theorem option_any_eq_true {α : Type} {o : Option α} {f : α → Bool} (h : o.any f = true) :
    ∃ c, o = some c ∧ f c = true := by
  cases o with
  | none => simp at h
  | some c => exact ⟨c, rfl, by simpa using h⟩

/-! ## Runs under two horizons -/

theorem scheduleNext_same_horizon {cfg : Config R} {H' : ℚ} {x : State R}
    (h : x.t + (cfg.interarrival_dist x.rng).1 ≤ H' ↔
      x.t + (cfg.interarrival_dist x.rng).1 ≤ cfg.SIM_MINUTES) :
    scheduleNext { cfg with SIM_MINUTES := H' } x = scheduleNext cfg x := by
  unfold scheduleNext
  simp only []
  by_cases hc : x.t + (cfg.interarrival_dist x.rng).1 ≤ cfg.SIM_MINUTES
  · rw [if_pos hc, if_pos (h.mpr hc)]
  · rw [if_neg hc, if_neg (fun h2 => hc (h.mp h2))]

theorem handleArrival_same_horizon {cfg : Config R} {H' : ℚ} {s : State R} {ev : Event}
    (h : ∀ r, s.t + (cfg.interarrival_dist r).1 ≤ H' ↔
      s.t + (cfg.interarrival_dist r).1 ≤ cfg.SIM_MINUTES) :
    handleArrival { cfg with SIM_MINUTES := H' } s ev = handleArrival cfg s ev := by
  unfold handleArrival
  cases hs1 : recordArrival s ev.customerId with
  | none => rfl
  | some s1 =>
    have ht1 := (recordArrival_fields hs1).2.2.2.1
    simp only
    by_cases hfree : 0 ≤ findFreeServer cfg.numServers s1.serverBusy
    · rw [if_pos hfree, if_pos hfree]
      have hst : startService { cfg with SIM_MINUTES := H' } s1 ev.customerId
          (findFreeServer cfg.numServers s1.serverBusy) =
          startService cfg s1 ev.customerId (findFreeServer cfg.numServers s1.serverBusy) := rfl
      rw [hst]
      cases hs2 : startService cfg s1 ev.customerId (findFreeServer cfg.numServers s1.serverBusy) with
      | none => rfl
      | some s2 =>
        have ht2 := (startService_fields hs2).2.1
        cases hl : getAt s1.serverLastFreeTime (findFreeServer cfg.numServers s1.serverBusy) with
        | none => rfl
        | some lastFree =>
          simp only
          rw [scheduleNext_same_horizon]
          show s2.t + _ ≤ H' ↔ s2.t + _ ≤ cfg.SIM_MINUTES
          rw [ht2, ht1]
          exact h _
    · rw [if_neg hfree, if_neg hfree]
      rw [scheduleNext_same_horizon]
      show s1.t + _ ≤ H' ↔ s1.t + _ ≤ cfg.SIM_MINUTES
      rw [ht1]
      exact h _

theorem loopIter_same_horizon (cfg : Config R) {H' : ℚ} {s : State R} {i : Nat} {ev : Event}
    (hev : s.events[i]? = some ev) (h1 : ev.time ≤ H' ↔ ev.time ≤ cfg.SIM_MINUTES)
    (h2 : ∀ r, ev.time + (cfg.interarrival_dist r).1 ≤ H' ↔
      ev.time + (cfg.interarrival_dist r).1 ≤ cfg.SIM_MINUTES) :
    loopIter { cfg with SIM_MINUTES := H' } s i = loopIter cfg s i := by
  by_cases hcut : cfg.SIM_MINUTES < ev.time
  · have hcut' : H' < ev.time := not_le.mp fun hle => absurd (h1.mp hle) (not_le.mpr hcut)
    rw [loopIter_of_cut cfg hev hcut, loopIter_of_cut { cfg with SIM_MINUTES := H' } hev hcut']
  · have hle := not_lt.mp hcut
    have hle' : ev.time ≤ H' := h1.mpr hle
    cases hty : ev.type with
    | ARRIVAL =>
      rw [loopIter_of_arrival cfg hev hle hty,
        loopIter_of_arrival { cfg with SIM_MINUTES := H' } hev hle' hty]
      exact handleArrival_same_horizon h2
    | DEPARTURE =>
      rw [loopIter_of_departure cfg hev hle hty,
        loopIter_of_departure { cfg with SIM_MINUTES := H' } hev hle' hty]
      rfl

theorem scenario2_sameUnder (H0 H : ℚ) (G : Event → Bool)
    (hG : ∀ ev, G ev = true → (ev.time ≤ H ↔ ev.time ≤ H0) ∧
      (ev.time + 1 / 2 ≤ H ↔ ev.time + 1 / 2 ≤ H0)) :
    SameUnder G (scenario2 H0) (scenario2 H) := by
  intro s i ev hev hg
  obtain ⟨h1, h2⟩ := hG ev hg
  exact ⟨loopIter_same_horizon (scenario2 H0) hev h1 (fun _ => h2), h1⟩

/-! ## Scenario 2 -/

theorem option_all_eq_true {α : Type} {o : Option α} {f : α → Bool} (h : o.all f = true)
    (c : α) (hc : o = some c) : f c = true := by
  subst hc
  simpa using h

theorem scenario2_check_low :
    checkAll (scenario2 3)
      (fun ev => decide ((ev.time ≤ 3 ∨ 7 / 2 ≤ ev.time) ∧
        (ev.time + 1 / 2 ≤ 3 ∨ 7 / 2 ≤ ev.time + 1 / 2)))
      scenario2Check 8 ([], initState (scenario2 3)) = true := by decide!

theorem scenario2_check_high :
    checkAll (scenario2 (7 / 2)) (fun ev => decide (ev.time + 1 / 2 ≤ 7 / 2))
      scenario2Check 8 ([], initState (scenario2 (7 / 2))) = true := by decide!

/-- For every horizon `>= 3` and every way of resolving ties the first eight
iterations of scenario 2 are defined and satisfy `scenario2Check`. -/
theorem scenario2_outcome (H : ℚ) (hH : 3 ≤ H) (sched : Nat → Nat) :
    ∃ y, iterate (scenario2 H) sched 8 0 ([], initState (scenario2 H)) = some y ∧
      scenario2Check y = true := by
  by_cases hlow : H < 7 / 2
  · have hsame : SameUnder _ (scenario2 3) (scenario2 H) :=
      scenario2_sameUnder 3 H
        (fun ev => decide ((ev.time ≤ 3 ∨ 7 / 2 ≤ ev.time) ∧
          (ev.time + 1 / 2 ≤ 3 ∨ 7 / 2 ≤ ev.time + 1 / 2))) (fun ev hg => by
        simp only [decide_eq_true_eq] at hg
        obtain ⟨h1, h2⟩ := hg
        constructor
        · rcases h1 with h1 | h1
          · exact ⟨fun _ => h1, fun _ => le_trans h1 hH⟩
          · exact ⟨fun h => absurd (lt_of_lt_of_le hlow h1) (not_lt.mpr h),
              fun h => absurd (by linarith : (7 : ℚ) / 2 ≤ 3) (by norm_num)⟩
        · rcases h2 with h2 | h2
          · exact ⟨fun _ => h2, fun _ => le_trans h2 hH⟩
          · exact ⟨fun h => absurd (lt_of_lt_of_le hlow h2) (not_lt.mpr h),
              fun h => absurd (by linarith : (7 : ℚ) / 2 ≤ 3) (by norm_num)⟩)
    exact allRuns_iterate sched 8 0 _ (checkAll_allRuns hsame 8 _ scenario2_check_low)
  · have hhigh : (7 : ℚ) / 2 ≤ H := not_lt.mp hlow
    have hsame : SameUnder _ (scenario2 (7 / 2)) (scenario2 H) :=
      scenario2_sameUnder (7 / 2) H
        (fun ev => decide (ev.time + 1 / 2 ≤ 7 / 2)) (fun ev hg => by
        simp only [decide_eq_true_eq] at hg
        have h1 : ev.time ≤ 7 / 2 := by linarith
        exact ⟨⟨fun _ => h1, fun _ => le_trans h1 hhigh⟩, ⟨fun _ => hg, fun _ => le_trans hg hhigh⟩⟩)
    exact allRuns_iterate sched 8 0 _ (checkAll_allRuns hsame 8 _ scenario2_check_high)

/-! ## Horizon zero -/

theorem runSched_of_allRuns {cfg : Config R} {P : Trace R × State R → Prop} {fuel : Nat}
    (h : AllRuns cfg (fun y => finished y.2 ∧ P y) fuel ([], initState cfg)) (sched : Nat → Nat) :
    ∃ y, runSched cfg sched fuel = some y ∧ P y := by
  obtain ⟨y, hy, hf, hP⟩ := allRuns_iterate sched fuel 0 _ h
  refine ⟨y, ?_, hP⟩
  unfold runSched
  rw [hy]
  simp only
  rw [if_pos hf]

/-- With horizon 0 every run ends within two iterations and serves nobody. -/
theorem zero_horizon_allRuns {cfg : Config R} (hv : ValidDraws cfg)
    (hH : cfg.SIM_MINUTES = 0) :
    AllRuns cfg (fun y => finished y.2 ∧ y.2.servedCount = 0) 3 ([], initState cfg) := by
  refine ⟨fun hf => ?_, fun _ i ev _ hev => ?_⟩
  · rcases hf with hf | hf <;> simp [initState] at hf
  have hi : i = 0 ∧ ev = { time := 0, type := EventType.ARRIVAL, customerId := 0, serverId := -1 } := by
    cases i with
    | zero => exact ⟨rfl, by simpa [initState, eq_comm] using hev⟩
    | succ i => simp [initState] at hev
  obtain ⟨rfl, rfl⟩ := hi
  obtain ⟨s1, hs1⟩ := progress (good_init cfg) hev
  have hle : (0 : ℚ) ≤ cfg.SIM_MINUTES := by rw [hH]
  refine ⟨s1, hs1, ?_⟩
  simp only
  rw [if_pos hle]
  have hg1 := (good_step (good_init cfg) hev hs1).2 hle
  have hserved : s1.servedCount = 0 := by
    rw [hg1.2.served]
    simp [departedEvents]
  refine ⟨fun hf => ⟨hf, hserved⟩, fun _ j ev2 _ hev2 => ?_⟩
  have hlater := loopIter_pushes_later hv hev hs1 ev2 (mem_of_getElem? hev2)
  have hcut : cfg.SIM_MINUTES < ev2.time := by
    rcases hlater with hmem | hlt
    · simp [initState] at hmem
    · rw [hH]; exact hlt
  refine ⟨_, loopIter_of_cut cfg hev2 hcut, ?_⟩
  rw [if_neg (not_le.mpr hcut)]
  refine ⟨fun _ => ⟨Or.inl rfl, hserved⟩, fun hnf => absurd (Or.inl rfl) hnf⟩

theorem scenario0_valid : ValidDraws scenario0 := by
  refine ⟨fun _ => ?_, fun _ => ?_, fun _ => ?_⟩ <;> simp [scenario0, scenario1]

/-! ## The result of an iteration, in closed form -/

theorem loopIter_arrival_eq {cfg : Config R} {dep : List Int} {s s' : State R} {i : Nat}
    {ev : Event} (hI : Inv cfg [] dep s) (hev : s.events[i]? = some ev)
    (hty : ev.type = EventType.ARRIVAL) (hle : ev.time ≤ cfg.SIM_MINUTES)
    (h : loopIter cfg s i = some s') :
    ∃ c, getAt s.customers ev.customerId = some c ∧
      ((0 ≤ findFreeServer cfg.numServers s.serverBusy ∧
          ∃ lf, getAt s.serverLastFreeTime (findFreeServer cfg.numServers s.serverBusy) = some lf ∧
            s' = scheduleNext cfg (servedAtArrival cfg s i ev c
              (findFreeServer cfg.numServers s.serverBusy) lf)) ∨
        (findFreeServer cfg.numServers s.serverBusy < 0 ∧
          s' = scheduleNext cfg (queuedAtArrival s i ev c))) := by
  rw [loopIter_of_arrival cfg hev hle hty] at h
  obtain ⟨s1, hs1, hcase⟩ := handleArrival_cases h
  obtain ⟨_, c, hc, rfl⟩ := inv_recordArrival (inv_pop hI hev) hs1
  have hr := getAt_some_range hc
  refine ⟨c, hc, ?_⟩
  rcases hcase with ⟨hfree, s2, lf, hs2, hlf, rfl⟩ | ⟨hno, rfl⟩
  · left
    refine ⟨hfree, lf, hlf, ?_⟩
    obtain ⟨c1, hc1, _, _, _, rfl⟩ := startService_eq_some hs2
    have hc1' : c1 = { c with arrivalTime := ev.time } := by
      have h2 : getAt ((popEvent s i ev).customers.set ev.customerId.toNat
          { c with arrivalTime := (popEvent s i ev).t }) ev.customerId = some c1 := hc1
      rw [getAt_set_self hr.1 hr.2] at h2
      exact (Option.some.inj h2).symm
    subst hc1'
    congr 1
    simp only [startedState, servedAtArrival, popEvent, List.set_set, departureOf, scoopsAt,
      baseAt, rngAfterService]
  · right
    exact ⟨hno, rfl⟩

theorem loopIter_departure_eq {cfg : Config R} {dep : List Int} {s s' : State R} {i : Nat}
    {ev : Event} (hI : Inv cfg [] dep s) (hev : s.events[i]? = some ev)
    (hty : ev.type = EventType.DEPARTURE) (hle : ev.time ≤ cfg.SIM_MINUTES)
    (h : loopIter cfg s i = some s') :
    ∃ c, getAt s.customers ev.customerId = some c ∧
      ((s.waitingQueue = [] ∧ s' = departedIdle cfg s i ev c) ∨
        (∃ x rest cx, s.waitingQueue = x :: rest ∧ getAt s.customers x = some cx ∧
          x ≠ ev.customerId ∧ s' = departedNext cfg s i ev c x rest cx)) := by
  rw [loopIter_of_departure cfg hev hle hty] at h
  obtain ⟨s1, hs1, hcase⟩ := handleDeparture_cases h
  have hIp := inv_pop hI hev
  obtain ⟨c, hc, h0, h1, rfl⟩ := recordDeparture_eq_some hs1
  have hr := getAt_some_range hc
  refine ⟨c, hc, ?_⟩
  rcases hcase with ⟨hq, rfl⟩ | ⟨x, rest, hq, hs'⟩
  · left
    exact ⟨hq, rfl⟩
  · right
    have hq' : s.waitingQueue = x :: rest := hq
    obtain ⟨cx, hcx, _, _, _, rfl⟩ := startService_eq_some hs'
    have hne : ev.customerId ≠ x :=
      inv_flight_ne hIp (mem_occ_wait (by show x ∈ s.waitingQueue; rw [hq']; simp))
    have hcx' : getAt s.customers x = some cx := by
      have h2 : getAt ((popEvent s i ev).customers.set ev.customerId.toNat
          { c with departureTime := (popEvent s i ev).t }) x = some cx := hcx
      rwa [getAt_set_ne hr.1 hne] at h2
    refine ⟨x, rest, cx, hq', hcx', Ne.symm hne, ?_⟩
    simp only [startedState, departedState, departedNext, popEvent, List.set_set, departureOf,
      scoopsAt, baseAt, rngAfterService]

/-! ## The scan for a free server -/

theorem scanFree_neg (busy : List Bool) (k i : Nat) (h : scanFree busy i k < 0) :
    ∀ j, i ≤ j → j < i + k → busy[j]? ≠ some false := by
  induction k generalizing i with
  | zero => intro j h1 h2; omega
  | succ k ih =>
    unfold scanFree at h
    split at h
    · omega
    · rename_i hb
      intro j h1 h2
      rcases Nat.eq_or_lt_of_le h1 with rfl | hlt
      · exact hb
      · exact ih (i + 1) h j hlt (by omega)

theorem scanFree_least (busy : List Bool) (k i : Nat) (h : 0 ≤ scanFree busy i k) :
    ∀ j, i ≤ j → (j : Int) < scanFree busy i k → busy[j]? ≠ some false := by
  induction k generalizing i with
  | zero => simp [scanFree] at h
  | succ k ih =>
    unfold scanFree at h ⊢
    split
    · intro j h1 h2; omega
    · rename_i hb
      rw [if_neg hb] at h
      intro j h1 h2
      rcases Nat.eq_or_lt_of_le h1 with rfl | hlt
      · exact hb
      · exact ih (i + 1) h j hlt h2

theorem scanFree_neg_eq (busy : List Bool) (k i : Nat) (h : scanFree busy i k < 0) :
    scanFree busy i k = -1 := by
  induction k generalizing i with
  | zero => rfl
  | succ k ih =>
    unfold scanFree at h ⊢
    split
    · rename_i hb; rw [if_pos hb] at h; omega
    · rename_i hb; rw [if_neg hb] at h; exact ih (i + 1) h

/-- When the scan finds nothing every server below `numServers` is busy. -/
theorem findFreeServer_none {n : Nat} {busy : List Bool} (hlen : busy.length = n)
    (h : findFreeServer n busy < 0) :
    findFreeServer n busy = -1 ∧ ∀ j, j < n → busy[j]? = some true := by
  refine ⟨scanFree_neg_eq busy n 0 h, fun j hj => ?_⟩
  have hne := scanFree_neg busy n 0 h j (Nat.zero_le _) (by omega)
  have hlt : j < busy.length := by omega
  rw [List.getElem?_eq_getElem hlt] at hne ⊢
  cases hb : busy[j] with
  | true => rfl
  | false => rw [hb] at hne; exact absurd rfl hne

/-- The scan returns the least index that is not busy. -/
theorem findFreeServer_least {n : Nat} {busy : List Bool} (hlen : busy.length = n)
    (h : 0 ≤ findFreeServer n busy) :
    ∀ j : Nat, (j : Int) < findFreeServer n busy → busy[j]? = some true := by
  intro j hj
  have hne := scanFree_least busy n 0 h j (Nat.zero_le _) hj
  have hk := (findFreeServer_range h).1
  have hlt : j < busy.length := by omega
  rw [List.getElem?_eq_getElem hlt] at hne ⊢
  cases hb : busy[j] with
  | true => rfl
  | false => rw [hb] at hne; exact absurd rfl hne

/-! ## What `scheduleNext` leaves alone -/

theorem scheduleNext_servers (cfg : Config R) (s : State R) :
    (scheduleNext cfg s).serverBusy = s.serverBusy ∧
    (scheduleNext cfg s).serverServingCustomer = s.serverServingCustomer ∧
    (scheduleNext cfg s).serverLastFreeTime = s.serverLastFreeTime ∧
    (scheduleNext cfg s).totalServiceTime = s.totalServiceTime ∧
    (scheduleNext cfg s).totalRevenue = s.totalRevenue ∧
    (scheduleNext cfg s).idleTimeAcc = s.idleTimeAcc ∧
    (scheduleNext cfg s).rng = (cfg.interarrival_dist s.rng).2 := by
  unfold scheduleNext
  simp only []
  split <;> exact ⟨rfl, rfl, rfl, rfl, rfl, rfl, rfl⟩

theorem scheduleNext_events_sub (cfg : Config R) (s : State R) :
    ∀ e ∈ s.events, e ∈ (scheduleNext cfg s).events := by
  intro e he
  unfold scheduleNext
  simp only []
  split
  · exact List.mem_append_left _ he
  · exact he

/-! ## States in which the loop has met the cutoff -/

/-- A stopped state of a run comes from a state of the same run, not stopped, by the cutoff
iteration. -/
theorem exec_stopped {cfg : Config R} {tr : Trace R} {s : State R} (h : Exec cfg tr s)
    (hst : s.stopped = true) :
    ∃ s0 i ev, Exec cfg tr s0 ∧ s0.stopped = false ∧ s0.events[i]? = some ev ∧
      cfg.SIM_MINUTES < ev.time ∧ s = { popEvent s0 i ev with stopped := true } := by
  cases h with
  | start => simp [initState] at hst
  | @handle tr s0 _ i ev hex hnf _ hev hle hstep =>
    have hns : s0.stopped = false := by
      cases hs : s0.stopped
      · rfl
      · exact absurd (Or.inl hs) hnf
    rw [(loopIter_clock hev hstep).2.2 hle, hns] at hst
    cases hst
  | @cutoff _ s0 _ i ev hex hnf _ hev hcut hstep =>
    have hns : s0.stopped = false := by
      cases hs : s0.stopped
      · rfl
      · exact absurd (Or.inl hs) hnf
    refine ⟨s0, i, ev, hex, hns, hev, hcut, ?_⟩
    rw [loopIter_of_cut cfg hev hcut] at hstep
    exact (Option.some.inj hstep).symm

/-- A state of a run that is not stopped is reached by handled iterations only: a
property that holds initially and is kept by every handled iteration holds there. -/
theorem exec_live {cfg : Config R} {P : Trace R → State R → Prop}
    (h0 : P [] (initState cfg))
    (hstep : ∀ (tr : Trace R) (s s' : State R) (i : Nat) (ev : Event), Exec cfg tr s →
      s.stopped = false → P tr s → isTop s.events i → s.events[i]? = some ev →
      ev.time ≤ cfg.SIM_MINUTES → loopIter cfg s i = some s' → P (tr ++ [(s, ev)]) s')
    {tr : Trace R} {s : State R} (h : Exec cfg tr s) (hs : s.stopped = false) : P tr s := by
  induction h with
  | start => exact h0
  | @handle tr s0 s1 i ev hex hnf htop hev hle hst ih =>
    have hns : s0.stopped = false := by
      cases hs0 : s0.stopped
      · rfl
      · exact absurd (Or.inl hs0) hnf
    exact hstep tr s0 s1 i ev hex hns (ih hns) htop hev hle hst
  | cutoff _ _ _ hev hcut hst _ =>
    rw [(loopIter_clock hev hst).2.1 hcut] at hs
    cases hs

/-! ## Work conservation -/

theorem getElem?_set_true {xs : List Bool} {k j : Nat} (h : xs[j]? = some true) :
    (xs.set k true)[j]? = some true := by
  have hlt := (List.getElem?_eq_some.mp h).1
  by_cases hkj : k = j
  · subst hkj
    simp [List.getElem?_set, hlt]
  · simp [List.getElem?_set, hkj, h]

/-- Work conservation: while somebody waits every server is busy. -/
theorem exec_work_conserving {cfg : Config R} {tr : Trace R} {s : State R} (h : Exec cfg tr s) :
    s.waitingQueue ≠ [] → ∀ j, j < cfg.numServers → s.serverBusy[j]? = some true := by
  induction h with
  | start => intro h; simp [initState] at h
  | @handle tr s s' i ev hex hnf _ hev hle hstep ih =>
    have hI := (exec_good hex).1
    cases hty : ev.type with
    | ARRIVAL =>
      obtain ⟨c, hc, hcase⟩ := loopIter_arrival_eq hI hev hty hle hstep
      rcases hcase with ⟨hfree, lf, _, rfl⟩ | ⟨hno, rfl⟩
      · intro hq j hj
        rw [(scheduleNext_fields cfg _).1] at hq
        rw [(scheduleNext_servers cfg _).1]
        exact getElem?_set_true (ih hq j hj)
      · intro _ j hj
        rw [(scheduleNext_servers cfg _).1]
        exact (findFreeServer_none hI.busyLen hno).2 j hj
    | DEPARTURE =>
      obtain ⟨c, hc, hcase⟩ := loopIter_departure_eq hI hev hty hle hstep
      rcases hcase with ⟨hq, rfl⟩ | ⟨x, rest, cx, hq, _, _, rfl⟩
      · intro hq'
        exact absurd hq hq'
      · intro _ j hj
        exact getElem?_set_true (ih (by rw [hq]; simp) j hj)
  | @cutoff tr s s' i ev hex hnf _ hev hcut hstep ih =>
    rw [loopIter_of_cut cfg hev hcut] at hstep
    cases hstep
    exact ih

/-! ## What a trace records, one iteration more -/

theorem serviceStarts_snoc (cfg : Config R) (tr : Trace R) (p : State R × Event) :
    serviceStarts cfg (tr ++ [p]) = serviceStarts cfg tr ++ (startOf cfg p).toList := by
  unfold serviceStarts
  rw [List.filterMap_append]
  cases h : startOf cfg p <;> simp [List.filterMap_cons, h]

theorem arrivedIds_snoc (tr : Trace R) (s : State R) (ev : Event) :
    arrivedIds (tr ++ [(s, ev)]) =
      if ev.type = EventType.ARRIVAL then arrivedIds tr ++ [ev.customerId] else arrivedIds tr := by
  unfold arrivedIds
  by_cases h : ev.type = EventType.ARRIVAL <;> simp [List.filter_cons, h]

theorem waitedIds_snoc (cfg : Config R) (tr : Trace R) (s : State R) (ev : Event) :
    waitedIds cfg (tr ++ [(s, ev)]) =
      if ev.type = EventType.ARRIVAL ∧ findFreeServer cfg.numServers s.serverBusy < 0 then
        waitedIds cfg tr ++ [ev.customerId]
      else waitedIds cfg tr := by
  unfold waitedIds
  by_cases h : ev.type = EventType.ARRIVAL ∧ findFreeServer cfg.numServers s.serverBusy < 0
  · simp [List.filter_cons, h]
  · rw [if_neg h]
    simp [List.filter_cons, h]

theorem startOf_arrival_free {cfg : Config R} {s : State R} {ev : Event}
    (hty : ev.type = EventType.ARRIVAL)
    (hfree : 0 ≤ findFreeServer cfg.numServers s.serverBusy) :
    startOf cfg (s, ev) = some
      { customerId := ev.customerId, serverId := findFreeServer cfg.numServers s.serverBusy
        time := ev.time, scoops := scoopsAt cfg s.rng, base := baseAt cfg s.rng } := by
  simp [startOf, hty, hfree]

theorem startOf_arrival_busy {cfg : Config R} {s : State R} {ev : Event}
    (hty : ev.type = EventType.ARRIVAL)
    (hno : findFreeServer cfg.numServers s.serverBusy < 0) : startOf cfg (s, ev) = none := by
  simp [startOf, hty, not_le.mpr hno]

theorem startOf_departure_empty {cfg : Config R} {s : State R} {ev : Event}
    (hty : ev.type = EventType.DEPARTURE) (hq : s.waitingQueue = []) :
    startOf cfg (s, ev) = none := by
  simp [startOf, hty, hq]

theorem startOf_departure_next {cfg : Config R} {s : State R} {ev : Event} {x : Int}
    {rest : List Int} (hty : ev.type = EventType.DEPARTURE) (hq : s.waitingQueue = x :: rest) :
    startOf cfg (s, ev) = some
      { customerId := x, serverId := ev.serverId, time := ev.time
        scoops := scoopsAt cfg s.rng, base := baseAt cfg s.rng } := by
  simp [startOf, hty, hq]

/-! ## The service starts and the ledger -/

theorem getAt_set_cases {α : Type} {xs : List α} {k x : Int} {v c : α} (hk : 0 ≤ k)
    (h : getAt (xs.set k.toNat v) x = some c) :
    (x = k ∧ c = v) ∨ (x ≠ k ∧ getAt xs x = some c) := by
  by_cases hx : x = k
  · subst hx
    have hr := getAt_some_range h
    rw [List.length_set] at hr
    rw [getAt_set_self hr.1 hr.2] at h
    exact Or.inl ⟨rfl, (Option.some.inj h).symm⟩
  · rw [getAt_set_ne hk (Ne.symm hx)] at h
    exact Or.inr ⟨hx, h⟩

theorem getAt_append_cases {α : Type} {xs : List α} {x : Int} {v c : α}
    (h : getAt (xs ++ [v]) x = some c) :
    getAt xs x = some c ∨ (x = xs.length ∧ c = v) := by
  have hr := getAt_some_range h
  rw [List.length_append, List.length_singleton] at hr
  by_cases hx : x < xs.length
  · rw [getAt_append_range hr.1 hx] at h
    exact Or.inl h
  · have hx' : x = xs.length := by push_cast at hr; omega
    refine Or.inr ⟨hx', ?_⟩
    obtain ⟨_, h1⟩ := getAt_eq_some.mp h
    rw [hx', Int.toNat_ofNat] at h1
    simpa using h1.symm

theorem scheduleNext_getAt {cfg : Config R} {s : State R} {x : Int} {c : Customer}
    (h : getAt (scheduleNext cfg s).customers x = some c) :
    getAt s.customers x = some c ∨
      (x = s.customers.length ∧
        c = { id := s.nextCustId, arrivalTime := s.t + (cfg.interarrival_dist s.rng).1 } ∧
        s.t + (cfg.interarrival_dist s.rng).1 ≤ cfg.SIM_MINUTES) := by
  unfold scheduleNext at h
  simp only at h
  split at h
  · next hle =>
    rcases getAt_append_cases h with h1 | ⟨h1, h2⟩
    · exact Or.inl h1
    · exact Or.inr ⟨h1, h2, hle⟩
  · exact Or.inl h

theorem scheduleNext_event {cfg : Config R} {s : State R} {e : Event}
    (h : e ∈ (scheduleNext cfg s).events) :
    e ∈ s.events ∨
      (e = { time := s.t + (cfg.interarrival_dist s.rng).1, type := EventType.ARRIVAL,
             customerId := s.nextCustId, serverId := -1 } ∧
        s.t + (cfg.interarrival_dist s.rng).1 ≤ cfg.SIM_MINUTES) := by
  unfold scheduleNext at h
  simp only at h
  split at h
  · next hle =>
    rcases List.mem_append.mp h with h1 | h1
    · exact Or.inl h1
    · exact Or.inr ⟨List.mem_singleton.mp h1, hle⟩
  · exact Or.inl h

theorem scheduleNext_rec {cfg : Config R} {s : State R} {x : Int} {P : Customer → Prop}
    (h : ∃ c, getAt s.customers x = some c ∧ P c) :
    ∃ c, getAt (scheduleNext cfg s).customers x = some c ∧ P c := by
  unfold scheduleNext
  simp only
  split
  · exact rec_append h
  · exact h

theorem started_init (cfg : Config R) : Started cfg [] [] (initState cfg) where
  ledger := by simp
  away := by simp
  evSt := by
    intro e he hty
    simp [initState] at he
    subst he
    simp at hty
  depSt := by simp
  unset := by
    intro x c hc _
    have hr := getAt_some_range hc
    simp only [initState, List.length_singleton] at hr
    have hx : x = 0 := by push_cast at hr; omega
    subst hx
    simp [initState, getAt] at hc
    subst hc
    rfl
  total := by simp [initState]
  draws := by simp
  once := by simp
  nonneg := by
    intro _
    refine ⟨by simp [initState], ?_, by simp⟩
    intro e he
    simp [initState] at he
    subst he
    simp

theorem started_scheduleNext {cfg : Config R} {sts : List ServiceStart} {dep : List Event}
    {s : State R} (h : Started cfg sts dep s) (hn : s.nextCustId = s.customers.length) :
    Started cfg sts dep (scheduleNext cfg s) where
  ledger := fun σ hσ => scheduleNext_rec (h.ledger σ hσ)
  away := by
    intro σ hσ
    refine ⟨by rw [(scheduleNext_fields cfg s).1]; exact (h.away σ hσ).1, ?_⟩
    intro e he hty
    rcases scheduleNext_event he with he | ⟨rfl, _⟩
    · exact (h.away σ hσ).2 e he hty
    · obtain ⟨c, hc, _⟩ := h.ledger σ hσ
      have hr := getAt_some_range hc
      simp only
      omega
  evSt := by
    intro e he hty
    rcases scheduleNext_event he with he | ⟨rfl, _⟩
    · exact h.evSt e he hty
    · simp at hty
  depSt := h.depSt
  unset := by
    intro x c hc hx
    rcases scheduleNext_getAt hc with hc | ⟨_, rfl, _⟩
    · exact h.unset x c hc hx
    · rfl
  total := by rw [(scheduleNext_servers cfg s).2.2.2.1]; exact h.total
  draws := h.draws
  once := h.once
  nonneg := by
    intro hv
    obtain ⟨h0, h1, h2⟩ := h.nonneg hv
    refine ⟨by rw [(scheduleNext_fields cfg s).2.1]; exact h0, ?_, h2⟩
    intro e he
    rcases scheduleNext_event he with he | ⟨rfl, _⟩
    · exact h1 e he
    · have := hv.1 s.rng
      simp only
      linarith

theorem inv_pending_not_waiting {cfg : Config R} {fl dep : List Int} {s : State R} {e : Event}
    (h : Inv cfg fl dep s) (he : e ∈ s.events) : e.customerId ∉ s.waitingQueue := by
  intro hx
  have hnd := (List.nodup_append.mp h.nodup).2.1
  have hdis := (List.nodup_append.mp hnd).2.2
  exact hdis (List.mem_map_of_mem _ he) (List.mem_append_left _ hx)

theorem inv_waiting_nodup {cfg : Config R} {fl dep : List Int} {s : State R}
    (h : Inv cfg fl dep s) : s.waitingQueue.Nodup := by
  have hnd := (List.nodup_append.mp h.nodup).2.1
  have h2 := (List.nodup_append.mp hnd).2.1
  exact (List.nodup_append.mp h2).1

theorem inv_pending_not_departed {cfg : Config R} {fl dep : List Int} {s : State R} {e : Event}
    (h : Inv cfg fl dep s) (he : e ∈ s.events) : e.customerId ∉ dep := by
  intro hx
  have hnd := (List.nodup_append.mp h.nodup).2.1
  have hdis := (List.nodup_append.mp hnd).2.2
  exact hdis (List.mem_map_of_mem _ he) (List.mem_append_right _ hx)

theorem inv_waiting_not_departed {cfg : Config R} {fl dep : List Int} {s : State R} {x : Int}
    (h : Inv cfg fl dep s) (hx : x ∈ s.waitingQueue) : x ∉ dep := by
  intro hd
  have hnd := (List.nodup_append.mp h.nodup).2.1
  have h2 := (List.nodup_append.mp hnd).2.1
  exact (List.nodup_append.mp h2).2.2 hx hd

theorem started_cutoff {cfg : Config R} {sts : List ServiceStart} {dep : List Event}
    {s : State R} {i : Nat} {ev : Event} (h : Started cfg sts dep s)
    (hev : s.events[i]? = some ev) :
    Started cfg sts dep { popEvent s i ev with stopped := true } where
  ledger := h.ledger
  away := fun σ hσ => ⟨(h.away σ hσ).1, fun e he => (h.away σ hσ).2 e (mem_eraseIdx he)⟩
  evSt := fun e he => h.evSt e (mem_eraseIdx he)
  depSt := h.depSt
  unset := h.unset
  total := h.total
  draws := h.draws
  once := h.once
  nonneg := fun hv =>
    ⟨(h.nonneg hv).2.1 ev (mem_of_getElem? hev), fun e he => (h.nonneg hv).2.1 e (mem_eraseIdx he),
      (h.nonneg hv).2.2⟩

theorem started_served {cfg : Config R} {sts : List ServiceStart} {dep : List Event}
    {depIds : List Int} {s : State R} {i : Nat} {ev : Event} {c : Customer} (k : Int) (lf : ℚ)
    (h : Started cfg sts dep s) (hI : Inv cfg [] depIds s) (hev : s.events[i]? = some ev)
    (hty : ev.type = EventType.ARRIVAL) (hc : getAt s.customers ev.customerId = some c) :
    Started cfg (sts ++ [{ customerId := ev.customerId, serverId := k, time := ev.time,
                           scoops := scoopsAt cfg s.rng, base := baseAt cfg s.rng }]) dep
      (servedAtArrival cfg s i ev c k lf) := by
  have hpop := inv_pop hI hev
  have hr := getAt_some_range hc
  have hmem := mem_of_getElem? hev
  refine ⟨?_, ?_, ?_, ?_, ?_, ?_, ?_, ?_, ?_⟩
  · intro σ hσ
    rcases List.mem_append.mp hσ with hσ | hσ
    · have hne := (h.away σ hσ).2 ev hmem hty
      simp only [servedAtArrival]
      rw [getAt_set_ne hr.1 hne]
      exact h.ledger σ hσ
    · rw [List.mem_singleton.mp hσ]
      exact ⟨_, getAt_set_self hr.1 hr.2, rfl, rfl⟩
  · intro σ hσ
    rcases List.mem_append.mp hσ with hσ | hσ
    · refine ⟨(h.away σ hσ).1, fun e he hte => ?_⟩
      rcases List.mem_append.mp he with he | he
      · exact (h.away σ hσ).2 e (mem_eraseIdx he) hte
      · rw [List.mem_singleton.mp he] at hte
        simp [departureOf] at hte
    · rw [List.mem_singleton.mp hσ]
      refine ⟨fun hx => inv_flight_ne hpop (mem_occ_wait hx) rfl, fun e he hte => ?_⟩
      rcases List.mem_append.mp he with he | he
      · exact fun heq => inv_flight_ne hpop
          (mem_occ_pending (s := popEvent s i ev) he) heq.symm
      · rw [List.mem_singleton.mp he] at hte
        simp [departureOf] at hte
  · intro e he hte
    rcases List.mem_append.mp he with he | he
    · obtain ⟨σ, hσ, h1⟩ := h.evSt e (mem_eraseIdx he) hte
      exact ⟨σ, List.mem_append_left _ hσ, h1⟩
    · rw [List.mem_singleton.mp he]
      exact ⟨_, List.mem_append_right _ (List.mem_singleton.mpr rfl), rfl, rfl, rfl⟩
  · intro e he
    obtain ⟨σ, hσ, h1⟩ := h.depSt e he
    exact ⟨σ, List.mem_append_left _ hσ, h1⟩
  · intro x c' hc' hx
    have hxne : x ≠ ev.customerId := fun heq =>
      hx _ (List.mem_append_right _ (List.mem_singleton.mpr rfl)) heq.symm
    rcases getAt_set_cases hr.1 hc' with ⟨h1, _⟩ | ⟨_, h1⟩
    · exact absurd h1 hxne
    · exact h.unset x c' h1 fun σ hσ => hx σ (List.mem_append_left _ hσ)
  · simp only [servedAtArrival, List.map_append, List.sum_append, List.map_cons, List.map_nil,
      List.sum_cons, List.sum_nil, add_zero]
    rw [h.total]
  · intro σ hσ
    rcases List.mem_append.mp hσ with hσ | hσ
    · exact h.draws σ hσ
    · rw [List.mem_singleton.mp hσ]
      exact ⟨s.rng, rfl, rfl⟩
  · rw [List.map_append]
    refine List.Nodup.append h.once (by simp) ?_
    intro x hx1 hx2
    obtain ⟨σ, hσ, rfl⟩ := List.mem_map.mp hx1
    simp only [List.map_cons, List.map_nil, List.mem_singleton] at hx2
    exact (h.away σ hσ).2 ev hmem hty hx2.symm
  · intro hv
    obtain ⟨_, h1, h2⟩ := h.nonneg hv
    have ht := h1 ev hmem
    refine ⟨ht, ?_, ?_⟩
    · intro e he
      rcases List.mem_append.mp he with he | he
      · exact h1 e (mem_eraseIdx he)
      · rw [List.mem_singleton.mp he]
        have := serviceTime_pos hv s.rng
        simp only [departureOf, baseAt, scoopsAt]
        linarith
    · intro σ hσ
      rcases List.mem_append.mp hσ with hσ | hσ
      · exact h2 σ hσ
      · rw [List.mem_singleton.mp hσ]
        exact ht

theorem started_queued {cfg : Config R} {sts : List ServiceStart} {dep : List Event}
    {s : State R} {i : Nat} {ev : Event} {c : Customer}
    (h : Started cfg sts dep s) (hev : s.events[i]? = some ev)
    (hty : ev.type = EventType.ARRIVAL) (hc : getAt s.customers ev.customerId = some c) :
    Started cfg sts dep (queuedAtArrival s i ev c) := by
  have hr := getAt_some_range hc
  have hmem := mem_of_getElem? hev
  refine ⟨?_, ?_, ?_, h.depSt, ?_, h.total, h.draws, h.once, ?_⟩
  · intro σ hσ
    exact rec_set (h.ledger σ hσ) hc fun _ hP => hP
  · intro σ hσ
    refine ⟨fun hx => ?_, fun e he => (h.away σ hσ).2 e (mem_eraseIdx he)⟩
    rcases List.mem_append.mp hx with hx | hx
    · exact (h.away σ hσ).1 hx
    · exact (h.away σ hσ).2 ev hmem hty (List.mem_singleton.mp hx).symm
  · exact fun e he => h.evSt e (mem_eraseIdx he)
  · intro x c' hc' hx
    rcases getAt_set_cases hr.1 hc' with ⟨h1, h2⟩ | ⟨_, h1⟩
    · rw [h2]
      exact h.unset ev.customerId c hc (h1 ▸ hx)
    · exact h.unset x c' h1 hx
  · intro hv
    obtain ⟨_, h1, h2⟩ := h.nonneg hv
    exact ⟨h1 ev hmem, fun e he => h1 e (mem_eraseIdx he), h2⟩

theorem started_idle {cfg : Config R} {sts : List ServiceStart} {dep : List Event}
    {s : State R} {i : Nat} {ev : Event} {c : Customer}
    (h : Started cfg sts dep s) (hev : s.events[i]? = some ev)
    (hty : ev.type = EventType.DEPARTURE) (hc : getAt s.customers ev.customerId = some c) :
    Started cfg sts (dep ++ [ev]) (departedIdle cfg s i ev c) := by
  have hr := getAt_some_range hc
  have hmem := mem_of_getElem? hev
  refine ⟨?_, ?_, ?_, ?_, ?_, h.total, h.draws, h.once, ?_⟩
  · intro σ hσ
    exact rec_set (h.ledger σ hσ) hc fun _ hP => hP
  · intro σ hσ
    exact ⟨(h.away σ hσ).1, fun e he => (h.away σ hσ).2 e (mem_eraseIdx he)⟩
  · exact fun e he => h.evSt e (mem_eraseIdx he)
  · intro e he
    rcases List.mem_append.mp he with he | he
    · exact h.depSt e he
    · rw [List.mem_singleton.mp he]
      exact h.evSt ev hmem hty
  · intro x c' hc' hx
    rcases getAt_set_cases hr.1 hc' with ⟨h1, h2⟩ | ⟨_, h1⟩
    · rw [h2]
      exact h.unset ev.customerId c hc (h1 ▸ hx)
    · exact h.unset x c' h1 hx
  · intro hv
    obtain ⟨_, h1, h2⟩ := h.nonneg hv
    exact ⟨h1 ev hmem, fun e he => h1 e (mem_eraseIdx he), h2⟩

theorem started_next {cfg : Config R} {sts : List ServiceStart} {dep : List Event}
    {depIds : List Int} {s : State R} {i : Nat} {ev : Event} {c cx : Customer} {x : Int}
    {rest : List Int}
    (h : Started cfg sts dep s) (hI : Inv cfg [] depIds s) (hev : s.events[i]? = some ev)
    (hty : ev.type = EventType.DEPARTURE) (hc : getAt s.customers ev.customerId = some c)
    (hq : s.waitingQueue = x :: rest) (hcx : getAt s.customers x = some cx) :
    Started cfg (sts ++ [{ customerId := x, serverId := ev.serverId, time := ev.time,
                           scoops := scoopsAt cfg s.rng, base := baseAt cfg s.rng }])
      (dep ++ [ev]) (departedNext cfg s i ev c x rest cx) := by
  have hr := getAt_some_range hc
  have hrx := getAt_some_range hcx
  have hmem := mem_of_getElem? hev
  have hxw : x ∈ s.waitingQueue := by rw [hq]; exact List.mem_cons_self _ _
  have hwn := inv_waiting_nodup hI
  rw [hq] at hwn
  refine ⟨?_, ?_, ?_, ?_, ?_, ?_, ?_, ?_, ?_⟩
  · intro σ hσ
    rcases List.mem_append.mp hσ with hσ | hσ
    · have hne : x ≠ σ.customerId := fun heq => (h.away σ hσ).1 (heq ▸ hxw)
      simp only [departedNext]
      rw [getAt_set_ne hrx.1 hne]
      exact rec_set (h.ledger σ hσ) hc fun _ hP => hP
    · rw [List.mem_singleton.mp hσ]
      exact ⟨_, getAt_set_self hrx.1 (by rw [List.length_set]; exact hrx.2), rfl, rfl⟩
  · intro σ hσ
    rcases List.mem_append.mp hσ with hσ | hσ
    · refine ⟨fun hx => (h.away σ hσ).1 (by rw [hq]; exact List.mem_cons_of_mem _ hx),
        fun e he hte => ?_⟩
      rcases List.mem_append.mp he with he | he
      · exact (h.away σ hσ).2 e (mem_eraseIdx he) hte
      · rw [List.mem_singleton.mp he] at hte
        simp [departureOf] at hte
    · rw [List.mem_singleton.mp hσ]
      refine ⟨(List.nodup_cons.mp hwn).1, fun e he hte => ?_⟩
      rcases List.mem_append.mp he with he | he
      · exact fun heq => inv_pending_not_waiting hI (mem_eraseIdx he) (heq ▸ hxw)
      · rw [List.mem_singleton.mp he] at hte
        simp [departureOf] at hte
  · intro e he hte
    rcases List.mem_append.mp he with he | he
    · obtain ⟨σ, hσ, h1⟩ := h.evSt e (mem_eraseIdx he) hte
      exact ⟨σ, List.mem_append_left _ hσ, h1⟩
    · rw [List.mem_singleton.mp he]
      exact ⟨_, List.mem_append_right _ (List.mem_singleton.mpr rfl), rfl, rfl, rfl⟩
  · intro e he
    rcases List.mem_append.mp he with he | he
    · obtain ⟨σ, hσ, h1⟩ := h.depSt e he
      exact ⟨σ, List.mem_append_left _ hσ, h1⟩
    · rw [List.mem_singleton.mp he]
      obtain ⟨σ, hσ, h1⟩ := h.evSt ev hmem hty
      exact ⟨σ, List.mem_append_left _ hσ, h1⟩
  · intro y c' hc' hy
    have hyne : y ≠ x := fun heq =>
      hy _ (List.mem_append_right _ (List.mem_singleton.mpr rfl)) heq.symm
    have hy' : ∀ σ ∈ sts, σ.customerId ≠ y := fun σ hσ => hy σ (List.mem_append_left _ hσ)
    rcases getAt_set_cases hrx.1 hc' with ⟨h1, _⟩ | ⟨_, h1⟩
    · exact absurd h1 hyne
    · rcases getAt_set_cases hr.1 h1 with ⟨h2, h3⟩ | ⟨_, h2⟩
      · rw [h3]
        exact h.unset ev.customerId c hc (h2 ▸ hy')
      · exact h.unset y c' h2 hy'
  · simp only [departedNext, List.map_append, List.sum_append, List.map_cons, List.map_nil,
      List.sum_cons, List.sum_nil, add_zero]
    rw [h.total]
  · intro σ hσ
    rcases List.mem_append.mp hσ with hσ | hσ
    · exact h.draws σ hσ
    · rw [List.mem_singleton.mp hσ]
      exact ⟨s.rng, rfl, rfl⟩
  · rw [List.map_append]
    refine List.Nodup.append h.once (by simp) ?_
    intro y hy1 hy2
    obtain ⟨σ, hσ, rfl⟩ := List.mem_map.mp hy1
    simp only [List.map_cons, List.map_nil, List.mem_singleton] at hy2
    exact (h.away σ hσ).1 (hy2 ▸ hxw)
  · intro hv
    obtain ⟨_, h1, h2⟩ := h.nonneg hv
    have ht := h1 ev hmem
    refine ⟨ht, ?_, ?_⟩
    · intro e he
      rcases List.mem_append.mp he with he | he
      · exact h1 e (mem_eraseIdx he)
      · rw [List.mem_singleton.mp he]
        have := serviceTime_pos hv s.rng
        simp only [departureOf, baseAt, scoopsAt]
        linarith
    · intro σ hσ
      rcases List.mem_append.mp hσ with hσ | hσ
      · exact h2 σ hσ
      · rw [List.mem_singleton.mp hσ]
        exact ht

/-- In every reached state the ledger, the queue and `totalServiceTime` agree with the
service starts performed along the trace. -/
theorem exec_started {cfg : Config R} {tr : Trace R} {s : State R} (h : Exec cfg tr s) :
    Started cfg (serviceStarts cfg tr) (departedEvents tr) s := by
  induction h with
  | start => exact started_init cfg
  | @handle tr s s' i ev hex _ _ hev hle hstep ih =>
    have hI := (exec_good hex).1
    cases hty : ev.type with
    | ARRIVAL =>
      rw [departedEvents_snoc, if_neg (by simp [hty]), serviceStarts_snoc]
      obtain ⟨c, hc, h1⟩ := loopIter_arrival_eq hI hev hty hle hstep
      rcases h1 with ⟨hfree, lf, _, rfl⟩ | ⟨hno, rfl⟩
      · rw [startOf_arrival_free hty hfree]
        exact started_scheduleNext (started_served _ lf ih hI hev hty hc)
          (by simpa [servedAtArrival] using hI.nextId)
      · rw [startOf_arrival_busy hty hno]
        simp only [Option.toList, List.append_nil]
        exact started_scheduleNext (started_queued ih hev hty hc)
          (by simpa [queuedAtArrival] using hI.nextId)
    | DEPARTURE =>
      rw [departedEvents_snoc, if_pos hty, serviceStarts_snoc]
      obtain ⟨c, hc, h1⟩ := loopIter_departure_eq hI hev hty hle hstep
      rcases h1 with ⟨hq, rfl⟩ | ⟨x, rest, cx, hq, hcx, _, rfl⟩
      · rw [startOf_departure_empty hty hq]
        simp only [Option.toList, List.append_nil]
        exact started_idle ih hev hty hc
      · rw [startOf_departure_next hty hq]
        exact started_next ih hI hev hty hc hq hcx
  | @cutoff tr s s' i ev hex _ _ hev hcut hstep ih =>
    rcases loopIter_cases hev hstep with ⟨_, rfl⟩ | ⟨hle, _⟩ | ⟨hle, _⟩
    · exact started_cutoff ih hev
    · exact absurd hcut (not_lt.mpr hle)
    · exact absurd hcut (not_lt.mpr hle)

/-- What one handled iteration does about service starts: if it performs one, the
customer is recorded on the server, the scaled duration is added to
`totalServiceTime`, the departure is pushed and the two draws are consumed; if it
performs none, no departure is pushed and no service draw is consumed. -/
theorem loopIter_start {cfg : Config R} {dep : List Int} {s s' : State R} {i : Nat}
    {ev : Event} (hI : Inv cfg [] dep s) (hev : s.events[i]? = some ev)
    (hle : ev.time ≤ cfg.SIM_MINUTES) (h : loopIter cfg s i = some s') :
    (∀ σ, startOf cfg (s, ev) = some σ →
      departureOf cfg s.rng ev.time σ.customerId σ.serverId ∈ s'.events ∧
      (∀ e ∈ s'.events, e.type = EventType.DEPARTURE →
        e ∈ s.events.eraseIdx i ∨ e = departureOf cfg s.rng ev.time σ.customerId σ.serverId) ∧
      (∃ c, getAt s'.customers σ.customerId = some c ∧ c.serviceStart = ev.time ∧
        c.scoops = scoopsAt cfg s.rng) ∧
      getAt s.serverBusy σ.serverId ≠ none ∧
      getAt s'.serverBusy σ.serverId = some true ∧
      getAt s'.serverServingCustomer σ.serverId = some σ.customerId ∧
      s'.totalServiceTime = s.totalServiceTime + baseAt cfg s.rng * (scoopsAt cfg s.rng : ℚ) ∧
      s'.rng = if ev.type = EventType.ARRIVAL then
          (cfg.interarrival_dist (rngAfterService cfg s.rng)).2
        else rngAfterService cfg s.rng) ∧
    (startOf cfg (s, ev) = none →
      (∀ e ∈ s'.events, e.type = EventType.DEPARTURE → e ∈ s.events.eraseIdx i) ∧
      s'.totalServiceTime = s.totalServiceTime ∧
      s'.rng = if ev.type = EventType.ARRIVAL then (cfg.interarrival_dist s.rng).2 else s.rng) := by
  have hmem := mem_of_getElem? hev
  cases hty : ev.type with
  | ARRIVAL =>
    obtain ⟨c, hc, h1⟩ := loopIter_arrival_eq hI hev hty hle h
    have hr := getAt_some_range hc
    rcases h1 with ⟨hfree, lf, hlf, rfl⟩ | ⟨hno, rfl⟩
    · have hk := getAt_some_range hlf
      rw [hI.lastFreeLen] at hk
      rw [startOf_arrival_free hty hfree]
      refine ⟨?_, by simp⟩
      intro σ hσ
      cases hσ
      obtain ⟨hb, hsv, _, hT, _, _, hrng⟩ := scheduleNext_servers cfg
        (servedAtArrival cfg s i ev c (findFreeServer cfg.numServers s.serverBusy) lf)
      refine ⟨?_, ?_, ?_, ?_, ?_, ?_, ?_, ?_⟩
      · exact scheduleNext_events_sub cfg _ _ (by simp [servedAtArrival])
      · intro e he hte
        rcases scheduleNext_event he with he | ⟨rfl, _⟩
        · rcases List.mem_append.mp he with he | he
          · exact Or.inl he
          · exact Or.inr (List.mem_singleton.mp he)
        · simp at hte
      · exact scheduleNext_rec ⟨_, getAt_set_self hr.1 hr.2, rfl, rfl⟩
      · obtain ⟨v, hv⟩ : ∃ v, getAt s.serverBusy
            (findFreeServer cfg.numServers s.serverBusy) = some v :=
          getAt_isSome_of_range hk.1 (by rw [hI.busyLen]; exact hk.2)
        simp [hv]
      · rw [hb]
        exact getAt_set_self hk.1 (by rw [hI.busyLen]; exact hk.2)
      · rw [hsv]
        exact getAt_set_self hk.1 (by rw [hI.servingLen]; exact hk.2)
      · rw [hT]; rfl
      · rw [hrng]; simp [servedAtArrival]
    · rw [startOf_arrival_busy hty hno]
      refine ⟨by simp, fun _ => ?_⟩
      obtain ⟨_, _, _, hT, _, _, hrng⟩ := scheduleNext_servers cfg (queuedAtArrival s i ev c)
      refine ⟨?_, by rw [hT]; rfl, by rw [hrng]; simp [queuedAtArrival]⟩
      intro e he hte
      rcases scheduleNext_event he with he | ⟨rfl, _⟩
      · exact he
      · simp at hte
  | DEPARTURE =>
    obtain ⟨c, hc, h1⟩ := loopIter_departure_eq hI hev hty hle h
    have hsid := hI.depServer ev hmem hty
    rcases h1 with ⟨hq, rfl⟩ | ⟨x, rest, cx, hq, hcx, _, rfl⟩
    · rw [startOf_departure_empty hty hq]
      refine ⟨by simp, fun _ => ⟨fun e he _ => he, rfl, by simp [departedIdle]⟩⟩
    · have hrx := getAt_some_range hcx
      rw [startOf_departure_next hty hq]
      refine ⟨?_, by simp⟩
      intro σ hσ
      cases hσ
      refine ⟨by simp [departedNext], ?_, ?_, ?_, ?_, ?_, rfl, by simp [departedNext]⟩
      · intro e he _
        rcases List.mem_append.mp he with he | he
        · exact Or.inl he
        · exact Or.inr (List.mem_singleton.mp he)
      · exact ⟨_, getAt_set_self hrx.1 (by rw [List.length_set]; exact hrx.2), rfl, rfl⟩
      · obtain ⟨v, hv⟩ : ∃ v, getAt s.serverBusy ev.serverId = some v :=
          getAt_isSome_of_range hsid.1 (by rw [hI.busyLen]; exact hsid.2)
        simp [hv]
      · exact getAt_set_self hsid.1 (by rw [hI.busyLen]; exact hsid.2)
      · exact getAt_set_self hsid.1 (by rw [hI.servingLen]; exact hsid.2)

theorem scenario1AfterArrival_eq :
    iterate scenario1 (fun _ => 0) 1 0 ([], initState scenario1) =
      some scenario1AfterArrival := by
  with_unfolding_all rfl

theorem scenario1AfterArrival_exec :
    Exec scenario1 scenario1AfterArrival.1 scenario1AfterArrival.2 :=
  iterate_exec 1 0 [] _ _ _ Exec.start scenario1AfterArrival_eq

/-! ## Busy servers and pending departures -/

theorem mem_eraseIdx_of_ne {α : Type} {l : List α} {i : Nat} {a b : α} (h : l[i]? = some a)
    (hb : b ∈ l) (hne : b ≠ a) : b ∈ l.eraseIdx i := by
  rcases List.mem_cons.mp ((perm_eraseIdx h).mem_iff.mp hb) with h1 | h1
  · exact absurd h1 hne
  · exact h1

theorem servers_init (cfg : Config R) : Servers (initState cfg) where
  evBusy := by
    intro e he hty
    simp [initState] at he
    subst he
    simp at hty
  busyEv := by
    intro j hj
    obtain ⟨_, h1⟩ := getAt_eq_some.mp hj
    have := mem_of_getElem? h1
    simp [initState] at this
  idle := by
    intro j hj
    obtain ⟨h0, h1⟩ := getAt_eq_some.mp hj
    have hlt : j.toNat < cfg.numServers := by
      have := (List.getElem?_eq_some_iff.mp h1).1
      simpa [initState] using this
    refine getAt_eq_some.mpr ⟨h0, ?_⟩
    simp [initState, List.getElem?_replicate, hlt]

theorem servers_scheduleNext {cfg : Config R} {s : State R} (h : Servers s) :
    Servers (scheduleNext cfg s) := by
  obtain ⟨hb, hsv, _⟩ := scheduleNext_servers cfg s
  refine ⟨?_, ?_, ?_⟩
  · intro e he hty
    rw [hb, hsv]
    rcases scheduleNext_event he with he | ⟨rfl, _⟩
    · exact h.evBusy e he hty
    · simp at hty
  · intro j hj
    rw [hb] at hj
    obtain ⟨e, he, h1⟩ := h.busyEv j hj
    exact ⟨e, scheduleNext_events_sub cfg s e he, h1⟩
  · intro j hj
    rw [hb] at hj
    rw [hsv]
    exact h.idle j hj

theorem servers_served {cfg : Config R} {s : State R} {i : Nat} {ev : Event} {c : Customer}
    {k : Int} (lf : ℚ) (h : Servers s) (hev : s.events[i]? = some ev)
    (hty : ev.type = EventType.ARRIVAL) (hk : getAt s.serverBusy k = some false)
    (hlen : s.serverServingCustomer.length = s.serverBusy.length) :
    Servers (servedAtArrival cfg s i ev c k lf) := by
  have hr := getAt_some_range hk
  have hr' : k < s.serverServingCustomer.length := by rw [hlen]; exact hr.2
  refine ⟨?_, ?_, ?_⟩
  · intro e he hte
    rcases List.mem_append.mp he with he | he
    · obtain ⟨h1, h2⟩ := h.evBusy e (mem_eraseIdx he) hte
      have hne : k ≠ e.serverId := by
        intro heq
        rw [← heq, hk] at h1
        simp at h1
      simp only [servedAtArrival]
      rw [getAt_set_ne hr.1 hne, getAt_set_ne hr.1 hne]
      exact ⟨h1, h2⟩
    · rw [List.mem_singleton.mp he]
      exact ⟨getAt_set_self hr.1 hr.2, getAt_set_self hr.1 hr'⟩
  · intro j hj
    rcases getAt_set_cases hr.1 hj with ⟨h1, _⟩ | ⟨_, h1⟩
    · exact ⟨_, List.mem_append_right _ (List.mem_singleton.mpr rfl), rfl, h1.symm⟩
    · obtain ⟨e, he, hte, hsid⟩ := h.busyEv j h1
      have hne : e ≠ ev := fun heq => by rw [heq, hty] at hte; simp at hte
      exact ⟨e, List.mem_append_left _ (mem_eraseIdx_of_ne hev he hne), hte, hsid⟩
  · intro j hj
    rcases getAt_set_cases hr.1 hj with ⟨_, h1⟩ | ⟨h0, h1⟩
    · simp at h1
    · simp only [servedAtArrival]
      rw [getAt_set_ne hr.1 (Ne.symm h0)]
      exact h.idle j h1

theorem servers_queued {s : State R} {i : Nat} {ev : Event} {c : Customer}
    (h : Servers s) (hev : s.events[i]? = some ev) (hty : ev.type = EventType.ARRIVAL) :
    Servers (queuedAtArrival s i ev c) := by
  refine ⟨fun e he hte => h.evBusy e (mem_eraseIdx he) hte, ?_, h.idle⟩
  intro j hj
  obtain ⟨e, he, hte, hsid⟩ := h.busyEv j hj
  have hne : e ≠ ev := fun heq => by rw [heq, hty] at hte; simp at hte
  exact ⟨e, mem_eraseIdx_of_ne hev he hne, hte, hsid⟩

/-- No other pending departure names the server of the departure being handled. -/
theorem servers_other {cfg : Config R} {dep : List Int} {s : State R} {i : Nat} {ev e : Event}
    (h : Servers s) (hI : Inv cfg [] dep s) (hev : s.events[i]? = some ev)
    (hty : ev.type = EventType.DEPARTURE) (he : e ∈ s.events.eraseIdx i)
    (hte : e.type = EventType.DEPARTURE) : ev.serverId ≠ e.serverId := by
  intro heq
  have h1 := (h.evBusy e (mem_eraseIdx he) hte).2
  have h2 := (h.evBusy ev (mem_of_getElem? hev) hty).2
  rw [← heq, h2] at h1
  exact inv_flight_ne (inv_pop hI hev) (mem_occ_pending (s := popEvent s i ev) he)
    (Option.some.inj h1)

theorem servers_idle {cfg : Config R} {dep : List Int} {s : State R} {i : Nat} {ev : Event}
    {c : Customer} (h : Servers s) (hI : Inv cfg [] dep s) (hev : s.events[i]? = some ev)
    (hty : ev.type = EventType.DEPARTURE) : Servers (departedIdle cfg s i ev c) := by
  have hsid := hI.depServer ev (mem_of_getElem? hev) hty
  have hb : ev.serverId < s.serverBusy.length := by rw [hI.busyLen]; exact hsid.2
  have hs : ev.serverId < s.serverServingCustomer.length := by rw [hI.servingLen]; exact hsid.2
  refine ⟨?_, ?_, ?_⟩
  · intro e he hte
    have hne := servers_other h hI hev hty he hte
    simp only [departedIdle]
    rw [getAt_set_ne hsid.1 hne, getAt_set_ne hsid.1 hne]
    exact h.evBusy e (mem_eraseIdx he) hte
  · intro j hj
    rcases getAt_set_cases hsid.1 hj with ⟨_, h1⟩ | ⟨h0, h1⟩
    · simp at h1
    · obtain ⟨e, he, hte, hs⟩ := h.busyEv j h1
      have hne : e ≠ ev := fun heq => h0 (by rw [← hs, heq])
      exact ⟨e, mem_eraseIdx_of_ne hev he hne, hte, hs⟩
  · intro j hj
    rcases getAt_set_cases hsid.1 hj with ⟨h0, _⟩ | ⟨h0, h1⟩
    · rw [h0]
      exact getAt_set_self hsid.1 hs
    · simp only [departedIdle]
      rw [getAt_set_ne hsid.1 (Ne.symm h0)]
      exact h.idle j h1

theorem servers_next {cfg : Config R} {dep : List Int} {s : State R} {i : Nat} {ev : Event}
    {c cx : Customer} {x : Int} {rest : List Int} (h : Servers s) (hI : Inv cfg [] dep s)
    (hev : s.events[i]? = some ev) (hty : ev.type = EventType.DEPARTURE) :
    Servers (departedNext cfg s i ev c x rest cx) := by
  have hsid := hI.depServer ev (mem_of_getElem? hev) hty
  have hb : ev.serverId < s.serverBusy.length := by rw [hI.busyLen]; exact hsid.2
  have hs : ev.serverId < s.serverServingCustomer.length := by rw [hI.servingLen]; exact hsid.2
  refine ⟨?_, ?_, ?_⟩
  · intro e he hte
    rcases List.mem_append.mp he with he | he
    · have hne := servers_other h hI hev hty he hte
      simp only [departedNext]
      rw [getAt_set_ne hsid.1 hne, getAt_set_ne hsid.1 hne]
      exact h.evBusy e (mem_eraseIdx he) hte
    · rw [List.mem_singleton.mp he]
      exact ⟨getAt_set_self hsid.1 hb, getAt_set_self hsid.1 hs⟩
  · intro j hj
    rcases getAt_set_cases hsid.1 hj with ⟨h0, _⟩ | ⟨h0, h1⟩
    · exact ⟨_, List.mem_append_right _ (List.mem_singleton.mpr rfl), rfl, h0.symm⟩
    · obtain ⟨e, he, hte, hs⟩ := h.busyEv j h1
      have hne : e ≠ ev := fun heq => h0 (by rw [← hs, heq])
      exact ⟨e, List.mem_append_left _ (mem_eraseIdx_of_ne hev he hne), hte, hs⟩
  · intro j hj
    rcases getAt_set_cases hsid.1 hj with ⟨_, h1⟩ | ⟨h0, h1⟩
    · simp at h1
    · simp only [departedNext]
      rw [getAt_set_ne hsid.1 (Ne.symm h0)]
      exact h.idle j h1

/-- While the loop has not met the cutoff, the pending departures and the busy servers
correspond. -/
theorem exec_servers {cfg : Config R} {tr : Trace R} {s : State R} (h : Exec cfg tr s)
    (hs : s.stopped = false) : Servers s := by
  refine exec_live (P := fun _ s => Servers s) (servers_init cfg) ?_ h hs
  intro tr s s' i ev hex _ ih _ hev hle hstep
  have hI := (exec_good hex).1
  cases hty : ev.type with
  | ARRIVAL =>
    obtain ⟨c, hc, h1⟩ := loopIter_arrival_eq hI hev hty hle hstep
    rcases h1 with ⟨hfree, lf, _, rfl⟩ | ⟨_, rfl⟩
    · have hk := getAt_eq_some.mpr ⟨hfree, (findFreeServer_range hfree).2⟩
      exact servers_scheduleNext
        (servers_served lf ih hev hty hk (by rw [hI.servingLen, hI.busyLen]))
    · exact servers_scheduleNext (servers_queued ih hev hty)
  | DEPARTURE =>
    obtain ⟨c, hc, h1⟩ := loopIter_departure_eq hI hev hty hle hstep
    rcases h1 with ⟨_, rfl⟩ | ⟨x, rest, cx, _, _, _, rfl⟩
    · exact servers_idle ih hI hev hty
    · exact servers_next ih hI hev hty

/-! ## The arrival stream -/

theorem set_same_map {α β : Type} {cs : List α} {x : Int} {c v : α} (f : α → β)
    (hc : getAt cs x = some c) (hv : f v = f c) : (cs.set x.toNat v).map f = cs.map f := by
  obtain ⟨_, h1⟩ := getAt_eq_some.mp hc
  rw [List.map_set]
  apply List.ext_getElem?
  intro n
  by_cases hn : x.toNat = n
  · subst hn
    have hlt := (List.getElem?_eq_some_iff.mp h1).1
    rw [List.getElem?_set_self (by simpa using hlt), List.getElem?_map, h1, hv]
    rfl
  · rw [List.getElem?_set_ne hn]

theorem pairwise_le_last {l : List ℚ} {n : Nat} {a : ℚ} (h : l.Pairwise (· < ·))
    (ha : l[n]? = some a) (hn : n + 1 = l.length) : ∀ b ∈ l, b ≤ a := by
  intro b hb
  obtain ⟨m, hm, rfl⟩ := List.getElem_of_mem hb
  obtain ⟨hlt, rfl⟩ := List.getElem?_eq_some_iff.mp ha
  by_cases hmn : m = n
  · subst hmn
    exact le_refl _
  · exact le_of_lt (List.pairwise_iff_getElem.mp h m n hm hlt (by omega))

theorem arrivals_init (cfg : Config R) : Arrivals cfg [] (initState cfg) where
  ids := by
    intro x c hc
    have hr := getAt_some_range hc
    simp only [initState, List.length_singleton] at hr
    have hx : x = 0 := by push_cast at hr; omega
    subst hx
    simp [initState, getAt] at hc
    subst hc
    rfl
  pendArr := by
    intro e he _
    simp [initState] at he
    subst he
    exact ⟨by simp [initState], { id := 0, arrivalTime := 0 }, by simp [initState, getAt], rfl⟩
  arrSorted := List.Pairwise.nil
  arrBelow := by simp
  arrRange := by simp
  times := by
    intro _
    simp [initState]

theorem arrivals_cutoff {cfg : Config R} {arr : List Int} {s : State R} {i : Nat} {ev : Event}
    (h : Arrivals cfg arr s) : Arrivals cfg arr { popEvent s i ev with stopped := true } where
  ids := h.ids
  pendArr := fun e he => h.pendArr e (mem_eraseIdx he)
  arrSorted := h.arrSorted
  arrBelow := fun x hx e he => h.arrBelow x hx e (mem_eraseIdx he)
  arrRange := h.arrRange
  times := h.times

/-- While an arrival is being handled no other arrival is pending. -/
theorem arrivals_single {cfg : Config R} {arr dep : List Int} {s : State R} {i : Nat}
    {ev e : Event} (h : Arrivals cfg arr s) (hI : Inv cfg [] dep s)
    (hev : s.events[i]? = some ev) (hty : ev.type = EventType.ARRIVAL)
    (he : e ∈ s.events.eraseIdx i) : e.type ≠ EventType.ARRIVAL := by
  intro hte
  have h1 := (h.pendArr e (mem_eraseIdx he) hte).1
  have h2 := (h.pendArr ev (mem_of_getElem? hev) hty).1
  exact inv_flight_ne (inv_pop hI hev) (mem_occ_pending (s := popEvent s i ev) he) (by omega)

/-- The ledger update of an arrival or a departure, which leaves ids and arrival times
as they are, and a queue from which only departures remain or to which one is added. -/
theorem arrivals_update {cfg : Config R} {arr : List Int} {s s2 : State R}
    (h : Arrivals cfg arr s)
    (hcs : ∀ x c', getAt s2.customers x = some c' →
      ∃ c, getAt s.customers x = some c ∧ c'.id = c.id ∧ c'.arrivalTime = c.arrivalTime)
    (hlen : s2.customers.length = s.customers.length)
    (hmap : (s2.customers.map fun c => c.arrivalTime) = s.customers.map fun c => c.arrivalTime)
    (hevs : ∀ e ∈ s2.events, e.type = EventType.ARRIVAL → e ∈ s.events) :
    Arrivals cfg arr s2 where
  ids := by
    intro x c' hc'
    obtain ⟨c, hc, h1, _⟩ := hcs x c' hc'
    rw [h1]
    exact h.ids x c hc
  pendArr := by
    intro e he hte
    obtain ⟨h1, c, hc, h2⟩ := h.pendArr e (hevs e he hte) hte
    have hr := getAt_some_range hc
    obtain ⟨c', hc'⟩ : ∃ c', getAt s2.customers e.customerId = some c' :=
      getAt_isSome_of_range hr.1 (by rw [hlen]; exact hr.2)
    obtain ⟨c0, hc0, _, h3⟩ := hcs _ c' hc'
    rw [hc] at hc0
    cases hc0
    exact ⟨by rw [hlen]; exact h1, c', hc', by rw [h3, h2]⟩
  arrSorted := h.arrSorted
  arrBelow := fun x hx e he hte => h.arrBelow x hx e (hevs e he hte) hte
  arrRange := fun x hx => by rw [hlen]; exact h.arrRange x hx
  times := fun hg => by rw [hmap]; exact h.times hg

theorem arrivals_scheduleNext {cfg : Config R} {arr : List Int} {s : State R}
    (h : Arrivals cfg arr s) (hn : s.nextCustId = s.customers.length)
    (hno : ∀ e ∈ s.events, e.type ≠ EventType.ARRIVAL)
    (hlast : (∀ r, 0 < (cfg.interarrival_dist r).1) → ∀ c ∈ s.customers, c.arrivalTime ≤ s.t) :
    Arrivals cfg arr (scheduleNext cfg s) := by
  by_cases hle : s.t + (cfg.interarrival_dist s.rng).1 ≤ cfg.SIM_MINUTES
  · have hcs : (scheduleNext cfg s).customers = s.customers ++
        [{ id := s.nextCustId, arrivalTime := s.t + (cfg.interarrival_dist s.rng).1 }] := by
      simp [scheduleNext, hle]
    have hes : (scheduleNext cfg s).events = s.events ++
        [{ time := s.t + (cfg.interarrival_dist s.rng).1, type := EventType.ARRIVAL,
           customerId := s.nextCustId, serverId := -1 }] := by
      simp [scheduleNext, hle]
    refine ⟨?_, ?_, h.arrSorted, ?_, ?_, ?_⟩
    · intro x c hc
      rw [hcs] at hc
      rcases getAt_append_cases hc with hc | ⟨h1, h2⟩
      · exact h.ids x c hc
      · rw [h2, h1, hn]
    · intro e he hte
      rw [hes] at he
      rcases List.mem_append.mp he with he | he
      · exact absurd hte (hno e he)
      · rw [List.mem_singleton.mp he, hcs]
        refine ⟨by simp [hn],
          { id := s.nextCustId, arrivalTime := s.t + (cfg.interarrival_dist s.rng).1 }, ?_, rfl⟩
        simp only
        rw [hn]
        refine getAt_eq_some.mpr ⟨by omega, ?_⟩
        simp
    · intro x hx e he hte
      rw [hes] at he
      rcases List.mem_append.mp he with he | he
      · exact absurd hte (hno e he)
      · rw [List.mem_singleton.mp he]
        simp only
        rw [hn]
        exact (h.arrRange x hx).2
    · intro x hx
      rw [hcs, List.length_append, List.length_singleton]
      have := h.arrRange x hx
      push_cast
      omega
    · intro hg
      rw [hcs, List.map_append]
      refine List.pairwise_append.mpr ⟨h.times hg, by simp, ?_⟩
      intro a ha b hb
      obtain ⟨c, hc, rfl⟩ := List.mem_map.mp ha
      simp only [List.map_cons, List.map_nil, List.mem_singleton] at hb
      rw [hb]
      have := hlast hg c hc
      have := hg s.rng
      linarith
  · have hcs : (scheduleNext cfg s).customers = s.customers := by simp [scheduleNext, hle]
    have hes : (scheduleNext cfg s).events = s.events := by simp [scheduleNext, hle]
    refine ⟨?_, ?_, h.arrSorted, ?_, ?_, ?_⟩
    · rw [hcs]; exact h.ids
    · rw [hcs, hes]; exact h.pendArr
    · rw [hes]; exact h.arrBelow
    · rw [hcs]; exact h.arrRange
    · rw [hcs]; exact h.times

theorem arrivals_arrived {cfg : Config R} {arr dep : List Int} {s u : State R} {i : Nat}
    {ev : Event} {c v : Customer} (h : Arrivals cfg arr s) (hI : Inv cfg [] dep s)
    (hev : s.events[i]? = some ev) (hty : ev.type = EventType.ARRIVAL)
    (hc : getAt s.customers ev.customerId = some c)
    (hcust : u.customers = s.customers.set ev.customerId.toNat v) (hid : v.id = c.id)
    (hat : v.arrivalTime = ev.time)
    (hevs : ∀ e ∈ u.events, e.type = EventType.ARRIVAL → e ∈ s.events.eraseIdx i) :
    Arrivals cfg (arr ++ [ev.customerId]) u ∧ (∀ e ∈ u.events, e.type ≠ EventType.ARRIVAL) ∧
      ((∀ r, 0 < (cfg.interarrival_dist r).1) → ∀ c' ∈ u.customers, c'.arrivalTime ≤ ev.time) := by
  have hmem := mem_of_getElem? hev
  have hr := getAt_some_range hc
  obtain ⟨hlast, c0, hc0, hat0⟩ := h.pendArr ev hmem hty
  rw [hc] at hc0
  cases hc0
  have hno : ∀ e ∈ u.events, e.type ≠ EventType.ARRIVAL := fun e he hte =>
    arrivals_single h hI hev hty (hevs e he hte) hte
  have hmap : (u.customers.map fun c => c.arrivalTime) = s.customers.map fun c => c.arrivalTime := by
    rw [hcust]
    exact set_same_map _ hc (by rw [hat, hat0])
  have hlen : u.customers.length = s.customers.length := by rw [hcust, List.length_set]
  have hU : Arrivals cfg arr u := by
    refine arrivals_update h ?_ hlen hmap fun e he hte => mem_eraseIdx (hevs e he hte)
    intro x c' hc'
    rw [hcust] at hc'
    rcases getAt_set_cases hr.1 hc' with ⟨h1, h2⟩ | ⟨_, h1⟩
    · exact ⟨c, by rw [h1]; exact hc, by rw [h2, hid], by rw [h2, hat, hat0]⟩
    · exact ⟨c', h1, rfl, rfl⟩
  refine ⟨⟨hU.ids, hU.pendArr, ?_, ?_, ?_, hU.times⟩, hno, ?_⟩
  · refine List.pairwise_append.mpr ⟨h.arrSorted, by simp, ?_⟩
    intro a ha b hb
    rw [List.mem_singleton.mp hb]
    exact h.arrBelow a ha ev hmem hty
  · intro x _ e he hte
    exact absurd hte (hno e he)
  · intro x hx
    rcases List.mem_append.mp hx with hx | hx
    · exact hU.arrRange x hx
    · rw [List.mem_singleton.mp hx, hlen]
      exact hr
  · intro hg c' hc'
    have hs := h.times hg
    have hget : (s.customers.map fun c => c.arrivalTime)[ev.customerId.toNat]? = some ev.time := by
      rw [List.getElem?_map, (getAt_eq_some.mp hc).2]
      simp [hat0]
    refine pairwise_le_last hs hget (by rw [List.length_map]; omega) _ ?_
    rw [← hmap]
    exact List.mem_map_of_mem _ hc'

theorem arrivals_departed {cfg : Config R} {arr : List Int} {s u : State R}
    {ev : Event} {c v : Customer} (h : Arrivals cfg arr s)
    (hc : getAt s.customers ev.customerId = some c)
    (hcust : u.customers = s.customers.set ev.customerId.toNat v) (hid : v.id = c.id)
    (hat : v.arrivalTime = c.arrivalTime)
    (hevs : ∀ e ∈ u.events, e.type = EventType.ARRIVAL → e ∈ s.events) :
    Arrivals cfg arr u := by
  have hr := getAt_some_range hc
  refine arrivals_update h ?_ (by rw [hcust, List.length_set])
    (by rw [hcust]; exact set_same_map _ hc hat) hevs
  intro x c' hc'
  rw [hcust] at hc'
  rcases getAt_set_cases hr.1 hc' with ⟨h1, h2⟩ | ⟨_, h1⟩
  · exact ⟨c, by rw [h1]; exact hc, by rw [h2, hid], by rw [h2, hat]⟩
  · exact ⟨c', h1, rfl, rfl⟩

/-- In every reached state the ledger and the queue agree with the arrivals handled
along the trace. -/
theorem exec_arrivals {cfg : Config R} {tr : Trace R} {s : State R} (h : Exec cfg tr s) :
    Arrivals cfg (arrivedIds tr) s := by
  induction h with
  | start => exact arrivals_init cfg
  | @handle tr s s' i ev hex _ _ hev hle hstep ih =>
    have hI := (exec_good hex).1
    have hmem := mem_of_getElem? hev
    rw [arrivedIds_snoc]
    cases hty : ev.type with
    | ARRIVAL =>
      rw [if_pos rfl]
      obtain ⟨c, hc, h1⟩ := loopIter_arrival_eq hI hev hty hle hstep
      rcases h1 with ⟨_, lf, _, rfl⟩ | ⟨_, rfl⟩
      · obtain ⟨hA, hno, hlast⟩ := arrivals_arrived
          (u := servedAtArrival cfg s i ev c (findFreeServer cfg.numServers s.serverBusy) lf)
          ih hI hev hty hc rfl rfl rfl (by
            intro e he hte
            rcases List.mem_append.mp he with he | he
            · exact he
            · rw [List.mem_singleton.mp he] at hte
              simp [departureOf] at hte)
        exact arrivals_scheduleNext hA (by simpa [servedAtArrival] using hI.nextId) hno hlast
      · obtain ⟨hA, hno, hlast⟩ := arrivals_arrived (u := queuedAtArrival s i ev c)
          ih hI hev hty hc rfl rfl rfl (fun e he _ => he)
        exact arrivals_scheduleNext hA (by simpa [queuedAtArrival] using hI.nextId) hno hlast
    | DEPARTURE =>
      rw [if_neg (by simp)]
      obtain ⟨c, hc, h1⟩ := loopIter_departure_eq hI hev hty hle hstep
      rcases h1 with ⟨_, rfl⟩ | ⟨x, rest, cx, _, hcx, hne, rfl⟩
      · exact arrivals_departed (u := departedIdle cfg s i ev c) ih hc rfl rfl rfl
          (fun e he _ => mem_eraseIdx he)
      · have h1 : Arrivals cfg (arrivedIds tr) (departedIdle cfg s i ev c) :=
          arrivals_departed (u := departedIdle cfg s i ev c) ih hc rfl rfl rfl
            (fun e he _ => mem_eraseIdx he)
        have hr := getAt_some_range hc
        have hcx' : getAt (departedIdle cfg s i ev c).customers x = some cx := by
          simp only [departedIdle]
          rw [getAt_set_ne hr.1 (Ne.symm hne)]
          exact hcx
        have hrx := getAt_some_range hcx'
        refine arrivals_update h1 ?_ (by simp [departedNext, departedIdle])
          (set_same_map _ hcx' rfl) ?_
        · intro y c' hc'
          rcases getAt_set_cases hrx.1 hc' with ⟨h2, h3⟩ | ⟨_, h2⟩
          · exact ⟨cx, by rw [h2]; exact hcx', by rw [h3], by rw [h3]⟩
          · exact ⟨c', h2, rfl, rfl⟩
        · intro e he hte
          rcases List.mem_append.mp he with he | he
          · exact he
          · rw [List.mem_singleton.mp he] at hte
            simp [departureOf] at hte
  | @cutoff tr s s' i ev hex _ _ hev hcut hstep ih =>
    rcases loopIter_cases hev hstep with ⟨_, rfl⟩ | ⟨hle, _⟩ | ⟨hle, _⟩
    · exact arrivals_cutoff ih
    · exact absurd hcut (not_lt.mpr hle)
    · exact absurd hcut (not_lt.mpr hle)

theorem getAt_natCast {α : Type} (xs : List α) (j : Nat) : getAt xs (j : Int) = xs[j]? := by
  simp [getAt]

theorem inv_pending_nodup {cfg : Config R} {fl dep : List Int} {s : State R}
    (h : Inv cfg fl dep s) : (s.events.map fun e => e.customerId).Nodup := by
  have hnd := (List.nodup_append.mp h.nodup).2.1
  exact (List.nodup_append.mp hnd).1

theorem live_of_not_finished {s : State R} (h : ¬ finished s) : s.stopped = false := by
  cases hs : s.stopped with
  | false => rfl
  | true => exact absurd (Or.inl hs) h

/-- The record of a busy server, in a state where the loop has not met the cutoff. -/
theorem servers_busy_record {cfg : Config R} {tr : Trace R} {s : State R} (h : Exec cfg tr s)
    (hs : s.stopped = false) (j : Nat) (hj : s.serverBusy[j]? = some true) :
    ∃ x c, s.serverServingCustomer[j]? = some x ∧ getAt s.customers x = some c ∧ c.id = x ∧
      x ∈ startedIds cfg tr ∧ x ∉ departedIds tr ∧
      ∃ σ ∈ serviceStarts cfg tr, σ.customerId = x ∧ σ.serverId = (j : Int) ∧
        c.serviceStart = σ.time := by
  have hS := exec_servers h hs
  have hI := (exec_good h).1
  have hSt := exec_started h
  obtain ⟨e, he, hte, hsid⟩ := hS.busyEv j (by rw [getAt_natCast]; exact hj)
  have h2 := (hS.evBusy e he hte).2
  rw [hsid, getAt_natCast] at h2
  have hr := hI.range e.customerId (mem_occ_pending he)
  obtain ⟨c, hc⟩ := getAt_isSome_of_range hr.1 hr.2
  obtain ⟨σ, hσ, h3, h4, _⟩ := hSt.evSt e he hte
  obtain ⟨c', hc', hss, _⟩ := hSt.ledger σ hσ
  rw [h3, hc] at hc'
  cases hc'
  exact ⟨e.customerId, c, h2, hc, (exec_arrivals h).ids _ _ hc,
    List.mem_map.mpr ⟨σ, hσ, h3⟩, inv_pending_not_departed hI he, σ, hσ, h3,
    h4.trans hsid, hss⟩

theorem servers_distinct {cfg : Config R} {tr : Trace R} {s : State R} (h : Exec cfg tr s)
    (hs : s.stopped = false) (j k : Nat) (x : Int) (hj : s.serverBusy[j]? = some true)
    (hk : s.serverBusy[k]? = some true) (hjx : s.serverServingCustomer[j]? = some x)
    (hkx : s.serverServingCustomer[k]? = some x) : j = k := by
  have hS := exec_servers h hs
  have hI := (exec_good h).1
  obtain ⟨e1, he1, hte1, hsid1⟩ := hS.busyEv j (by rw [getAt_natCast]; exact hj)
  obtain ⟨e2, he2, hte2, hsid2⟩ := hS.busyEv k (by rw [getAt_natCast]; exact hk)
  have h1 := (hS.evBusy e1 he1 hte1).2
  have h2 := (hS.evBusy e2 he2 hte2).2
  rw [hsid1, getAt_natCast, hjx] at h1
  rw [hsid2, getAt_natCast, hkx] at h2
  have heq : e1 = e2 := List.inj_on_of_nodup_map (inv_pending_nodup hI) he1 he2
    ((Option.some.inj h1).symm.trans (Option.some.inj h2))
  subst heq
  exact_mod_cast hsid1.symm.trans hsid2

/-! ## Pending arrivals -/

theorem pendingArrivals_eq_nil {s : State R} :
    pendingArrivals s = [] ↔ ∀ e ∈ s.events, e.type ≠ EventType.ARRIVAL := by
  unfold pendingArrivals
  rw [List.filter_eq_nil_iff]
  simp

/-! ## The waiting line -/

theorem queueStarts_snoc (cfg : Config R) (tr : Trace R) (s : State R) (ev : Event) :
    queueStarts cfg (tr ++ [(s, ev)]) =
      if ev.type = EventType.DEPARTURE then queueStarts cfg tr ++ (startOf cfg (s, ev)).toList
      else queueStarts cfg tr := by
  unfold queueStarts
  by_cases h : ev.type = EventType.DEPARTURE
  · rw [if_pos h, List.filter_append]
    simp only [List.filter_cons, h, decide_True, if_true, List.filter_nil]
    exact serviceStarts_snoc cfg _ _
  · rw [if_neg h, List.filter_append]
    simp [List.filter_cons, h]

theorem queueStarts_snoc_ids (cfg : Config R) (tr : Trace R) (s : State R) (ev : Event) :
    dequeuedIds cfg (tr ++ [(s, ev)]) =
      if ev.type = EventType.DEPARTURE then
        dequeuedIds cfg tr ++ ((startOf cfg (s, ev)).toList.map fun σ => σ.customerId)
      else dequeuedIds cfg tr := by
  unfold dequeuedIds
  rw [queueStarts_snoc]
  split <;> simp

theorem queueStarts_sublist (cfg : Config R) (tr : Trace R) :
    List.Sublist (queueStarts cfg tr) (serviceStarts cfg tr) :=
  List.Sublist.filterMap _ (List.filter_sublist _)

theorem departedIds_snoc (tr : Trace R) (s : State R) (ev : Event) :
    departedIds (tr ++ [(s, ev)]) =
      if ev.type = EventType.DEPARTURE then departedIds tr ++ [ev.customerId]
      else departedIds tr := by
  unfold departedIds
  rw [departedEvents_snoc]
  split <;> simp

theorem startedIds_snoc (cfg : Config R) (tr : Trace R) (p : State R × Event) :
    startedIds cfg (tr ++ [p]) =
      startedIds cfg tr ++ ((startOf cfg p).toList.map fun σ => σ.customerId) := by
  unfold startedIds
  rw [serviceStarts_snoc, List.map_append]

theorem startOf_time {cfg : Config R} {s : State R} {ev : Event} {σ : ServiceStart}
    (h : startOf cfg (s, ev) = some σ) : σ.time = ev.time := by
  unfold startOf at h
  split at h
  · split at h
    · cases h; rfl
    · cases h
  · split at h
    · cases h
    · cases h; rfl

theorem queue_init (cfg : Config R) : Queue cfg [] (initState cfg) where
  wl := by simp [initState, arrivedIds]
  fifo := by simp [initState, waitedIds, dequeuedIds, queueStarts, serviceStarts]
  waitedSub := by simp [waitedIds, arrivedIds]

theorem queue_step {cfg : Config R} {tr : Trace R} {s s' : State R} {i : Nat} {ev : Event}
    (hex : Exec cfg tr s) (h : Queue cfg tr s) (hev : s.events[i]? = some ev)
    (hle : ev.time ≤ cfg.SIM_MINUTES) (hstep : loopIter cfg s i = some s') :
    Queue cfg (tr ++ [(s, ev)]) s' := by
  have hI := (exec_good hex).1
  have hSt := exec_started hex
  have hmem := mem_of_getElem? hev
  have hnw : ev.customerId ∉ s.waitingQueue := inv_pending_not_waiting hI hmem
  have hnd : ev.customerId ∉ departedIds tr := inv_pending_not_departed hI hmem
  cases hty : ev.type with
  | ARRIVAL =>
    have hns : ev.customerId ∉ startedIds cfg tr := by
      intro hx
      obtain ⟨σ, hσ, heq⟩ := List.mem_map.mp hx
      exact (hSt.away σ hσ).2 ev hmem hty heq.symm
    obtain ⟨c, hc, h1⟩ := loopIter_arrival_eq hI hev hty hle hstep
    rcases h1 with ⟨hfree, lf, _, rfl⟩ | ⟨hno, rfl⟩
    · have hq : (scheduleNext cfg (servedAtArrival cfg s i ev c
          (findFreeServer cfg.numServers s.serverBusy) lf)).waitingQueue = s.waitingQueue :=
        (scheduleNext_fields cfg _).1
      refine ⟨fun x => ?_, ?_, ?_⟩
      · rw [hq, arrivedIds_snoc, if_pos hty, startedIds_snoc, startOf_arrival_free hty hfree,
          departedIds_snoc, if_neg (by simp [hty]), h.wl x]
        simp only [Option.toList, List.map_cons, List.map_nil, List.mem_append,
          List.mem_singleton, not_or]
        constructor
        · rintro ⟨h1, h2, h3⟩
          refine ⟨Or.inl h1, ⟨h2, fun heq => ?_⟩, h3⟩
          exact hnw (heq ▸ (h.wl x).mpr ⟨h1, h2, h3⟩)
        · rintro ⟨h1 | h1, ⟨h2, h3⟩, h4⟩
          · exact ⟨h1, h2, h4⟩
          · exact absurd h1 h3
      · rw [hq, waitedIds_snoc, if_neg (by simp [not_lt.mpr hfree]), queueStarts_snoc_ids,
          if_neg (by simp [hty])]
        exact h.fifo
      · rw [waitedIds_snoc, if_neg (by simp [not_lt.mpr hfree]), arrivedIds_snoc, if_pos hty]
        exact h.waitedSub.trans (List.sublist_append_left _ _)
    · have hq : (scheduleNext cfg (queuedAtArrival s i ev c)).waitingQueue =
          s.waitingQueue ++ [ev.customerId] := (scheduleNext_fields cfg _).1
      refine ⟨fun x => ?_, ?_, ?_⟩
      · rw [hq, arrivedIds_snoc, if_pos hty, startedIds_snoc, startOf_arrival_busy hty hno,
          departedIds_snoc, if_neg (by simp [hty])]
        simp only [Option.toList, List.map_nil, List.append_nil, List.mem_append,
          List.mem_singleton]
        rw [h.wl x]
        constructor
        · rintro (⟨h1, h2, h3⟩ | h1)
          · exact ⟨Or.inl h1, h2, h3⟩
          · rw [h1]
            exact ⟨Or.inr rfl, hns, hnd⟩
        · rintro ⟨h1 | h1, h2, h3⟩
          · exact Or.inl ⟨h1, h2, h3⟩
          · exact Or.inr h1
      · rw [hq, waitedIds_snoc, if_pos ⟨hty, hno⟩, queueStarts_snoc_ids, if_neg (by simp [hty]),
          h.fifo, List.append_assoc]
      · rw [waitedIds_snoc, if_pos ⟨hty, hno⟩, arrivedIds_snoc, if_pos hty]
        exact h.waitedSub.append (List.Sublist.refl _)
  | DEPARTURE =>
    obtain ⟨c, hc, h1⟩ := loopIter_departure_eq hI hev hty hle hstep
    rcases h1 with ⟨hq, rfl⟩ | ⟨x0, rest, cx, hq, hcx, hne, rfl⟩
    · have hq' : (departedIdle cfg s i ev c).waitingQueue = [] := hq
      refine ⟨fun x => ?_, ?_, ?_⟩
      · rw [hq', arrivedIds_snoc, if_neg (by simp [hty]), startedIds_snoc,
          startOf_departure_empty hty hq, departedIds_snoc, if_pos hty]
        simp only [Option.toList, List.map_nil, List.append_nil, List.mem_append,
          List.mem_singleton, not_or, List.not_mem_nil, false_iff, not_and, not_not]
        intro h1 h2 h3
        have := (h.wl x).mpr ⟨h1, h2, h3⟩
        rw [hq] at this
        simp at this
      · rw [hq', waitedIds_snoc, if_neg (by simp [hty]), queueStarts_snoc_ids, if_pos hty,
          startOf_departure_empty hty hq]
        simp only [Option.toList, List.map_nil, List.append_nil]
        rw [h.fifo, hq, List.append_nil]
      · rw [waitedIds_snoc, if_neg (by simp [hty]), arrivedIds_snoc, if_neg (by simp [hty])]
        exact h.waitedSub
    · have hq' : (departedNext cfg s i ev c x0 rest cx).waitingQueue = rest := rfl
      have hwn := inv_waiting_nodup hI
      rw [hq] at hwn
      refine ⟨fun x => ?_, ?_, ?_⟩
      · rw [hq', arrivedIds_snoc, if_neg (by simp [hty]), startedIds_snoc,
          startOf_departure_next hty hq, departedIds_snoc, if_pos hty]
        simp only [Option.toList, List.map_cons, List.map_nil, List.mem_append,
          List.mem_singleton, not_or]
        constructor
        · intro hx
          have hxw : x ∈ s.waitingQueue := by rw [hq]; exact List.mem_cons_of_mem _ hx
          obtain ⟨h1, h2, h3⟩ := (h.wl x).mp hxw
          refine ⟨h1, ⟨h2, fun heq => ?_⟩, h3, fun heq => ?_⟩
          · exact (List.nodup_cons.mp hwn).1 (heq ▸ hx)
          · exact hnw (heq ▸ hxw)
        · rintro ⟨h1, ⟨h2, h3⟩, h4, _⟩
          have := (h.wl x).mpr ⟨h1, h2, h4⟩
          rw [hq] at this
          rcases List.mem_cons.mp this with h5 | h5
          · exact absurd h5 h3
          · exact h5
      · rw [hq', waitedIds_snoc, if_neg (by simp [hty]), queueStarts_snoc_ids, if_pos hty,
          startOf_departure_next hty hq]
        simp only [Option.toList, List.map_cons, List.map_nil]
        rw [h.fifo, hq]
        simp
      · rw [waitedIds_snoc, if_neg (by simp [hty]), arrivedIds_snoc, if_neg (by simp [hty])]
        exact h.waitedSub

/-- In every reached state the waiting line agrees with the trace. -/
theorem exec_queue {cfg : Config R} {tr : Trace R} {s : State R} (h : Exec cfg tr s) :
    Queue cfg tr s := by
  induction h with
  | start => exact queue_init cfg
  | handle hex _ _ hev hle hstep ih => exact queue_step hex ih hev hle hstep
  | @cutoff tr s s' i ev hex _ _ hev hcut hstep ih =>
    rcases loopIter_cases hev hstep with ⟨_, rfl⟩ | ⟨hle, _⟩ | ⟨hle, _⟩
    · exact ⟨ih.wl, ih.fifo, ih.waitedSub⟩
    · exact absurd hcut (not_lt.mpr hle)
    · exact absurd hcut (not_lt.mpr hle)

/-- In a line served from the head whose ids increase, a customer with a smaller id
than one already taken was taken before it. -/
theorem fifo_order {L : List ServiceStart} {W : List Int}
    (hs : ((L.map fun σ => σ.customerId) ++ W).Pairwise (· < ·))
    (ht : L.Pairwise fun a b => a.time ≤ b.time) :
    ∀ σy ∈ L, ∀ x ∈ (L.map fun σ => σ.customerId) ++ W, x < σy.customerId →
      ∃ σx ∈ L, σx.customerId = x ∧ σx.time ≤ σy.time := by
  induction L with
  | nil => simp
  | cons σ L ih =>
    intro σy hy x hx hlt
    simp only [List.map_cons, List.cons_append, List.pairwise_cons] at hs
    obtain ⟨hs1, hs2⟩ := hs
    obtain ⟨ht1, ht2⟩ := List.pairwise_cons.mp ht
    simp only [List.map_cons, List.cons_append, List.mem_cons] at hx
    rcases List.mem_cons.mp hy with rfl | hy
    · rcases hx with rfl | hx
      · exact absurd hlt (lt_irrefl _)
      · exact absurd (hs1 x hx) (not_lt.mpr (le_of_lt hlt))
    · rcases hx with rfl | hx
      · exact ⟨σ, List.mem_cons_self _ _, rfl, ht1 σy hy⟩
      · obtain ⟨σx, h1, h2, h3⟩ := ih hs2 ht2 σy hy x hx hlt
        exact ⟨σx, List.mem_cons_of_mem _ h1, h2, h3⟩

theorem scenario2_valid (H : ℚ) : ValidDraws (scenario2 H) := by
  refine ⟨fun _ => ?_, fun _ => ?_, fun _ => ?_⟩ <;> simp [scenario2]

theorem scenario2Waiting_eq :
    iterate (scenario2 4) (fun _ => 0) 3 0 ([], initState (scenario2 4)) =
      some scenario2Waiting := by
  with_unfolding_all rfl

theorem scenario2Waiting_exec :
    Exec (scenario2 4) scenario2Waiting.1 scenario2Waiting.2 :=
  iterate_exec 3 0 [] _ _ _ Exec.start scenario2Waiting_eq

variable {rd : ℚ → ℚ}

/-! ## Rounding to the nearest `double` -/

theorem bitLength_spec : ∀ fuel n : Nat, n ≤ fuel → 0 < n →
    2 ^ (bitLength fuel n - 1) ≤ n ∧ n < 2 ^ bitLength fuel n ∧ 0 < bitLength fuel n := by
  intro fuel
  induction fuel with
  | zero => intro n h1 h2; omega
  | succ fuel ih =>
    intro n hle hpos
    have hne : n ≠ 0 := by omega
    simp only [bitLength, if_neg hne, Nat.add_sub_cancel]
    by_cases h2 : n / 2 = 0
    · have h1 : n = 1 := by omega
      subst h1
      cases fuel <;> simp [bitLength]
    · obtain ⟨a, b, c⟩ := ih (n / 2) (by omega) (by omega)
      have hpow : 2 ^ bitLength fuel (n / 2) = 2 ^ (bitLength fuel (n / 2) - 1) * 2 := by
        rw [← pow_succ]
        congr 1
        omega
      refine ⟨?_, ?_, by omega⟩
      · rw [hpow]; omega
      · rw [pow_succ]; omega

theorem nearestEven_of_parts (num den q0 r : Nat) (hden : 0 < den)
    (hsplit : num = den * q0 + r) (hrlt : r < den) :
    NearestEven ((num : ℚ) / den)
      ((if 2 * r < den then q0 else if den < 2 * r then q0 + 1
        else if q0 % 2 = 0 then q0 else q0 + 1 : Nat) : Int) := by
  have hd : (0 : ℚ) < den := by exact_mod_cast hden
  have hx : (num : ℚ) / den = (q0 : ℚ) + (r : ℚ) / den := by
    rw [hsplit]
    push_cast
    field_simp
    ring
  have hr0 : (0 : ℚ) ≤ (r : ℚ) / den := by positivity
  unfold NearestEven
  split
  · next h =>
    have h' : (r : ℚ) / den < 1 / 2 := by
      rw [div_lt_iff₀ hd]
      have : ((2 * r : Nat) : ℚ) < den := by exact_mod_cast h
      push_cast at this
      linarith
    have habs : |(num : ℚ) / den - ((q0 : Int) : ℚ)| = (r : ℚ) / den := by
      rw [hx, Int.cast_natCast, add_sub_cancel_left, abs_of_nonneg hr0]
    rw [habs]
    exact ⟨le_of_lt h', fun he => absurd he (ne_of_lt h')⟩
  · next h =>
    split
    · next h2 =>
      have h' : 1 / 2 < (r : ℚ) / den := by
        rw [lt_div_iff₀ hd]
        have : (den : ℚ) < ((2 * r : Nat) : ℚ) := by exact_mod_cast h2
        push_cast at this
        linarith
      have h'' : (r : ℚ) / den < 1 := by
        rw [div_lt_one hd]
        exact_mod_cast hrlt
      have habs : |(num : ℚ) / den - (((q0 + 1 : Nat) : Int) : ℚ)| = 1 - (r : ℚ) / den := by
        rw [hx, Int.cast_natCast, Nat.cast_add, Nat.cast_one,
          show (q0 : ℚ) + (r : ℚ) / den - ((q0 : ℚ) + 1) = -(1 - (r : ℚ) / den) by ring,
          abs_neg, abs_of_nonneg (by linarith)]
      rw [habs]
      exact ⟨by linarith, fun he => by linarith⟩
    · next h2 =>
      have heq : 2 * r = den := by omega
      have h' : (r : ℚ) / den = 1 / 2 := by
        rw [div_eq_iff (ne_of_gt hd)]
        have : ((2 * r : Nat) : ℚ) = den := by exact_mod_cast heq
        push_cast at this
        linarith
      split
      · next h3 =>
        have habs : |(num : ℚ) / den - ((q0 : Int) : ℚ)| = 1 / 2 := by
          rw [hx, Int.cast_natCast, add_sub_cancel_left, h']
          norm_num
        rw [habs]
        exact ⟨le_refl _, fun _ => by omega⟩
      · next h3 =>
        have habs : |(num : ℚ) / den - (((q0 + 1 : Nat) : Int) : ℚ)| = 1 / 2 := by
          rw [hx, Int.cast_natCast, Nat.cast_add, Nat.cast_one, h',
            show (q0 : ℚ) + 1 / 2 - ((q0 : ℚ) + 1) = -(1 / 2) by ring]
          norm_num
        rw [habs]
        exact ⟨le_refl _, fun _ => by omega⟩

theorem roundHalfEven_spec (num den : Nat) (hden : 0 < den) :
    NearestEven ((num : ℚ) / den) (roundHalfEven num den) :=
  nearestEven_of_parts num den (num / den) (num % den) hden (Nat.div_add_mod num den).symm
    (Nat.mod_lt _ hden)

theorem nearestEven_mono {x y : ℚ} {m k : Int} (hx : NearestEven x m) (hy : NearestEven y k)
    (hxy : x ≤ y) : m ≤ k := by
  by_contra hlt
  have hlt' : k + 1 ≤ m := by omega
  have hq : ((k : ℚ) + 1) ≤ (m : ℚ) := by exact_mod_cast hlt'
  have h1 := abs_le.mp hx.1
  have h2 := abs_le.mp hy.1
  have e1 : x - (m : ℚ) = -(1 / 2) := by linarith [h1.1, h1.2, h2.1, h2.2]
  have e2 : y - (k : ℚ) = 1 / 2 := by linarith [h1.1, h1.2, h2.1, h2.2]
  have em : (m : ℚ) = (k : ℚ) + 1 := by linarith [h1.1, h1.2, h2.1, h2.2]
  have hm := hx.2 (by rw [e1]; norm_num)
  have hk := hy.2 (by rw [e2]; norm_num)
  have : m = k + 1 := by exact_mod_cast em
  omega

theorem nearestEven_int (k : Int) : NearestEven (k : ℚ) k := by
  unfold NearestEven
  simp

theorem nearestEven_unique {x : ℚ} {m k : Int} (hx : NearestEven x m) (hy : NearestEven x k) :
    m = k :=
  le_antisymm (nearestEven_mono hx hy (le_refl _)) (nearestEven_mono hy hx (le_refl _))

theorem floorLog2_spec (n d : Nat) (hn : 0 < n) (hd : 0 < d) :
    (2 : ℚ) ^ floorLog2 n d ≤ (n : ℚ) / d ∧ (n : ℚ) / d < (2 : ℚ) ^ (floorLog2 n d + 1) := by
  obtain ⟨n1, n2, n3⟩ := bitLength_spec n n (le_refl _) hn
  obtain ⟨d1, d2, d3⟩ := bitLength_spec d d (le_refl _) hd
  have hnq : (0 : ℚ) < n := by exact_mod_cast hn
  have hdq : (0 : ℚ) < d := by exact_mod_cast hd
  have h2 : (2 : ℚ) ≠ 0 := by norm_num
  unfold floorLog2
  simp only
  generalize bitLength n n = bn at n1 n2 n3 ⊢
  generalize bitLength d d = bd at d1 d2 d3 ⊢
  have N1 : (2 : ℚ) ^ ((bn : ℤ) - 1) ≤ n := by
    rw [show (bn : ℤ) - 1 = ((bn - 1 : ℕ) : ℤ) by omega, zpow_natCast]
    exact_mod_cast n1
  have N2 : (n : ℚ) < (2 : ℚ) ^ (bn : ℤ) := by
    rw [zpow_natCast]
    exact_mod_cast n2
  have D1 : (2 : ℚ) ^ ((bd : ℤ) - 1) ≤ d := by
    rw [show (bd : ℤ) - 1 = ((bd - 1 : ℕ) : ℤ) by omega, zpow_natCast]
    exact_mod_cast d1
  have D2 : (d : ℚ) < (2 : ℚ) ^ (bd : ℤ) := by
    rw [zpow_natCast]
    exact_mod_cast d2
  have A : (2 : ℚ) ^ ((bn : ℤ) - bd - 1) ≤ (n : ℚ) / d := by
    rw [show (bn : ℤ) - bd - 1 = ((bn : ℤ) - 1) - bd by ring, zpow_sub₀ h2]
    exact div_le_div₀ (le_of_lt hnq) N1 hdq (le_of_lt D2)
  have B : (n : ℚ) / d < (2 : ℚ) ^ ((bn : ℤ) - bd + 1) := by
    rw [show (bn : ℤ) - bd + 1 = (bn : ℤ) - ((bd : ℤ) - 1) by ring, zpow_sub₀ h2]
    exact div_lt_div₀ N2 D1 (le_of_lt (zpow_pos (by norm_num) _)) (zpow_pos (by norm_num) _)
  generalize hl : (bn : ℤ) - (bd : ℤ) = l at A B ⊢
  by_cases h0 : 0 ≤ l
  · have hpow : (2 : ℚ) ^ l = ((2 ^ l.toNat : ℕ) : ℚ) := by
      rw [Nat.cast_pow, Nat.cast_ofNat, ← zpow_natCast, Int.toNat_of_nonneg h0]
    have htest : d * 2 ^ l.toNat ≤ n ↔ (2 : ℚ) ^ l ≤ (n : ℚ) / d := by
      rw [le_div_iff₀ hdq, hpow]
      constructor
      · intro h
        have : ((d * 2 ^ l.toNat : ℕ) : ℚ) ≤ n := by exact_mod_cast h
        push_cast at this ⊢
        linarith
      · intro h
        have : ((d * 2 ^ l.toNat : ℕ) : ℚ) ≤ n := by
          push_cast at h ⊢
          linarith
        exact_mod_cast this
    rw [if_pos h0]
    by_cases ht : d * 2 ^ l.toNat ≤ n
    · rw [if_pos ht]
      exact ⟨htest.mp ht, B⟩
    · rw [if_neg ht, sub_add_cancel]
      exact ⟨A, lt_of_not_le fun h => ht (htest.mpr h)⟩
  · have hneg : 0 ≤ -l := by omega
    have hpow : (2 : ℚ) ^ l = (((2 ^ (-l).toNat : ℕ) : ℚ))⁻¹ := by
      rw [Nat.cast_pow, Nat.cast_ofNat, ← zpow_natCast, Int.toNat_of_nonneg hneg, zpow_neg,
        inv_inv]
    have hpos : (0 : ℚ) < ((2 ^ (-l).toNat : ℕ) : ℚ) := by positivity
    have htest : d ≤ n * 2 ^ (-l).toNat ↔ (2 : ℚ) ^ l ≤ (n : ℚ) / d := by
      rw [le_div_iff₀ hdq, hpow, inv_mul_le_iff₀ hpos]
      constructor
      · intro h
        have : ((d : ℕ) : ℚ) ≤ ((n * 2 ^ (-l).toNat : ℕ) : ℚ) := by exact_mod_cast h
        push_cast at this ⊢
        linarith
      · intro h
        have : ((d : ℕ) : ℚ) ≤ ((n * 2 ^ (-l).toNat : ℕ) : ℚ) := by
          push_cast at h ⊢
          linarith
        exact_mod_cast this
    rw [if_neg h0]
    by_cases ht : d ≤ n * 2 ^ (-l).toNat
    · rw [if_pos ht]
      exact ⟨htest.mp ht, B⟩
    · rw [if_neg ht, sub_add_cancel]
      exact ⟨A, lt_of_not_le fun h => ht (htest.mpr h)⟩

theorem roundMagnitude_spec (n d : Nat) (hn : 0 < n) (hd : 0 < d) :
    ∃ (lg m : Int), (2 : ℚ) ^ lg ≤ (n : ℚ) / d ∧ (n : ℚ) / d < (2 : ℚ) ^ (lg + 1) ∧
      NearestEven ((n : ℚ) / d / (2 : ℚ) ^ (max (lg - 52) (-1074))) m ∧
      roundMagnitude n d = (m : ℚ) * (2 : ℚ) ^ (max (lg - 52) (-1074)) := by
  obtain ⟨l1, l2⟩ := floorLog2_spec n d hn hd
  have hdq : (0 : ℚ) < d := by exact_mod_cast hd
  unfold roundMagnitude
  simp only
  refine ⟨floorLog2 n d, ?_⟩
  generalize max (floorLog2 n d - 52) (-1074) = e
  by_cases h0 : 0 ≤ e
  · have hpow : (2 : ℚ) ^ e = ((2 ^ e.toNat : ℕ) : ℚ) := by
      rw [Nat.cast_pow, Nat.cast_ofNat, ← zpow_natCast, Int.toNat_of_nonneg h0]
    refine ⟨(roundHalfEven n (d * 2 ^ e.toNat) : Nat), l1, l2, ?_, ?_⟩
    · have := roundHalfEven_spec n (d * 2 ^ e.toNat) (by positivity)
      rw [hpow, div_div]
      rw [Nat.cast_mul] at this
      exact this
    · rw [if_pos h0, hpow]
      push_cast
      rfl
  · have hneg : 0 ≤ -e := by omega
    have hpow : (2 : ℚ) ^ e = (((2 ^ (-e).toNat : ℕ) : ℚ))⁻¹ := by
      rw [Nat.cast_pow, Nat.cast_ofNat, ← zpow_natCast, Int.toNat_of_nonneg hneg, zpow_neg,
        inv_inv]
    refine ⟨(roundHalfEven (n * 2 ^ (-e).toNat) d : Nat), l1, l2, ?_, ?_⟩
    · have := roundHalfEven_spec (n * 2 ^ (-e).toNat) d hd
      rw [hpow, div_inv_eq_mul, div_mul_eq_mul_div]
      rw [Nat.cast_mul] at this
      exact this
    · rw [if_neg h0, hpow, Rat.mkRat_eq_div]
      push_cast
      rfl

theorem roundDouble_of_pos (q : ℚ) (hq : 0 < q) :
    ∃ (lg m : Int), (2 : ℚ) ^ lg ≤ q ∧ q < (2 : ℚ) ^ (lg + 1) ∧
      NearestEven (q / (2 : ℚ) ^ (max (lg - 52) (-1074))) m ∧
      roundDouble q = (m : ℚ) * (2 : ℚ) ^ (max (lg - 52) (-1074)) := by
  have hnum : 0 < q.num := Rat.num_pos.mpr hq
  have hn : 0 < q.num.natAbs := Int.natAbs_pos.mpr (ne_of_gt hnum)
  have hqe : (q.num.natAbs : ℚ) / q.den = q := by
    have h1 : ((q.num.natAbs : Int) : ℚ) = (q.num : ℚ) := by
      rw [Int.natAbs_of_nonneg (le_of_lt hnum)]
    rw [← Int.cast_natCast, h1]
    exact Rat.num_div_den q
  have hrd : roundDouble q = roundMagnitude q.num.natAbs q.den := by
    unfold roundDouble
    rw [if_neg (ne_of_gt hnum), if_neg (not_lt.mpr (le_of_lt hnum))]
  have := roundMagnitude_spec q.num.natAbs q.den hn q.den_pos
  rw [hqe, ← hrd] at this
  exact this

theorem roundDouble_zero : roundDouble 0 = 0 := by
  unfold roundDouble
  rw [if_pos (by simp)]

theorem roundDouble_neg (q : ℚ) : roundDouble (-q) = -roundDouble q := by
  unfold roundDouble
  rw [Rat.neg_num, Rat.neg_den, Int.natAbs_neg]
  rcases lt_trichotomy q.num 0 with h | h | h
  · rw [if_neg (by omega), if_neg (by omega), if_neg (by omega), if_pos h, neg_neg]
  · rw [if_pos (by omega), if_pos h, neg_zero]
  · rw [if_neg (by omega), if_pos (by omega), if_neg (by omega), if_neg (by omega)]

theorem two_zpow_toNat {k : Int} (hk : 0 ≤ k) : (2 : ℚ) ^ k = (((2 : Int) ^ k.toNat : Int) : ℚ) := by
  rw [Int.cast_pow, Int.cast_ofNat, ← zpow_natCast, Int.toNat_of_nonneg hk]

theorem nearestEven_nonneg {x : ℚ} {m : Int} (h : NearestEven x m) (hx : 0 ≤ x) : 0 ≤ m :=
  nearestEven_mono (nearestEven_int 0) h (by simpa using hx)

/-- Below a power of two the nearest integer is at most that power. -/
theorem nearestEven_le_pow {x : ℚ} {m k : Int} (h : NearestEven x m) (hk : 0 ≤ k)
    (hx : x ≤ (2 : ℚ) ^ k) : (m : ℚ) ≤ (2 : ℚ) ^ k := by
  rw [two_zpow_toNat hk] at hx ⊢
  exact_mod_cast nearestEven_mono h (nearestEven_int _) hx

theorem pow_le_nearestEven {x : ℚ} {m k : Int} (h : NearestEven x m) (hk : 0 ≤ k)
    (hx : (2 : ℚ) ^ k ≤ x) : (2 : ℚ) ^ k ≤ (m : ℚ) := by
  rw [two_zpow_toNat hk] at hx ⊢
  exact_mod_cast nearestEven_mono (nearestEven_int _) h hx

theorem ulp_cases (lg : Int) :
    -1074 ≤ max (lg - 52) (-1074) ∧ lg - 52 ≤ max (lg - 52) (-1074) ∧
      (max (lg - 52) (-1074) = lg - 52 ∨ max (lg - 52) (-1074) = -1074) := by
  rcases max_cases (lg - 52) (-1074) with ⟨h, h'⟩ | ⟨h, h'⟩
  · exact ⟨by omega, by omega, Or.inl h⟩
  · exact ⟨by omega, by omega, Or.inr h⟩

/-- The rounded value of a positive number does not exceed the next power of two. -/
theorem double_le_next {q : ℚ} {lg m : Int} (hb : q < (2 : ℚ) ^ (lg + 1))
    (hn : NearestEven (q / (2 : ℚ) ^ (max (lg - 52) (-1074))) m) (hm : 1 ≤ m) :
    (m : ℚ) * (2 : ℚ) ^ (max (lg - 52) (-1074)) ≤ (2 : ℚ) ^ (lg + 1) := by
  have h2 : (2 : ℚ) ≠ 0 := by norm_num
  generalize max (lg - 52) (-1074) = e at hn ⊢
  have hpos : (0 : ℚ) < (2 : ℚ) ^ e := zpow_pos (by norm_num) _
  have hx : q / (2 : ℚ) ^ e < (2 : ℚ) ^ (lg + 1 - e) := by
    rw [zpow_sub₀ h2]
    exact (div_lt_div_iff_of_pos_right hpos).mpr hb
  by_cases hk : 0 ≤ lg + 1 - e
  · have := nearestEven_le_pow hn hk (le_of_lt hx)
    calc (m : ℚ) * (2 : ℚ) ^ e ≤ (2 : ℚ) ^ (lg + 1 - e) * (2 : ℚ) ^ e :=
          mul_le_mul_of_nonneg_right this (le_of_lt hpos)
      _ = (2 : ℚ) ^ (lg + 1) := by rw [← zpow_add₀ h2]; congr 1; ring
  · exfalso
    have hhalf : (2 : ℚ) ^ (lg + 1 - e) ≤ (2 : ℚ) ^ (-1 : Int) :=
      zpow_le_zpow_right₀ (by norm_num) (by omega)
    have hx2 : q / (2 : ℚ) ^ e < 1 / 2 := by
      have h1 : (2 : ℚ) ^ (-1 : Int) = 1 / 2 := by norm_num
      rw [h1] at hhalf
      exact lt_of_lt_of_le hx hhalf
    have habs := abs_le.mp hn.1
    have hm' : (1 : ℚ) ≤ (m : ℚ) := by exact_mod_cast hm
    linarith [habs.1, habs.2]

theorem double_mono_aux {q1 q2 : ℚ} {lg1 lg2 m1 m2 : Int}
    (h1a : (2 : ℚ) ^ lg1 ≤ q1) (h1b : q1 < (2 : ℚ) ^ (lg1 + 1))
    (h1n : NearestEven (q1 / (2 : ℚ) ^ (max (lg1 - 52) (-1074))) m1)
    (h2a : (2 : ℚ) ^ lg2 ≤ q2) (h2b : q2 < (2 : ℚ) ^ (lg2 + 1))
    (h2n : NearestEven (q2 / (2 : ℚ) ^ (max (lg2 - 52) (-1074))) m2) (hle : q1 ≤ q2) :
    (m1 : ℚ) * (2 : ℚ) ^ (max (lg1 - 52) (-1074)) ≤
      (m2 : ℚ) * (2 : ℚ) ^ (max (lg2 - 52) (-1074)) := by
  have h2 : (2 : ℚ) ≠ 0 := by norm_num
  have hlg : lg1 ≤ lg2 := by
    have : (2 : ℚ) ^ lg1 < (2 : ℚ) ^ (lg2 + 1) := lt_of_le_of_lt (le_trans h1a hle) h2b
    have := (zpow_lt_zpow_iff_right₀ (by norm_num : (1 : ℚ) < 2)).mp this
    omega
  obtain ⟨c1, c2, c3⟩ := ulp_cases lg1
  obtain ⟨d1, d2, d3⟩ := ulp_cases lg2
  have he : max (lg1 - 52) (-1074) ≤ max (lg2 - 52) (-1074) :=
    max_le_max (by omega) (le_refl _)
  generalize max (lg1 - 52) (-1074) = e1 at h1n c1 c2 c3 he ⊢
  generalize max (lg2 - 52) (-1074) = e2 at h2n d1 d2 d3 he ⊢
  have hp1 : (0 : ℚ) < (2 : ℚ) ^ e1 := zpow_pos (by norm_num) _
  have hp2 : (0 : ℚ) < (2 : ℚ) ^ e2 := zpow_pos (by norm_num) _
  rcases eq_or_lt_of_le he with heq | hlt
  · subst heq
    have hm : m1 ≤ m2 :=
      nearestEven_mono h1n h2n ((div_le_div_iff_of_pos_right hp1).mpr hle)
    exact mul_le_mul_of_nonneg_right (by exact_mod_cast hm) (le_of_lt hp1)
  · have he2 : e2 = lg2 - 52 := by omega
    have hlt' : lg1 + 1 ≤ lg2 := by omega
    have hq1 : 0 < q1 := lt_of_lt_of_le (zpow_pos (by norm_num) _) h1a
    have hup : (m1 : ℚ) * (2 : ℚ) ^ e1 ≤ (2 : ℚ) ^ lg2 := by
      have hk : 0 ≤ lg2 - e1 := by omega
      have hx : q1 / (2 : ℚ) ^ e1 ≤ (2 : ℚ) ^ (lg2 - e1) := by
        rw [zpow_sub₀ h2]
        refine (div_le_div_iff_of_pos_right hp1).mpr (le_trans (le_of_lt h1b) ?_)
        exact zpow_le_zpow_right₀ (by norm_num) hlt'
      have := nearestEven_le_pow h1n hk hx
      calc (m1 : ℚ) * (2 : ℚ) ^ e1 ≤ (2 : ℚ) ^ (lg2 - e1) * (2 : ℚ) ^ e1 :=
            mul_le_mul_of_nonneg_right this (le_of_lt hp1)
        _ = (2 : ℚ) ^ lg2 := by rw [← zpow_add₀ h2]; congr 1; ring
    have hlow : (2 : ℚ) ^ lg2 ≤ (m2 : ℚ) * (2 : ℚ) ^ e2 := by
      have hx : (2 : ℚ) ^ (52 : Int) ≤ q2 / (2 : ℚ) ^ e2 := by
        rw [show (52 : Int) = lg2 - e2 by omega, zpow_sub₀ h2]
        exact (div_le_div_iff_of_pos_right hp2).mpr h2a
      have := pow_le_nearestEven h2n (by norm_num) hx
      calc (2 : ℚ) ^ lg2 = (2 : ℚ) ^ (52 : Int) * (2 : ℚ) ^ e2 := by
            rw [← zpow_add₀ h2]; congr 1; omega
        _ ≤ (m2 : ℚ) * (2 : ℚ) ^ e2 := mul_le_mul_of_nonneg_right this (le_of_lt hp2)
    exact le_trans hup hlow

theorem roundDouble_nonneg (q : ℚ) (h : 0 ≤ q) : 0 ≤ roundDouble q := by
  rcases eq_or_lt_of_le h with h0 | hpos
  · rw [← h0, roundDouble_zero]
  · obtain ⟨lg, m, _, _, hn, hv⟩ := roundDouble_of_pos q hpos
    rw [hv]
    have hp : (0 : ℚ) < (2 : ℚ) ^ (max (lg - 52) (-1074)) := zpow_pos (by norm_num) _
    have hm : (0 : ℚ) ≤ (m : ℚ) := by
      exact_mod_cast nearestEven_nonneg hn (div_nonneg h (le_of_lt hp))
    exact mul_nonneg hm (le_of_lt hp)

/-- A positive rounded value is rounded to itself. -/
theorem double_idem_aux {q : ℚ} {lg m : Int} (hq : 0 < q) (hb : q < (2 : ℚ) ^ (lg + 1))
    (hn : NearestEven (q / (2 : ℚ) ^ (max (lg - 52) (-1074))) m) :
    roundDouble ((m : ℚ) * (2 : ℚ) ^ (max (lg - 52) (-1074))) =
      (m : ℚ) * (2 : ℚ) ^ (max (lg - 52) (-1074)) := by
  have h2 : (2 : ℚ) ≠ 0 := by norm_num
  have hpe : (0 : ℚ) < (2 : ℚ) ^ (max (lg - 52) (-1074)) := zpow_pos (by norm_num) _
  have hm0 : 0 ≤ m := nearestEven_nonneg hn (div_nonneg (le_of_lt hq) (le_of_lt hpe))
  rcases eq_or_lt_of_le hm0 with h0 | hm1
  · rw [← h0]
    simp [roundDouble_zero]
  · have hnext := double_le_next hb hn (by omega)
    obtain ⟨c1, c2, c3⟩ := ulp_cases lg
    generalize max (lg - 52) (-1074) = e at hn hpe hnext c1 c2 c3 ⊢
    have hy : (0 : ℚ) < (m : ℚ) * (2 : ℚ) ^ e :=
      mul_pos (by exact_mod_cast hm1) hpe
    obtain ⟨lg', m', a', b', n', v'⟩ := roundDouble_of_pos _ hy
    rw [v']
    obtain ⟨d1, d2, d3⟩ := ulp_cases lg'
    generalize max (lg' - 52) (-1074) = e' at n' d1 d2 d3 ⊢
    have hpe' : (0 : ℚ) < (2 : ℚ) ^ e' := zpow_pos (by norm_num) _
    have hint : ∃ k : Int, (m : ℚ) * (2 : ℚ) ^ e / (2 : ℚ) ^ e' = (k : ℚ) := by
      by_cases hee : e' ≤ e
      · refine ⟨m * (2 : Int) ^ (e - e').toNat, ?_⟩
        rw [mul_div_assoc, ← zpow_sub₀ h2, two_zpow_toNat (by omega : 0 ≤ e - e')]
        push_cast
        rfl
      · have he' : e' = lg' - 52 := by omega
        have hlg : lg < lg' := by omega
        have hle : lg' ≤ lg + 1 := by
          have : (2 : ℚ) ^ lg' ≤ (2 : ℚ) ^ (lg + 1) := le_trans a' hnext
          exact (zpow_le_zpow_iff_right₀ (by norm_num : (1 : ℚ) < 2)).mp this
        have hlg' : lg' = lg + 1 := by omega
        subst hlg'
        have hyeq : (m : ℚ) * (2 : ℚ) ^ e = (2 : ℚ) ^ (lg + 1) := le_antisymm hnext a'
        refine ⟨(2 : Int) ^ (52 : Int).toNat, ?_⟩
        rw [hyeq, ← zpow_sub₀ h2, ← two_zpow_toNat (by norm_num)]
        congr 1
        omega
    obtain ⟨k, hk⟩ := hint
    have hmk : m' = k := nearestEven_unique n' (by rw [hk]; exact nearestEven_int k)
    rw [hmk, ← hk, div_mul_cancel₀ _ (ne_of_gt hpe')]

/-- IEEE rounding to nearest is monotone, leaves its values unchanged and leaves 0
unchanged. -/
theorem rounding_roundDouble : Rounding roundDouble := by
  have mono_pos : ∀ a b : ℚ, 0 < a → a ≤ b → roundDouble a ≤ roundDouble b := by
    intro a b ha hab
    obtain ⟨lg1, m1, a1, b1, n1, v1⟩ := roundDouble_of_pos a ha
    obtain ⟨lg2, m2, a2, b2, n2, v2⟩ := roundDouble_of_pos b (lt_of_lt_of_le ha hab)
    rw [v1, v2]
    exact double_mono_aux a1 b1 n1 a2 b2 n2 hab
  have nonpos : ∀ a : ℚ, a ≤ 0 → roundDouble a ≤ 0 := by
    intro a ha
    have := roundDouble_nonneg (-a) (by linarith)
    rw [roundDouble_neg] at this
    linarith
  have idem_pos : ∀ q : ℚ, 0 < q → roundDouble (roundDouble q) = roundDouble q := by
    intro q hq
    obtain ⟨lg, m, a, b, n, v⟩ := roundDouble_of_pos q hq
    rw [v]
    exact double_idem_aux hq b n
  refine ⟨fun a b hab => ?_, fun q => ?_, roundDouble_zero⟩
  · by_cases ha : 0 < a
    · exact mono_pos a b ha hab
    · by_cases hb : 0 ≤ b
      · exact le_trans (nonpos a (not_lt.mp ha)) (roundDouble_nonneg b hb)
      · have h1 := mono_pos (-b) (-a) (by linarith) (by linarith)
        rw [roundDouble_neg, roundDouble_neg] at h1
        linarith
  · rcases lt_trichotomy q 0 with h | h | h
    · have h1 := idem_pos (-q) (by linarith)
      rw [roundDouble_neg, roundDouble_neg] at h1
      exact neg_injective h1
    · rw [h, roundDouble_zero, roundDouble_zero]
    · exact idem_pos q h

/-! ## One iteration in double arithmetic -/



theorem startServiceD_eq_some {cfg : Config R} {s s' : State R} {cid sid : Int}
    (h : startServiceD rd cfg s cid sid = some s') :
    ∃ c, getAt s.customers cid = some c ∧ 0 ≤ sid ∧ sid.toNat < s.serverBusy.length ∧
      sid.toNat < s.serverServingCustomer.length ∧ s' = startedStateD rd cfg s cid sid c := by
  unfold startServiceD at h
  split at h
  · rename_i busy serving c hb hv hc
    obtain ⟨⟨h0, h1⟩, rfl⟩ := setAt_eq_some.mp hb
    obtain ⟨⟨_, h2⟩, rfl⟩ := setAt_eq_some.mp hv
    refine ⟨c, hc, h0, h1, h2, ?_⟩
    simp only [Option.some.injEq] at h
    rw [← h]
    rfl
  · simp at h

theorem recordDepartureD_eq_some {cfg : Config R} {s s' : State R} {ev : Event}
    (h : recordDepartureD rd cfg s ev = some s') :
    ∃ c, getAt s.customers ev.customerId = some c ∧ 0 ≤ ev.serverId ∧
      ev.serverId.toNat < s.serverBusy.length ∧ s' = departedStateD rd cfg s ev c := by
  unfold recordDepartureD at h
  split at h
  · rename_i c busy serving lastFree hc hb hv hl
    obtain ⟨⟨h0, h1⟩, rfl⟩ := setAt_eq_some.mp hb
    obtain ⟨_, rfl⟩ := setAt_eq_some.mp hv
    obtain ⟨_, rfl⟩ := setAt_eq_some.mp hl
    refine ⟨c, hc, h0, h1, ?_⟩
    simp only [Option.some.injEq] at h
    rw [← h]
    rfl
  · simp at h

theorem inv_startServiceD {cfg : Config R} {fl dep : List Int} {s s' : State R} {cid sid : Int}
    (h : Inv cfg (cid :: fl) dep s) (hsid : sid < cfg.numServers)
    (hs : startServiceD rd cfg s cid sid = some s') : Inv cfg fl dep s' := by
  obtain ⟨c, hc, h0, h1, h2, rfl⟩ := startServiceD_eq_some hs
  have hp : List.Perm (occ (cid :: fl) dep s) (occ fl dep (startedStateD rd cfg s cid sid c)) := by
    simp only [occ, pendingIds, startedStateD, List.map_append, List.map_cons, List.map_nil,
      List.append_assoc, List.singleton_append, List.cons_append]
    refine List.Perm.trans ?_ (List.perm_middle.symm.append_left fl)
    exact List.perm_middle.symm
  exact {
    busyLen := by simpa [startedStateD] using h.busyLen
    servingLen := by simpa [startedStateD] using h.servingLen
    lastFreeLen := h.lastFreeLen
    nextId := by simpa [startedStateD] using h.nextId
    nodup := hp.nodup_iff.mp h.nodup
    range := fun x hx => by
      simpa [startedStateD] using h.range x (hp.mem_iff.mpr hx)
    depServer := fun e he => by
      simp only [startedStateD, List.mem_append, List.mem_singleton] at he
      rcases he with he | rfl
      · exact h.depServer e he
      · exact fun _ => ⟨h0, hsid⟩ }

theorem inv_scheduleNextD {cfg : Config R} {fl dep : List Int} {s : State R}
    (h : Inv cfg fl dep s) : Inv cfg fl dep (scheduleNextD rd cfg s) := by
  unfold scheduleNextD
  simp only []
  split
  · have hp : List.Perm (s.nextCustId :: occ fl dep s)
        (occ fl dep { s with
          rng := (cfg.interarrival_dist s.rng).2
          nextCustId := s.nextCustId + 1
          customers := s.customers ++
            [{ id := s.nextCustId, arrivalTime := rd (s.t + (cfg.interarrival_dist s.rng).1) }]
          events := s.events ++
            [{ time := rd (s.t + (cfg.interarrival_dist s.rng).1), type := EventType.ARRIVAL,
               customerId := s.nextCustId, serverId := -1 }] }) := by
      refine List.perm_iff_count.mpr fun a => ?_
      simp only [occ, pendingIds, List.map_append, List.map_cons, List.map_nil,
        List.count_append, List.count_cons, List.count_nil]
      omega
    have hfresh : s.nextCustId ∉ occ fl dep s := fun hm => by
      have := (h.range _ hm).2
      have := h.nextId
      omega
    exact {
      busyLen := h.busyLen
      servingLen := h.servingLen
      lastFreeLen := h.lastFreeLen
      nextId := by simp [h.nextId]
      nodup := hp.nodup_iff.mp (List.nodup_cons.mpr ⟨hfresh, h.nodup⟩)
      range := fun x hx => by
        have hx' := hp.mem_iff.mpr hx
        simp only [List.length_append, List.length_singleton]
        rcases List.mem_cons.mp hx' with rfl | hx'
        · have := h.nextId
          push_cast
          omega
        · have := h.range x hx'
          push_cast
          omega
      depServer := fun e he => by
        simp only [List.mem_append, List.mem_singleton] at he
        rcases he with he | rfl
        · exact h.depServer e he
        · intro hty; cases hty }
  · exact {
      busyLen := h.busyLen, servingLen := h.servingLen, lastFreeLen := h.lastFreeLen,
      nextId := h.nextId, nodup := h.nodup, range := h.range, depServer := h.depServer }

theorem inv_recordDepartureD {cfg : Config R} {dep : List Int} {s s' : State R} {ev : Event}
    (h : Inv cfg [ev.customerId] dep s) (hs : recordDepartureD rd cfg s ev = some s') :
    Inv cfg [] (dep ++ [ev.customerId]) s' := by
  obtain ⟨c, hc, h0, h1, rfl⟩ := recordDepartureD_eq_some hs
  have hp : List.Perm (occ [ev.customerId] dep s)
      (occ [] (dep ++ [ev.customerId]) (departedStateD rd cfg s ev c)) := by
    refine List.perm_iff_count.mpr fun a => ?_
    simp only [occ, pendingIds, departedStateD, List.count_append, List.count_cons,
      List.count_nil]
    omega
  exact {
    busyLen := by simpa [departedStateD] using h.busyLen
    servingLen := by simpa [departedStateD] using h.servingLen
    lastFreeLen := by simpa [departedStateD] using h.lastFreeLen
    nextId := by simpa [departedStateD] using h.nextId
    nodup := hp.nodup_iff.mp h.nodup
    range := fun x hx => by
      simpa [departedStateD] using h.range x (hp.mem_iff.mpr hx)
    depServer := h.depServer }

theorem loopIterD_cases {cfg : Config R} {s s' : State R} {i : Nat} {ev : Event}
    (hev : s.events[i]? = some ev) (h : loopIterD rd cfg s i = some s') :
    (cfg.SIM_MINUTES < ev.time ∧ s' = { popEvent s i ev with stopped := true }) ∨
    (ev.time ≤ cfg.SIM_MINUTES ∧ ev.type = EventType.ARRIVAL ∧
      handleArrivalD rd cfg (popEvent s i ev) ev = some s') ∨
    (ev.time ≤ cfg.SIM_MINUTES ∧ ev.type = EventType.DEPARTURE ∧
      handleDepartureD rd cfg (popEvent s i ev) ev = some s') := by
  unfold loopIterD at h
  rw [hev] at h
  simp only [gt_iff_lt] at h
  by_cases hcut : cfg.SIM_MINUTES < ev.time
  · rw [if_pos hcut] at h
    exact Or.inl ⟨hcut, by simpa [eq_comm] using h⟩
  · rw [if_neg hcut] at h
    have hle : ev.time ≤ cfg.SIM_MINUTES := not_lt.mp hcut
    cases hty : ev.type with
    | ARRIVAL =>
      rw [hty] at h
      exact Or.inr (Or.inl ⟨hle, rfl, h⟩)
    | DEPARTURE =>
      rw [hty] at h
      exact Or.inr (Or.inr ⟨hle, rfl, h⟩)

theorem handleArrivalD_cases {cfg : Config R} {s s' : State R} {ev : Event}
    (h : handleArrivalD rd cfg s ev = some s') :
    ∃ s1, recordArrival s ev.customerId = some s1 ∧
      ((0 ≤ findFreeServer cfg.numServers s1.serverBusy ∧ ∃ s2 lastFree,
          startServiceD rd cfg s1 ev.customerId (findFreeServer cfg.numServers s1.serverBusy) = some s2 ∧
          getAt s1.serverLastFreeTime (findFreeServer cfg.numServers s1.serverBusy) = some lastFree ∧
          s' = scheduleNextD rd cfg { s2 with idleTimeAcc := rd (s2.idleTimeAcc + max 0 (rd (s1.t - lastFree))) }) ∨
       (findFreeServer cfg.numServers s1.serverBusy < 0 ∧
          s' = scheduleNextD rd cfg { s1 with waitingQueue := s1.waitingQueue ++ [ev.customerId] })) := by
  unfold handleArrivalD at h
  split at h
  · simp at h
  · rename_i s1 hs1
    refine ⟨s1, hs1, ?_⟩
    simp only [] at h
    by_cases hfree : 0 ≤ findFreeServer cfg.numServers s1.serverBusy
    · rw [if_pos hfree] at h
      left
      refine ⟨hfree, ?_⟩
      split at h
      · rename_i s2 lastFree h2 hl
        exact ⟨s2, lastFree, h2, hl, by simpa [eq_comm] using h⟩
      · simp at h
    · rw [if_neg hfree] at h
      right
      exact ⟨not_le.mp hfree, by simpa [eq_comm] using h⟩

theorem handleDepartureD_cases {cfg : Config R} {s s' : State R} {ev : Event}
    (h : handleDepartureD rd cfg s ev = some s') :
    ∃ s1, recordDepartureD rd cfg s ev = some s1 ∧
      ((s1.waitingQueue = [] ∧ s' = s1) ∨
       (∃ x rest, s1.waitingQueue = x :: rest ∧
          startServiceD rd cfg { s1 with waitingQueue := rest } x ev.serverId = some s')) := by
  unfold handleDepartureD at h
  split at h
  · simp at h
  · rename_i s1 hs1
    refine ⟨s1, hs1, ?_⟩
    split at h
    · rename_i hq
      exact Or.inl ⟨hq, by simpa [eq_comm] using h⟩
    · rename_i x rest hq
      exact Or.inr ⟨x, rest, hq, h⟩

theorem scheduleNextD_fields (cfg : Config R) (s : State R) :
    (scheduleNextD rd cfg s).waitingQueue = s.waitingQueue ∧ (scheduleNextD rd cfg s).t = s.t ∧
    (scheduleNextD rd cfg s).stopped = s.stopped ∧
    (scheduleNextD rd cfg s).totalWaitingTime = s.totalWaitingTime ∧
    (scheduleNextD rd cfg s).servedCount = s.servedCount ∧
    ∀ e ∈ (scheduleNextD rd cfg s).events, e ∈ s.events ∨
      (e.type = EventType.ARRIVAL ∧ e.time ≤ cfg.SIM_MINUTES) := by
  unfold scheduleNextD
  simp only []
  split
  · rename_i hle
    refine ⟨rfl, rfl, rfl, rfl, rfl, fun e he => ?_⟩
    simp only [List.mem_append, List.mem_singleton] at he
    rcases he with he | rfl
    · exact Or.inl he
    · exact Or.inr ⟨rfl, hle⟩
  · exact ⟨rfl, rfl, rfl, rfl, rfl, fun e he => Or.inl he⟩

theorem startServiceD_fields {cfg : Config R} {s s' : State R} {cid sid : Int}
    (h : startServiceD rd cfg s cid sid = some s') :
    s'.waitingQueue = s.waitingQueue ∧ s'.t = s.t ∧ s'.stopped = s.stopped ∧
    s'.totalWaitingTime = s.totalWaitingTime ∧ s'.servedCount = s.servedCount := by
  obtain ⟨c, _, _, _, _, rfl⟩ := startServiceD_eq_some h
  exact ⟨rfl, rfl, rfl, rfl, rfl⟩

theorem startServiceD_of_range (cfg : Config R) {s : State R} {cid sid : Int} {c : Customer}
    (hc : getAt s.customers cid = some c) (h0 : 0 ≤ sid) (h1 : sid < s.serverBusy.length)
    (h2 : sid < s.serverServingCustomer.length) :
    startServiceD rd cfg s cid sid = some (startedStateD rd cfg s cid sid c) := by
  unfold startServiceD
  rw [setAt_of_range _ h0 h1, setAt_of_range _ h0 h2, hc]
  rfl

theorem recordDepartureD_of_range {cfg : Config R} {s : State R} {ev : Event} {c : Customer}
    (hc : getAt s.customers ev.customerId = some c) (h0 : 0 ≤ ev.serverId)
    (h1 : ev.serverId < s.serverBusy.length) (h2 : ev.serverId < s.serverServingCustomer.length)
    (h3 : ev.serverId < s.serverLastFreeTime.length) :
    recordDepartureD rd cfg s ev = some (departedStateD rd cfg s ev c) := by
  unfold recordDepartureD
  rw [setAt_of_range _ h0 h1, setAt_of_range _ h0 h2, setAt_of_range _ h0 h3, hc]
  rfl

theorem loopIterD_of_cut (cfg : Config R) {s : State R} {i : Nat} {ev : Event}
    (hev : s.events[i]? = some ev) (hcut : cfg.SIM_MINUTES < ev.time) :
    loopIterD rd cfg s i = some { popEvent s i ev with stopped := true } := by
  unfold loopIterD
  rw [hev]
  simp only [gt_iff_lt]
  rw [if_pos hcut]

theorem loopIterD_of_arrival (cfg : Config R) {s : State R} {i : Nat} {ev : Event}
    (hev : s.events[i]? = some ev) (hle : ev.time ≤ cfg.SIM_MINUTES)
    (hty : ev.type = EventType.ARRIVAL) :
    loopIterD rd cfg s i = handleArrivalD rd cfg (popEvent s i ev) ev := by
  unfold loopIterD
  rw [hev]
  simp only [gt_iff_lt]
  rw [if_neg (not_lt.mpr hle), hty]

theorem loopIterD_of_departure (cfg : Config R) {s : State R} {i : Nat} {ev : Event}
    (hev : s.events[i]? = some ev) (hle : ev.time ≤ cfg.SIM_MINUTES)
    (hty : ev.type = EventType.DEPARTURE) :
    loopIterD rd cfg s i = handleDepartureD rd cfg (popEvent s i ev) ev := by
  unfold loopIterD
  rw [hev]
  simp only [gt_iff_lt]
  rw [if_neg (not_lt.mpr hle), hty]

theorem handleArrivalD_of_free {cfg : Config R} {s s1 s2 : State R} {ev : Event} {lastFree : ℚ}
    (hs1 : recordArrival s ev.customerId = some s1)
    (hfree : 0 ≤ findFreeServer cfg.numServers s1.serverBusy)
    (hs2 : startServiceD rd cfg s1 ev.customerId (findFreeServer cfg.numServers s1.serverBusy)
      = some s2)
    (hl : getAt s1.serverLastFreeTime (findFreeServer cfg.numServers s1.serverBusy)
      = some lastFree) :
    handleArrivalD rd cfg s ev = some (scheduleNextD rd cfg
      { s2 with idleTimeAcc := rd (s2.idleTimeAcc + max 0 (rd (s1.t - lastFree))) }) := by
  unfold handleArrivalD
  rw [hs1]
  simp only
  rw [if_pos hfree, hs2, hl]

theorem handleArrivalD_of_busy {cfg : Config R} {s s1 : State R} {ev : Event}
    (hs1 : recordArrival s ev.customerId = some s1)
    (hno : findFreeServer cfg.numServers s1.serverBusy < 0) :
    handleArrivalD rd cfg s ev = some (scheduleNextD rd cfg
      { s1 with waitingQueue := s1.waitingQueue ++ [ev.customerId] }) := by
  unfold handleArrivalD
  rw [hs1]
  simp only
  rw [if_neg (not_le.mpr hno)]

theorem handleDepartureD_of_empty {cfg : Config R} {s s1 : State R} {ev : Event}
    (hs1 : recordDepartureD rd cfg s ev = some s1) (hq : s1.waitingQueue = []) :
    handleDepartureD rd cfg s ev = some s1 := by
  unfold handleDepartureD
  rw [hs1]
  simp only
  rw [hq]

theorem handleDepartureD_of_waiting {cfg : Config R} {s s1 : State R} {ev : Event} {x : Int}
    {rest : List Int} (hs1 : recordDepartureD rd cfg s ev = some s1)
    (hq : s1.waitingQueue = x :: rest) :
    handleDepartureD rd cfg s ev = startServiceD rd cfg { s1 with waitingQueue := rest } x ev.serverId := by
  unfold handleDepartureD
  rw [hs1]
  simp only
  rw [hq]

theorem iterateD_exec {cfg : Config R} {sched : Nat → Nat} (n : Nat) :
    ∀ (k : Nat) (tr tr' : Trace R) (s s' : State R), ExecD rd cfg tr s →
      iterateD rd cfg sched n k (tr, s) = some (tr', s') → ExecD rd cfg tr' s' := by
  induction n with
  | zero =>
    intro k tr tr' s s' hex h
    simp only [iterateD, Option.some.injEq, Prod.mk.injEq] at h
    obtain ⟨rfl, rfl⟩ := h
    exact hex
  | succ n ih =>
    intro k tr tr' s s' hex h
    unfold iterateD at h
    by_cases hf : finished s
    · rw [if_pos hf] at h
      simp only [Option.some.injEq, Prod.mk.injEq] at h
      obtain ⟨rfl, rfl⟩ := h
      exact hex
    · rw [if_neg hf] at h
      split at h
      · simp at h
      · rename_i i hi
        have htop : isTop s.events i := topChoices_isTop (mem_of_getElem? hi)
        split at h
        · rename_i ev s1 hev hs1
          by_cases hle : ev.time ≤ cfg.SIM_MINUTES
          · rw [if_pos hle] at h
            exact ih _ _ _ _ _ (ExecD.handle hex hf htop hev hle hs1) h
          · rw [if_neg hle] at h
            exact ih _ _ _ _ _ (ExecD.cutoff hex hf htop hev (not_le.mp hle) hs1) h
        · simp at h

/-- Every listed iteration started from a state that is itself reached by the
iterations listed before it, popped a least-time event of that state, and was
defined. -/
theorem execD_trace {cfg : Config R} {tr : Trace R} {s : State R} (h : ExecD rd cfg tr s) :
    ∀ tr0 p tr1, tr = tr0 ++ p :: tr1 →
      ExecD rd cfg tr0 p.1 ∧ ¬ finished p.1 ∧ p.2.time ≤ cfg.SIM_MINUTES ∧
      ∃ i s', isTop p.1.events i ∧ p.1.events[i]? = some p.2 ∧ loopIterD rd cfg p.1 i = some s' ∧
        ExecD rd cfg (tr0 ++ [p]) s' := by
  induction h with
  | start => intro tr0 p tr1 h; simp at h
  | @handle tr s s' i ev hex hnf htop hev hle hstep ih =>
    intro tr0 p tr1 heq
    rcases List.eq_nil_or_concat tr1 with rfl | ⟨tr1', q, rfl⟩
    · have h1 : tr ++ [(s, ev)] = tr0 ++ [p] := heq
      obtain ⟨rfl, hp⟩ := List.append_inj' h1 rfl
      simp only [List.cons.injEq, and_true] at hp
      subst hp
      exact ⟨hex, hnf, hle, i, s', htop, hev, hstep, ExecD.handle hex hnf htop hev hle hstep⟩
    · have h1 : tr ++ [(s, ev)] = (tr0 ++ p :: tr1') ++ [q] := by
        rw [heq]; simp
      obtain ⟨h2, _⟩ := List.append_inj' h1 rfl
      exact ih tr0 p tr1' h2
  | cutoff _ _ _ _ _ _ ih => exact ih

/-- The clock and the `break` flag after one iteration. -/
theorem loopIterD_clock {cfg : Config R} {s s' : State R} {i : Nat} {ev : Event}
    (hev : s.events[i]? = some ev) (h : loopIterD rd cfg s i = some s') :
    s'.t = ev.time ∧
    (cfg.SIM_MINUTES < ev.time → s'.stopped = true) ∧
    (ev.time ≤ cfg.SIM_MINUTES → s'.stopped = s.stopped) := by
  rcases loopIterD_cases hev h with ⟨hcut, rfl⟩ | ⟨hle, hty, ha⟩ | ⟨hle, hty, hd⟩
  · exact ⟨rfl, fun _ => rfl, fun hle => absurd hcut (not_lt.mpr hle)⟩
  · obtain ⟨s1, hs1, hcase⟩ := handleArrivalD_cases ha
    obtain ⟨_, _, _, ht1, hst1⟩ := recordArrival_fields hs1
    refine ⟨?_, fun hcut => absurd hcut (not_lt.mpr hle), fun _ => ?_⟩
    · rcases hcase with ⟨_, s2, lastFree, hs2, _, rfl⟩ | ⟨_, rfl⟩
      · rw [(scheduleNextD_fields cfg _).2.1]
        show s2.t = ev.time
        rw [(startServiceD_fields hs2).2.1, ht1]
        rfl
      · rw [(scheduleNextD_fields cfg _).2.1]
        show s1.t = ev.time
        rw [ht1]
        rfl
    · rcases hcase with ⟨_, s2, lastFree, hs2, _, rfl⟩ | ⟨_, rfl⟩
      · rw [(scheduleNextD_fields cfg _).2.2.1]
        show s2.stopped = s.stopped
        rw [(startServiceD_fields hs2).2.2.1, hst1]
        rfl
      · rw [(scheduleNextD_fields cfg _).2.2.1]
        show s1.stopped = s.stopped
        rw [hst1]
        rfl
  · obtain ⟨s1, hs1, hcase⟩ := handleDepartureD_cases hd
    obtain ⟨c, _, _, _, rfl⟩ := recordDepartureD_eq_some hs1
    refine ⟨?_, fun hcut => absurd hcut (not_lt.mpr hle), fun _ => ?_⟩
    · rcases hcase with ⟨_, rfl⟩ | ⟨x, rest, _, hs'⟩
      · rfl
      · rw [(startServiceD_fields hs').2.1]
        rfl
    · rcases hcase with ⟨_, rfl⟩ | ⟨x, rest, _, hs'⟩
      · rfl
      · rw [(startServiceD_fields hs').2.2.1]
        rfl

theorem scheduleNextD_servers (cfg : Config R) (s : State R) :
    (scheduleNextD rd cfg s).serverBusy = s.serverBusy ∧
    (scheduleNextD rd cfg s).serverServingCustomer = s.serverServingCustomer ∧
    (scheduleNextD rd cfg s).serverLastFreeTime = s.serverLastFreeTime ∧
    (scheduleNextD rd cfg s).totalServiceTime = s.totalServiceTime ∧
    (scheduleNextD rd cfg s).totalRevenue = s.totalRevenue ∧
    (scheduleNextD rd cfg s).idleTimeAcc = s.idleTimeAcc ∧
    (scheduleNextD rd cfg s).rng = (cfg.interarrival_dist s.rng).2 := by
  unfold scheduleNextD
  simp only []
  split <;> exact ⟨rfl, rfl, rfl, rfl, rfl, rfl, rfl⟩

theorem scheduleNextD_events_sub (cfg : Config R) (s : State R) :
    ∀ e ∈ s.events, e ∈ (scheduleNextD rd cfg s).events := by
  intro e he
  unfold scheduleNextD
  simp only []
  split
  · exact List.mem_append_left _ he
  · exact he

theorem scheduleNextD_getAt {cfg : Config R} {s : State R} {x : Int} {c : Customer}
    (h : getAt (scheduleNextD rd cfg s).customers x = some c) :
    getAt s.customers x = some c ∨
      (x = s.customers.length ∧
        c = { id := s.nextCustId, arrivalTime := rd (s.t + (cfg.interarrival_dist s.rng).1) } ∧
        rd (s.t + (cfg.interarrival_dist s.rng).1) ≤ cfg.SIM_MINUTES) := by
  unfold scheduleNextD at h
  simp only at h
  split at h
  · next hle =>
    rcases getAt_append_cases h with h1 | ⟨h1, h2⟩
    · exact Or.inl h1
    · exact Or.inr ⟨h1, h2, hle⟩
  · exact Or.inl h

theorem scheduleNextD_event {cfg : Config R} {s : State R} {e : Event}
    (h : e ∈ (scheduleNextD rd cfg s).events) :
    e ∈ s.events ∨
      (e = { time := rd (s.t + (cfg.interarrival_dist s.rng).1), type := EventType.ARRIVAL,
             customerId := s.nextCustId, serverId := -1 } ∧
        rd (s.t + (cfg.interarrival_dist s.rng).1) ≤ cfg.SIM_MINUTES) := by
  unfold scheduleNextD at h
  simp only at h
  split at h
  · next hle =>
    rcases List.mem_append.mp h with h1 | h1
    · exact Or.inl h1
    · exact Or.inr ⟨List.mem_singleton.mp h1, hle⟩
  · exact Or.inl h

theorem scheduleNextD_rec {cfg : Config R} {s : State R} {x : Int} {P : Customer → Prop}
    (h : ∃ c, getAt s.customers x = some c ∧ P c) :
    ∃ c, getAt (scheduleNextD rd cfg s).customers x = some c ∧ P c := by
  unfold scheduleNextD
  simp only
  split
  · exact rec_append h
  · exact h

theorem loopIterD_arrival_eq {cfg : Config R} {dep : List Int} {s s' : State R} {i : Nat}
    {ev : Event} (hI : Inv cfg [] dep s) (hev : s.events[i]? = some ev)
    (hty : ev.type = EventType.ARRIVAL) (hle : ev.time ≤ cfg.SIM_MINUTES)
    (h : loopIterD rd cfg s i = some s') :
    ∃ c, getAt s.customers ev.customerId = some c ∧
      ((0 ≤ findFreeServer cfg.numServers s.serverBusy ∧
          ∃ lf, getAt s.serverLastFreeTime (findFreeServer cfg.numServers s.serverBusy) = some lf ∧
            s' = scheduleNextD rd cfg (servedAtArrivalD rd cfg s i ev c
              (findFreeServer cfg.numServers s.serverBusy) lf)) ∨
        (findFreeServer cfg.numServers s.serverBusy < 0 ∧
          s' = scheduleNextD rd cfg (queuedAtArrival s i ev c))) := by
  rw [loopIterD_of_arrival cfg hev hle hty] at h
  obtain ⟨s1, hs1, hcase⟩ := handleArrivalD_cases h
  obtain ⟨_, c, hc, rfl⟩ := inv_recordArrival (inv_pop hI hev) hs1
  have hr := getAt_some_range hc
  refine ⟨c, hc, ?_⟩
  rcases hcase with ⟨hfree, s2, lf, hs2, hlf, rfl⟩ | ⟨hno, rfl⟩
  · left
    refine ⟨hfree, lf, hlf, ?_⟩
    obtain ⟨c1, hc1, _, _, _, rfl⟩ := startServiceD_eq_some hs2
    have hc1' : c1 = { c with arrivalTime := ev.time } := by
      have h2 : getAt ((popEvent s i ev).customers.set ev.customerId.toNat
          { c with arrivalTime := (popEvent s i ev).t }) ev.customerId = some c1 := hc1
      rw [getAt_set_self hr.1 hr.2] at h2
      exact (Option.some.inj h2).symm
    subst hc1'
    congr 1
    simp only [startedStateD, servedAtArrivalD, popEvent, List.set_set, departureOfD,
      serviceTimeD, scoopsAt, baseAt, rngAfterService]
  · right
    exact ⟨hno, rfl⟩

theorem loopIterD_departure_eq {cfg : Config R} {dep : List Int} {s s' : State R} {i : Nat}
    {ev : Event} (hI : Inv cfg [] dep s) (hev : s.events[i]? = some ev)
    (hty : ev.type = EventType.DEPARTURE) (hle : ev.time ≤ cfg.SIM_MINUTES)
    (h : loopIterD rd cfg s i = some s') :
    ∃ c, getAt s.customers ev.customerId = some c ∧
      ((s.waitingQueue = [] ∧ s' = departedIdleD rd cfg s i ev c) ∨
        (∃ x rest cx, s.waitingQueue = x :: rest ∧ getAt s.customers x = some cx ∧
          x ≠ ev.customerId ∧ s' = departedNextD rd cfg s i ev c x rest cx)) := by
  rw [loopIterD_of_departure cfg hev hle hty] at h
  obtain ⟨s1, hs1, hcase⟩ := handleDepartureD_cases h
  have hIp := inv_pop hI hev
  obtain ⟨c, hc, h0, h1, rfl⟩ := recordDepartureD_eq_some hs1
  have hr := getAt_some_range hc
  refine ⟨c, hc, ?_⟩
  rcases hcase with ⟨hq, rfl⟩ | ⟨x, rest, hq, hs'⟩
  · left
    exact ⟨hq, rfl⟩
  · right
    have hq' : s.waitingQueue = x :: rest := hq
    obtain ⟨cx, hcx, _, _, _, rfl⟩ := startServiceD_eq_some hs'
    have hne : ev.customerId ≠ x :=
      inv_flight_ne hIp (mem_occ_wait (by show x ∈ s.waitingQueue; rw [hq']; simp))
    have hcx' : getAt s.customers x = some cx := by
      have h2 : getAt ((popEvent s i ev).customers.set ev.customerId.toNat
          { c with departureTime := (popEvent s i ev).t }) x = some cx := hcx
      rwa [getAt_set_ne hr.1 hne] at h2
    refine ⟨x, rest, cx, hq', hcx', Ne.symm hne, ?_⟩
    simp only [startedStateD, departedStateD, departedNextD, popEvent, List.set_set, departureOfD,
      serviceTimeD, scoopsAt, baseAt, rngAfterService]

/-! ## The structural invariant along runs in double arithmetic -/

theorem invD_step {cfg : Config R} {tr : Trace R} {s s' : State R} {i : Nat} {ev : Event}
    (hI : Inv cfg [] (departedIds tr) s) (hev : s.events[i]? = some ev)
    (h : loopIterD rd cfg s i = some s') :
    (cfg.SIM_MINUTES < ev.time → Inv cfg [] (departedIds tr) s') ∧
    (ev.time ≤ cfg.SIM_MINUTES → Inv cfg [] (departedIds (tr ++ [(s, ev)])) s') := by
  have hIp := inv_pop hI hev
  rcases loopIterD_cases hev h with ⟨hcut, rfl⟩ | ⟨hle, hty, ha⟩ | ⟨hle, hty, hd⟩
  · exact ⟨fun _ => inv_stopped true (inv_drop hIp), fun hle => absurd hcut (not_lt.mpr hle)⟩
  · refine ⟨fun hcut => absurd hcut (not_lt.mpr hle), fun _ => ?_⟩
    obtain ⟨s1, hs1, hcase⟩ := handleArrivalD_cases ha
    obtain ⟨hI1, c, hc, hs1eq⟩ := inv_recordArrival hIp hs1
    rw [departedIds_snoc, if_neg (by simp [hty])]
    rcases hcase with ⟨hfree, s2, lastFree, hs2, _, rfl⟩ | ⟨hfree, rfl⟩
    · exact inv_scheduleNextD
        (inv_idle _ (inv_startServiceD hI1 (findFreeServer_range hfree).1 hs2))
    · exact inv_scheduleNextD (inv_enqueue hI1)
  · refine ⟨fun hcut => absurd hcut (not_lt.mpr hle), fun _ => ?_⟩
    obtain ⟨s1, hs1, hcase⟩ := handleDepartureD_cases hd
    have hI1 := inv_recordDepartureD hIp hs1
    have hsid := (hI.depServer ev (mem_of_getElem? hev) hty).2
    rw [departedIds_snoc, if_pos hty]
    rcases hcase with ⟨_, rfl⟩ | ⟨x, rest, hq, hs'⟩
    · exact hI1
    · exact inv_startServiceD (inv_dequeue hI1 hq) hsid hs'

/-- The structural invariant holds in every state reached by a run in double
arithmetic. -/
theorem execD_inv {cfg : Config R} {tr : Trace R} {s : State R} (h : ExecD rd cfg tr s) :
    Inv cfg [] (departedIds tr) s := by
  induction h with
  | start => exact inv_init cfg
  | handle _ _ _ hev hle hstep ih => exact (invD_step ih hev hstep).2 hle
  | cutoff _ _ _ hev hcut hstep ih => exact (invD_step ih hev hstep).1 hcut

/-- No iteration of a run in double arithmetic indexes a vector outside its bounds:
from a state that satisfies the structural invariant, popping any pending event gives a
defined iteration. -/
theorem progressD {cfg : Config R} {dep : List Int} {s : State R} {i : Nat} {ev : Event}
    (hI : Inv cfg [] dep s) (hev : s.events[i]? = some ev) :
    ∃ s', loopIterD rd cfg s i = some s' := by
  have hIp := inv_pop hI hev
  have hr := hIp.range ev.customerId (by simp [occ])
  obtain ⟨c, hc⟩ := getAt_isSome_of_range hr.1 hr.2
  by_cases hcut : cfg.SIM_MINUTES < ev.time
  · exact ⟨_, loopIterD_of_cut cfg hev hcut⟩
  · have hle := not_lt.mp hcut
    cases hty : ev.type with
    | ARRIVAL =>
      rw [loopIterD_of_arrival cfg hev hle hty]
      obtain ⟨s1, hs1⟩ : ∃ s1, recordArrival (popEvent s i ev) ev.customerId = some s1 :=
        ⟨_, recordArrival_of_range hc⟩
      obtain ⟨hI1, _⟩ := inv_recordArrival hIp hs1
      by_cases hfree : 0 ≤ findFreeServer cfg.numServers s1.serverBusy
      · have hlt := (findFreeServer_range hfree).1
        have hr1 := hI1.range ev.customerId (by simp [occ])
        obtain ⟨c1, hc1⟩ := getAt_isSome_of_range hr1.1 hr1.2
        have hb := hI1.busyLen
        have hsv := hI1.servingLen
        have hlf := hI1.lastFreeLen
        have hs2 : startServiceD rd cfg s1 ev.customerId
            (findFreeServer cfg.numServers s1.serverBusy) = some _ :=
          startServiceD_of_range cfg hc1 hfree (by omega) (by omega)
        obtain ⟨lf, hlf'⟩ : ∃ v, getAt s1.serverLastFreeTime
            (findFreeServer cfg.numServers s1.serverBusy) = some v :=
          getAt_isSome_of_range hfree (by omega)
        exact ⟨_, handleArrivalD_of_free hs1 hfree hs2 hlf'⟩
      · exact ⟨_, handleArrivalD_of_busy hs1 (not_le.mp hfree)⟩
    | DEPARTURE =>
      rw [loopIterD_of_departure cfg hev hle hty]
      obtain ⟨h0, h1⟩ := hI.depServer ev (mem_of_getElem? hev) hty
      have hb := hIp.busyLen
      have hsv := hIp.servingLen
      have hlf := hIp.lastFreeLen
      obtain ⟨s1, hs1⟩ : ∃ s1, recordDepartureD rd cfg (popEvent s i ev) ev = some s1 :=
        ⟨_, recordDepartureD_of_range hc h0 (by omega) (by omega) (by omega)⟩
      have hI1 := inv_recordDepartureD hIp hs1
      cases hq : s1.waitingQueue with
      | nil => exact ⟨_, handleDepartureD_of_empty hs1 hq⟩
      | cons x rest =>
        rw [handleDepartureD_of_waiting hs1 hq]
        have hI2 := inv_dequeue hI1 hq
        have hr2 := hI2.range x (by simp [occ])
        obtain ⟨c2, hc2⟩ := getAt_isSome_of_range hr2.1 hr2.2
        have hb2 := hI2.busyLen
        have hsv2 := hI2.servingLen
        exact ⟨_, startServiceD_of_range cfg hc2 h0 (by omega) (by omega)⟩


/-- From a state reached by a run in double arithmetic, popping any pending event gives
a defined iteration. -/
theorem execD_progress {cfg : Config R} {tr : Trace R} {s : State R} {i : Nat} {ev : Event}
    (h : ExecD rd cfg tr s) (hev : s.events[i]? = some ev) :
    ∃ s', loopIterD rd cfg s i = some s' :=
  progressD (execD_inv h) hev

theorem startedD_init (cfg : Config R) : StartedD rd cfg [] [] (initState cfg) where
  ledger := by simp
  away := by simp
  evSt := by
    intro e he hty
    simp [initState] at he
    subst he
    simp at hty
  depSt := by simp
  unset := by
    intro x c hc _
    have hr := getAt_some_range hc
    simp only [initState, List.length_singleton] at hr
    have hx : x = 0 := by push_cast at hr; omega
    subst hx
    simp [initState, getAt] at hc
    subst hc
    rfl
  total := by simp [initState]
  draws := by simp
  once := by simp
  nonneg := by
    intro _ _
    refine ⟨by simp [initState], ?_, by simp⟩
    intro e he
    simp [initState] at he
    subst he
    simp
  depLedger := by simp

theorem startedD_scheduleNextD {cfg : Config R} {sts : List ServiceStart} {dep : List Event}
    {s : State R} (h : StartedD rd cfg sts dep s) (hn : s.nextCustId = s.customers.length) :
    StartedD rd cfg sts dep (scheduleNextD rd cfg s) where
  ledger := fun σ hσ => scheduleNextD_rec (h.ledger σ hσ)
  away := by
    intro σ hσ
    refine ⟨by rw [(scheduleNextD_fields cfg s).1]; exact (h.away σ hσ).1, ?_⟩
    intro e he hty
    rcases scheduleNextD_event he with he | ⟨rfl, _⟩
    · exact (h.away σ hσ).2 e he hty
    · obtain ⟨c, hc, _⟩ := h.ledger σ hσ
      have hr := getAt_some_range hc
      simp only
      omega
  evSt := by
    intro e he hty
    rcases scheduleNextD_event he with he | ⟨rfl, _⟩
    · exact h.evSt e he hty
    · simp at hty
  depSt := h.depSt
  unset := by
    intro x c hc hx
    rcases scheduleNextD_getAt hc with hc | ⟨_, rfl, _⟩
    · exact h.unset x c hc hx
    · rfl
  total := by rw [(scheduleNextD_servers cfg s).2.2.2.1]; exact h.total
  draws := h.draws
  once := h.once
  nonneg := by
    intro hv hrd
    obtain ⟨h0, h1, h2⟩ := h.nonneg hv hrd
    refine ⟨by rw [(scheduleNextD_fields cfg s).2.1]; exact h0, ?_, h2⟩
    intro e he
    rcases scheduleNextD_event he with he | ⟨rfl, _⟩
    · exact h1 e he
    · have := hv.1 s.rng
      exact hrd _ (by linarith)
  depLedger := fun e he => scheduleNextD_rec (h.depLedger e he)

theorem startedD_cutoff {cfg : Config R} {sts : List ServiceStart} {dep : List Event}
    {s : State R} {i : Nat} {ev : Event} (h : StartedD rd cfg sts dep s)
    (hev : s.events[i]? = some ev) :
    StartedD rd cfg sts dep { popEvent s i ev with stopped := true } where
  ledger := h.ledger
  away := fun σ hσ => ⟨(h.away σ hσ).1, fun e he => (h.away σ hσ).2 e (mem_eraseIdx he)⟩
  evSt := fun e he => h.evSt e (mem_eraseIdx he)
  depSt := h.depSt
  unset := h.unset
  total := h.total
  draws := h.draws
  once := h.once
  nonneg := fun hv hrd =>
    ⟨(h.nonneg hv hrd).2.1 ev (mem_of_getElem? hev),
      fun e he => (h.nonneg hv hrd).2.1 e (mem_eraseIdx he), (h.nonneg hv hrd).2.2⟩
  depLedger := h.depLedger

theorem startedD_served {cfg : Config R} {sts : List ServiceStart} {dep : List Event}
    {depIds : List Int} {s : State R} {i : Nat} {ev : Event} {c : Customer} (k : Int) (lf : ℚ)
    (h : StartedD rd cfg sts dep s) (hI : Inv cfg [] depIds s) (hev : s.events[i]? = some ev)
    (hty : ev.type = EventType.ARRIVAL) (hc : getAt s.customers ev.customerId = some c) :
    StartedD rd cfg
      (sts ++ [{ customerId := ev.customerId, serverId := k, time := ev.time,
                 scoops := scoopsAt cfg s.rng, base := baseAt cfg s.rng }]) dep
      (servedAtArrivalD rd cfg s i ev c k lf) := by
  have hpop := inv_pop hI hev
  have hr := getAt_some_range hc
  have hmem := mem_of_getElem? hev
  refine ⟨?_, ?_, ?_, ?_, ?_, ?_, ?_, ?_, ?_, ?_⟩
  · intro σ hσ
    rcases List.mem_append.mp hσ with hσ | hσ
    · have hne := (h.away σ hσ).2 ev hmem hty
      simp only [servedAtArrivalD]
      rw [getAt_set_ne hr.1 hne]
      exact h.ledger σ hσ
    · rw [List.mem_singleton.mp hσ]
      exact ⟨_, getAt_set_self hr.1 hr.2, rfl, rfl⟩
  · intro σ hσ
    rcases List.mem_append.mp hσ with hσ | hσ
    · refine ⟨(h.away σ hσ).1, fun e he hte => ?_⟩
      rcases List.mem_append.mp he with he | he
      · exact (h.away σ hσ).2 e (mem_eraseIdx he) hte
      · rw [List.mem_singleton.mp he] at hte
        simp [departureOfD] at hte
    · rw [List.mem_singleton.mp hσ]
      refine ⟨fun hx => inv_flight_ne hpop (mem_occ_wait hx) rfl, fun e he hte => ?_⟩
      rcases List.mem_append.mp he with he | he
      · exact fun heq => inv_flight_ne hpop
          (mem_occ_pending (s := popEvent s i ev) he) heq.symm
      · rw [List.mem_singleton.mp he] at hte
        simp [departureOfD] at hte
  · intro e he hte
    rcases List.mem_append.mp he with he | he
    · obtain ⟨σ, hσ, h1⟩ := h.evSt e (mem_eraseIdx he) hte
      exact ⟨σ, List.mem_append_left _ hσ, h1⟩
    · rw [List.mem_singleton.mp he]
      exact ⟨_, List.mem_append_right _ (List.mem_singleton.mpr rfl), rfl, rfl, rfl⟩
  · intro e he
    obtain ⟨σ, hσ, h1⟩ := h.depSt e he
    exact ⟨σ, List.mem_append_left _ hσ, h1⟩
  · intro x c' hc' hx
    have hxne : x ≠ ev.customerId := fun heq =>
      hx _ (List.mem_append_right _ (List.mem_singleton.mpr rfl)) heq.symm
    rcases getAt_set_cases hr.1 hc' with ⟨h1, _⟩ | ⟨_, h1⟩
    · exact absurd h1 hxne
    · exact h.unset x c' h1 fun σ hσ => hx σ (List.mem_append_left _ hσ)
  · simp only [servedAtArrivalD, List.foldl_append, List.foldl_cons, List.foldl_nil]
    rw [h.total]
    rfl
  · intro σ hσ
    rcases List.mem_append.mp hσ with hσ | hσ
    · exact h.draws σ hσ
    · rw [List.mem_singleton.mp hσ]
      exact ⟨s.rng, rfl, rfl⟩
  · rw [List.map_append]
    refine List.Nodup.append h.once (by simp) ?_
    intro x hx1 hx2
    obtain ⟨σ, hσ, rfl⟩ := List.mem_map.mp hx1
    simp only [List.map_cons, List.map_nil, List.mem_singleton] at hx2
    exact (h.away σ hσ).2 ev hmem hty hx2.symm
  · intro hv hrd
    obtain ⟨_, h1, h2⟩ := h.nonneg hv hrd
    have ht := h1 ev hmem
    refine ⟨ht, ?_, ?_⟩
    · intro e he
      rcases List.mem_append.mp he with he | he
      · exact h1 e (mem_eraseIdx he)
      · rw [List.mem_singleton.mp he]
        have := serviceTime_pos hv s.rng
        exact hrd _ (add_nonneg ht (hrd _ (le_of_lt this)))
    · intro σ hσ
      rcases List.mem_append.mp hσ with hσ | hσ
      · exact h2 σ hσ
      · rw [List.mem_singleton.mp hσ]
        exact ht
  · intro e he
    exact rec_set (h.depLedger e he) hc fun _ hP => hP

theorem startedD_queued {cfg : Config R} {sts : List ServiceStart} {dep : List Event}
    {s : State R} {i : Nat} {ev : Event} {c : Customer}
    (h : StartedD rd cfg sts dep s) (hev : s.events[i]? = some ev)
    (hty : ev.type = EventType.ARRIVAL) (hc : getAt s.customers ev.customerId = some c) :
    StartedD rd cfg sts dep (queuedAtArrival s i ev c) := by
  have hr := getAt_some_range hc
  have hmem := mem_of_getElem? hev
  refine ⟨?_, ?_, ?_, h.depSt, ?_, h.total, h.draws, h.once, ?_,
    fun e he => rec_set (h.depLedger e he) hc fun _ hP => hP⟩
  · intro σ hσ
    exact rec_set (h.ledger σ hσ) hc fun _ hP => hP
  · intro σ hσ
    refine ⟨fun hx => ?_, fun e he => (h.away σ hσ).2 e (mem_eraseIdx he)⟩
    rcases List.mem_append.mp hx with hx | hx
    · exact (h.away σ hσ).1 hx
    · exact (h.away σ hσ).2 ev hmem hty (List.mem_singleton.mp hx).symm
  · exact fun e he => h.evSt e (mem_eraseIdx he)
  · intro x c' hc' hx
    rcases getAt_set_cases hr.1 hc' with ⟨h1, h2⟩ | ⟨_, h1⟩
    · rw [h2]
      exact h.unset ev.customerId c hc (h1 ▸ hx)
    · exact h.unset x c' h1 hx
  · intro hv hrd
    obtain ⟨_, h1, h2⟩ := h.nonneg hv hrd
    exact ⟨h1 ev hmem, fun e he => h1 e (mem_eraseIdx he), h2⟩

theorem startedD_idle {cfg : Config R} {sts : List ServiceStart} {dep : List Event}
    {s : State R} {i : Nat} {ev : Event} {c : Customer}
    (h : StartedD rd cfg sts dep s) (hI : Inv cfg [] (dep.map fun e => e.customerId) s)
    (hev : s.events[i]? = some ev)
    (hty : ev.type = EventType.DEPARTURE) (hc : getAt s.customers ev.customerId = some c) :
    StartedD rd cfg sts (dep ++ [ev]) (departedIdleD rd cfg s i ev c) := by
  have hr := getAt_some_range hc
  have hmem := mem_of_getElem? hev
  refine ⟨?_, ?_, ?_, ?_, ?_, h.total, h.draws, h.once, ?_, ?_⟩
  · intro σ hσ
    exact rec_set (h.ledger σ hσ) hc fun _ hP => hP
  · intro σ hσ
    exact ⟨(h.away σ hσ).1, fun e he => (h.away σ hσ).2 e (mem_eraseIdx he)⟩
  · exact fun e he => h.evSt e (mem_eraseIdx he)
  · intro e he
    rcases List.mem_append.mp he with he | he
    · exact h.depSt e he
    · rw [List.mem_singleton.mp he]
      exact h.evSt ev hmem hty
  · intro x c' hc' hx
    rcases getAt_set_cases hr.1 hc' with ⟨h1, h2⟩ | ⟨_, h1⟩
    · rw [h2]
      exact h.unset ev.customerId c hc (h1 ▸ hx)
    · exact h.unset x c' h1 hx
  · intro hv hrd
    obtain ⟨_, h1, h2⟩ := h.nonneg hv hrd
    exact ⟨h1 ev hmem, fun e he => h1 e (mem_eraseIdx he), h2⟩
  · intro e he
    rcases List.mem_append.mp he with he | he
    · have h1 : ev.customerId ≠ e.customerId := fun heq =>
        inv_pending_not_departed hI hmem (heq ▸ List.mem_map_of_mem _ he)
      simp only [departedIdleD]
      rw [getAt_set_ne hr.1 h1]
      exact h.depLedger e he
    · rw [List.mem_singleton.mp he]
      exact ⟨_, getAt_set_self hr.1 hr.2, rfl⟩

theorem startedD_next {cfg : Config R} {sts : List ServiceStart} {dep : List Event}
    {s : State R} {i : Nat} {ev : Event} {c cx : Customer} {x : Int}
    {rest : List Int}
    (h : StartedD rd cfg sts dep s) (hI : Inv cfg [] (dep.map fun e => e.customerId) s)
    (hev : s.events[i]? = some ev)
    (hty : ev.type = EventType.DEPARTURE) (hc : getAt s.customers ev.customerId = some c)
    (hq : s.waitingQueue = x :: rest) (hcx : getAt s.customers x = some cx)
    (hne : x ≠ ev.customerId) :
    StartedD rd cfg
      (sts ++ [{ customerId := x, serverId := ev.serverId, time := ev.time,
                 scoops := scoopsAt cfg s.rng, base := baseAt cfg s.rng }])
      (dep ++ [ev]) (departedNextD rd cfg s i ev c x rest cx) := by
  have hr := getAt_some_range hc
  have hrx := getAt_some_range hcx
  have hmem := mem_of_getElem? hev
  have hxw : x ∈ s.waitingQueue := by rw [hq]; exact List.mem_cons_self _ _
  have hwn := inv_waiting_nodup hI
  rw [hq] at hwn
  refine ⟨?_, ?_, ?_, ?_, ?_, ?_, ?_, ?_, ?_, ?_⟩
  · intro σ hσ
    rcases List.mem_append.mp hσ with hσ | hσ
    · have hne : x ≠ σ.customerId := fun heq => (h.away σ hσ).1 (heq ▸ hxw)
      simp only [departedNextD]
      rw [getAt_set_ne hrx.1 hne]
      exact rec_set (h.ledger σ hσ) hc fun _ hP => hP
    · rw [List.mem_singleton.mp hσ]
      exact ⟨_, getAt_set_self hrx.1 (by rw [List.length_set]; exact hrx.2), rfl, rfl⟩
  · intro σ hσ
    rcases List.mem_append.mp hσ with hσ | hσ
    · refine ⟨fun hx => (h.away σ hσ).1 (by rw [hq]; exact List.mem_cons_of_mem _ hx),
        fun e he hte => ?_⟩
      rcases List.mem_append.mp he with he | he
      · exact (h.away σ hσ).2 e (mem_eraseIdx he) hte
      · rw [List.mem_singleton.mp he] at hte
        simp [departureOfD] at hte
    · rw [List.mem_singleton.mp hσ]
      refine ⟨(List.nodup_cons.mp hwn).1, fun e he hte => ?_⟩
      rcases List.mem_append.mp he with he | he
      · exact fun heq => inv_pending_not_waiting hI (mem_eraseIdx he) (heq ▸ hxw)
      · rw [List.mem_singleton.mp he] at hte
        simp [departureOfD] at hte
  · intro e he hte
    rcases List.mem_append.mp he with he | he
    · obtain ⟨σ, hσ, h1⟩ := h.evSt e (mem_eraseIdx he) hte
      exact ⟨σ, List.mem_append_left _ hσ, h1⟩
    · rw [List.mem_singleton.mp he]
      exact ⟨_, List.mem_append_right _ (List.mem_singleton.mpr rfl), rfl, rfl, rfl⟩
  · intro e he
    rcases List.mem_append.mp he with he | he
    · obtain ⟨σ, hσ, h1⟩ := h.depSt e he
      exact ⟨σ, List.mem_append_left _ hσ, h1⟩
    · rw [List.mem_singleton.mp he]
      obtain ⟨σ, hσ, h1⟩ := h.evSt ev hmem hty
      exact ⟨σ, List.mem_append_left _ hσ, h1⟩
  · intro y c' hc' hy
    have hyne : y ≠ x := fun heq =>
      hy _ (List.mem_append_right _ (List.mem_singleton.mpr rfl)) heq.symm
    have hy' : ∀ σ ∈ sts, σ.customerId ≠ y := fun σ hσ => hy σ (List.mem_append_left _ hσ)
    rcases getAt_set_cases hrx.1 hc' with ⟨h1, _⟩ | ⟨_, h1⟩
    · exact absurd h1 hyne
    · rcases getAt_set_cases hr.1 h1 with ⟨h2, h3⟩ | ⟨_, h2⟩
      · rw [h3]
        exact h.unset ev.customerId c hc (h2 ▸ hy')
      · exact h.unset y c' h2 hy'
  · simp only [departedNextD, List.foldl_append, List.foldl_cons, List.foldl_nil]
    rw [h.total]
    rfl
  · intro σ hσ
    rcases List.mem_append.mp hσ with hσ | hσ
    · exact h.draws σ hσ
    · rw [List.mem_singleton.mp hσ]
      exact ⟨s.rng, rfl, rfl⟩
  · rw [List.map_append]
    refine List.Nodup.append h.once (by simp) ?_
    intro y hy1 hy2
    obtain ⟨σ, hσ, rfl⟩ := List.mem_map.mp hy1
    simp only [List.map_cons, List.map_nil, List.mem_singleton] at hy2
    exact (h.away σ hσ).1 (hy2 ▸ hxw)
  · intro hv hrd
    obtain ⟨_, h1, h2⟩ := h.nonneg hv hrd
    have ht := h1 ev hmem
    refine ⟨ht, ?_, ?_⟩
    · intro e he
      rcases List.mem_append.mp he with he | he
      · exact h1 e (mem_eraseIdx he)
      · rw [List.mem_singleton.mp he]
        have := serviceTime_pos hv s.rng
        exact hrd _ (add_nonneg ht (hrd _ (le_of_lt this)))
    · intro σ hσ
      rcases List.mem_append.mp hσ with hσ | hσ
      · exact h2 σ hσ
      · rw [List.mem_singleton.mp hσ]
        exact ht
  · intro e he
    rcases List.mem_append.mp he with he | he
    · have h1 : ev.customerId ≠ e.customerId := fun heq =>
        inv_pending_not_departed hI hmem (heq ▸ List.mem_map_of_mem _ he)
      have h2 : x ≠ e.customerId := fun heq =>
        inv_waiting_not_departed hI hxw (heq ▸ List.mem_map_of_mem _ he)
      simp only [departedNextD]
      rw [getAt_set_ne hrx.1 h2, getAt_set_ne hr.1 h1]
      exact h.depLedger e he
    · rw [List.mem_singleton.mp he]
      simp only [departedNextD]
      rw [getAt_set_ne hrx.1 hne]
      exact ⟨_, getAt_set_self hr.1 hr.2, rfl⟩

/-- In every state reached in double arithmetic the ledger, the queue and
`totalServiceTime` agree with the service starts performed along the trace. -/
theorem execD_started {cfg : Config R} {tr : Trace R} {s : State R} (h : ExecD rd cfg tr s) :
    StartedD rd cfg (serviceStarts cfg tr) (departedEvents tr) s := by
  induction h with
  | start => exact startedD_init cfg
  | @handle tr s s' i ev hex _ _ hev hle hstep ih =>
    have hI : Inv cfg [] ((departedEvents tr).map fun e => e.customerId) s := execD_inv hex
    cases hty : ev.type with
    | ARRIVAL =>
      rw [departedEvents_snoc, if_neg (by simp [hty]), serviceStarts_snoc]
      obtain ⟨c, hc, h1⟩ := loopIterD_arrival_eq hI hev hty hle hstep
      rcases h1 with ⟨hfree, lf, _, rfl⟩ | ⟨hno, rfl⟩
      · rw [startOf_arrival_free hty hfree]
        exact startedD_scheduleNextD (startedD_served _ lf ih hI hev hty hc)
          (by simpa [servedAtArrivalD] using hI.nextId)
      · rw [startOf_arrival_busy hty hno]
        simp only [Option.toList, List.append_nil]
        exact startedD_scheduleNextD (startedD_queued ih hev hty hc)
          (by simpa [queuedAtArrival] using hI.nextId)
    | DEPARTURE =>
      rw [departedEvents_snoc, if_pos hty, serviceStarts_snoc]
      obtain ⟨c, hc, h1⟩ := loopIterD_departure_eq hI hev hty hle hstep
      rcases h1 with ⟨hq, rfl⟩ | ⟨x, rest, cx, hq, hcx, hne, rfl⟩
      · rw [startOf_departure_empty hty hq]
        simp only [Option.toList, List.append_nil]
        exact startedD_idle ih hI hev hty hc
      · rw [startOf_departure_next hty hq]
        exact startedD_next ih hI hev hty hc hq hcx hne
  | @cutoff tr s s' i ev hex _ _ hev hcut hstep ih =>
    rcases loopIterD_cases hev hstep with ⟨_, rfl⟩ | ⟨hle, _⟩ | ⟨hle, _⟩
    · exact startedD_cutoff ih hev
    · exact absurd hcut (not_lt.mpr hle)
    · exact absurd hcut (not_lt.mpr hle)

/-- What one handled iteration in double arithmetic does about service starts: if it
performs one, the customer is recorded on the server, the rounded scaled duration is
added to `totalServiceTime`, the departure is pushed and the two draws are consumed; if
it performs none, no departure is pushed and no service draw is consumed. -/
theorem loopIterD_start {cfg : Config R} {dep : List Int} {s s' : State R} {i : Nat}
    {ev : Event} (hI : Inv cfg [] dep s) (hev : s.events[i]? = some ev)
    (hle : ev.time ≤ cfg.SIM_MINUTES) (h : loopIterD rd cfg s i = some s') :
    (∀ σ, startOf cfg (s, ev) = some σ →
      departureOfD rd cfg s.rng ev.time σ.customerId σ.serverId ∈ s'.events ∧
      (∀ e ∈ s'.events, e.type = EventType.DEPARTURE →
        e ∈ s.events.eraseIdx i ∨ e = departureOfD rd cfg s.rng ev.time σ.customerId σ.serverId) ∧
      (∃ c, getAt s'.customers σ.customerId = some c ∧ c.serviceStart = ev.time ∧
        c.scoops = scoopsAt cfg s.rng) ∧
      getAt s.serverBusy σ.serverId ≠ none ∧
      getAt s'.serverBusy σ.serverId = some true ∧
      getAt s'.serverServingCustomer σ.serverId = some σ.customerId ∧
      s'.totalServiceTime = rd (s.totalServiceTime + serviceTimeD rd cfg s.rng) ∧
      s'.rng = if ev.type = EventType.ARRIVAL then
          (cfg.interarrival_dist (rngAfterService cfg s.rng)).2
        else rngAfterService cfg s.rng) ∧
    (startOf cfg (s, ev) = none →
      (∀ e ∈ s'.events, e.type = EventType.DEPARTURE → e ∈ s.events.eraseIdx i) ∧
      s'.totalServiceTime = s.totalServiceTime ∧
      s'.rng = if ev.type = EventType.ARRIVAL then (cfg.interarrival_dist s.rng).2 else s.rng) := by
  have hmem := mem_of_getElem? hev
  cases hty : ev.type with
  | ARRIVAL =>
    obtain ⟨c, hc, h1⟩ := loopIterD_arrival_eq hI hev hty hle h
    have hr := getAt_some_range hc
    rcases h1 with ⟨hfree, lf, hlf, rfl⟩ | ⟨hno, rfl⟩
    · have hk := getAt_some_range hlf
      rw [hI.lastFreeLen] at hk
      rw [startOf_arrival_free hty hfree]
      refine ⟨?_, by simp⟩
      intro σ hσ
      cases hσ
      obtain ⟨hb, hsv, _, hT, _, _, hrng⟩ := scheduleNextD_servers cfg
        (servedAtArrivalD rd cfg s i ev c (findFreeServer cfg.numServers s.serverBusy) lf)
      refine ⟨?_, ?_, ?_, ?_, ?_, ?_, ?_, ?_⟩
      · exact scheduleNextD_events_sub cfg _ _ (by simp [servedAtArrivalD])
      · intro e he hte
        rcases scheduleNextD_event he with he | ⟨rfl, _⟩
        · rcases List.mem_append.mp he with he | he
          · exact Or.inl he
          · exact Or.inr (List.mem_singleton.mp he)
        · simp at hte
      · exact scheduleNextD_rec ⟨_, getAt_set_self hr.1 hr.2, rfl, rfl⟩
      · obtain ⟨v, hv⟩ : ∃ v, getAt s.serverBusy
            (findFreeServer cfg.numServers s.serverBusy) = some v :=
          getAt_isSome_of_range hk.1 (by rw [hI.busyLen]; exact hk.2)
        simp [hv]
      · rw [hb]
        exact getAt_set_self hk.1 (by rw [hI.busyLen]; exact hk.2)
      · rw [hsv]
        exact getAt_set_self hk.1 (by rw [hI.servingLen]; exact hk.2)
      · rw [hT]; rfl
      · rw [hrng]; simp [servedAtArrivalD]
    · rw [startOf_arrival_busy hty hno]
      refine ⟨by simp, fun _ => ?_⟩
      obtain ⟨_, _, _, hT, _, _, hrng⟩ := scheduleNextD_servers cfg (queuedAtArrival s i ev c)
      refine ⟨?_, by rw [hT]; rfl, by rw [hrng]; simp [queuedAtArrival]⟩
      intro e he hte
      rcases scheduleNextD_event he with he | ⟨rfl, _⟩
      · exact he
      · simp at hte
  | DEPARTURE =>
    obtain ⟨c, hc, h1⟩ := loopIterD_departure_eq hI hev hty hle h
    have hsid := hI.depServer ev hmem hty
    rcases h1 with ⟨hq, rfl⟩ | ⟨x, rest, cx, hq, hcx, _, rfl⟩
    · rw [startOf_departure_empty hty hq]
      refine ⟨by simp, fun _ => ⟨fun e he _ => he, rfl, by simp [departedIdleD]⟩⟩
    · have hrx := getAt_some_range hcx
      rw [startOf_departure_next hty hq]
      refine ⟨?_, by simp⟩
      intro σ hσ
      cases hσ
      refine ⟨by simp [departedNextD], ?_, ?_, ?_, ?_, ?_, rfl, by simp [departedNextD]⟩
      · intro e he _
        rcases List.mem_append.mp he with he | he
        · exact Or.inl he
        · exact Or.inr (List.mem_singleton.mp he)
      · exact ⟨_, getAt_set_self hrx.1 (by rw [List.length_set]; exact hrx.2), rfl, rfl⟩
      · obtain ⟨v, hv⟩ : ∃ v, getAt s.serverBusy ev.serverId = some v :=
          getAt_isSome_of_range hsid.1 (by rw [hI.busyLen]; exact hsid.2)
        simp [hv]
      · exact getAt_set_self hsid.1 (by rw [hI.busyLen]; exact hsid.2)
      · exact getAt_set_self hsid.1 (by rw [hI.servingLen]; exact hsid.2)

theorem startedD_scoops {cfg : Config R} {sts : List ServiceStart} {dep : List Event}
    {s : State R} (hv : ValidDraws cfg) (h : StartedD rd cfg sts dep s) :
    ∀ σ ∈ sts, 1 ≤ σ.scoops ∧ σ.scoops ≤ 3 ∧ 0 < σ.base ∧ 0 < σ.base * (σ.scoops : ℚ) := by
  intro σ hσ
  obtain ⟨r, h1, h2⟩ := h.draws σ hσ
  have hs := hv.2.2 r
  have hb := hv.2.1 (cfg.scoops_dist r).2
  have hp := serviceTime_pos hv r
  rw [h1, h2]
  refine ⟨by unfold scoopsAt; omega, by unfold scoopsAt; omega, hb, hp⟩

/-! ## Truncation of the arrival stream in double arithmetic -/

theorem pending_single {cfg : Config R} {dep : List Int} {s : State R} {i : Nat}
    {ev e : Event} (h : PendingArrival s) (hI : Inv cfg [] dep s)
    (hev : s.events[i]? = some ev) (hty : ev.type = EventType.ARRIVAL)
    (he : e ∈ s.events.eraseIdx i) : e.type ≠ EventType.ARRIVAL := by
  intro hte
  have h1 := h e (mem_eraseIdx he) hte
  have h2 := h ev (mem_of_getElem? hev) hty
  exact inv_flight_ne (inv_pop hI hev) (mem_occ_pending (s := popEvent s i ev) he) (by omega)

theorem pending_scheduleNextD {cfg : Config R} {s : State R} (hn : s.nextCustId = s.customers.length)
    (hno : ∀ e ∈ s.events, e.type ≠ EventType.ARRIVAL) :
    PendingArrival (scheduleNextD rd cfg s) := by
  intro e he hte
  unfold scheduleNextD at he ⊢
  simp only at he ⊢
  split at he
  · rw [if_pos (by assumption)]
    rcases List.mem_append.mp he with he | he
    · exact absurd hte (hno e he)
    · rw [List.mem_singleton.mp he]
      simp [hn]
  · exact absurd hte (hno e he)

/-- In every state reached in double arithmetic a pending arrival names the last entry
of the ledger. -/
theorem execD_pending {cfg : Config R} {tr : Trace R} {s : State R} (h : ExecD rd cfg tr s) :
    PendingArrival s := by
  induction h with
  | start =>
    intro e he _
    simp [initState] at he
    subst he
    simp [initState]
  | @handle tr s s' i ev hex _ _ hev hle hstep ih =>
    have hI := execD_inv hex
    cases hty : ev.type with
    | ARRIVAL =>
      obtain ⟨c, hc, h1⟩ := loopIterD_arrival_eq hI hev hty hle hstep
      rcases h1 with ⟨_, lf, _, rfl⟩ | ⟨_, rfl⟩
      · refine pending_scheduleNextD (by simpa [servedAtArrivalD] using hI.nextId) ?_
        intro e he
        rcases List.mem_append.mp he with he | he
        · exact pending_single ih hI hev hty he
        · rw [List.mem_singleton.mp he]
          simp [departureOfD]
      · exact pending_scheduleNextD (by simpa [queuedAtArrival] using hI.nextId)
          fun e he => pending_single ih hI hev hty he
    | DEPARTURE =>
      obtain ⟨c, hc, h1⟩ := loopIterD_departure_eq hI hev hty hle hstep
      rcases h1 with ⟨_, rfl⟩ | ⟨x, rest, cx, _, _, _, rfl⟩
      · intro e he hte
        simpa [departedIdleD] using ih e (mem_eraseIdx he) hte
      · intro e he hte
        rcases List.mem_append.mp he with he | he
        · simpa [departedNextD] using ih e (mem_eraseIdx he) hte
        · rw [List.mem_singleton.mp he] at hte
          simp [departureOfD] at hte
  | @cutoff tr s s' i ev hex _ _ hev hcut hstep ih =>
    rcases loopIterD_cases hev hstep with ⟨_, rfl⟩ | ⟨hle, _⟩ | ⟨hle, _⟩
    · exact fun e he hte => ih e (mem_eraseIdx he) hte
    · exact absurd hcut (not_lt.mpr hle)
    · exact absurd hcut (not_lt.mpr hle)

/-- Lines 113-120 in double arithmetic when no arrival is pending: the gap is drawn, and
the next customer is created and its arrival pushed exactly when the rounded sum `nextT`
of `t` and the gap is `<= SIM_MINUTES`. -/
theorem scheduleNextD_stream (cfg : Config R) (s : State R) (hno : pendingArrivals s = []) :
    (rd (s.t + (cfg.interarrival_dist s.rng).1) ≤ cfg.SIM_MINUTES →
      (scheduleNextD rd cfg s).customers = s.customers ++
        [{ id := s.nextCustId, arrivalTime := rd (s.t + (cfg.interarrival_dist s.rng).1) }] ∧
      (scheduleNextD rd cfg s).nextCustId = s.nextCustId + 1 ∧
      pendingArrivals (scheduleNextD rd cfg s) =
        [{ time := rd (s.t + (cfg.interarrival_dist s.rng).1), type := EventType.ARRIVAL,
           customerId := s.nextCustId, serverId := -1 }]) ∧
    (cfg.SIM_MINUTES < rd (s.t + (cfg.interarrival_dist s.rng).1) →
      (scheduleNextD rd cfg s).customers = s.customers ∧
      (scheduleNextD rd cfg s).nextCustId = s.nextCustId ∧
      pendingArrivals (scheduleNextD rd cfg s) = []) := by
  unfold pendingArrivals at hno ⊢
  refine ⟨fun hle => ?_, fun hgt => ?_⟩
  · simp [scheduleNextD, hle, List.filter_append, hno]
  · simp [scheduleNextD, not_le.mpr hgt, hno]

/-- The arrival stream at an arrival handled in double arithmetic. -/
theorem loopIterD_arrival_stream {cfg : Config R} {dep : List Int} {s s' : State R}
    {i : Nat} {ev : Event} (hI : Inv cfg [] dep s) (hA : PendingArrival s)
    (hev : s.events[i]? = some ev) (hty : ev.type = EventType.ARRIVAL)
    (hle : ev.time ≤ cfg.SIM_MINUTES) (h : loopIterD rd cfg s i = some s') :
    s'.rng = (cfg.interarrival_dist (gapRng cfg s)).2 ∧
    (rd (ev.time + (cfg.interarrival_dist (gapRng cfg s)).1) ≤ cfg.SIM_MINUTES →
      s'.customers.length = s.customers.length + 1 ∧
      getAt s'.customers s.nextCustId = some
        { id := s.nextCustId,
          arrivalTime := rd (ev.time + (cfg.interarrival_dist (gapRng cfg s)).1) } ∧
      s'.nextCustId = s.nextCustId + 1 ∧
      pendingArrivals s' =
        [{ time := rd (ev.time + (cfg.interarrival_dist (gapRng cfg s)).1),
           type := EventType.ARRIVAL, customerId := s.nextCustId, serverId := -1 }]) ∧
    (cfg.SIM_MINUTES < rd (ev.time + (cfg.interarrival_dist (gapRng cfg s)).1) →
      s'.customers.length = s.customers.length ∧ s'.nextCustId = s.nextCustId ∧
      pendingArrivals s' = []) := by
  have key : ∀ u : State R, u.t = ev.time → u.rng = gapRng cfg s →
      u.customers.length = s.customers.length → u.nextCustId = s.nextCustId →
      (∀ e ∈ u.events, e.type = EventType.ARRIVAL → e ∈ s.events.eraseIdx i) →
      s' = scheduleNextD rd cfg u →
      s'.rng = (cfg.interarrival_dist (gapRng cfg s)).2 ∧
      (rd (ev.time + (cfg.interarrival_dist (gapRng cfg s)).1) ≤ cfg.SIM_MINUTES →
        s'.customers.length = s.customers.length + 1 ∧
        getAt s'.customers s.nextCustId = some
          { id := s.nextCustId,
            arrivalTime := rd (ev.time + (cfg.interarrival_dist (gapRng cfg s)).1) } ∧
        s'.nextCustId = s.nextCustId + 1 ∧
        pendingArrivals s' =
          [{ time := rd (ev.time + (cfg.interarrival_dist (gapRng cfg s)).1),
             type := EventType.ARRIVAL, customerId := s.nextCustId, serverId := -1 }]) ∧
      (cfg.SIM_MINUTES < rd (ev.time + (cfg.interarrival_dist (gapRng cfg s)).1) →
        s'.customers.length = s.customers.length ∧ s'.nextCustId = s.nextCustId ∧
        pendingArrivals s' = []) := by
    intro u ht hrng hlen hnext hevs hs'
    have hno : pendingArrivals u = [] := pendingArrivals_eq_nil.mpr fun e he hte =>
      pending_single hA hI hev hty (hevs e he hte) hte
    obtain ⟨h1, h2⟩ := scheduleNextD_stream cfg u hno
    rw [ht, hrng, hnext] at h1 h2
    subst hs'
    refine ⟨by rw [(scheduleNextD_servers cfg u).2.2.2.2.2.2, hrng], fun hle' => ?_, fun hgt => ?_⟩
    · obtain ⟨hc, hn, hp⟩ := h1 hle'
      refine ⟨by rw [hc, List.length_append, List.length_singleton, hlen], ?_, hn, hp⟩
      rw [hc, hI.nextId, ← hlen]
      refine getAt_eq_some.mpr ⟨by omega, ?_⟩
      simp
    · obtain ⟨hc, hn, hp⟩ := h2 hgt
      exact ⟨by rw [hc, hlen], hn, hp⟩
  obtain ⟨c, hc, h1⟩ := loopIterD_arrival_eq hI hev hty hle h
  rcases h1 with ⟨hfree, lf, _, hs'⟩ | ⟨hno, hs'⟩
  · refine key (servedAtArrivalD rd cfg s i ev c (findFreeServer cfg.numServers s.serverBusy) lf)
      rfl (by simp [servedAtArrivalD, gapRng, hfree]) (by simp [servedAtArrivalD]) rfl ?_ hs'
    intro e he hte
    rcases List.mem_append.mp he with he | he
    · exact he
    · rw [List.mem_singleton.mp he] at hte
      simp [departureOfD] at hte
  · exact key (queuedAtArrival s i ev c) rfl (by simp [queuedAtArrival, gapRng, not_le.mpr hno])
      (by simp [queuedAtArrival]) rfl (fun e he _ => he) hs'

/-- A departure handled in double arithmetic creates no customer and pushes no
arrival. -/
theorem loopIterD_departure_stream {cfg : Config R} {dep : List Int} {s s' : State R}
    {i : Nat} {ev : Event} (hI : Inv cfg [] dep s) (hev : s.events[i]? = some ev)
    (hty : ev.type = EventType.DEPARTURE) (hle : ev.time ≤ cfg.SIM_MINUTES)
    (h : loopIterD rd cfg s i = some s') :
    s'.customers.length = s.customers.length ∧ s'.nextCustId = s.nextCustId ∧
    ∀ e ∈ s'.events, e.type = EventType.ARRIVAL → e ∈ s.events := by
  obtain ⟨c, hc, h1⟩ := loopIterD_departure_eq hI hev hty hle h
  rcases h1 with ⟨_, rfl⟩ | ⟨x, rest, cx, _, _, _, rfl⟩
  · exact ⟨by simp [departedIdleD], rfl, fun e he _ => mem_eraseIdx he⟩
  · refine ⟨by simp [departedNextD], rfl, fun e he hte => ?_⟩
    rcases List.mem_append.mp he with he | he
    · exact mem_eraseIdx he
    · rw [List.mem_singleton.mp he] at hte
      simp [departureOfD] at hte

/-- Once a handled arrival has computed a next arrival time `nextT` past the horizon, the
run in double arithmetic handles departures only, creates no customer and never has an
arrival pending. -/
theorem execD_truncated {cfg : Config R} {tr : Trace R} {s : State R} (h : ExecD rd cfg tr s) :
    ∀ tr0 p tr1, tr = tr0 ++ p :: tr1 → p.2.type = EventType.ARRIVAL →
      cfg.SIM_MINUTES < rd (p.2.time + (cfg.interarrival_dist (gapRng cfg p.1)).1) →
      pendingArrivals s = [] ∧ s.customers.length = p.1.customers.length ∧
      s.nextCustId = p.1.nextCustId ∧ ∀ q ∈ tr1, q.2.type = EventType.DEPARTURE := by
  induction h with
  | start => intro tr0 p tr1 h; simp at h
  | @handle tr s s' i ev hex hnf htop hev hle hstep ih =>
    intro tr0 p tr1 heq hty hgt
    have hI := execD_inv hex
    rcases List.eq_nil_or_concat tr1 with rfl | ⟨tr1', q, rfl⟩
    · have h1 : tr ++ [(s, ev)] = tr0 ++ [p] := heq
      obtain ⟨rfl, hp⟩ := List.append_inj' h1 rfl
      simp only [List.cons.injEq, and_true] at hp
      subst hp
      obtain ⟨_, _, h3⟩ := loopIterD_arrival_stream hI (execD_pending hex) hev hty hle hstep
      obtain ⟨h4, h5, h6⟩ := h3 hgt
      exact ⟨h6, h4, h5, by simp⟩
    · have h1 : tr ++ [(s, ev)] = (tr0 ++ p :: tr1') ++ [q] := by
        rw [heq]; simp
      obtain ⟨h2, hq⟩ := List.append_inj' h1 rfl
      simp only [List.cons.injEq, and_true] at hq
      subst hq
      obtain ⟨hno, hlen, hnext, hall⟩ := ih tr0 p tr1' h2 hty hgt
      have htyd : ev.type = EventType.DEPARTURE := by
        cases hte : ev.type with
        | ARRIVAL => exact absurd hte (pendingArrivals_eq_nil.mp hno ev (mem_of_getElem? hev))
        | DEPARTURE => rfl
      obtain ⟨h3, h4, h5⟩ := loopIterD_departure_stream hI hev htyd hle hstep
      refine ⟨pendingArrivals_eq_nil.mpr fun e he hte => ?_, by rw [h3, hlen], by rw [h4, hnext], ?_⟩
      · exact pendingArrivals_eq_nil.mp hno e (h5 e he hte) hte
      · intro q hq
        rw [List.concat_eq_append] at hq
        rcases List.mem_append.mp hq with hq | hq
        · exact hall q hq
        · rw [List.mem_singleton.mp hq]
          exact htyd
  | @cutoff tr s s' i ev hex _ _ hev hcut hstep ih =>
    intro tr0 p tr1 heq hty hgt
    obtain ⟨hno, hlen, hnext, hall⟩ := ih tr0 p tr1 heq hty hgt
    rcases loopIterD_cases hev hstep with ⟨_, rfl⟩ | ⟨hle, _⟩ | ⟨hle, _⟩
    · refine ⟨pendingArrivals_eq_nil.mpr fun e he hte => ?_, hlen, hnext, hall⟩
      exact pendingArrivals_eq_nil.mp hno e (mem_eraseIdx he) hte
    · exact absurd hcut (not_lt.mpr hle)
    · exact absurd hcut (not_lt.mpr hle)

/-! ## Facts about the concrete runs in double arithmetic -/

theorem absorbedGap_valid : ValidDraws absorbedGap := by
  refine ⟨fun n => ?_, fun _ => ?_, fun _ => ?_⟩
  · show 0 < (if n < 3 then (1 : ℚ) else 1 / 2 ^ 60)
    split <;> positivity
  · simp [absorbedGap]
  · simp [absorbedGap]

theorem absorbedGapBefore_eq :
    iterateD roundDouble absorbedGap (fun _ => 0) 2 0 ([], initState absorbedGap) =
      some absorbedGapBefore := by
  with_unfolding_all rfl

theorem absorbedGapBefore_exec :
    ExecD roundDouble absorbedGap absorbedGapBefore.1 absorbedGapBefore.2 :=
  iterateD_exec 2 0 [] _ _ _ ExecD.start absorbedGapBefore_eq

theorem tenthService_valid : ValidDraws tenthService := by
  refine ⟨fun _ => ?_, fun _ => ?_, fun _ => ?_⟩
  · simp [tenthService]
  · show 0 < roundDouble (1 / 10)
    decide!
  · simp [tenthService]

theorem tenthServiceRun_eq :
    iterateD roundDouble tenthService (fun _ => 0) 5 0 ([], initState tenthService) =
      some tenthServiceRun := by
  with_unfolding_all rfl

theorem tenthServiceRun_exec :
    ExecD roundDouble tenthService tenthServiceRun.1 tenthServiceRun.2 :=
  iterateD_exec 5 0 [] _ _ _ ExecD.start tenthServiceRun_eq

theorem absorbedQueue_valid : ValidDraws absorbedQueue := by
  refine ⟨fun n => ?_, fun _ => ?_, fun _ => ?_⟩
  · show 0 < (if n = 2 then (1 : ℚ) else if n = 3 then 1 / 2 ^ 60
      else if n = 4 then 1 / 2 else 10)
    split_ifs <;> positivity
  · simp [absorbedQueue]
  · simp [absorbedQueue]

theorem absorbedQueueRun_eq :
    iterateD roundDouble absorbedQueue (fun _ => 0) 7 0 ([], initState absorbedQueue) =
      some absorbedQueueRun := by
  with_unfolding_all rfl

theorem absorbedQueueRun_exec :
    ExecD roundDouble absorbedQueue absorbedQueueRun.1 absorbedQueueRun.2 :=
  iterateD_exec 7 0 [] _ _ _ ExecD.start absorbedQueueRun_eq


/-! ## The order of events in double arithmetic -/

theorem rounding_id : Rounding id :=
  ⟨fun _ _ h => h, fun _ => rfl, rfl⟩

theorem rounding_nonneg (hr : Rounding rd) {q : ℚ} (h : 0 ≤ q) : 0 ≤ rd q := by
  have := hr.mono 0 q h
  rwa [hr.zero] at this

/-- A rounded sum of a rounded value and a non-negative term is not below the value. -/
theorem rounding_add_le (hr : Rounding rd) {t x : ℚ} (ht : rd t = t) (hx : 0 ≤ x) :
    t ≤ rd (t + x) := by
  have := hr.mono t (t + x) (by linarith)
  rwa [ht] at this

theorem serviceTimeD_nonneg {cfg : Config R} (hv : ValidDraws cfg) (hr : Rounding rd) (r : R) :
    0 ≤ serviceTimeD rd cfg r :=
  rounding_nonneg hr (le_of_lt (serviceTime_pos hv r))

theorem clockD_scheduleNextD {cfg : Config R} {s : State R} (hv : ValidDraws cfg)
    (hr : Rounding rd) (h : ClockD rd s) : ClockD rd (scheduleNextD rd cfg s) := by
  have ht : (scheduleNextD rd cfg s).t = s.t := (scheduleNextD_fields cfg s).2.1
  refine ⟨fun e he => ?_, by rw [ht]; exact h.fixT, fun e he => ?_⟩
  · rw [ht]
    rcases scheduleNextD_event he with he | ⟨rfl, _⟩
    · exact h.clock e he
    · exact rounding_add_le hr h.fixT (le_of_lt (hv.1 _))
  · rcases scheduleNextD_event he with he | ⟨rfl, _⟩
    · exact h.fixEv e he
    · exact hr.idem _

/-- In double arithmetic too the clock never goes back: for valid draws and a monotone
rounding no pending event is earlier than the clock. -/
theorem execD_clock {cfg : Config R} {tr : Trace R} {s : State R} (hv : ValidDraws cfg)
    (hr : Rounding rd) (h : ExecD rd cfg tr s) : ClockD rd s := by
  induction h with
  | start =>
    refine ⟨fun e he => ?_, hr.zero, fun e he => ?_⟩
    · simp [initState] at he
      subst he
      exact le_refl _
    · simp [initState] at he
      subst he
      exact hr.zero
  | @handle tr s s' i ev hex _ htop hev hle hstep ih =>
    have hI := execD_inv hex
    obtain ⟨ev0, hev0, hmin⟩ := htop
    rw [hev] at hev0
    cases hev0
    have hfix := ih.fixEv ev (mem_of_getElem? hev)
    have hdep : ∀ x k, ev.time ≤ (departureOfD rd cfg s.rng ev.time x k).time ∧
        rd (departureOfD rd cfg s.rng ev.time x k).time =
          (departureOfD rd cfg s.rng ev.time x k).time :=
      fun x k => ⟨rounding_add_le hr hfix (serviceTimeD_nonneg hv hr _), hr.idem _⟩
    cases hty : ev.type with
    | ARRIVAL =>
      obtain ⟨c, hc, h1⟩ := loopIterD_arrival_eq hI hev hty hle hstep
      rcases h1 with ⟨_, lf, _, rfl⟩ | ⟨_, rfl⟩
      · refine clockD_scheduleNextD hv hr ⟨fun e he => ?_, hfix, fun e he => ?_⟩
        · rcases List.mem_append.mp he with he | he
          · exact hmin e (mem_eraseIdx he)
          · rw [List.mem_singleton.mp he]
            exact (hdep _ _).1
        · rcases List.mem_append.mp he with he | he
          · exact ih.fixEv e (mem_eraseIdx he)
          · rw [List.mem_singleton.mp he]
            exact (hdep _ _).2
      · exact clockD_scheduleNextD hv hr
          ⟨fun e he => hmin e (mem_eraseIdx he), hfix, fun e he => ih.fixEv e (mem_eraseIdx he)⟩
    | DEPARTURE =>
      obtain ⟨c, hc, h1⟩ := loopIterD_departure_eq hI hev hty hle hstep
      rcases h1 with ⟨_, rfl⟩ | ⟨x, rest, cx, _, _, _, rfl⟩
      · exact ⟨fun e he => hmin e (mem_eraseIdx he), hfix,
          fun e he => ih.fixEv e (mem_eraseIdx he)⟩
      · refine ⟨fun e he => ?_, hfix, fun e he => ?_⟩
        · rcases List.mem_append.mp he with he | he
          · exact hmin e (mem_eraseIdx he)
          · rw [List.mem_singleton.mp he]
            exact (hdep _ _).1
        · rcases List.mem_append.mp he with he | he
          · exact ih.fixEv e (mem_eraseIdx he)
          · rw [List.mem_singleton.mp he]
            exact (hdep _ _).2
  | @cutoff tr s s' i ev hex _ htop hev hcut hstep ih =>
    obtain ⟨ev0, hev0, hmin⟩ := htop
    rw [hev] at hev0
    cases hev0
    rw [loopIterD_of_cut cfg hev hcut] at hstep
    cases hstep
    exact ⟨fun e he => hmin e (mem_eraseIdx he), ih.fixEv ev (mem_of_getElem? hev),
      fun e he => ih.fixEv e (mem_eraseIdx he)⟩
theorem pairwise_le_last_weak {l : List ℚ} {n : Nat} {a : ℚ} (h : l.Pairwise (· ≤ ·))
    (ha : l[n]? = some a) (hn : n + 1 = l.length) : ∀ b ∈ l, b ≤ a := by
  intro b hb
  obtain ⟨m, hm, rfl⟩ := List.getElem_of_mem hb
  obtain ⟨hlt, rfl⟩ := List.getElem?_eq_some_iff.mp ha
  by_cases hmn : m = n
  · subst hmn
    exact le_refl _
  · exact List.pairwise_iff_getElem.mp h m n hm hlt (by omega)

theorem arrivalsD_init (cfg : Config R) : ArrivalsD rd cfg [] (initState cfg) where
  ids := by
    intro x c hc
    have hr := getAt_some_range hc
    simp only [initState, List.length_singleton] at hr
    have hx : x = 0 := by push_cast at hr; omega
    subst hx
    simp [initState, getAt] at hc
    subst hc
    rfl
  pendArr := by
    intro e he _
    simp [initState] at he
    subst he
    exact ⟨by simp [initState], { id := 0, arrivalTime := 0 }, by simp [initState, getAt], rfl⟩
  arrSorted := List.Pairwise.nil
  arrBelow := by simp
  arrRange := by simp
  fixed := by
    intro hr c hc
    simp [initState] at hc
    subst hc
    exact hr.zero
  times := by
    intro _ _
    simp [initState]

theorem arrivalsD_cutoff {cfg : Config R} {arr : List Int} {s : State R} {i : Nat} {ev : Event}
    (h : ArrivalsD rd cfg arr s) : ArrivalsD rd cfg arr { popEvent s i ev with stopped := true } where
  ids := h.ids
  pendArr := fun e he => h.pendArr e (mem_eraseIdx he)
  arrSorted := h.arrSorted
  arrBelow := fun x hx e he => h.arrBelow x hx e (mem_eraseIdx he)
  arrRange := h.arrRange
  fixed := h.fixed
  times := h.times

/-- While an arrival is being handled no other arrival is pending. -/
theorem arrivalsD_single {cfg : Config R} {arr dep : List Int} {s : State R} {i : Nat}
    {ev e : Event} (h : ArrivalsD rd cfg arr s) (hI : Inv cfg [] dep s)
    (hev : s.events[i]? = some ev) (hty : ev.type = EventType.ARRIVAL)
    (he : e ∈ s.events.eraseIdx i) : e.type ≠ EventType.ARRIVAL := by
  intro hte
  have h1 := (h.pendArr e (mem_eraseIdx he) hte).1
  have h2 := (h.pendArr ev (mem_of_getElem? hev) hty).1
  exact inv_flight_ne (inv_pop hI hev) (mem_occ_pending (s := popEvent s i ev) he) (by omega)

/-- The ledger update of an arrival or a departure, which leaves ids and arrival times
as they are, and a queue from which only departures remain or to which one is added. -/
theorem arrivalsD_update {cfg : Config R} {arr : List Int} {s s2 : State R}
    (h : ArrivalsD rd cfg arr s)
    (hcs : ∀ x c', getAt s2.customers x = some c' →
      ∃ c, getAt s.customers x = some c ∧ c'.id = c.id ∧ c'.arrivalTime = c.arrivalTime)
    (hlen : s2.customers.length = s.customers.length)
    (hmap : (s2.customers.map fun c => c.arrivalTime) = s.customers.map fun c => c.arrivalTime)
    (hevs : ∀ e ∈ s2.events, e.type = EventType.ARRIVAL → e ∈ s.events) :
    ArrivalsD rd cfg arr s2 where
  ids := by
    intro x c' hc'
    obtain ⟨c, hc, h1, _⟩ := hcs x c' hc'
    rw [h1]
    exact h.ids x c hc
  pendArr := by
    intro e he hte
    obtain ⟨h1, c, hc, h2⟩ := h.pendArr e (hevs e he hte) hte
    have hr := getAt_some_range hc
    obtain ⟨c', hc'⟩ : ∃ c', getAt s2.customers e.customerId = some c' :=
      getAt_isSome_of_range hr.1 (by rw [hlen]; exact hr.2)
    obtain ⟨c0, hc0, _, h3⟩ := hcs _ c' hc'
    rw [hc] at hc0
    cases hc0
    exact ⟨by rw [hlen]; exact h1, c', hc', by rw [h3, h2]⟩
  arrSorted := h.arrSorted
  arrBelow := fun x hx e he hte => h.arrBelow x hx e (hevs e he hte) hte
  arrRange := fun x hx => by rw [hlen]; exact h.arrRange x hx
  fixed := fun hr c hc => by
    have hmem : c.arrivalTime ∈ s2.customers.map fun c => c.arrivalTime :=
      List.mem_map_of_mem _ hc
    rw [hmap] at hmem
    obtain ⟨c0, hc0, heq⟩ := List.mem_map.mp hmem
    rw [← heq]
    exact h.fixed hr c0 hc0
  times := fun hr hg => by rw [hmap]; exact h.times hr hg

theorem arrivalsD_scheduleNextD {cfg : Config R} {arr : List Int} {s : State R}
    (h : ArrivalsD rd cfg arr s) (hn : s.nextCustId = s.customers.length)
    (hno : ∀ e ∈ s.events, e.type ≠ EventType.ARRIVAL)
    (hfix : Rounding rd → rd s.t = s.t)
    (hlast : Rounding rd → (∀ r, 0 < (cfg.interarrival_dist r).1) →
      ∀ c ∈ s.customers, c.arrivalTime ≤ s.t) :
    ArrivalsD rd cfg arr (scheduleNextD rd cfg s) := by
  by_cases hle : rd (s.t + (cfg.interarrival_dist s.rng).1) ≤ cfg.SIM_MINUTES
  · have hcs : (scheduleNextD rd cfg s).customers = s.customers ++
        [{ id := s.nextCustId, arrivalTime := rd (s.t + (cfg.interarrival_dist s.rng).1) }] := by
      simp [scheduleNextD, hle]
    have hes : (scheduleNextD rd cfg s).events = s.events ++
        [{ time := rd (s.t + (cfg.interarrival_dist s.rng).1), type := EventType.ARRIVAL,
           customerId := s.nextCustId, serverId := -1 }] := by
      simp [scheduleNextD, hle]
    refine ⟨?_, ?_, h.arrSorted, ?_, ?_, ?_, ?_⟩
    · intro x c hc
      rw [hcs] at hc
      rcases getAt_append_cases hc with hc | ⟨h1, h2⟩
      · exact h.ids x c hc
      · rw [h2, h1, hn]
    · intro e he hte
      rw [hes] at he
      rcases List.mem_append.mp he with he | he
      · exact absurd hte (hno e he)
      · rw [List.mem_singleton.mp he, hcs]
        refine ⟨by simp [hn],
          { id := s.nextCustId, arrivalTime := rd (s.t + (cfg.interarrival_dist s.rng).1) }, ?_, rfl⟩
        simp only
        rw [hn]
        refine getAt_eq_some.mpr ⟨by omega, ?_⟩
        simp
    · intro x hx e he hte
      rw [hes] at he
      rcases List.mem_append.mp he with he | he
      · exact absurd hte (hno e he)
      · rw [List.mem_singleton.mp he]
        simp only
        rw [hn]
        exact (h.arrRange x hx).2
    · intro x hx
      rw [hcs, List.length_append, List.length_singleton]
      have := h.arrRange x hx
      push_cast
      omega
    · intro hr c hc
      rw [hcs] at hc
      rcases List.mem_append.mp hc with hc | hc
      · exact h.fixed hr c hc
      · rw [List.mem_singleton.mp hc]
        exact hr.idem _
    · intro hr hg
      rw [hcs, List.map_append]
      refine List.pairwise_append.mpr ⟨h.times hr hg, by simp, ?_⟩
      intro a ha b hb
      obtain ⟨c, hc, rfl⟩ := List.mem_map.mp ha
      simp only [List.map_cons, List.map_nil, List.mem_singleton] at hb
      rw [hb]
      exact le_trans (hlast hr hg c hc)
        (rounding_add_le hr (hfix hr) (le_of_lt (hg s.rng)))
  · have hcs : (scheduleNextD rd cfg s).customers = s.customers := by simp [scheduleNextD, hle]
    have hes : (scheduleNextD rd cfg s).events = s.events := by simp [scheduleNextD, hle]
    refine ⟨?_, ?_, h.arrSorted, ?_, ?_, ?_, ?_⟩
    · rw [hcs]; exact h.ids
    · rw [hcs, hes]; exact h.pendArr
    · rw [hes]; exact h.arrBelow
    · rw [hcs]; exact h.arrRange
    · rw [hcs]; exact h.fixed
    · rw [hcs]; exact h.times

theorem arrivalsD_arrived {cfg : Config R} {arr dep : List Int} {s u : State R} {i : Nat}
    {ev : Event} {c v : Customer} (h : ArrivalsD rd cfg arr s) (hI : Inv cfg [] dep s)
    (hev : s.events[i]? = some ev) (hty : ev.type = EventType.ARRIVAL)
    (hc : getAt s.customers ev.customerId = some c)
    (hcust : u.customers = s.customers.set ev.customerId.toNat v) (hid : v.id = c.id)
    (hat : v.arrivalTime = ev.time)
    (hevs : ∀ e ∈ u.events, e.type = EventType.ARRIVAL → e ∈ s.events.eraseIdx i) :
    ArrivalsD rd cfg (arr ++ [ev.customerId]) u ∧ (∀ e ∈ u.events, e.type ≠ EventType.ARRIVAL) ∧
      (Rounding rd → rd ev.time = ev.time) ∧
      (Rounding rd → (∀ r, 0 < (cfg.interarrival_dist r).1) →
        ∀ c' ∈ u.customers, c'.arrivalTime ≤ ev.time) := by
  have hmem := mem_of_getElem? hev
  have hr := getAt_some_range hc
  obtain ⟨hlast, c0, hc0, hat0⟩ := h.pendArr ev hmem hty
  rw [hc] at hc0
  cases hc0
  have hno : ∀ e ∈ u.events, e.type ≠ EventType.ARRIVAL := fun e he hte =>
    arrivalsD_single h hI hev hty (hevs e he hte) hte
  have hmap : (u.customers.map fun c => c.arrivalTime) = s.customers.map fun c => c.arrivalTime := by
    rw [hcust]
    exact set_same_map _ hc (by rw [hat, hat0])
  have hlen : u.customers.length = s.customers.length := by rw [hcust, List.length_set]
  have hU : ArrivalsD rd cfg arr u := by
    refine arrivalsD_update h ?_ hlen hmap fun e he hte => mem_eraseIdx (hevs e he hte)
    intro x c' hc'
    rw [hcust] at hc'
    rcases getAt_set_cases hr.1 hc' with ⟨h1, h2⟩ | ⟨_, h1⟩
    · exact ⟨c, by rw [h1]; exact hc, by rw [h2, hid], by rw [h2, hat, hat0]⟩
    · exact ⟨c', h1, rfl, rfl⟩
  refine ⟨⟨hU.ids, hU.pendArr, ?_, ?_, ?_, hU.fixed, hU.times⟩, hno, ?_, ?_⟩
  · refine List.pairwise_append.mpr ⟨h.arrSorted, by simp, ?_⟩
    intro a ha b hb
    rw [List.mem_singleton.mp hb]
    exact h.arrBelow a ha ev hmem hty
  · intro x _ e he hte
    exact absurd hte (hno e he)
  · intro x hx
    rcases List.mem_append.mp hx with hx | hx
    · exact hU.arrRange x hx
    · rw [List.mem_singleton.mp hx, hlen]
      exact hr
  · intro hr
    rw [← hat0]
    exact h.fixed hr c (getAt_mem hc)
  · intro hr hg c' hc'
    have hs := h.times hr hg
    have hget : (s.customers.map fun c => c.arrivalTime)[ev.customerId.toNat]? = some ev.time := by
      rw [List.getElem?_map, (getAt_eq_some.mp hc).2]
      simp [hat0]
    refine pairwise_le_last_weak hs hget (by rw [List.length_map]; omega) _ ?_
    rw [← hmap]
    exact List.mem_map_of_mem _ hc'

theorem arrivalsD_departed {cfg : Config R} {arr : List Int} {s u : State R}
    {ev : Event} {c v : Customer} (h : ArrivalsD rd cfg arr s)
    (hc : getAt s.customers ev.customerId = some c)
    (hcust : u.customers = s.customers.set ev.customerId.toNat v) (hid : v.id = c.id)
    (hat : v.arrivalTime = c.arrivalTime)
    (hevs : ∀ e ∈ u.events, e.type = EventType.ARRIVAL → e ∈ s.events) :
    ArrivalsD rd cfg arr u := by
  have hr := getAt_some_range hc
  refine arrivalsD_update h ?_ (by rw [hcust, List.length_set])
    (by rw [hcust]; exact set_same_map _ hc hat) hevs
  intro x c' hc'
  rw [hcust] at hc'
  rcases getAt_set_cases hr.1 hc' with ⟨h1, h2⟩ | ⟨_, h1⟩
  · exact ⟨c, by rw [h1]; exact hc, by rw [h2, hid], by rw [h2, hat]⟩
  · exact ⟨c', h1, rfl, rfl⟩

/-- In every reached state the ledger and the queue agree with the arrivals handled
along the trace. -/
theorem execD_arrivals {cfg : Config R} {tr : Trace R} {s : State R} (h : ExecD rd cfg tr s) :
    ArrivalsD rd cfg (arrivedIds tr) s := by
  induction h with
  | start => exact arrivalsD_init cfg
  | @handle tr s s' i ev hex _ _ hev hle hstep ih =>
    have hI := execD_inv hex
    have hmem := mem_of_getElem? hev
    rw [arrivedIds_snoc]
    cases hty : ev.type with
    | ARRIVAL =>
      rw [if_pos rfl]
      obtain ⟨c, hc, h1⟩ := loopIterD_arrival_eq hI hev hty hle hstep
      rcases h1 with ⟨_, lf, _, rfl⟩ | ⟨_, rfl⟩
      · obtain ⟨hA, hno, hfix, hlast⟩ := arrivalsD_arrived
          (u := servedAtArrivalD rd cfg s i ev c (findFreeServer cfg.numServers s.serverBusy) lf)
          ih hI hev hty hc rfl rfl rfl (by
            intro e he hte
            rcases List.mem_append.mp he with he | he
            · exact he
            · rw [List.mem_singleton.mp he] at hte
              simp [departureOfD] at hte)
        exact arrivalsD_scheduleNextD hA (by simpa [servedAtArrivalD] using hI.nextId) hno hfix hlast
      · obtain ⟨hA, hno, hfix, hlast⟩ := arrivalsD_arrived (u := queuedAtArrival s i ev c)
          ih hI hev hty hc rfl rfl rfl (fun e he _ => he)
        exact arrivalsD_scheduleNextD hA (by simpa [queuedAtArrival] using hI.nextId) hno hfix hlast
    | DEPARTURE =>
      rw [if_neg (by simp)]
      obtain ⟨c, hc, h1⟩ := loopIterD_departure_eq hI hev hty hle hstep
      rcases h1 with ⟨_, rfl⟩ | ⟨x, rest, cx, _, hcx, hne, rfl⟩
      · exact arrivalsD_departed (u := departedIdleD rd cfg s i ev c) ih hc rfl rfl rfl
          (fun e he _ => mem_eraseIdx he)
      · have h1 : ArrivalsD rd cfg (arrivedIds tr) (departedIdleD rd cfg s i ev c) :=
          arrivalsD_departed (u := departedIdleD rd cfg s i ev c) ih hc rfl rfl rfl
            (fun e he _ => mem_eraseIdx he)
        have hr := getAt_some_range hc
        have hcx' : getAt (departedIdleD rd cfg s i ev c).customers x = some cx := by
          simp only [departedIdleD]
          rw [getAt_set_ne hr.1 (Ne.symm hne)]
          exact hcx
        have hrx := getAt_some_range hcx'
        refine arrivalsD_update h1 ?_ (by simp [departedNextD, departedIdleD])
          (set_same_map _ hcx' rfl) ?_
        · intro y c' hc'
          rcases getAt_set_cases hrx.1 hc' with ⟨h2, h3⟩ | ⟨_, h2⟩
          · exact ⟨cx, by rw [h2]; exact hcx', by rw [h3], by rw [h3]⟩
          · exact ⟨c', h2, rfl, rfl⟩
        · intro e he hte
          rcases List.mem_append.mp he with he | he
          · exact he
          · rw [List.mem_singleton.mp he] at hte
            simp [departureOfD] at hte
  | @cutoff tr s s' i ev hex _ _ hev hcut hstep ih =>
    rcases loopIterD_cases hev hstep with ⟨_, rfl⟩ | ⟨hle, _⟩ | ⟨hle, _⟩
    · exact arrivalsD_cutoff ih
    · exact absurd hcut (not_lt.mpr hle)
    · exact absurd hcut (not_lt.mpr hle)

theorem queueD_step {cfg : Config R} {tr : Trace R} {s s' : State R} {i : Nat} {ev : Event}
    (hex : ExecD rd cfg tr s) (h : Queue cfg tr s) (hev : s.events[i]? = some ev)
    (hle : ev.time ≤ cfg.SIM_MINUTES) (hstep : loopIterD rd cfg s i = some s') :
    Queue cfg (tr ++ [(s, ev)]) s' := by
  have hI := execD_inv hex
  have hSt := execD_started hex
  have hmem := mem_of_getElem? hev
  have hnw : ev.customerId ∉ s.waitingQueue := inv_pending_not_waiting hI hmem
  have hnd : ev.customerId ∉ departedIds tr := inv_pending_not_departed hI hmem
  cases hty : ev.type with
  | ARRIVAL =>
    have hns : ev.customerId ∉ startedIds cfg tr := by
      intro hx
      obtain ⟨σ, hσ, heq⟩ := List.mem_map.mp hx
      exact (hSt.away σ hσ).2 ev hmem hty heq.symm
    obtain ⟨c, hc, h1⟩ := loopIterD_arrival_eq hI hev hty hle hstep
    rcases h1 with ⟨hfree, lf, _, rfl⟩ | ⟨hno, rfl⟩
    · have hq : (scheduleNextD rd cfg (servedAtArrivalD rd cfg s i ev c
          (findFreeServer cfg.numServers s.serverBusy) lf)).waitingQueue = s.waitingQueue :=
        (scheduleNextD_fields cfg _).1
      refine ⟨fun x => ?_, ?_, ?_⟩
      · rw [hq, arrivedIds_snoc, if_pos hty, startedIds_snoc, startOf_arrival_free hty hfree,
          departedIds_snoc, if_neg (by simp [hty]), h.wl x]
        simp only [Option.toList, List.map_cons, List.map_nil, List.mem_append,
          List.mem_singleton, not_or]
        constructor
        · rintro ⟨h1, h2, h3⟩
          refine ⟨Or.inl h1, ⟨h2, fun heq => ?_⟩, h3⟩
          exact hnw (heq ▸ (h.wl x).mpr ⟨h1, h2, h3⟩)
        · rintro ⟨h1 | h1, ⟨h2, h3⟩, h4⟩
          · exact ⟨h1, h2, h4⟩
          · exact absurd h1 h3
      · rw [hq, waitedIds_snoc, if_neg (by simp [not_lt.mpr hfree]), queueStarts_snoc_ids,
          if_neg (by simp [hty])]
        exact h.fifo
      · rw [waitedIds_snoc, if_neg (by simp [not_lt.mpr hfree]), arrivedIds_snoc, if_pos hty]
        exact h.waitedSub.trans (List.sublist_append_left _ _)
    · have hq : (scheduleNextD rd cfg (queuedAtArrival s i ev c)).waitingQueue =
          s.waitingQueue ++ [ev.customerId] := (scheduleNextD_fields cfg _).1
      refine ⟨fun x => ?_, ?_, ?_⟩
      · rw [hq, arrivedIds_snoc, if_pos hty, startedIds_snoc, startOf_arrival_busy hty hno,
          departedIds_snoc, if_neg (by simp [hty])]
        simp only [Option.toList, List.map_nil, List.append_nil, List.mem_append,
          List.mem_singleton]
        rw [h.wl x]
        constructor
        · rintro (⟨h1, h2, h3⟩ | h1)
          · exact ⟨Or.inl h1, h2, h3⟩
          · rw [h1]
            exact ⟨Or.inr rfl, hns, hnd⟩
        · rintro ⟨h1 | h1, h2, h3⟩
          · exact Or.inl ⟨h1, h2, h3⟩
          · exact Or.inr h1
      · rw [hq, waitedIds_snoc, if_pos ⟨hty, hno⟩, queueStarts_snoc_ids, if_neg (by simp [hty]),
          h.fifo, List.append_assoc]
      · rw [waitedIds_snoc, if_pos ⟨hty, hno⟩, arrivedIds_snoc, if_pos hty]
        exact h.waitedSub.append (List.Sublist.refl _)
  | DEPARTURE =>
    obtain ⟨c, hc, h1⟩ := loopIterD_departure_eq hI hev hty hle hstep
    rcases h1 with ⟨hq, rfl⟩ | ⟨x0, rest, cx, hq, hcx, hne, rfl⟩
    · have hq' : (departedIdleD rd cfg s i ev c).waitingQueue = [] := hq
      refine ⟨fun x => ?_, ?_, ?_⟩
      · rw [hq', arrivedIds_snoc, if_neg (by simp [hty]), startedIds_snoc,
          startOf_departure_empty hty hq, departedIds_snoc, if_pos hty]
        simp only [Option.toList, List.map_nil, List.append_nil, List.mem_append,
          List.mem_singleton, not_or, List.not_mem_nil, false_iff, not_and, not_not]
        intro h1 h2 h3
        have := (h.wl x).mpr ⟨h1, h2, h3⟩
        rw [hq] at this
        simp at this
      · rw [hq', waitedIds_snoc, if_neg (by simp [hty]), queueStarts_snoc_ids, if_pos hty,
          startOf_departure_empty hty hq]
        simp only [Option.toList, List.map_nil, List.append_nil]
        rw [h.fifo, hq, List.append_nil]
      · rw [waitedIds_snoc, if_neg (by simp [hty]), arrivedIds_snoc, if_neg (by simp [hty])]
        exact h.waitedSub
    · have hq' : (departedNextD rd cfg s i ev c x0 rest cx).waitingQueue = rest := rfl
      have hwn := inv_waiting_nodup hI
      rw [hq] at hwn
      refine ⟨fun x => ?_, ?_, ?_⟩
      · rw [hq', arrivedIds_snoc, if_neg (by simp [hty]), startedIds_snoc,
          startOf_departure_next hty hq, departedIds_snoc, if_pos hty]
        simp only [Option.toList, List.map_cons, List.map_nil, List.mem_append,
          List.mem_singleton, not_or]
        constructor
        · intro hx
          have hxw : x ∈ s.waitingQueue := by rw [hq]; exact List.mem_cons_of_mem _ hx
          obtain ⟨h1, h2, h3⟩ := (h.wl x).mp hxw
          refine ⟨h1, ⟨h2, fun heq => ?_⟩, h3, fun heq => ?_⟩
          · exact (List.nodup_cons.mp hwn).1 (heq ▸ hx)
          · exact hnw (heq ▸ hxw)
        · rintro ⟨h1, ⟨h2, h3⟩, h4, _⟩
          have := (h.wl x).mpr ⟨h1, h2, h4⟩
          rw [hq] at this
          rcases List.mem_cons.mp this with h5 | h5
          · exact absurd h5 h3
          · exact h5
      · rw [hq', waitedIds_snoc, if_neg (by simp [hty]), queueStarts_snoc_ids, if_pos hty,
          startOf_departure_next hty hq]
        simp only [Option.toList, List.map_cons, List.map_nil]
        rw [h.fifo, hq]
        simp
      · rw [waitedIds_snoc, if_neg (by simp [hty]), arrivedIds_snoc, if_neg (by simp [hty])]
        exact h.waitedSub

/-- In every state reached in double arithmetic the waiting line agrees with the trace. -/
theorem execD_queue {cfg : Config R} {tr : Trace R} {s : State R} (h : ExecD rd cfg tr s) :
    Queue cfg tr s := by
  induction h with
  | start => exact queue_init cfg
  | handle hex _ _ hev hle hstep ih => exact queueD_step hex ih hev hle hstep
  | @cutoff tr s s' i ev hex _ _ hev hcut hstep ih =>
    rcases loopIterD_cases hev hstep with ⟨_, rfl⟩ | ⟨hle, _⟩ | ⟨hle, _⟩
    · exact ⟨ih.wl, ih.fifo, ih.waitedSub⟩
    · exact absurd hcut (not_lt.mpr hle)
    · exact absurd hcut (not_lt.mpr hle)

/-- For valid draws and a monotone rounding the service starts are performed at
nondecreasing times, none after the clock. -/
theorem execD_starts_sorted {cfg : Config R} {tr : Trace R} {s : State R} (hv : ValidDraws cfg)
    (hr : Rounding rd) (h : ExecD rd cfg tr s) :
    (serviceStarts cfg tr).Pairwise (fun a b => a.time ≤ b.time) ∧
      ∀ σ ∈ serviceStarts cfg tr, σ.time ≤ s.t := by
  induction h with
  | start => simp [serviceStarts]
  | @handle tr s s' i ev hex _ _ hev hle hstep ih =>
    have hclock := (execD_clock hv hr hex).clock ev (mem_of_getElem? hev)
    have ht := (loopIterD_clock hev hstep).1
    rw [serviceStarts_snoc]
    cases hσ : startOf cfg (s, ev) with
    | none =>
      simp only [Option.toList, List.append_nil]
      exact ⟨ih.1, fun σ h1 => by rw [ht]; exact le_trans (ih.2 σ h1) hclock⟩
    | some σ0 =>
      have h0 := startOf_time hσ
      simp only [Option.toList]
      refine ⟨List.pairwise_append.mpr ⟨ih.1, by simp, ?_⟩, ?_⟩
      · intro a ha b hb
        rw [List.mem_singleton.mp hb, h0]
        exact le_trans (ih.2 a ha) hclock
      · intro σ h1
        rw [ht]
        rcases List.mem_append.mp h1 with h1 | h1
        · exact le_trans (ih.2 σ h1) hclock
        · rw [List.mem_singleton.mp h1, h0]
  | @cutoff tr s s' i ev hex _ _ hev hcut hstep ih =>
    have hclock := (execD_clock hv hr hex).clock ev (mem_of_getElem? hev)
    have ht := (loopIterD_clock hev hstep).1
    exact ⟨ih.1, fun σ h1 => by rw [ht]; exact le_trans (ih.2 σ h1) hclock⟩


theorem arrival_times_mono {cfg : Config R} {arr : List Int} {s : State R}
    (h : ArrivalsD rd cfg arr s) (hr : Rounding rd)
    (hg : ∀ r, 0 < (cfg.interarrival_dist r).1) {x y : Int}
    {cx cy : Customer} (hx : getAt s.customers x = some cx) (hy : getAt s.customers y = some cy)
    (hlt : x < y) : cx.arrivalTime ≤ cy.arrivalTime := by
  obtain ⟨hx0, hx1⟩ := getAt_eq_some.mp hx
  obtain ⟨hy0, hy1⟩ := getAt_eq_some.mp hy
  obtain ⟨hxl, hxe⟩ := List.getElem?_eq_some_iff.mp hx1
  obtain ⟨hyl, hye⟩ := List.getElem?_eq_some_iff.mp hy1
  have := List.pairwise_iff_getElem.mp (h.times hr hg) x.toNat y.toNat
    (by simpa using hxl) (by simpa using hyl) (by omega)
  simpa [hxe, hye] using this

/-! ## The claims -/

/-- C1. Monotonic lifecycle: for every number of servers, every horizon and all draws
with positive gaps, positive base durations and scoop counts in {1,2,3}, in every state
reached by a run every customer whose departure has been handled has a ledger entry
with `departureTime >= serviceStart >= arrivalTime`, the departure time being the time
of the handled event.  Runs range over every order in which the queue may return
events of equal time, and over customers served at arrival and from the waiting
line alike. -/
theorem C1_monotonic_lifecycle {cfg : Config R} {tr : Trace R} {s : State R}
    (hv : ValidDraws cfg) (h : Exec cfg tr s) (p : State R × Event) (hp : p ∈ tr)
    (hty : p.2.type = EventType.DEPARTURE) :
    ∃ c, getAt s.customers p.2.customerId = some c ∧ c.departureTime = p.2.time ∧
      c.arrivalTime ≤ c.serviceStart ∧ c.serviceStart ≤ c.departureTime := by
  have hmem := mem_departedEvents hp hty
  obtain ⟨c, hc, h1, h2⟩ := (exec_timing hv h).done p.2 hmem
  obtain ⟨_, c', hc', hd⟩ := (exec_good h).2.depRecord p.2 hmem
  rw [hc] at hc'
  cases hc'
  exact ⟨c, hc, hd, h1, h2⟩

/-- Witness of C1: customer 0 in the run of scenario 1. -/
theorem C1_monotonic_lifecycle_witness :
    ValidDraws scenario1 ∧ Exec scenario1 scenario1Run.1 scenario1Run.2 ∧
    scenario1Departure ∈ scenario1Run.1 ∧
    scenario1Departure.2.type = EventType.DEPARTURE ∧
    ∃ c, getAt scenario1Run.2.customers scenario1Departure.2.customerId = some c ∧
      c.departureTime = scenario1Departure.2.time ∧
      c.arrivalTime ≤ c.serviceStart ∧ c.serviceStart ≤ c.departureTime :=
  ⟨scenario1_valid, scenario1Run_exec, by decide!, by decide!,
    C1_monotonic_lifecycle scenario1_valid scenario1Run_exec scenario1Departure
      (by decide!) (by decide!)⟩

/-- C3. In every state reached by a run `servedCount` is at most `customers.size()`:
it counts the handled departures, no customer has its departure handled twice, and
every handled departure names a customer that was in the ledger when the event was
popped. -/
theorem C3_served_le_created {cfg : Config R} {tr : Trace R} {s : State R}
    (h : Exec cfg tr s) :
    s.servedCount ≤ (s.customers.length : Int) ∧
    s.servedCount = ((departedIds tr).length : Int) ∧ (departedIds tr).Nodup ∧
    ∀ tr0 p tr1, tr = tr0 ++ p :: tr1 → p.2.type = EventType.DEPARTURE →
      ∃ c, getAt p.1.customers p.2.customerId = some c := by
  obtain ⟨hI, hA⟩ := exec_good h
  have hnd : (departedIds tr).Nodup := by
    have hnd := hI.nodup
    simp only [occ, List.nil_append] at hnd
    exact (List.nodup_append.mp (List.nodup_append.mp hnd).2.1).2.1
  have hlen : (departedIds tr).length ≤ s.customers.length :=
    nodup_int_length_le hnd fun x hx => hI.range x (by simp [occ, hx])
  have hserved : s.servedCount = ((departedIds tr).length : Int) := by
    rw [hA.served, departedIds, List.length_map]
  refine ⟨by rw [hserved]; exact_mod_cast hlen, hserved, hnd, ?_⟩
  intro tr0 p tr1 heq _
  obtain ⟨hex0, _, _, i, s', _, hev, _, _⟩ := exec_trace h tr0 p tr1 heq
  have hr := (exec_good hex0).1.range p.2.customerId (mem_occ_pending (mem_of_getElem? hev))
  exact getAt_isSome_of_range hr.1 hr.2

/-- Witness of C3: the run of scenario 1. -/
theorem C3_served_le_created_witness :
    Exec scenario1 scenario1Run.1 scenario1Run.2 ∧
    scenario1Run.2.servedCount ≤ (scenario1Run.2.customers.length : Int) :=
  ⟨scenario1Run_exec, (C3_served_le_created scenario1Run_exec).1⟩

/-- C4. In every state reached by a run:
(1) a customer whose handled arrival found a free server has a ledger entry with
`serviceStart = arrivalTime`, and the iteration that handles its departure leaves
`totalWaitingTime` unchanged (the wait added is exactly 0);
(2) if every handled arrival found a free server, so that no customer was ever
appended to the waiting line, then the waiting line is empty, `totalWaitingTime = 0`
and the finalized average wait is 0. -/
theorem C4_immediate_service_zero_wait {cfg : Config R} {tr : Trace R} {s : State R}
    (h : Exec cfg tr s) :
    (∀ p ∈ tr, p.2.type = EventType.ARRIVAL →
      0 ≤ findFreeServer cfg.numServers p.1.serverBusy →
      (∃ c, getAt s.customers p.2.customerId = some c ∧ c.serviceStart = c.arrivalTime) ∧
      ∀ tr0 q tr1 i s', tr = tr0 ++ q :: tr1 → q.2.type = EventType.DEPARTURE →
        q.2.customerId = p.2.customerId → q.1.events[i]? = some q.2 →
        loopIter cfg q.1 i = some s' → s'.totalWaitingTime = q.1.totalWaitingTime) ∧
    ((∀ p ∈ tr, p.2.type = EventType.ARRIVAL →
        0 ≤ findFreeServer cfg.numServers p.1.serverBusy) →
      s.waitingQueue = [] ∧ s.totalWaitingTime = 0 ∧ avgWait s = 0) := by
  have hA := (exec_good h).2
  constructor
  · intro p hp hty hfree
    have hx : p.2.customerId ∈ immediateIds cfg tr :=
      mem_immediateIds.mpr ⟨p, hp, hty, hfree, rfl⟩
    refine ⟨(hA.immRecord _ hx).2.2.2, ?_⟩
    intro tr0 q tr1 i s' heq hqty hqx hev hstep
    obtain ⟨hex0, _, hle, _⟩ := exec_trace h tr0 q tr1 heq
    have hx0 := imm_before_departure h heq hqty (hqx ▸ hx)
    obtain ⟨c, hc, hss⟩ := ((exec_good hex0).2.immRecord _ hx0).2.2.2
    obtain ⟨c', hc', hw⟩ := loopIter_departure_wait hev hqty hle hstep
    rw [hc] at hc'
    cases hc'
    rw [hw, hss, sub_self, max_self, add_zero]
  · intro hnw
    obtain ⟨hq, _, hdone⟩ := nowait_inv h hnw
    have hzero : s.totalWaitingTime = 0 := by
      rw [hA.waitTotal]
      apply List.sum_eq_zero
      intro w hw
      obtain ⟨e, he, rfl⟩ := List.mem_map.mp hw
      obtain ⟨c, hc, hss⟩ := (hA.immRecord _ (hdone e he)).2.2.2
      rw [waitOf, hc]
      simp only
      rw [hss, sub_self, max_self]
    refine ⟨hq, hzero, ?_⟩
    unfold avgWait
    rw [hzero]
    simp

/-- Witness of C4: customer 0 in the run of scenario 1, in which every arrival finds
the server free. -/
theorem C4_immediate_service_zero_wait_witness :
    Exec scenario1 scenario1Run.1 scenario1Run.2 ∧
    scenario1Arrival ∈ scenario1Run.1 ∧ scenario1Arrival.2.type = EventType.ARRIVAL ∧
    0 ≤ findFreeServer scenario1.numServers scenario1Arrival.1.serverBusy ∧
    (∃ c, getAt scenario1Run.2.customers scenario1Arrival.2.customerId = some c ∧
      c.serviceStart = c.arrivalTime) ∧
    scenario1Run.1 = scenario1Run.1.take 1 ++ scenario1Departure :: scenario1Run.1.drop 2 ∧
    scenario1Departure.2.type = EventType.DEPARTURE ∧
    scenario1Departure.2.customerId = scenario1Arrival.2.customerId ∧
    scenario1Departure.1.events[0]? = some scenario1Departure.2 ∧
    loopIter scenario1 scenario1Departure.1 0 = some scenario1AfterDeparture ∧
    scenario1AfterDeparture.totalWaitingTime = scenario1Departure.1.totalWaitingTime ∧
    (∀ p ∈ scenario1Run.1, p.2.type = EventType.ARRIVAL →
      0 ≤ findFreeServer scenario1.numServers p.1.serverBusy) ∧
    scenario1Run.2.waitingQueue = [] ∧ scenario1Run.2.totalWaitingTime = 0 ∧
    avgWait scenario1Run.2 = 0 :=
  ⟨scenario1Run_exec, by decide!, by decide!, by decide!,
    ((C4_immediate_service_zero_wait scenario1Run_exec).1 scenario1Arrival (by decide!)
      (by decide!) (by decide!)).1,
    by decide!, by decide!, by decide!, by decide!, by decide!,
    ((C4_immediate_service_zero_wait scenario1Run_exec).1 scenario1Arrival (by decide!)
      (by decide!) (by decide!)).2 (scenario1Run.1.take 1) scenario1Departure
      (scenario1Run.1.drop 2) 0 scenario1AfterDeparture
      (by decide!) (by decide!) (by decide!) (by decide!) (by decide!),
    by decide!,
    (C4_immediate_service_zero_wait scenario1Run_exec).2 (by decide!)⟩

/-- C5. Boundary `simMinutes = 0`: for every number of servers and all draws with
positive gaps, positive base durations and scoop counts in {1,2,3}, whichever way ties
are resolved the run with horizon 0 ends (within two iterations) with `servedCount = 0`;
the finalized throughput, average wait and average service are 0, and finalization
evaluates no division by zero. -/
theorem C5_zero_horizon {cfg : Config R} (hv : ValidDraws cfg) (hH : cfg.SIM_MINUTES = 0)
    (sched : Nat → Nat) :
    ∃ y, runSched cfg sched 3 = some y ∧ y.2.servedCount = 0 ∧
      throughputPerMin cfg y.2 = 0 ∧ avgWait y.2 = 0 ∧ avgService y.2 = 0 ∧
      finalize cfg y.2 = some (0, 0, 0) := by
  obtain ⟨y, hy, hserved⟩ := runSched_of_allRuns (zero_horizon_allRuns hv hH) sched
  refine ⟨y, hy, hserved, ?_, ?_, ?_, ?_⟩
  · simp [throughputPerMin, hH]
  · simp [avgWait, hserved]
  · simp [avgService, hserved]
  · simp [finalize, hserved, hH]

/-- Witness of C5: scenario 1 with the horizon set to 0. -/
theorem C5_zero_horizon_witness :
    ValidDraws scenario0 ∧ scenario0.SIM_MINUTES = 0 ∧
    ∃ y, runSched scenario0 (fun _ => 0) 3 = some y ∧ y.2.servedCount = 0 ∧
      throughputPerMin scenario0 y.2 = 0 ∧ avgWait y.2 = 0 ∧ avgService y.2 = 0 ∧
      finalize scenario0 y.2 = some (0, 0, 0) :=
  ⟨scenario0_valid, rfl, C5_zero_horizon scenario0_valid rfl (fun _ => 0)⟩

/-- C6 as stated fails: the run of scenario 1 ends with six customer records, the last
one with arrival time 5, whose arrival at `t = 5` is handled. -/
theorem C6_counterexample :
    runSched scenario1 (fun _ => 0) 13 = some scenario1Run ∧
    scenario1Run.2.customers.map (fun c => c.arrivalTime) = [0, 1, 2, 3, 4, 5] ∧
    handledArrivals scenario1Run.1 = [(0, 0), (1, 1), (2, 2), (3, 3), (4, 4), (5, 5)] :=
  ⟨scenario1Run_eq, by decide!, by decide!⟩

/-- C6, amended. Scenario 1 (one server, gaps 1, base durations 1, one scoop, horizon
5): whichever way ties are resolved the run ends, and the customers created are exactly
six, with ids 0..5 and arrival times 0, 1, 2, 3, 4 and 5; their six arrivals are all
handled.  The stream is truncated after `t = 5`: no record and no arrival event with a
time above 5 is created, and no arrival is left in the queue. -/
theorem C6_scenario1_arrivals (sched : Nat → Nat) :
    ∃ y, runSched scenario1 sched 13 = some y ∧
      y.2.customers.map (fun c => (c.id, c.arrivalTime)) =
        [(0, 0), (1, 1), (2, 2), (3, 3), (4, 4), (5, 5)] ∧
      handledArrivals y.1 = [(0, 0), (1, 1), (2, 2), (3, 3), (4, 4), (5, 5)] ∧
      (∀ e ∈ y.2.events, e.type ≠ EventType.ARRIVAL) ∧ y.2.nextCustId = 6 := by
  have hcheck : checkAll scenario1 (fun _ => true)
      (fun y => decide (finished y.2) &&
        decide (y.2.customers.map (fun c => (c.id, c.arrivalTime)) =
            [(0, 0), (1, 1), (2, 2), (3, 3), (4, 4), (5, 5)] ∧
          handledArrivals y.1 = [(0, 0), (1, 1), (2, 2), (3, 3), (4, 4), (5, 5)] ∧
          (∀ e ∈ y.2.events, e.type ≠ EventType.ARRIVAL) ∧ y.2.nextCustId = 6))
      13 ([], initState scenario1) = true := by decide!
  obtain ⟨y, hy, hP⟩ := runSched_of_checkAll hcheck sched
  exact ⟨y, hy, of_decide_eq_true hP⟩

/-- C7. Scenario 1 (one server, gaps 1, base durations 1, one scoop, horizon 5):
whichever of the departure and the arrival that share a timestamp the queue returns
first, the run ends; every customer whose departure has been handled started service
at its own arrival time; the services are back to back (customer `k` is served from
`k` to `k + 1`); `totalWaitingTime = 0`; and the finalized throughput is
`servedCount / 5`, with `servedCount = 5`. -/
theorem C7_scenario1_service (sched : Nat → Nat) :
    ∃ y, runSched scenario1 sched 13 = some y ∧
      (∀ p ∈ y.1, p.2.type = EventType.DEPARTURE →
        ∃ c, getAt y.2.customers p.2.customerId = some c ∧ c.serviceStart = c.arrivalTime) ∧
      y.2.customers.map (fun c => (c.arrivalTime, c.serviceStart, c.departureTime)) =
        [(0, 0, 1), (1, 1, 2), (2, 2, 3), (3, 3, 4), (4, 4, 5), (5, 5, -1)] ∧
      y.2.totalWaitingTime = 0 ∧ avgWait y.2 = 0 ∧
      throughputPerMin scenario1 y.2 = (y.2.servedCount : ℚ) / 5 ∧ y.2.servedCount = 5 := by
  have hcheck : checkAll scenario1 (fun _ => true)
      (fun y => decide (finished y.2) &&
        decide ((∀ p ∈ y.1, p.2.type = EventType.DEPARTURE →
            (getAt y.2.customers p.2.customerId).any
              (fun c => decide (c.serviceStart = c.arrivalTime)) = true) ∧
          y.2.customers.map (fun c => (c.arrivalTime, c.serviceStart, c.departureTime)) =
            [(0, 0, 1), (1, 1, 2), (2, 2, 3), (3, 3, 4), (4, 4, 5), (5, 5, -1)] ∧
          y.2.totalWaitingTime = 0 ∧ avgWait y.2 = 0 ∧
          throughputPerMin scenario1 y.2 = (y.2.servedCount : ℚ) / 5 ∧ y.2.servedCount = 5))
      13 ([], initState scenario1) = true := by decide!
  obtain ⟨y, hy, hP⟩ := runSched_of_checkAll hcheck sched
  obtain ⟨h1, h2⟩ := of_decide_eq_true hP
  refine ⟨y, hy, fun p hp hty => ?_, h2⟩
  obtain ⟨c, hc, hss⟩ := option_any_eq_true (h1 p hp hty)
  exact ⟨c, hc, of_decide_eq_true hss⟩

/-- C8. Scenario 2 (two servers, gaps 1/2, base durations 3, one scoop) with any
horizon `>= 3`, whichever way ties are resolved.  The first eight iterations are
defined and handle their events, and:
(1) the first three handle the arrivals of customers 0, 1 and 2 at times 0, 1/2 and 1;
the scan for a free server returns 0 for customer 0, 1 for customer 1 and -1 (none) for
customer 2;
(2) the next iteration starts with servers 0 and 1 serving customers 0 and 1 and with
the waiting line holding exactly customer 2;
(3) in the ledger customers 0 and 1 have `serviceStart = arrivalTime` (wait 0) and
customer 2, arrived at 1, has `serviceStart = 3`;
(4) in every state from which one of these iterations starts the service start of
customer 2 is unset, or is 3 with the clock at 3: it does not start before `t = 3`;
(5) the iteration that handles the departure of customer 0 from server 0 at `t = 3`
starts with customer 2 at the head of the waiting line, its service not yet started,
and after the eight iterations server 0 serves customer 2. -/
theorem C8_scenario2 (H : ℚ) (hH : 3 ≤ H) (sched : Nat → Nat) :
    ∃ y, iterate (scenario2 H) sched 8 0 ([], initState (scenario2 H)) = some y ∧
      (y.1.take 3).map (fun p =>
          (p.2.type, p.2.customerId, p.2.time, findFreeServer 2 p.1.serverBusy)) =
        [(EventType.ARRIVAL, 0, 0, 0), (EventType.ARRIVAL, 1, 1 / 2, 1),
          (EventType.ARRIVAL, 2, 1, -1)] ∧
      (y.1.drop 3).head?.map (fun p => (p.1.serverServingCustomer, p.1.waitingQueue)) =
        some ([0, 1], [2]) ∧
      (y.2.customers.take 3).map (fun c => (c.id, c.arrivalTime, c.serviceStart)) =
        [(0, 0, 0), (1, 1 / 2, 1 / 2), (2, 1, 3)] ∧
      (∀ p ∈ y.1, ∀ c, getAt p.1.customers 2 = some c →
        c.serviceStart = -1 ∨ (c.serviceStart = 3 ∧ p.1.t = 3)) ∧
      (∃ p ∈ y.1, p.2 = scenario2Departure ∧ p.1.waitingQueue.head? = some 2 ∧
        (getAt p.1.customers 2).map (fun c => c.serviceStart) = some (-1)) ∧
      getAt y.2.serverServingCustomer 0 = some 2 := by
  obtain ⟨y, hy, hc⟩ := scenario2_outcome H hH sched
  simp only [scenario2Check, Bool.and_eq_true, decide_eq_true_eq, List.all_eq_true,
    List.any_eq_true] at hc
  obtain ⟨⟨⟨⟨⟨h1, h2⟩, h3⟩, h4⟩, h5⟩, h6⟩ := hc
  refine ⟨y, hy, h1, h2, h3, fun p hp c hpc => ?_, h5, h6⟩
  exact of_decide_eq_true (option_all_eq_true (h4 p hp) c hpc)

/-- Witness of C8: horizon 4, ties resolved in favour of the event that comes first in
the queue list. -/
theorem C8_scenario2_witness :
    (3 : ℚ) ≤ 4 ∧
    ∃ y, iterate (scenario2 4) (fun _ => 0) 8 0 ([], initState (scenario2 4)) = some y ∧
      (y.2.customers.take 3).map (fun c => (c.id, c.arrivalTime, c.serviceStart)) =
        [(0, 0, 0), (1, 1 / 2, 1 / 2), (2, 1, 3)] ∧
      getAt y.2.serverServingCustomer 0 = some 2 :=
  ⟨by norm_num, (C8_scenario2 4 (by norm_num) (fun _ => 0)).imp
    fun _ h => ⟨h.1, h.2.2.2.1, h.2.2.2.2.2.2⟩⟩

/-- C9 as stated fails: in scenario 1 (horizon 5) the run ends with the clock at 6,
the time of the discarded departure. -/
theorem C9_counterexample :
    Exec scenario1 scenario1Run.1 scenario1Run.2 ∧ 0 ≤ scenario1.SIM_MINUTES ∧
    scenario1.SIM_MINUTES < scenario1Run.2.t :=
  ⟨scenario1Run_exec, by decide!, by decide!⟩

/-- C9, amended. For a horizon `>= 0`, in every state reached by a run: while the loop
has not met the cutoff (at loop entry and after every handled event) the clock is at
most `SIM_MINUTES`; once the loop has stopped at the cutoff the clock holds the time of
the discarded event, which is greater than `SIM_MINUTES`. -/
theorem C9_clock_until_cutoff {cfg : Config R} {tr : Trace R} {s : State R}
    (h0 : 0 ≤ cfg.SIM_MINUTES) (h : Exec cfg tr s) :
    (s.stopped = false → s.t ≤ cfg.SIM_MINUTES) ∧
    (s.stopped = true → cfg.SIM_MINUTES < s.t) ∧
    ∀ i ev s', ¬ finished s → s.events[i]? = some ev → loopIter cfg s i = some s' →
      s'.t = ev.time ∧ (s'.stopped = true ↔ cfg.SIM_MINUTES < ev.time) := by
  obtain ⟨h1, h2⟩ := exec_clock h0 h
  refine ⟨h1, h2, fun i ev s' hnf hev hstep => ?_⟩
  obtain ⟨ht, hcut, hle⟩ := loopIter_clock hev hstep
  refine ⟨ht, ⟨fun hst => ?_, hcut⟩⟩
  by_contra hn
  have hs := hle (not_lt.mp hn)
  rw [hst] at hs
  exact hnf (Or.inl hs.symm)

/-- Witness of the amended C9: the last iteration of the run of scenario 1. -/
theorem C9_clock_until_cutoff_witness :
    0 ≤ scenario1.SIM_MINUTES ∧ Exec scenario1 scenario1BeforeCutoff.1 scenario1BeforeCutoff.2 ∧
    (scenario1BeforeCutoff.2.stopped = false → scenario1BeforeCutoff.2.t ≤ scenario1.SIM_MINUTES) ∧
    ¬ finished scenario1BeforeCutoff.2 ∧ scenario1BeforeCutoff.2.events[0]? = some scenario1LastDeparture ∧
    loopIter scenario1 scenario1BeforeCutoff.2 0 = some scenario1Run.2 ∧
    scenario1Run.2.t = scenario1LastDeparture.time ∧
    (scenario1Run.2.stopped = true ↔ scenario1.SIM_MINUTES < scenario1LastDeparture.time) :=
  ⟨by decide!, scenario1BeforeCutoff_exec,
    (C9_clock_until_cutoff (by decide!) scenario1BeforeCutoff_exec).1, by decide!, by decide!,
    by decide!,
    (C9_clock_until_cutoff (by decide!) scenario1BeforeCutoff_exec).2.2 0 scenario1LastDeparture
      scenario1Run.2 (by decide!) (by decide!) (by decide!)⟩

/-- C10. Horizon cutoff without processing.  In every state `s` reached by a run:
(1) an iteration that pops an event with `time > SIM_MINUTES` is defined and ends the
loop at once, whatever else is queued, leaving the server pool, the waiting line, the
ledger and the five totals as they were (only the popped event leaves the queue and
the clock is set);
(2) every handled event has `time <= SIM_MINUTES`;
(3) every time in the ledger is bounded by the horizon: a `serviceStart` or
`departureTime` is unset (`-1`) or `<= SIM_MINUTES`, and once an event has been handled
every `arrivalTime` is `<= SIM_MINUTES`;
(4) `servedCount` is the number of handled departures, each with
`time <= SIM_MINUTES`. -/
theorem C10_horizon_cutoff {cfg : Config R} {tr : Trace R} {s : State R}
    (h : Exec cfg tr s) :
    (∀ i ev, s.events[i]? = some ev → cfg.SIM_MINUTES < ev.time →
      ∃ s', loopIter cfg s i = some s' ∧ finished s' ∧
        s'.events = s.events.eraseIdx i ∧
        s'.serverBusy = s.serverBusy ∧ s'.serverServingCustomer = s.serverServingCustomer ∧
        s'.serverLastFreeTime = s.serverLastFreeTime ∧ s'.waitingQueue = s.waitingQueue ∧
        s'.customers = s.customers ∧ s'.nextCustId = s.nextCustId ∧
        s'.totalWaitingTime = s.totalWaitingTime ∧ s'.totalServiceTime = s.totalServiceTime ∧
        s'.servedCount = s.servedCount ∧ s'.totalRevenue = s.totalRevenue ∧
        s'.idleTimeAcc = s.idleTimeAcc) ∧
    (∀ p ∈ tr, p.2.time ≤ cfg.SIM_MINUTES) ∧
    (∀ c ∈ s.customers, (tr ≠ [] → c.arrivalTime ≤ cfg.SIM_MINUTES) ∧
      (c.serviceStart = -1 ∨ c.serviceStart ≤ cfg.SIM_MINUTES) ∧
      (c.departureTime = -1 ∨ c.departureTime ≤ cfg.SIM_MINUTES)) ∧
    s.servedCount = ((departedEvents tr).length : Int) ∧
    ∀ e ∈ departedEvents tr, e.time ≤ cfg.SIM_MINUTES := by
  have htime : ∀ p ∈ tr, p.2.time ≤ cfg.SIM_MINUTES := fun p hp => by
    obtain ⟨tr0, tr1, rfl⟩ := List.append_of_mem hp
    exact (exec_trace h tr0 p tr1 rfl).2.2.1
  refine ⟨fun i ev hev hcut => ?_, htime, fun c hc => ?_, (exec_good h).2.served, fun e he => ?_⟩
  · refine ⟨{ popEvent s i ev with stopped := true }, ?_, Or.inl rfl, rfl, rfl, rfl, rfl, rfl,
      rfl, rfl, rfl, rfl, rfl, rfl, rfl⟩
    unfold loopIter
    rw [hev]
    simp only [gt_iff_lt]
    rw [if_pos hcut]
  · obtain ⟨ha, hs, hd⟩ := exec_bounded h c hc
    refine ⟨fun htr => ?_, hs, hd⟩
    rcases ha with ha | ha
    · exact ha
    · rw [ha]; exact horizon_nonneg_of_handled h htr
  · unfold departedEvents at he
    obtain ⟨p, hp, rfl⟩ := List.mem_map.mp (List.mem_filter.mp he).1
    exact htime p hp

/-- Witness of C10: the state of scenario 1 with the departure at `t = 6` queued
(horizon 5), and the iteration that discards it. -/
theorem C10_horizon_cutoff_witness :
    Exec scenario1 scenario1BeforeCutoff.1 scenario1BeforeCutoff.2 ∧
    scenario1BeforeCutoff.2.events[0]? = some scenario1LastDeparture ∧
    scenario1.SIM_MINUTES < scenario1LastDeparture.time ∧
    (∃ s', loopIter scenario1 scenario1BeforeCutoff.2 0 = some s' ∧ finished s' ∧
        s'.events = scenario1BeforeCutoff.2.events.eraseIdx 0 ∧
        s'.serverBusy = scenario1BeforeCutoff.2.serverBusy ∧
        s'.serverServingCustomer = scenario1BeforeCutoff.2.serverServingCustomer ∧
        s'.serverLastFreeTime = scenario1BeforeCutoff.2.serverLastFreeTime ∧
        s'.waitingQueue = scenario1BeforeCutoff.2.waitingQueue ∧
        s'.customers = scenario1BeforeCutoff.2.customers ∧
        s'.nextCustId = scenario1BeforeCutoff.2.nextCustId ∧
        s'.totalWaitingTime = scenario1BeforeCutoff.2.totalWaitingTime ∧
        s'.totalServiceTime = scenario1BeforeCutoff.2.totalServiceTime ∧
        s'.servedCount = scenario1BeforeCutoff.2.servedCount ∧
        s'.totalRevenue = scenario1BeforeCutoff.2.totalRevenue ∧
        s'.idleTimeAcc = scenario1BeforeCutoff.2.idleTimeAcc) ∧
    scenario1BeforeCutoff.2.servedCount = ((departedEvents scenario1BeforeCutoff.1).length : Int) :=
  ⟨scenario1BeforeCutoff_exec, by decide!, by decide!,
    (C10_horizon_cutoff scenario1BeforeCutoff_exec).1 0 scenario1LastDeparture (by decide!) (by decide!),
    (C10_horizon_cutoff scenario1BeforeCutoff_exec).2.2.2.1⟩

/-- C11. Arrival-stream truncation, in double arithmetic (`rd` rounds the result of
every floating-point operation; the statement holds for every `rd`).  When an arrival at
time `t` is handled from a state reached by a run, the gap `g` is drawn once, after the
draws of the service start if the customer found a free server and directly otherwise
(`gapRng`), and the code computes `nextT = t + g` as a `double`, here `rd (t + g)`.  If
`nextT <= SIM_MINUTES`, the ledger gains exactly one entry, at the next unused index
`nextCustId = customers.size()`, with that id and arrival time `nextT`, and the queue
afterwards holds exactly one arrival, the one of that customer at `nextT`.  If
`nextT > SIM_MINUTES`, the ledger keeps its length, no arrival is pending, and in every
continuation of the run only departures are handled, the ledger never grows and no
arrival is ever pending again. -/
theorem C11_arrival_truncation {cfg : Config R} {tr : Trace R} {s s' : State R} {i : Nat}
    {ev : Event} (h : ExecD rd cfg tr s) (hev : s.events[i]? = some ev)
    (hty : ev.type = EventType.ARRIVAL) (hle : ev.time ≤ cfg.SIM_MINUTES)
    (hstep : loopIterD rd cfg s i = some s') :
    s.nextCustId = s.customers.length ∧
    s'.rng = (cfg.interarrival_dist (gapRng cfg s)).2 ∧
    (rd (ev.time + (cfg.interarrival_dist (gapRng cfg s)).1) ≤ cfg.SIM_MINUTES →
      s'.customers.length = s.customers.length + 1 ∧
      getAt s'.customers s.nextCustId = some
        { id := s.nextCustId,
          arrivalTime := rd (ev.time + (cfg.interarrival_dist (gapRng cfg s)).1) } ∧
      s'.nextCustId = s.nextCustId + 1 ∧
      pendingArrivals s' =
        [{ time := rd (ev.time + (cfg.interarrival_dist (gapRng cfg s)).1),
           type := EventType.ARRIVAL, customerId := s.nextCustId, serverId := -1 }]) ∧
    (cfg.SIM_MINUTES < rd (ev.time + (cfg.interarrival_dist (gapRng cfg s)).1) →
      s'.customers.length = s.customers.length ∧ s'.nextCustId = s.nextCustId ∧
      pendingArrivals s' = [] ∧
      ∀ (tr1 : Trace R) (u : State R), ExecD rd cfg (tr ++ (s, ev) :: tr1) u →
        pendingArrivals u = [] ∧ u.customers.length = s.customers.length ∧
        ∀ q ∈ tr1, q.2.type = EventType.DEPARTURE) := by
  have hI := execD_inv h
  obtain ⟨h1, h2, h3⟩ := loopIterD_arrival_stream hI (execD_pending h) hev hty hle hstep
  refine ⟨hI.nextId, h1, h2, fun hgt => ?_⟩
  obtain ⟨h4, h5, h6⟩ := h3 hgt
  refine ⟨h4, h5, h6, fun tr1 u hu => ?_⟩
  obtain ⟨h7, h8, _, h9⟩ := execD_truncated hu tr (s, ev) tr1 rfl hty hgt
  exact ⟨h7, h8, h9⟩

/-- Witness of C11, with IEEE rounding: in the run `absorbedGap` the arrival of
customer 1 at `t = 1` draws the gap `2^-60`; the exact sum exceeds the horizon 1, the
`double` sum is 1, and customer 2 is created with arrival time 1 and its arrival is
scheduled at `t = 1`. -/
theorem C11_arrival_truncation_witness :
    ExecD roundDouble absorbedGap absorbedGapBefore.1 absorbedGapBefore.2 ∧
    absorbedGapBefore.2.events[0]? = some secondArrival ∧
    secondArrival.type = EventType.ARRIVAL ∧ secondArrival.time ≤ absorbedGap.SIM_MINUTES ∧
    loopIterD roundDouble absorbedGap absorbedGapBefore.2 0 = some absorbedGapAfter.2 ∧
    absorbedGap.SIM_MINUTES < secondArrival.time +
      (absorbedGap.interarrival_dist (gapRng absorbedGap absorbedGapBefore.2)).1 ∧
    roundDouble (secondArrival.time +
      (absorbedGap.interarrival_dist (gapRng absorbedGap absorbedGapBefore.2)).1) ≤
      absorbedGap.SIM_MINUTES ∧
    absorbedGapAfter.2.customers.length = absorbedGapBefore.2.customers.length + 1 ∧
    getAt absorbedGapAfter.2.customers 2 = some { id := 2, arrivalTime := 1 } ∧
    pendingArrivals absorbedGapAfter.2 =
      [{ time := roundDouble (secondArrival.time +
            (absorbedGap.interarrival_dist (gapRng absorbedGap absorbedGapBefore.2)).1),
         type := EventType.ARRIVAL, customerId := absorbedGapBefore.2.nextCustId,
         serverId := -1 }] :=
  ⟨absorbedGapBefore_exec, by decide!, by decide!, by decide!, by decide!, by decide!,
    by decide!,
    ((C11_arrival_truncation absorbedGapBefore_exec
      (by decide! : absorbedGapBefore.2.events[0]? = some secondArrival) (by decide!)
      (by decide!)
      (by decide! : loopIterD roundDouble absorbedGap absorbedGapBefore.2 0 =
        some absorbedGapAfter.2)).2.2.1 (by decide!)).1,
    by decide!,
    ((C11_arrival_truncation absorbedGapBefore_exec
      (by decide! : absorbedGapBefore.2.events[0]? = some secondArrival) (by decide!)
      (by decide!)
      (by decide! : loopIterD roundDouble absorbedGap absorbedGapBefore.2 0 =
        some absorbedGapAfter.2)).2.2.1 (by decide!)).2.2.2⟩

/-- C12. Server-allocation policy.  When an arrival is handled from a state reached by
a run: if some server is idle, the scan returns the least idle index `k` (every server
below `k` is busy), server `k` becomes busy with the arriving customer, whose service
starts at once, and the waiting line is unchanged; if every server is busy, the scan
returns `-1`, no server's record changes, no departure is pushed and the customer id is
appended to the waiting line. -/
theorem C12_server_allocation {cfg : Config R} {tr : Trace R} {s s' : State R} {i : Nat}
    {ev : Event} (h : Exec cfg tr s) (hev : s.events[i]? = some ev)
    (hty : ev.type = EventType.ARRIVAL) (hle : ev.time ≤ cfg.SIM_MINUTES)
    (hstep : loopIter cfg s i = some s') :
    ((∃ j, j < cfg.numServers ∧ s.serverBusy[j]? = some false) →
      ∃ k : Nat, findFreeServer cfg.numServers s.serverBusy = (k : Int) ∧
        k < cfg.numServers ∧ s.serverBusy[k]? = some false ∧
        (∀ j, j < k → s.serverBusy[j]? = some true) ∧
        s'.serverBusy = s.serverBusy.set k true ∧
        s'.serverServingCustomer = s.serverServingCustomer.set k ev.customerId ∧
        s'.waitingQueue = s.waitingQueue ∧
        departureOf cfg s.rng ev.time ev.customerId k ∈ s'.events ∧
        ∃ c, getAt s'.customers ev.customerId = some c ∧ c.serviceStart = ev.time) ∧
    ((∀ j, j < cfg.numServers → s.serverBusy[j]? = some true) →
      findFreeServer cfg.numServers s.serverBusy = -1 ∧
        s'.serverBusy = s.serverBusy ∧
        s'.serverServingCustomer = s.serverServingCustomer ∧
        s'.serverLastFreeTime = s.serverLastFreeTime ∧
        s'.waitingQueue = s.waitingQueue ++ [ev.customerId] ∧
        ∀ e ∈ s'.events, e.type = EventType.DEPARTURE → e ∈ s.events) := by
  have hI := (exec_good h).1
  obtain ⟨c, hc, hcase⟩ := loopIter_arrival_eq hI hev hty hle hstep
  have hr := getAt_some_range hc
  constructor
  · rintro ⟨j, hj, hjf⟩
    rcases hcase with ⟨hfree, lf, _, rfl⟩ | ⟨hno, _⟩
    · obtain ⟨hlt, hkf⟩ := findFreeServer_range hfree
      obtain ⟨k, hk⟩ := Int.eq_ofNat_of_zero_le hfree
      have hleast := findFreeServer_least hI.busyLen hfree
      rw [hk] at hlt hkf hleast
      simp only [Int.toNat_ofNat] at hkf
      obtain ⟨hb, hsv, _, _, _, _, _⟩ := scheduleNext_servers cfg
        (servedAtArrival cfg s i ev c (findFreeServer cfg.numServers s.serverBusy) lf)
      refine ⟨k, hk, by exact_mod_cast hlt, hkf, fun j hj => hleast j (by exact_mod_cast hj),
        ?_, ?_, ?_, ?_, ?_⟩
      · rw [hb, hk]; rfl
      · rw [hsv, hk]; rfl
      · rw [(scheduleNext_fields cfg _).1]; rfl
      · apply scheduleNext_events_sub
        rw [hk]
        simp [servedAtArrival]
      · have : ∃ c', getAt (servedAtArrival cfg s i ev c
            (findFreeServer cfg.numServers s.serverBusy) lf).customers ev.customerId = some c' ∧
            c'.serviceStart = ev.time := ⟨_, getAt_set_self hr.1 hr.2, rfl⟩
        unfold scheduleNext
        simp only []
        split
        · exact rec_append this
        · exact this
    · exact absurd hjf ((findFreeServer_none hI.busyLen hno).2 j hj ▸ by simp)
  · intro hall
    rcases hcase with ⟨hfree, _, _, _⟩ | ⟨hno, rfl⟩
    · obtain ⟨hlt, hkf⟩ := findFreeServer_range hfree
      have := hall (findFreeServer cfg.numServers s.serverBusy).toNat (by omega)
      rw [this] at hkf
      cases hkf
    · obtain ⟨hb, hsv, hlf, _, _, _, _⟩ := scheduleNext_servers cfg (queuedAtArrival s i ev c)
      refine ⟨(findFreeServer_none hI.busyLen hno).1, by rw [hb]; rfl, by rw [hsv]; rfl,
        by rw [hlf]; rfl, by rw [(scheduleNext_fields cfg _).1]; rfl, fun e he hety => ?_⟩
      rcases (scheduleNext_fields cfg _).2.2.2.2.2 e he with he | ⟨hety', _⟩
      · exact mem_eraseIdx he
      · rw [hety] at hety'; cases hety'

/-- Witness of C12: the arrival of customer 0 in scenario 1 finds server 0 idle. -/
theorem C12_server_allocation_witness :
    Exec scenario1 [] (initState scenario1) ∧
    (initState scenario1).events[0]? = some firstArrival ∧
    firstArrival.type = EventType.ARRIVAL ∧ firstArrival.time ≤ scenario1.SIM_MINUTES ∧
    loopIter scenario1 (initState scenario1) 0 = some scenario1AfterArrival.2 ∧
    ∃ k : Nat, findFreeServer scenario1.numServers (initState scenario1).serverBusy = (k : Int) ∧
      k < scenario1.numServers ∧ (initState scenario1).serverBusy[k]? = some false ∧
      (∀ j, j < k → (initState scenario1).serverBusy[j]? = some true) ∧
      scenario1AfterArrival.2.serverBusy = (initState scenario1).serverBusy.set k true ∧
      scenario1AfterArrival.2.serverServingCustomer =
        (initState scenario1).serverServingCustomer.set k firstArrival.customerId ∧
      scenario1AfterArrival.2.waitingQueue = (initState scenario1).waitingQueue ∧
      departureOf scenario1 (initState scenario1).rng firstArrival.time firstArrival.customerId k ∈
        scenario1AfterArrival.2.events ∧
      ∃ c, getAt scenario1AfterArrival.2.customers firstArrival.customerId = some c ∧
        c.serviceStart = firstArrival.time :=
  ⟨Exec.start, by decide!, by decide!, by decide!, by decide!,
    (C12_server_allocation Exec.start
      (by decide! : (initState scenario1).events[0]? = some firstArrival) (by decide!)
      (by decide!)
      (by decide! : loopIter scenario1 (initState scenario1) 0 =
        some scenario1AfterArrival.2)).1 ⟨0, by decide!, by decide!⟩⟩

/-- C13. Server record invariant: in every state reached by a run (at loop entry,
after every handled event and after the loop) each server `j` is either idle, with
`serverServingCustomer[j] = -1`, or busy, with `serverServingCustomer[j]` the index of a
ledger entry carrying that id, of a customer whose service was started on server `j`
(the entry holds the start time) and whose departure has not been handled; and no two
busy servers hold the same customer. -/
theorem C13_server_records {cfg : Config R} {tr : Trace R} {s : State R}
    (h : Exec cfg tr s) :
    (∀ j : Nat, j < cfg.numServers →
      (s.serverBusy[j]? = some false ∧ s.serverServingCustomer[j]? = some (-1)) ∨
      (s.serverBusy[j]? = some true ∧
        ∃ x c, s.serverServingCustomer[j]? = some x ∧ getAt s.customers x = some c ∧
          c.id = x ∧ x ∈ startedIds cfg tr ∧ x ∉ departedIds tr ∧
          ∃ σ ∈ serviceStarts cfg tr, σ.customerId = x ∧ σ.serverId = (j : Int) ∧
            c.serviceStart = σ.time)) ∧
    ∀ (j k : Nat) (x : Int), s.serverBusy[j]? = some true → s.serverBusy[k]? = some true →
      s.serverServingCustomer[j]? = some x → s.serverServingCustomer[k]? = some x → j = k := by
  have key : ∀ s0 : State R, Exec cfg tr s0 → s0.stopped = false →
      (∀ j : Nat, j < cfg.numServers →
        (s0.serverBusy[j]? = some false ∧ s0.serverServingCustomer[j]? = some (-1)) ∨
        (s0.serverBusy[j]? = some true ∧
          ∃ x c, s0.serverServingCustomer[j]? = some x ∧ getAt s0.customers x = some c ∧
            c.id = x ∧ x ∈ startedIds cfg tr ∧ x ∉ departedIds tr ∧
            ∃ σ ∈ serviceStarts cfg tr, σ.customerId = x ∧ σ.serverId = (j : Int) ∧
              c.serviceStart = σ.time)) ∧
      ∀ (j k : Nat) (x : Int), s0.serverBusy[j]? = some true → s0.serverBusy[k]? = some true →
        s0.serverServingCustomer[j]? = some x → s0.serverServingCustomer[k]? = some x →
        j = k := by
    intro s0 h0 hs0
    refine ⟨fun j hj => ?_, servers_distinct h0 hs0⟩
    have hI := (exec_good h0).1
    have hlt : j < s0.serverBusy.length := by rw [hI.busyLen]; exact hj
    cases hb : s0.serverBusy[j] with
    | false =>
      have hbj : s0.serverBusy[j]? = some false := by rw [List.getElem?_eq_getElem hlt, hb]
      refine Or.inl ⟨hbj, ?_⟩
      have := (exec_servers h0 hs0).idle j (by rw [getAt_natCast]; exact hbj)
      rwa [getAt_natCast] at this
    | true =>
      have hbj : s0.serverBusy[j]? = some true := by rw [List.getElem?_eq_getElem hlt, hb]
      exact Or.inr ⟨hbj, servers_busy_record h0 hs0 j hbj⟩
  cases hs : s.stopped with
  | false => exact key s h hs
  | true =>
    obtain ⟨s0, i, ev, h0, hs0, _, _, rfl⟩ := exec_stopped h hs
    exact key s0 h0 hs0

/-- Witness of C13: scenario 1 after the arrival of customer 0, server 0 busy with
customer 0. -/
theorem C13_server_records_witness :
    Exec scenario1 scenario1AfterArrival.1 scenario1AfterArrival.2 ∧
    ((scenario1AfterArrival.2.serverBusy[0]? = some false ∧
        scenario1AfterArrival.2.serverServingCustomer[0]? = some (-1)) ∨
      (scenario1AfterArrival.2.serverBusy[0]? = some true ∧
        ∃ x c, scenario1AfterArrival.2.serverServingCustomer[0]? = some x ∧
          getAt scenario1AfterArrival.2.customers x = some c ∧
          c.id = x ∧ x ∈ startedIds scenario1 scenario1AfterArrival.1 ∧
          x ∉ departedIds scenario1AfterArrival.1 ∧
          ∃ σ ∈ serviceStarts scenario1 scenario1AfterArrival.1, σ.customerId = x ∧
            σ.serverId = ((0 : Nat) : Int) ∧ c.serviceStart = σ.time)) :=
  ⟨scenario1AfterArrival_exec,
    (C13_server_records scenario1AfterArrival_exec).1 0 (by decide!)⟩

/-- C14. Waiting-line membership invariant: in every state reached by a run (at loop
entry, after every handled event, after the loop) a customer id is in the waiting line
if and only if the customer's arrival has been handled, no service start has been
performed for it and its departure has not been handled; no id is in the line twice;
every customer in the line has a ledger entry whose service start is unset (`-1`); and,
for positive gaps, positive base durations and scoop counts in {1,2,3}, "no service
start has been performed" can be read off the ledger: an id is in the line if and only
if its arrival has been handled, its entry has `serviceStart = -1` and its departure has
not been handled. -/
theorem C14_waiting_line_membership {cfg : Config R} {tr : Trace R} {s : State R}
    (h : Exec cfg tr s) :
    (∀ x, x ∈ s.waitingQueue ↔
      x ∈ arrivedIds tr ∧ x ∉ startedIds cfg tr ∧ x ∉ departedIds tr) ∧
    s.waitingQueue.Nodup ∧
    (∀ x ∈ s.waitingQueue, ∃ c, getAt s.customers x = some c ∧ c.id = x ∧
      c.serviceStart = -1) ∧
    (ValidDraws cfg → ∀ x, x ∈ s.waitingQueue ↔
      x ∈ arrivedIds tr ∧ (∃ c, getAt s.customers x = some c ∧ c.serviceStart = -1) ∧
        x ∉ departedIds tr) := by
  have hQ := exec_queue h
  have hI := (exec_good h).1
  have hSt := exec_started h
  have hledger : ∀ x ∈ s.waitingQueue, ∃ c, getAt s.customers x = some c ∧ c.id = x ∧
      c.serviceStart = -1 := by
    intro x hx
    have hr := hI.range x (mem_occ_wait hx)
    obtain ⟨c, hc⟩ := getAt_isSome_of_range hr.1 hr.2
    refine ⟨c, hc, (exec_arrivals h).ids x c hc, hSt.unset x c hc fun σ hσ heq => ?_⟩
    exact ((hQ.wl x).mp hx).2.1 (List.mem_map.mpr ⟨σ, hσ, heq⟩)
  refine ⟨hQ.wl, inv_waiting_nodup hI, hledger, fun hv x => ⟨fun hx => ?_, ?_⟩⟩
  · obtain ⟨c, hc, _, hss⟩ := hledger x hx
    obtain ⟨h1, _, h3⟩ := (hQ.wl x).mp hx
    exact ⟨h1, ⟨c, hc, hss⟩, h3⟩
  · rintro ⟨h1, ⟨c, hc, hss⟩, h3⟩
    refine (hQ.wl x).mpr ⟨h1, fun hx => ?_, h3⟩
    obtain ⟨σ, hσ, rfl⟩ := List.mem_map.mp hx
    obtain ⟨c', hc', hss', _⟩ := hSt.ledger σ hσ
    rw [hc] at hc'
    cases hc'
    have := (hSt.nonneg hv).2.2 σ hσ
    rw [← hss', hss] at this
    norm_num at this

/-- Witness of C14: scenario 2 after the arrivals of customers 0, 1 and 2, with customer
2 in the waiting line. -/
theorem C14_waiting_line_membership_witness :
    Exec (scenario2 4) scenario2Waiting.1 scenario2Waiting.2 ∧
    (2 : Int) ∈ scenario2Waiting.2.waitingQueue ∧
    ((2 : Int) ∈ arrivedIds scenario2Waiting.1 ∧
      (2 : Int) ∉ startedIds (scenario2 4) scenario2Waiting.1 ∧
      (2 : Int) ∉ departedIds scenario2Waiting.1) :=
  ⟨scenario2Waiting_exec, by decide!,
    ((C14_waiting_line_membership scenario2Waiting_exec).1 2).mp (by decide!)⟩

/-- C15. FIFO service of waiting customers, in double arithmetic (`rd` rounds the result
of every floating-point operation).  For positive gaps, in every state reached by a run:
(1) the waiting line lists customer ids in strictly increasing order; (2) when rounding
is monotone and leaves rounded values and 0 unchanged, as rounding to nearest does, a
larger id never has an earlier arrival time in the ledger and a later arrival time
means a larger id, so this is the order of arrival (a gap can be absorbed by the rounded
sum of line 115, so two customers can carry the same arrival time); (3) the customers
that ever joined the line are, in the order of their arrivals, those taken from its head
followed by those still in it; (4) a handled departure that finds the line `x :: rest`
leaves the line `rest` and starts `x`, whose id is below every id in `rest`, on the
released server at the time of the event; (5) when moreover the base durations are
positive and the scoop counts in {1,2,3}, so that the clock never goes back: of two
customers that both joined the line, if the one that arrived later (it has the larger
id, or the later arrival time) is no longer waiting then the one that arrived earlier is
no longer waiting either and its service start is not after the other's. -/
theorem C15_fifo_service {cfg : Config R} {tr : Trace R} {s : State R}
    (hg : ∀ r, 0 < (cfg.interarrival_dist r).1) (h : ExecD rd cfg tr s) :
    s.waitingQueue.Pairwise (· < ·) ∧
    (Rounding rd → ∀ x y cx cy, getAt s.customers x = some cx →
      getAt s.customers y = some cy →
      (x < y → cx.arrivalTime ≤ cy.arrivalTime) ∧
      (cx.arrivalTime < cy.arrivalTime → x < y)) ∧
    (waitedIds cfg tr = dequeuedIds cfg tr ++ s.waitingQueue ∧
      (waitedIds cfg tr).Pairwise (· < ·)) ∧
    (∀ i ev s' x rest, s.events[i]? = some ev → ev.type = EventType.DEPARTURE →
      ev.time ≤ cfg.SIM_MINUTES → loopIterD rd cfg s i = some s' → s.waitingQueue = x :: rest →
      s'.waitingQueue = rest ∧ (∀ y ∈ rest, x < y) ∧
      getAt s'.serverServingCustomer ev.serverId = some x ∧
      ∃ c, getAt s'.customers x = some c ∧ c.serviceStart = ev.time) ∧
    (Rounding rd → ValidDraws cfg → ∀ x y cx cy, x ∈ waitedIds cfg tr →
      y ∈ waitedIds cfg tr →
      getAt s.customers x = some cx → getAt s.customers y = some cy →
      (x < y ∨ cx.arrivalTime < cy.arrivalTime) → y ∉ s.waitingQueue →
      x ∉ s.waitingQueue ∧ x ∈ dequeuedIds cfg tr ∧ y ∈ dequeuedIds cfg tr ∧
        cx.serviceStart ≤ cy.serviceStart) := by
  have hQ := execD_queue h
  have hI := execD_inv h
  have hSt := execD_started h
  have hA := execD_arrivals h
  have hws : (waitedIds cfg tr).Pairwise (· < ·) := hA.arrSorted.sublist hQ.waitedSub
  have hwq : s.waitingQueue.Pairwise (· < ·) := by
    have := hws
    rw [hQ.fifo] at this
    exact (List.pairwise_append.mp this).2.1
  have htimes : Rounding rd → ∀ x y cx cy, getAt s.customers x = some cx →
      getAt s.customers y = some cy →
      (x < y → cx.arrivalTime ≤ cy.arrivalTime) ∧
      (cx.arrivalTime < cy.arrivalTime → x < y) := by
    intro hr x y cx cy hx hy
    refine ⟨arrival_times_mono hA hr hg hx hy, fun hlt => ?_⟩
    by_contra hn
    rcases lt_or_eq_of_le (not_lt.mp hn) with h1 | h1
    · exact absurd (arrival_times_mono hA hr hg hy hx h1) (not_le.mpr hlt)
    · rw [h1, hx] at hy
      cases hy
      exact absurd hlt (lt_irrefl _)
  refine ⟨hwq, htimes, ⟨hQ.fifo, hws⟩, ?_, ?_⟩
  · intro i ev s' x rest hev hty hle hstep hq
    obtain ⟨c, hc, h1⟩ := loopIterD_departure_eq hI hev hty hle hstep
    rw [hq] at hwq
    rcases h1 with ⟨hq0, _⟩ | ⟨x0, rest0, cx, hq0, hcx, _, rfl⟩
    · rw [hq] at hq0
      cases hq0
    · rw [hq] at hq0
      obtain ⟨rfl, rfl⟩ := List.cons.inj hq0
      have hsid := hI.depServer ev (mem_of_getElem? hev) hty
      have hrx := getAt_some_range hcx
      exact ⟨rfl, (List.pairwise_cons.mp hwq).1,
        getAt_set_self hsid.1 (by rw [hI.servingLen]; exact hsid.2), _,
        getAt_set_self hrx.1 (by rw [List.length_set]; exact hrx.2), rfl⟩
  · intro hr hv x y cx cy hx hy hcx hcy hlt hyw
    have hxy : x < y := hlt.elim id (htimes hr x y cx cy hcx hcy).2
    have hyd : y ∈ dequeuedIds cfg tr := by
      rw [hQ.fifo] at hy
      rcases List.mem_append.mp hy with h1 | h1
      · exact h1
      · exact absurd h1 hyw
    obtain ⟨σy, hσy, rfl⟩ := List.mem_map.mp hyd
    have hsorted := (execD_starts_sorted hv hr h).1.sublist (queueStarts_sublist cfg tr)
    have hs : ((queueStarts cfg tr).map (fun σ => σ.customerId) ++ s.waitingQueue).Pairwise
        (· < ·) := by
      have := hws
      rw [hQ.fifo] at this
      exact this
    obtain ⟨σx, hσx, rfl, hle⟩ := fifo_order hs hsorted σy hσy x
      (by rw [hQ.fifo] at hx; exact hx) hxy
    have hxd : σx.customerId ∈ dequeuedIds cfg tr := List.mem_map.mpr ⟨σx, hσx, rfl⟩
    obtain ⟨c1, hc1, hss1, _⟩ := hSt.ledger σx ((queueStarts_sublist cfg tr).subset hσx)
    obtain ⟨c2, hc2, hss2, _⟩ := hSt.ledger σy ((queueStarts_sublist cfg tr).subset hσy)
    rw [hcx] at hc1
    rw [hcy] at hc2
    cases hc1
    cases hc2
    refine ⟨fun hw => ?_, hxd, hyd, by rw [hss1, hss2]; exact hle⟩
    exact ((hQ.wl _).mp hw).2.1
      (List.mem_map.mpr ⟨σx, (queueStarts_sublist cfg tr).subset hσx, rfl⟩)

/-- Witness of C15, with IEEE rounding: in the run `absorbedQueueRun` customers 1, 2 and
3 all waited.  The gap `2^-60` after customer 1 is absorbed, so customers 1 and 2 both
carry the arrival time 1, and customer 1, handled first, started service (at 2) no later
than customer 2 (at 4); customer 2 arrived before customer 3 and started service no
later than customer 3 (at 6). -/
theorem C15_fifo_service_witness :
    (∀ r, 0 < (absorbedQueue.interarrival_dist r).1) ∧
    ExecD roundDouble absorbedQueue absorbedQueueRun.1 absorbedQueueRun.2 ∧
    (1 : Int) ∈ waitedIds absorbedQueue absorbedQueueRun.1 ∧
    (2 : Int) ∈ waitedIds absorbedQueue absorbedQueueRun.1 ∧
    (3 : Int) ∈ waitedIds absorbedQueue absorbedQueueRun.1 ∧
    (2 : Int) ∉ absorbedQueueRun.2.waitingQueue ∧
    (3 : Int) ∉ absorbedQueueRun.2.waitingQueue ∧
    ∃ c1 c2 c3, getAt absorbedQueueRun.2.customers 1 = some c1 ∧
      getAt absorbedQueueRun.2.customers 2 = some c2 ∧
      getAt absorbedQueueRun.2.customers 3 = some c3 ∧
      c1.arrivalTime = 1 ∧ c2.arrivalTime = 1 ∧ c1.arrivalTime ≤ c2.arrivalTime ∧
      c1.serviceStart ≤ c2.serviceStart ∧
      c2.arrivalTime < c3.arrivalTime ∧ c2.serviceStart ≤ c3.serviceStart :=
  ⟨absorbedQueue_valid.1, absorbedQueueRun_exec, by decide!, by decide!, by decide!,
    by decide!, by decide!,
    (absorbedQueueRun.2.customers.getD 1 { id := 0, arrivalTime := 0 }),
    (absorbedQueueRun.2.customers.getD 2 { id := 0, arrivalTime := 0 }),
    (absorbedQueueRun.2.customers.getD 3 { id := 0, arrivalTime := 0 }),
    by decide!, by decide!, by decide!, by decide!, by decide!,
    ((C15_fifo_service absorbedQueue_valid.1 absorbedQueueRun_exec).2.1
      rounding_roundDouble 1 2
      (absorbedQueueRun.2.customers.getD 1 { id := 0, arrivalTime := 0 })
      (absorbedQueueRun.2.customers.getD 2 { id := 0, arrivalTime := 0 })
      (by decide!) (by decide!)).1 (by decide!),
    ((C15_fifo_service absorbedQueue_valid.1 absorbedQueueRun_exec).2.2.2.2
      rounding_roundDouble absorbedQueue_valid 1 2
      (absorbedQueueRun.2.customers.getD 1 { id := 0, arrivalTime := 0 })
      (absorbedQueueRun.2.customers.getD 2 { id := 0, arrivalTime := 0 })
      (by decide!) (by decide!) (by decide!) (by decide!) (Or.inl (by decide!))
      (by decide!)).2.2.2,
    by decide!,
    ((C15_fifo_service absorbedQueue_valid.1 absorbedQueueRun_exec).2.2.2.2
      rounding_roundDouble absorbedQueue_valid 2 3
      (absorbedQueueRun.2.customers.getD 2 { id := 0, arrivalTime := 0 })
      (absorbedQueueRun.2.customers.getD 3 { id := 0, arrivalTime := 0 })
      (by decide!) (by decide!) (by decide!) (by decide!) (Or.inr (by decide!))
      (by decide!)).2.2.2⟩

/-- Counterexample to C16 as stated, with IEEE rounding.  One server, gaps 1, one scoop,
every base duration the `double` nearest to 0.1, horizon 1.5 (all draws valid).
Customer 1 starts at `t = 1` with scoop count 1 and base duration
`0.1000000000000000055...`; line 103 rounds `1.0 + 0.1` to `1.100000000000000088...`,
which is the departure time the ledger records when the departure is handled.  So
`departureTime - serviceStart` is `0.1000000000000000888...`, which is not the scoop
count times the base duration, whether or not the difference and the product are
rounded. -/
theorem C16_counterexample :
    ValidDraws tenthService ∧
    ExecD roundDouble tenthService tenthServiceRun.1 tenthServiceRun.2 ∧
    tenthServiceRun.2.events = [] ∧
    tenthServiceDeparture ∈ tenthServiceRun.1 ∧
    tenthServiceDeparture.2.type = EventType.DEPARTURE ∧
    tenthServiceDeparture.2.customerId = 1 ∧
    ∃ σ ∈ serviceStarts tenthService tenthServiceRun.1, σ.customerId = 1 ∧
      σ.base = 3602879701896397 / 36028797018963968 ∧
      ∃ c, getAt tenthServiceRun.2.customers 1 = some c ∧ c.scoops = σ.scoops ∧
        c.scoops = 1 ∧ c.serviceStart = 1 ∧
        c.departureTime = 2476979795053773 / 2251799813685248 ∧
        c.departureTime - c.serviceStart ≠ (c.scoops : ℚ) * σ.base ∧
        roundDouble (c.departureTime - c.serviceStart) ≠
          roundDouble ((c.scoops : ℚ) * σ.base) :=
  ⟨tenthService_valid, tenthServiceRun_exec, by decide!, by decide!, by decide!, by decide!,
    { customerId := 1, serverId := 0, time := 1, scoops := 1,
      base := 3602879701896397 / 36028797018963968 },
    by decide!, by decide!, by decide!,
    { id := 1, arrivalTime := 1, serviceStart := 1,
      departureTime := 2476979795053773 / 2251799813685248, scoops := 1 },
    by decide!, by decide!, by decide!, by decide!, by decide!, by decide!, by decide!⟩

/-- C16, amended: the arithmetic is double arithmetic (`rd` rounds the result of every
floating-point operation; the statement holds for every `rd`).  (1) `startService`
(lines 91-104 and 139-149) draws the scoop count from the engine state it is entered
with and the base duration from the state the scoop draw left, records the scoop count
and the start time in the customer's entry and pushes the departure at the rounded sum
of the start time and the rounded product of base duration and scoop count.  (2) A
handled iteration that starts a service (an arrival finding a free server, a departure
finding somebody waiting) consumes exactly these two draws, in this order, before the
gap of an arrival; an iteration that starts no service consumes no service draw and
pushes no departure.  (3) No customer is started twice, and the entry of a started
customer keeps the start time and the scoop draw.  (4) For every customer whose
departure has been handled, `departureTime` is the rounded sum of `serviceStart` and the
rounded product of the base draw of that customer's service start and the recorded scoop
count; `departureTime - serviceStart` is the scoop count times the base draw when
neither the product nor the sum is rounded. -/
theorem C16_service_duration {cfg : Config R} {tr : Trace R} {s : State R}
    (h : ExecD rd cfg tr s) :
    (∀ (s0 s1 : State R) (cid sid : Int), startServiceD rd cfg s0 cid sid = some s1 →
      s1.rng = (cfg.service_dist (cfg.scoops_dist s0.rng).2).2 ∧
      s1.events = s0.events ++
        [{ time := rd (s0.t + rd ((cfg.service_dist (cfg.scoops_dist s0.rng).2).1 *
              (((cfg.scoops_dist s0.rng).1 + 1 : Int) : ℚ)))
           type := EventType.DEPARTURE, customerId := cid, serverId := sid }] ∧
      ∃ c, getAt s1.customers cid = some c ∧ c.scoops = (cfg.scoops_dist s0.rng).1 + 1 ∧
        c.serviceStart = s0.t) ∧
    (∀ p ∈ tr, ∀ i s', p.1.events[i]? = some p.2 → loopIterD rd cfg p.1 i = some s' →
      (∀ σ, startOf cfg p = some σ →
        σ.scoops = (cfg.scoops_dist p.1.rng).1 + 1 ∧
        σ.base = (cfg.service_dist (cfg.scoops_dist p.1.rng).2).1 ∧ σ.time = p.2.time ∧
        { time := rd (σ.time + rd (σ.base * (σ.scoops : ℚ))), type := EventType.DEPARTURE,
          customerId := σ.customerId, serverId := σ.serverId } ∈ s'.events ∧
        (∃ c, getAt s'.customers σ.customerId = some c ∧ c.serviceStart = σ.time ∧
          c.scoops = σ.scoops) ∧
        s'.rng = if p.2.type = EventType.ARRIVAL then
            (cfg.interarrival_dist (cfg.service_dist (cfg.scoops_dist p.1.rng).2).2).2
          else (cfg.service_dist (cfg.scoops_dist p.1.rng).2).2) ∧
      (startOf cfg p = none →
        (∀ e ∈ s'.events, e.type = EventType.DEPARTURE → e ∈ p.1.events) ∧
        s'.rng = if p.2.type = EventType.ARRIVAL then (cfg.interarrival_dist p.1.rng).2
          else p.1.rng)) ∧
    (startedIds cfg tr).Nodup ∧
    (∀ σ ∈ serviceStarts cfg tr, ∃ c, getAt s.customers σ.customerId = some c ∧
      c.serviceStart = σ.time ∧ c.scoops = σ.scoops) ∧
    ∀ p ∈ tr, p.2.type = EventType.DEPARTURE →
      ∃ σ ∈ serviceStarts cfg tr, σ.customerId = p.2.customerId ∧
        ∃ c, getAt s.customers p.2.customerId = some c ∧ c.scoops = σ.scoops ∧
          c.departureTime = p.2.time ∧
          c.departureTime = rd (c.serviceStart + rd (σ.base * (c.scoops : ℚ))) ∧
          (rd (σ.base * (c.scoops : ℚ)) = σ.base * (c.scoops : ℚ) →
            rd (c.serviceStart + σ.base * (c.scoops : ℚ)) =
              c.serviceStart + σ.base * (c.scoops : ℚ) →
            c.departureTime - c.serviceStart = (c.scoops : ℚ) * σ.base) := by
  have hS := execD_started h
  refine ⟨?_, ?_, hS.once, hS.ledger, ?_⟩
  · intro s0 s1 cid sid hs
    obtain ⟨c, hc, _, _, _, rfl⟩ := startServiceD_eq_some hs
    have hr := getAt_some_range hc
    exact ⟨rfl, rfl, _, getAt_set_self hr.1 hr.2, rfl, rfl⟩
  · intro p hp i s' hev hstep
    obtain ⟨tr0, tr1, rfl⟩ := List.append_of_mem hp
    obtain ⟨hex0, _, hle, _⟩ := execD_trace h tr0 p tr1 rfl
    obtain ⟨h1, h2⟩ := loopIterD_start (execD_inv hex0) hev hle hstep
    refine ⟨fun σ hσ => ?_, fun hn => ?_⟩
    · obtain ⟨hd, _, hc, _, _, _, _, hrng⟩ := h1 σ hσ
      have hσ' : σ.scoops = scoopsAt cfg p.1.rng ∧ σ.base = baseAt cfg p.1.rng ∧
          σ.time = p.2.time := by
        unfold startOf at hσ
        split at hσ
        · split at hσ
          · cases hσ; exact ⟨rfl, rfl, rfl⟩
          · cases hσ
        · split at hσ
          · cases hσ
          · cases hσ; exact ⟨rfl, rfl, rfl⟩
      obtain ⟨e1, e2, e3⟩ := hσ'
      refine ⟨e1, e2, e3, ?_, ?_, hrng⟩
      · rw [e1, e2, e3]; exact hd
      · rw [e1, e3]; exact hc
    · obtain ⟨hd, _, hrng⟩ := h2 hn
      exact ⟨fun e he hte => mem_eraseIdx (hd e he hte), hrng⟩
  · intro p hp hty
    have hmem := mem_departedEvents hp hty
    obtain ⟨σ, hσ, h1, _, h3⟩ := hS.depSt p.2 hmem
    obtain ⟨c, hc, hss, hsc⟩ := hS.ledger σ hσ
    obtain ⟨c', hc', hd⟩ := hS.depLedger p.2 hmem
    rw [h1] at hc
    rw [hc] at hc'
    cases hc'
    have hform : c.departureTime = rd (c.serviceStart + rd (σ.base * (c.scoops : ℚ))) := by
      rw [hd, hss, hsc, h3]
    refine ⟨σ, hσ, h1, c, hc, hsc, hd, hform, fun e1 e2 => ?_⟩
    rw [hform, e1, e2]
    ring

/-- Witness of C16, amended, with IEEE rounding: the departure of customer 1 in the run
`tenthServiceRun`. -/
theorem C16_service_duration_witness :
    ExecD roundDouble tenthService tenthServiceRun.1 tenthServiceRun.2 ∧
    ∃ σ ∈ serviceStarts tenthService tenthServiceRun.1,
      σ.customerId = tenthServiceDeparture.2.customerId ∧
      ∃ c, getAt tenthServiceRun.2.customers tenthServiceDeparture.2.customerId = some c ∧
        c.scoops = σ.scoops ∧ c.departureTime = tenthServiceDeparture.2.time ∧
        c.departureTime = roundDouble (c.serviceStart + roundDouble (σ.base * (c.scoops : ℚ))) ∧
        (roundDouble (σ.base * (c.scoops : ℚ)) = σ.base * (c.scoops : ℚ) →
          roundDouble (c.serviceStart + σ.base * (c.scoops : ℚ)) =
            c.serviceStart + σ.base * (c.scoops : ℚ) →
          c.departureTime - c.serviceStart = (c.scoops : ℚ) * σ.base) :=
  ⟨tenthServiceRun_exec,
    (C16_service_duration tenthServiceRun_exec).2.2.2.2 tenthServiceDeparture (by decide!)
      (by decide!)⟩

/-- C17. No invariant violation is reachable.  In every state reached by a run in which
the loop has not met the cutoff (loop entry and after every handled event): (1) every
pending departure names a busy server whose recorded occupant is its customer;
(2) every busy server is named by a pending departure; (3) no two pending departures
name the same server.  So (4) every departure that was handled found its server busy
with exactly its customer; (5) after one more handled iteration, a pending departure
that was not pending before is the one of the service start of that iteration, whose
customer has just been put on that server; (6) a server assigned at an arrival was
idle, and a server assigned at a departure is the one that this departure released:
`recordDeparture` leaves it idle with no occupant before `startService` is called. -/
theorem C17_no_invariant_violation {cfg : Config R} {tr : Trace R} {s : State R}
    (h : Exec cfg tr s) (hs : s.stopped = false) :
    (∀ e ∈ s.events, e.type = EventType.DEPARTURE →
      getAt s.serverBusy e.serverId = some true ∧
        getAt s.serverServingCustomer e.serverId = some e.customerId) ∧
    (∀ j : Nat, s.serverBusy[j]? = some true →
      ∃ e ∈ s.events, e.type = EventType.DEPARTURE ∧ e.serverId = (j : Int)) ∧
    ((pendingDepartures s).map fun e => e.serverId).Nodup ∧
    (∀ p ∈ tr, p.2.type = EventType.DEPARTURE →
      getAt p.1.serverBusy p.2.serverId = some true ∧
        getAt p.1.serverServingCustomer p.2.serverId = some p.2.customerId) ∧
    (∀ i ev s', s.events[i]? = some ev → ev.time ≤ cfg.SIM_MINUTES →
      loopIter cfg s i = some s' →
      (∀ e ∈ s'.events, e.type = EventType.DEPARTURE → e ∈ s.events ∨
        ∃ σ, startOf cfg (s, ev) = some σ ∧ e.customerId = σ.customerId ∧
          e.serverId = σ.serverId ∧ getAt s'.serverBusy σ.serverId = some true ∧
          getAt s'.serverServingCustomer σ.serverId = some σ.customerId) ∧
      ∀ σ, startOf cfg (s, ev) = some σ →
        (ev.type = EventType.ARRIVAL → getAt s.serverBusy σ.serverId = some false) ∧
        (ev.type = EventType.DEPARTURE → σ.serverId = ev.serverId ∧
          getAt s.serverServingCustomer ev.serverId = some ev.customerId)) ∧
    ∀ (s0 s1 : State R) (e : Event), recordDeparture cfg s0 e = some s1 →
      getAt s1.serverBusy e.serverId = some false ∧
        getAt s1.serverServingCustomer e.serverId = some (-1) := by
  have hS := exec_servers h hs
  have hI := (exec_good h).1
  refine ⟨hS.evBusy, ?_, ?_, ?_, ?_, ?_⟩
  · intro j hj
    exact hS.busyEv j (by rw [getAt_natCast]; exact hj)
  · have hsub : List.Sublist (pendingDepartures s) s.events := List.filter_sublist _
    have hnd : ((pendingDepartures s).map fun e => e.customerId).Nodup :=
      (inv_pending_nodup hI).sublist (hsub.map _)
    refine List.Nodup.map_on ?_ (List.Nodup.of_map _ hnd)
    intro a ha b hb hab
    obtain ⟨ha1, ha2⟩ := List.mem_filter.mp ha
    obtain ⟨hb1, hb2⟩ := List.mem_filter.mp hb
    have h1 := (hS.evBusy a ha1 (of_decide_eq_true ha2)).2
    have h2 := (hS.evBusy b hb1 (of_decide_eq_true hb2)).2
    rw [hab, h2] at h1
    exact List.inj_on_of_nodup_map hnd ha hb (Option.some.inj h1).symm
  · intro p hp hty
    obtain ⟨tr0, tr1, rfl⟩ := List.append_of_mem hp
    obtain ⟨hex0, hnf, _, i, s', _, hev, _, _⟩ := exec_trace h tr0 p tr1 rfl
    exact (exec_servers hex0 (live_of_not_finished hnf)).evBusy p.2 (mem_of_getElem? hev) hty
  · intro i ev s' hev hle hstep
    obtain ⟨h1, h2⟩ := loopIter_start hI hev hle hstep
    refine ⟨?_, ?_⟩
    · intro e he hte
      cases hσ : startOf cfg (s, ev) with
      | none => exact Or.inl (mem_eraseIdx ((h2 hσ).1 e he hte))
      | some σ =>
        obtain ⟨_, hsub, _, _, hb, hsv, _⟩ := h1 σ hσ
        rcases hsub e he hte with h3 | h3
        · exact Or.inl (mem_eraseIdx h3)
        · exact Or.inr ⟨σ, rfl, by rw [h3]; rfl, by rw [h3]; rfl, hb, hsv⟩
    · intro σ hσ
      refine ⟨fun hty => ?_, fun hty => ?_⟩
      · by_cases hfree : 0 ≤ findFreeServer cfg.numServers s.serverBusy
        · rw [startOf_arrival_free hty hfree] at hσ
          cases hσ
          exact getAt_eq_some.mpr ⟨hfree, (findFreeServer_range hfree).2⟩
        · rw [startOf_arrival_busy hty (not_le.mp hfree)] at hσ
          cases hσ
      · cases hq : s.waitingQueue with
        | nil =>
          rw [startOf_departure_empty hty hq] at hσ
          cases hσ
        | cons x rest =>
          rw [startOf_departure_next hty hq] at hσ
          cases hσ
          exact ⟨rfl, (hS.evBusy ev (mem_of_getElem? hev) hty).2⟩
  · intro s0 s1 e hrec
    obtain ⟨c, _, h0, h1, rfl⟩ := recordDeparture_eq_some hrec
    unfold recordDeparture at hrec
    split at hrec
    · rename_i c' busy serving lastFree hc hb hv hl
      obtain ⟨⟨_, h2⟩, _⟩ := setAt_eq_some.mp hv
      exact ⟨getAt_set_self h0 (by exact_mod_cast (Int.toNat_lt h0).mp h1),
        getAt_set_self h0 (by exact_mod_cast (Int.toNat_lt h0).mp h2)⟩
    · simp at hrec

/-- Witness of C17: scenario 1 after the arrival of customer 0, whose departure is
pending on server 0. -/
theorem C17_no_invariant_violation_witness :
    Exec scenario1 scenario1AfterArrival.1 scenario1AfterArrival.2 ∧
    scenario1AfterArrival.2.stopped = false ∧
    scenario1FirstDeparture ∈ scenario1AfterArrival.2.events ∧
    getAt scenario1AfterArrival.2.serverBusy scenario1FirstDeparture.serverId = some true ∧
    getAt scenario1AfterArrival.2.serverServingCustomer scenario1FirstDeparture.serverId =
      some scenario1FirstDeparture.customerId :=
  ⟨scenario1AfterArrival_exec, by decide!, by decide!,
    (C17_no_invariant_violation scenario1AfterArrival_exec (by decide!)).1
      scenario1FirstDeparture (by decide!) (by decide!)⟩

/-- C19. Work conservation.  In every state reached by a run (after initialisation,
after every handled event and after the cutoff), if the waiting line is not empty then
every server is busy.  An iteration that handles a departure leaves the released
server idle exactly when the waiting line is empty at that moment; otherwise the server
is busy again, with the head of the line. -/
theorem C19_work_conservation {cfg : Config R} {tr : Trace R} {s : State R}
    (h : Exec cfg tr s) :
    (s.waitingQueue ≠ [] → ∀ j, j < cfg.numServers → s.serverBusy[j]? = some true) ∧
    ∀ i ev s', s.events[i]? = some ev → ev.type = EventType.DEPARTURE →
      ev.time ≤ cfg.SIM_MINUTES → loopIter cfg s i = some s' →
      (s.waitingQueue = [] → getAt s'.serverBusy ev.serverId = some false) ∧
      (∀ x rest, s.waitingQueue = x :: rest →
        getAt s'.serverBusy ev.serverId = some true ∧
        getAt s'.serverServingCustomer ev.serverId = some x ∧ s'.waitingQueue = rest) := by
  refine ⟨exec_work_conserving h, fun i ev s' hev hty hle hstep => ?_⟩
  have hI := (exec_good h).1
  obtain ⟨h0, h1⟩ := hI.depServer ev (mem_of_getElem? hev) hty
  have hb := hI.busyLen
  have hsv := hI.servingLen
  obtain ⟨c, hc, hcase⟩ := loopIter_departure_eq hI hev hty hle hstep
  rcases hcase with ⟨hq, rfl⟩ | ⟨x, rest, cx, hq, _, _, rfl⟩
  · refine ⟨fun _ => getAt_set_self h0 (by omega), fun x rest hq' => ?_⟩
    rw [hq] at hq'
    cases hq'
  · refine ⟨fun hq' => ?_, fun x' rest' hq' => ?_⟩
    · rw [hq] at hq'
      cases hq'
    · rw [hq] at hq'
      cases hq'
      exact ⟨getAt_set_self h0 (by omega), getAt_set_self h0 (by omega), rfl⟩

/-- Witness of C19: the departure of customer 0 in scenario 1 finds nobody waiting and
leaves server 0 idle. -/
theorem C19_work_conservation_witness :
    Exec scenario1 scenario1AfterArrival.1 scenario1AfterArrival.2 ∧
    scenario1AfterArrival.2.events[0]? = some scenario1FirstDeparture ∧
    loopIter scenario1 scenario1AfterArrival.2 0 = some scenario1AfterDeparture ∧
    scenario1AfterArrival.2.waitingQueue = [] ∧
    getAt scenario1AfterDeparture.serverBusy scenario1FirstDeparture.serverId = some false :=
  ⟨scenario1AfterArrival_exec, by decide!, by decide!, by decide!,
    ((C19_work_conservation scenario1AfterArrival_exec).2 0 scenario1FirstDeparture
      scenario1AfterDeparture (by decide!) (by decide!) (by decide!) (by decide!)).1
      (by decide!)⟩

end IcecreamSim
